import Mathlib

/-! # TacticLang front end: scanner and recursive-descent parser

A shallow embedding of `Project1/scanner.h`, `Project1/scanner.cpp` and
`Project1/parser.cpp`, followed by theorems about the embedded code.

Modelling conventions
* The source text is a `List Char`; `source[i]` is `List.getD`, and the
  `<cctype>` predicates are the ASCII ones of the "C" locale.
* `size_t` indices (`start`, `current`) are `Nat`.  The `int` counters `line`
  and `column` are `Int`; they are only ever incremented by one per consumed
  character, so the model is exact as long as no counter reaches `2^31`, in
  particular for every text shorter than `2^31` characters.
  The one place where machine arithmetic wraps is `column - text.length()` in
  `addToken` (an unsigned 64-bit subtraction narrowed to `int`), which is
  modelled with explicit modular arithmetic.
* `tokens.push_back(t)` is `tokens ++ [t]`.
* Every `while` loop is a structurally recursive function on a fuel argument.
  Running out of fuel is reported as `none` (scanner) or `Res.timeout`
  (parser), never as a normal result, so that a theorem stating a normal
  result also states that the loop has terminated.
* A read of `tokens[i]` outside the vector is undefined behaviour in C++; the
  parser model reports it as `Res.ub`.
* The grammar methods of the parser call each other on the native call stack,
  with no guard on the depth of the nesting.  In the model every nested call of
  such a method takes one unit of its depth argument, and a call that finds
  none left ends the run as `Res.timeout`: the nesting has outgrown the room
  it was given.  `Parser.depthFuel` is room that suffices for every token
  sequence that ends in its only end-of-input token.
-/

namespace TacticLang

/-! ## Tokens (`scanner.h`) -/

/-- Token kinds, in the order of `enum TokenType`. -/
inductive TokenType where
  | TOK_CAMPAIGN | TOK_TACTIC | TOK_TROOP | TOK_AMMO | TOK_CODENAME | TOK_STATUS
  | TOK_BRIEF | TOK_INTEL | TOK_EVALUATE | TOK_ADJUST | TOK_MAINTAIN | TOK_DEPLOY
  | TOK_RETREAT | TOK_ABORT | TOK_SUPPLY
  | TOK_INTEGER | TOK_DOUBLE | TOK_STRING | TOK_TRUE | TOK_FALSE
  | TOK_IDENTIFIER
  | TOK_PLUS | TOK_MINUS | TOK_MULTIPLY | TOK_DIVIDE | TOK_MODULO
  | TOK_EQUAL | TOK_NOT_EQUAL | TOK_LESS | TOK_GREATER | TOK_LESS_EQUAL | TOK_GREATER_EQUAL
  | TOK_AND | TOK_OR | TOK_NOT | TOK_ASSIGN
  | TOK_LPAREN | TOK_RPAREN | TOK_LBRACE | TOK_RBRACE | TOK_SEMICOLON | TOK_COMMA
  | TOK_EOF | TOK_ERROR
  deriving DecidableEq, Repr

open TokenType

/-- The `struct Token`. -/
structure Token where
  type : TokenType
  lexeme : String
  line : Int
  column : Int
  deriving DecidableEq, Repr

/-! ## Scanner (`scanner.cpp`) -/

/-- The data members of `class Scanner` (the keyword map is the constant `keywordTable`). -/
structure Scanner where
  source : List Char
  start : Nat
  current : Nat
  line : Int
  column : Int
  tokens : List Token
  deriving DecidableEq, Repr

/-- The entries written by `Scanner::initKeywords`. -/
def keywordTable : List (String × TokenType) :=
  [("campaign", TOK_CAMPAIGN), ("tactic", TOK_TACTIC), ("troop", TOK_TROOP),
   ("ammo", TOK_AMMO), ("codename", TOK_CODENAME), ("status", TOK_STATUS),
   ("brief", TOK_BRIEF), ("intel", TOK_INTEL), ("evaluate", TOK_EVALUATE),
   ("adjust", TOK_ADJUST), ("maintain", TOK_MAINTAIN), ("deploy", TOK_DEPLOY),
   ("retreat", TOK_RETREAT), ("abort", TOK_ABORT), ("true", TOK_TRUE),
   ("false", TOK_FALSE), ("#supply", TOK_SUPPLY)]

/-- The lookup `keywords.find(text)`: `none` stands for `keywords.end()`. -/
def keywords (text : String) : Option TokenType :=
  keywordTable.lookup text

/-- The constructor `Scanner::Scanner(src)`. -/
def Scanner.new (src : List Char) : Scanner :=
  { source := src, start := 0, current := 0, line := 1, column := 0, tokens := [] }

/-- The `<cctype>` test `isdigit`. -/
def isdigit (c : Char) : Bool := c.isDigit

/-- The `<cctype>` test `isalpha`. -/
def isalpha (c : Char) : Bool := c.isAlpha

/-- The `<cctype>` test `isalnum`. -/
def isalnum (c : Char) : Bool := c.isAlphanum

/-- The call `source.substr(pos, len)` for `pos ≤ source.length()`. -/
def substr (source : List Char) (pos len : Nat) : String :=
  String.mk ((source.drop pos).take len)

/-- Conversion of an unsigned 64-bit value to `int` (keeps the low 32 bits, two's complement). -/
def toInt (x : Int) : Int :=
  (x + 2147483648) % 4294967296 - 2147483648

/-- The subtraction `column - text.length()` of `addToken`: computed in `size_t`,
then narrowed to the `int` parameter of the `Token` constructor. -/
def columnMinus (column : Int) (len : Nat) : Int :=
  toInt ((column - (len : Int)) % 18446744073709551616)

namespace Scanner

/-- The method `Scanner::isAtEnd`. -/
def isAtEnd (s : Scanner) : Bool :=
  decide (s.current ≥ s.source.length)

/-- The method `Scanner::advance`: the character read and the new state. -/
def advance (s : Scanner) : Char × Scanner :=
  (s.source.getD s.current '\x00', { s with column := s.column + 1, current := s.current + 1 })

/-- The method `Scanner::peek`. -/
def peek (s : Scanner) : Char :=
  if s.isAtEnd then '\x00' else s.source.getD s.current '\x00'

/-- The method `Scanner::peekNext`. -/
def peekNext (s : Scanner) : Char :=
  if s.current + 1 ≥ s.source.length then '\x00' else s.source.getD (s.current + 1) '\x00'

/-- The method `Scanner::match`: whether the character matched, and the new state. -/
def matchChar (expected : Char) (s : Scanner) : Bool × Scanner :=
  if s.isAtEnd then (false, s)
  else if s.source.getD s.current '\x00' ≠ expected then (false, s)
  else (true, { s with current := s.current + 1, column := s.column + 1 })

/-- The statement `tokens.push_back(t)`. -/
def push (t : Token) (s : Scanner) : Scanner :=
  { s with tokens := s.tokens ++ [t] }

/-- The method `Scanner::addToken`. -/
def addToken (type : TokenType) (s : Scanner) : Scanner :=
  let text := substr s.source s.start (s.current - s.start)
  s.push ⟨type, text, s.line, columnMinus s.column text.length⟩

/-- The method `Scanner::skipWhitespace`; `none` when the fuel runs out. -/
def skipWhitespace : Nat → Scanner → Option Scanner
  | 0, _ => none
  | fuel + 1, s =>
    if s.isAtEnd then some s
    else
      let c := s.peek
      if c = ' ' ∨ c = '\r' ∨ c = '\t' then
        skipWhitespace fuel s.advance.2
      else if c = '\n' then
        skipWhitespace fuel ({ s with line := s.line + 1, column := 0 } : Scanner).advance.2
      else some s

/-- The loop shape `while (cond) { advance(); }` shared by `scanComment`,
`scanNumber`, `scanIdentifier` and `scanSupply`; `none` when the fuel runs out. -/
def advanceWhile (cond : Scanner → Bool) : Nat → Scanner → Option Scanner
  | 0, _ => none
  | fuel + 1, s => if cond s then advanceWhile cond fuel s.advance.2 else some s

/-- Fuel that covers every loop over the text of `s`. -/
def fuel (s : Scanner) : Nat := s.source.length + 1

/-- The method `Scanner::scanComment`. -/
def scanComment (s : Scanner) : Option Scanner :=
  advanceWhile (fun s => s.peek ≠ '\n' && !s.isAtEnd) s.fuel s

/-- The loop of `Scanner::scanString`; `none` when the fuel runs out. -/
def scanStringLoop : Nat → Scanner → Option Scanner
  | 0, _ => none
  | fuel + 1, s =>
    if s.peek ≠ '"' && !s.isAtEnd then
      let s1 : Scanner := if s.peek = '\n' then { s with line := s.line + 1, column := 0 } else s
      scanStringLoop fuel s1.advance.2
    else some s

/-- The method `Scanner::scanString`. -/
def scanString (s : Scanner) : Option Scanner :=
  (scanStringLoop s.fuel s).map fun s =>
    if s.isAtEnd then
      s.push ⟨TOK_ERROR, "Unterminated string", s.line, s.column⟩
    else
      s.advance.2.addToken TOK_STRING

/-- The method `Scanner::scanNumber`. -/
def scanNumber (s : Scanner) : Option Scanner :=
  (advanceWhile (fun s => isdigit s.peek) s.fuel s).bind fun s =>
    if s.peek = '.' && isdigit s.peekNext then
      (advanceWhile (fun s => isdigit s.peek) s.fuel s.advance.2).map fun s =>
        s.addToken TOK_DOUBLE
    else
      some (s.addToken TOK_INTEGER)

/-- The method `Scanner::scanIdentifier`. -/
def scanIdentifier (s : Scanner) : Option Scanner :=
  (advanceWhile (fun s => isalnum s.peek || s.peek = '_') s.fuel s).map fun s =>
    let text := substr s.source s.start (s.current - s.start)
    let type := match keywords text with
      | some k => k
      | none => TOK_IDENTIFIER
    s.addToken type

/-- The method `Scanner::scanSupply`. -/
def scanSupply (s : Scanner) : Option Scanner :=
  (advanceWhile (fun s => isalpha s.peek) s.fuel s).map fun s =>
    let text := substr s.source s.start (s.current - s.start)
    if text = "#supply" then s.addToken TOK_SUPPLY
    else s.push ⟨TOK_ERROR, "Unknown directive: " ++ text, s.line, s.column⟩

/-- The method `Scanner::scanToken`. -/
def scanToken (s0 : Scanner) : Option Scanner :=
  let c := s0.advance.1
  let s := s0.advance.2
  if c = '(' then some (s.addToken TOK_LPAREN)
  else if c = ')' then some (s.addToken TOK_RPAREN)
  else if c = '{' then some (s.addToken TOK_LBRACE)
  else if c = '}' then some (s.addToken TOK_RBRACE)
  else if c = ';' then some (s.addToken TOK_SEMICOLON)
  else if c = ',' then some (s.addToken TOK_COMMA)
  else if c = '+' then some (s.addToken TOK_PLUS)
  else if c = '-' then some (s.addToken TOK_MINUS)
  else if c = '*' then some (s.addToken TOK_MULTIPLY)
  else if c = '/' then some (s.addToken TOK_DIVIDE)
  else if c = '%' then some (s.addToken TOK_MODULO)
  else if c = '=' then
    let m := s.matchChar '='
    some (m.2.addToken (if m.1 then TOK_EQUAL else TOK_ASSIGN))
  else if c = '!' then
    let m := s.matchChar '='
    some (m.2.addToken (if m.1 then TOK_NOT_EQUAL else TOK_NOT))
  else if c = '<' then
    let m := s.matchChar '='
    some (m.2.addToken (if m.1 then TOK_LESS_EQUAL else TOK_LESS))
  else if c = '>' then
    let m := s.matchChar '='
    some (m.2.addToken (if m.1 then TOK_GREATER_EQUAL else TOK_GREATER))
  else if c = '&' then
    let m := s.matchChar '&'
    if m.1 then some (m.2.addToken TOK_AND)
    else some (m.2.push ⟨TOK_ERROR, "Unexpected character: &", m.2.line, m.2.column⟩)
  else if c = '|' then
    let m := s.matchChar '|'
    if m.1 then some (m.2.addToken TOK_OR)
    else some (m.2.push ⟨TOK_ERROR, "Unexpected character: |", m.2.line, m.2.column⟩)
  else if c = '#' then
    if isalpha s.peek then s.scanSupply else s.scanComment
  else if c = '"' then s.scanString
  else if isdigit c then s.scanNumber
  else if isalpha c || c = '_' then s.scanIdentifier
  else some (s.push ⟨TOK_ERROR, "Unexpected character: " ++ String.singleton c, s.line, s.column⟩)

/-- The `while (!isAtEnd())` loop of `Scanner::scanTokens`; `none` when the fuel runs out. -/
def scanLoop : Nat → Scanner → Option Scanner
  | 0, _ => none
  | fuel + 1, s =>
    if s.isAtEnd then some s
    else
      match skipWhitespace s.fuel { s with start := s.current } with
      | none => none
      | some s1 =>
        if !s1.isAtEnd then
          match scanToken { s1 with start := s1.current } with
          | none => none
          | some s2 => scanLoop fuel s2
        else scanLoop fuel s1

/-- The method `Scanner::scanTokens`: the returned vector and the state the
object is left in. -/
def scanTokens (s : Scanner) : Option (List Token × Scanner) :=
  (scanLoop s.fuel s).map fun s =>
    let s1 := s.push ⟨TOK_EOF, "", s.line, s.column⟩
    (s1.tokens, s1)

end Scanner

/-- Scanning a text with a freshly constructed scanner: `Scanner(src).scanTokens()`. -/
def scan (src : String) : Option (List Token) :=
  ((Scanner.new src.data).scanTokens).map Prod.fst

/-! ## Scanner invariants -/

namespace Scanner

/-- No token pushed so far is the end-of-input token. -/
def NoEOF (s : Scanner) : Prop := ∀ t ∈ s.tokens, t.type ≠ TOK_EOF

/-- The relation between a state and a later state of the same scan that the
scanner's helpers maintain: same text, cursor not moved back, and no
end-of-input token pushed. -/
structure Later (s s' : Scanner) : Prop where
  source_eq : s'.source = s.source
  current_le : s.current ≤ s'.current
  noEOF : NoEOF s → NoEOF s'

end Scanner

/-! ## Parser (`parser.cpp`) -/

/-- The exception object built by `Parser::error`: the offending token and the
message, from which the text of `what()` is assembled. -/
structure ParseError where
  token : Token
  message : String
  deriving DecidableEq, Repr

/-- The text that `Parser::error` stores in the exception (`e.what()`). -/
def ParseError.what (e : ParseError) : String :=
  "[Line " ++ toString e.token.line ++ ", Col " ++ toString e.token.column ++ "] Error" ++
    (if e.token.type = TOK_EOF then " at end: " ++ e.message
     else " at '" ++ e.token.lexeme ++ "': " ++ e.message)

/-- How a call of a parser method ends: it returns with the cursor at
`current`, it throws a `ParseError` (the cursor stays where it was), it reads
outside the token vector, or the model runs out of fuel. -/
inductive Res where
  | ok (current : Nat)
  | thrown (e : ParseError) (current : Nat)
  | ub
  | timeout
  deriving DecidableEq, Repr

/-- Sequencing: continue with `k` after a normal return. -/
def Res.bind (r : Res) (k : Nat → Res) : Res :=
  match r with
  | .ok current => k current
  | .thrown e current => .thrown e current
  | .ub => .ub
  | .timeout => .timeout

/-- A read of the token vector: out of range is undefined behaviour. -/
def Res.ofOption {α : Type} (o : Option α) (k : α → Res) : Res :=
  match o with
  | none => .ub
  | some a => k a

namespace Parser

/-- The method `Parser::peek`: `tokens[current]`. -/
def peek (tokens : List Token) (current : Nat) : Option Token :=
  tokens[current]?

/-- The method `Parser::previous`: `tokens[current - 1]`. -/
def previous (tokens : List Token) (current : Nat) : Option Token :=
  if current = 0 then none else tokens[current - 1]?

/-- The method `Parser::isAtEnd`. -/
def isAtEnd (tokens : List Token) (current : Nat) : Option Bool :=
  (peek tokens current).map fun t => decide (t.type = TOK_EOF)

/-- The method `Parser::advance`: the token returned and the new cursor. -/
def advance (tokens : List Token) (current : Nat) : Option (Token × Nat) :=
  (isAtEnd tokens current).bind fun atEnd =>
    let current' := if !atEnd then current + 1 else current
    (previous tokens current').map fun t => (t, current')

/-- The method `Parser::check(TokenType)`. -/
def check (tokens : List Token) (current : Nat) (type : TokenType) : Option Bool :=
  (isAtEnd tokens current).bind fun atEnd =>
    if atEnd then some false
    else (peek tokens current).map fun t => decide (t.type = type)

/-- The method `Parser::check(const vector<TokenType>&)`. -/
def checkAny (tokens : List Token) (current : Nat) : List TokenType → Option Bool
  | [] => some false
  | type :: types =>
    (check tokens current type).bind fun b =>
      if b then some true else checkAny tokens current types

/-- The method `Parser::match`: whether a type matched, and the new cursor. -/
def matchAny (tokens : List Token) (current : Nat) : List TokenType → Option (Bool × Nat)
  | [] => some (false, current)
  | type :: types =>
    (check tokens current type).bind fun b =>
      if b then (advance tokens current).map fun a => (true, a.2)
      else matchAny tokens current types

/-- The method `Parser::error`. -/
def error (token : Token) (message : String) : ParseError :=
  ⟨token, message⟩

/-- The statement `throw error(peek(), message)`. -/
def throwAt (tokens : List Token) (current : Nat) (message : String) : Res :=
  Res.ofOption (peek tokens current) fun t => .thrown (error t message) current

/-- The method `Parser::consume`. -/
def consume (tokens : List Token) (current : Nat) (type : TokenType) (message : String) : Res :=
  Res.ofOption (check tokens current type) fun b =>
    if b then Res.ofOption (advance tokens current) fun a => .ok a.2
    else throwAt tokens current message

/-- The loop of `Parser::synchronize`. -/
def synchronizeLoop (tokens : List Token) : Nat → Nat → Res
  | 0, _ => .timeout
  | fuel + 1, current =>
    Res.ofOption (isAtEnd tokens current) fun atEnd =>
      if atEnd then .ok current
      else Res.ofOption (previous tokens current) fun p =>
        if p.type = TOK_SEMICOLON then .ok current
        else Res.ofOption (peek tokens current) fun t =>
          if t.type ∈ [TOK_TACTIC, TOK_TROOP, TOK_AMMO, TOK_CODENAME, TOK_STATUS, TOK_BRIEF,
              TOK_INTEL, TOK_EVALUATE, TOK_DEPLOY, TOK_MAINTAIN, TOK_RETREAT] then .ok current
          else Res.ofOption (advance tokens current) fun a => synchronizeLoop tokens fuel a.2

/-- The method `Parser::synchronize`. -/
def synchronize (tokens : List Token) (current : Nat) : Res :=
  Res.ofOption (advance tokens current) fun a =>
    synchronizeLoop tokens (tokens.length + 1) a.2

/-- The loop shape `while (match({ops})) { operand(); }`. -/
def whileMatch (tokens : List Token) (ops : List TokenType) (operand : Nat → Res) :
    Nat → Nat → Res
  | 0, _ => .timeout
  | fuel + 1, current =>
    Res.ofOption (matchAny tokens current ops) fun m =>
      if m.1 then (operand m.2).bind (whileMatch tokens ops operand fuel)
      else .ok m.2

/-- The loop shape `do { body(); } while (match({ops}));`. -/
def doWhileMatch (tokens : List Token) (ops : List TokenType) (body : Nat → Res) :
    Nat → Nat → Res
  | 0, _ => .timeout
  | fuel + 1, current =>
    (body current).bind fun c =>
      Res.ofOption (matchAny tokens c ops) fun m =>
        if m.1 then doWhileMatch tokens ops body fuel m.2
        else .ok m.2

mutual

/-- The method `Parser::expr`. -/
def expr (tokens : List Token) : Nat → Nat → Res
  | 0, _ => .timeout
  | fuel + 1, current => logicalOr tokens fuel current
termination_by structural fuel => fuel

/-- The method `Parser::logicalOr`. -/
def logicalOr (tokens : List Token) : Nat → Nat → Res
  | 0, _ => .timeout
  | fuel + 1, current =>
    (logicalAnd tokens fuel current).bind
      (whileMatch tokens [TOK_OR] (logicalAnd tokens fuel) fuel)
termination_by structural fuel => fuel

/-- The method `Parser::logicalAnd`. -/
def logicalAnd (tokens : List Token) : Nat → Nat → Res
  | 0, _ => .timeout
  | fuel + 1, current =>
    (equality tokens fuel current).bind
      (whileMatch tokens [TOK_AND] (equality tokens fuel) fuel)
termination_by structural fuel => fuel

/-- The method `Parser::equality`. -/
def equality (tokens : List Token) : Nat → Nat → Res
  | 0, _ => .timeout
  | fuel + 1, current =>
    (relational tokens fuel current).bind
      (whileMatch tokens [TOK_EQUAL, TOK_NOT_EQUAL] (relational tokens fuel) fuel)
termination_by structural fuel => fuel

/-- The method `Parser::relational`. -/
def relational (tokens : List Token) : Nat → Nat → Res
  | 0, _ => .timeout
  | fuel + 1, current =>
    (additive tokens fuel current).bind
      (whileMatch tokens [TOK_LESS, TOK_GREATER, TOK_LESS_EQUAL, TOK_GREATER_EQUAL]
        (additive tokens fuel) fuel)
termination_by structural fuel => fuel

/-- The method `Parser::additive`. -/
def additive (tokens : List Token) : Nat → Nat → Res
  | 0, _ => .timeout
  | fuel + 1, current =>
    (multiplicative tokens fuel current).bind
      (whileMatch tokens [TOK_PLUS, TOK_MINUS] (multiplicative tokens fuel) fuel)
termination_by structural fuel => fuel

/-- The method `Parser::multiplicative`. -/
def multiplicative (tokens : List Token) : Nat → Nat → Res
  | 0, _ => .timeout
  | fuel + 1, current =>
    (unary tokens fuel current).bind
      (whileMatch tokens [TOK_MULTIPLY, TOK_DIVIDE, TOK_MODULO] (unary tokens fuel) fuel)
termination_by structural fuel => fuel

/-- The method `Parser::unary`. -/
def unary (tokens : List Token) : Nat → Nat → Res
  | 0, _ => .timeout
  | fuel + 1, current =>
    Res.ofOption (matchAny tokens current [TOK_NOT, TOK_MINUS]) fun m =>
      if m.1 then unary tokens fuel m.2
      else primary tokens fuel m.2
termination_by structural fuel => fuel

/-- The method `Parser::primary`. -/
def primary (tokens : List Token) : Nat → Nat → Res
  | 0, _ => .timeout
  | fuel + 1, current =>
    Res.ofOption (matchAny tokens current
        [TOK_INTEGER, TOK_DOUBLE, TOK_STRING, TOK_TRUE, TOK_FALSE]) fun m =>
      if m.1 then .ok m.2
      else
        let current := m.2
        Res.ofOption (check tokens current TOK_IDENTIFIER) fun isId =>
          Res.ofOption (if isId then (tokens[current + 1]?).map fun t =>
              decide (t.type = TOK_LPAREN) else some false) fun isCall =>
            if isCall then
              Res.ofOption (advance tokens current) fun a1 =>
                Res.ofOption (advance tokens a1.2) fun a2 =>
                  Res.ofOption (check tokens a2.2 TOK_RPAREN) fun closing =>
                    (if !closing then
                      doWhileMatch tokens [TOK_COMMA] (expr tokens fuel) fuel a2.2
                    else .ok a2.2).bind fun c =>
                      consume tokens c TOK_RPAREN "Expected ')' after function call arguments."
            else
              Res.ofOption (check tokens current TOK_IDENTIFIER) fun isId =>
                Res.ofOption (if isId then (tokens[current + 1]?).map fun t =>
                    decide (t.type = TOK_ASSIGN) else some false) fun isAssign =>
                  if isAssign then
                    Res.ofOption (advance tokens current) fun a1 =>
                      Res.ofOption (advance tokens a1.2) fun a2 =>
                        expr tokens fuel a2.2
                  else
                    Res.ofOption (matchAny tokens current [TOK_IDENTIFIER]) fun m =>
                      if m.1 then .ok m.2
                      else
                        Res.ofOption (matchAny tokens m.2 [TOK_LPAREN]) fun m =>
                          if m.1 then
                            (expr tokens fuel m.2).bind fun c =>
                              consume tokens c TOK_RPAREN "Expected ')' after expression."
                          else
                            throwAt tokens m.2
                              "Expected expression (literal, variable, grouping)."
termination_by structural fuel => fuel

end




/-- The type keywords `{TOK_TROOP, TOK_AMMO, TOK_CODENAME, TOK_STATUS}`. -/
def typeTokens : List TokenType := [TOK_TROOP, TOK_AMMO, TOK_CODENAME, TOK_STATUS]

/-- The method `Parser::includeStatement`. -/
def includeStatement (tokens : List Token) (current : Nat) : Res :=
  (consume tokens current TOK_SUPPLY "Expected '#supply'.").bind fun c =>
    consume tokens c TOK_IDENTIFIER "Expected identifier after '#supply'."

/-- The method `Parser::variableDeclaration`. -/
def variableDeclaration (tokens : List Token) (fuel : Nat) (current : Nat) : Res :=
  Res.ofOption (advance tokens current) fun a =>
    (consume tokens a.2 TOK_IDENTIFIER "Expected variable name.").bind fun c =>
      Res.ofOption (matchAny tokens c [TOK_ASSIGN]) fun m =>
        (if m.1 then expr tokens fuel m.2 else .ok m.2).bind fun c =>
          consume tokens c TOK_SEMICOLON "Expected ';' after variable declaration."

/-- The method `Parser::outputStatement`. -/
def outputStatement (tokens : List Token) (fuel : Nat) (current : Nat) : Res :=
  (consume tokens current TOK_BRIEF "Expected 'brief'.").bind fun c =>
    (expr tokens fuel c).bind fun c =>
      consume tokens c TOK_SEMICOLON "Expected ';' after 'brief' statement."

/-- The method `Parser::inputStatement`. -/
def inputStatement (tokens : List Token) (current : Nat) : Res :=
  (consume tokens current TOK_INTEL "Expected 'intel'.").bind fun c =>
    (consume tokens c TOK_IDENTIFIER "Expected identifier after 'intel'.").bind fun c =>
      consume tokens c TOK_SEMICOLON "Expected ';' after 'intel' statement."

/-- The method `Parser::returnStatement`. -/
def returnStatement (tokens : List Token) (fuel : Nat) (current : Nat) : Res :=
  (consume tokens current TOK_RETREAT "Expected 'retreat'.").bind fun c =>
    Res.ofOption (check tokens c TOK_SEMICOLON) fun semi =>
      (if !semi then expr tokens fuel c else .ok c).bind fun c =>
        consume tokens c TOK_SEMICOLON "Expected ';' after 'retreat' statement."

/-- The method `Parser::breakStatement`. -/
def breakStatement (tokens : List Token) (current : Nat) : Res :=
  (consume tokens current TOK_ABORT "Expected 'abort'.").bind fun c =>
    consume tokens c TOK_SEMICOLON "Expected ';' after 'abort'."

/-- The method `Parser::expressionStatement`. -/
def expressionStatement (tokens : List Token) (fuel : Nat) (current : Nat) : Res :=
  (expr tokens fuel current).bind fun c =>
    consume tokens c TOK_SEMICOLON "Expected ';' after expression."

/-- The loop `while (!check(TOK_RBRACE) && !isAtEnd()) { statement(); }` of `Parser::block`. -/
def blockLoop (tokens : List Token) (statement : Nat → Res) : Nat → Nat → Res
  | 0, _ => .timeout
  | fuel + 1, current =>
    Res.ofOption (check tokens current TOK_RBRACE) fun closing =>
      Res.ofOption (if !closing then (isAtEnd tokens current).map fun e => !e
          else some false) fun continue_ =>
        if continue_ then (statement current).bind (blockLoop tokens statement fuel)
        else .ok current

mutual

/-- The method `Parser::block`. -/
def block (tokens : List Token) : Nat → Nat → Res
  | 0, _ => .timeout
  | fuel + 1, current =>
    (consume tokens current TOK_LBRACE "Expected '\x7b' to begin block.").bind fun c =>
      (blockLoop tokens (statement tokens fuel) fuel c).bind fun c =>
        consume tokens c TOK_RBRACE "Expected '\x7d' to end block."
termination_by structural fuel => fuel

/-- The method `Parser::statement`. -/
def statement (tokens : List Token) : Nat → Nat → Res
  | 0, _ => .timeout
  | fuel + 1, current =>
    Res.ofOption (check tokens current TOK_LBRACE) fun b =>
      if b then block tokens fuel current
      else Res.ofOption (checkAny tokens current typeTokens) fun b =>
        if b then variableDeclaration tokens fuel current
        else Res.ofOption (check tokens current TOK_EVALUATE) fun b =>
          if b then ifStatement tokens fuel current
          else Res.ofOption (check tokens current TOK_MAINTAIN) fun b =>
            if b then whileStatement tokens fuel current
            else Res.ofOption (check tokens current TOK_DEPLOY) fun b =>
              if b then forStatement tokens fuel current
              else Res.ofOption (check tokens current TOK_BRIEF) fun b =>
                if b then outputStatement tokens fuel current
                else Res.ofOption (check tokens current TOK_INTEL) fun b =>
                  if b then inputStatement tokens current
                  else Res.ofOption (check tokens current TOK_RETREAT) fun b =>
                    if b then returnStatement tokens fuel current
                    else Res.ofOption (check tokens current TOK_ABORT) fun b =>
                      if b then breakStatement tokens current
                      else expressionStatement tokens fuel current
termination_by structural fuel => fuel

/-- The method `Parser::ifStatement`. -/
def ifStatement (tokens : List Token) : Nat → Nat → Res
  | 0, _ => .timeout
  | fuel + 1, current =>
    (consume tokens current TOK_EVALUATE "Expected 'evaluate'.").bind fun c =>
      (consume tokens c TOK_LPAREN "Expected '(' after 'evaluate'.").bind fun c =>
        (expr tokens fuel c).bind fun c =>
          (consume tokens c TOK_RPAREN "Expected ')' after condition.").bind fun c =>
            (block tokens fuel c).bind fun c =>
              Res.ofOption (matchAny tokens c [TOK_ADJUST]) fun m =>
                if m.1 then
                  Res.ofOption (check tokens m.2 TOK_EVALUATE) fun b =>
                    if b then ifStatement tokens fuel m.2
                    else block tokens fuel m.2
                else .ok m.2
termination_by structural fuel => fuel

/-- The method `Parser::whileStatement`. -/
def whileStatement (tokens : List Token) : Nat → Nat → Res
  | 0, _ => .timeout
  | fuel + 1, current =>
    (consume tokens current TOK_MAINTAIN "Expected 'maintain'.").bind fun c =>
      (consume tokens c TOK_LPAREN "Expected '(' after 'maintain'.").bind fun c =>
        (expr tokens fuel c).bind fun c =>
          (consume tokens c TOK_RPAREN "Expected ')' after condition.").bind fun c =>
            block tokens fuel c
termination_by structural fuel => fuel

/-- The method `Parser::forStatement`. -/
def forStatement (tokens : List Token) : Nat → Nat → Res
  | 0, _ => .timeout
  | fuel + 1, current =>
    (consume tokens current TOK_DEPLOY "Expected 'deploy'.").bind fun c =>
      (consume tokens c TOK_LPAREN "Expected '(' after 'deploy'.").bind fun c =>
        Res.ofOption (matchAny tokens c [TOK_SEMICOLON]) fun m =>
          (if m.1 then .ok m.2
           else Res.ofOption (checkAny tokens m.2 typeTokens) fun b =>
             if b then variableDeclaration tokens fuel m.2
             else expressionStatement tokens fuel m.2).bind fun c =>
            Res.ofOption (check tokens c TOK_SEMICOLON) fun semi =>
              (if !semi then expr tokens fuel c else .ok c).bind fun c =>
                (consume tokens c TOK_SEMICOLON "Expected ';' after loop condition.").bind
                  fun c =>
                    Res.ofOption (check tokens c TOK_RPAREN) fun closing =>
                      (if !closing then expr tokens fuel c else .ok c).bind fun c =>
                        (consume tokens c TOK_RPAREN "Expected ')' after for clauses.").bind
                          fun c => block tokens fuel c
termination_by structural fuel => fuel

end

/-- One parameter of `Parser::functionDefinition`: the body of its `do ... while` loop. -/
def parameter (tokens : List Token) (current : Nat) : Res :=
  Res.ofOption (matchAny tokens current typeTokens) fun m =>
    if !m.1 then throwAt tokens m.2 "Expected parameter type."
    else consume tokens m.2 TOK_IDENTIFIER "Expected parameter name."

/-- The method `Parser::functionDefinition`. -/
def functionDefinition (tokens : List Token) (fuel : Nat) (current : Nat) : Res :=
  (consume tokens current TOK_TACTIC "Expected 'tactic'.").bind fun c =>
    Res.ofOption (matchAny tokens c [TOK_IDENTIFIER, TOK_CAMPAIGN]) fun m =>
      if !m.1 then throwAt tokens m.2 "Expected function name or 'campaign'."
      else
        (consume tokens m.2 TOK_LPAREN "Expected '(' after function name.").bind fun c =>
          Res.ofOption (check tokens c TOK_RPAREN) fun closing =>
            (if !closing then doWhileMatch tokens [TOK_COMMA] (parameter tokens) fuel c
             else .ok c).bind fun c =>
              (consume tokens c TOK_RPAREN "Expected ')' after parameters.").bind fun c =>
                block tokens fuel c

/-- The `try` block of `Parser::declaration`. -/
def declarationBody (tokens : List Token) (fuel : Nat) (current : Nat) : Res :=
  Res.ofOption (check tokens current TOK_SUPPLY) fun b =>
    if b then includeStatement tokens current
    else Res.ofOption (check tokens current TOK_TACTIC) fun b =>
      if b then functionDefinition tokens fuel current
      else Res.ofOption (checkAny tokens current typeTokens) fun b =>
        if b then variableDeclaration tokens fuel current
        else throwAt tokens current
          "Expected a declaration (#supply, tactic, or variable type)."

/-- One syntax diagnostic: the exception caught by `Parser::declaration` (whose
`what()` goes to `cerr`) and the cursor at which it was caught. -/
structure Diagnostic where
  error : ParseError
  current : Nat
  deriving DecidableEq, Repr

/-- The method `Parser::declaration`: the diagnostics it prints and how it ends. -/
def declaration (tokens : List Token) (fuel : Nat) (current : Nat) : List Diagnostic × Res :=
  match declarationBody tokens fuel current with
  | .thrown e c => ([⟨e, c⟩], synchronize tokens c)
  | r => ([], r)

/-- What a run of `Parser::parse` prints, and where it leaves the cursor. -/
structure Output where
  diagnostics : List Diagnostic
  verdict : String
  current : Nat
  deriving DecidableEq, Repr

/-- How a run of `Parser::parse` ends. -/
inductive ParseRes where
  | finished (out : Output)
  | ub
  | timeout
  deriving DecidableEq, Repr

/-- The body of `Parser::parse`: the loop `while (!isAtEnd()) { declaration(); }`
inside its `try`, with the diagnostics printed so far. -/
def parseLoop (tokens : List Token) (depth : Nat) :
    Nat → Nat → List Diagnostic → ParseRes
  | 0, _, _ => .timeout
  | fuel + 1, current, diags =>
    match isAtEnd tokens current with
    | none => .ub
    | some true => .finished ⟨diags, "Parsing complete. Syntax is valid.", current⟩
    | some false =>
      match declaration tokens depth current with
      | (ds, .ok c) => parseLoop tokens depth fuel c (diags ++ ds)
      | (ds, .thrown _ c) => .finished ⟨diags ++ ds, "Parsing failed.", c⟩
      | (_, .ub) => .ub
      | (_, .timeout) => .timeout

/-- Fuel for the recursive descent over `tokens`: eleven units per token, which
covers the chain of nested calls between two consumed tokens
(`parseLoop_within` shows that it is not used up on a sequence that ends in
its only end-of-input token). -/
def depthFuel (tokens : List Token) : Nat := 11 * tokens.length + 11

/-- The method `Parser::parse` on a parser constructed from `tokens`. -/
def parse (tokens : List Token) : ParseRes :=
  parseLoop tokens (depthFuel tokens) (tokens.length + 1) 0 []

end Parser

namespace Scanner

/-- The state after `n` further calls of `advance`. -/
def skip (s : Scanner) (n : Nat) : Scanner :=
  { s with current := s.current + n, column := s.column + n }

/-- The characters that `scanToken` handles by a `case` label of their own. -/
def caseChars : List Char :=
  ['(', ')', '\x7b', '\x7d', ';', ',', '+', '-', '*', '/', '%', '=', '!', '<', '>', '&', '|', '#', '"']

end Scanner

/-- The reserved words of the language with their token kinds. -/
def reservedWords : List (String × TokenType) :=
  [("campaign", TOK_CAMPAIGN), ("tactic", TOK_TACTIC), ("troop", TOK_TROOP),
   ("ammo", TOK_AMMO), ("codename", TOK_CODENAME), ("status", TOK_STATUS),
   ("brief", TOK_BRIEF), ("intel", TOK_INTEL), ("evaluate", TOK_EVALUATE),
   ("adjust", TOK_ADJUST), ("maintain", TOK_MAINTAIN), ("deploy", TOK_DEPLOY),
   ("retreat", TOK_RETREAT), ("abort", TOK_ABORT), ("true", TOK_TRUE),
   ("false", TOK_FALSE)]

/-! ## The grammar of the specification, and notions used in the parser proofs -/

/-- The kinds of a token sequence. -/
def kinds (tokens : List Token) : List TokenType := tokens.map Token.type

/-- The six binary-operator levels of the expression grammar, loosest first. -/
inductive Level where
  | LogicalOr | LogicalAnd | Equality | Relational | Additive | Multiplicative
  deriving DecidableEq, Repr

/-- Nonterminals of the grammar.  `Declarations`, `Statements` and `BinRest`
unfold the repetitions `Declaration*`, `Statement*` and `(op Operand)*`;
`ForInit` and `OptExpr` name the alternatives inside `ForStmt` and the
optional expressions. -/
inductive NT where
  | Program | Declarations | Declaration | IncludeStmt | VarDecl | FuncDef | ParamList
  | Block | Statements | Statement | IfStmt | WhileStmt | ForStmt | ForInit | OptExpr
  | OutputStmt | InputStmt | ReturnStmt | BreakStmt | ExprStmt
  | Expr | Bin (l : Level) | BinRest (l : Level) | Unary | Primary | ArgList
  deriving DecidableEq, Repr

/-- The operator tokens of a level. -/
def Level.ops : Level → List TokenType
  | .LogicalOr => [TOK_OR]
  | .LogicalAnd => [TOK_AND]
  | .Equality => [TOK_EQUAL, TOK_NOT_EQUAL]
  | .Relational => [TOK_LESS, TOK_GREATER, TOK_LESS_EQUAL, TOK_GREATER_EQUAL]
  | .Additive => [TOK_PLUS, TOK_MINUS]
  | .Multiplicative => [TOK_MULTIPLY, TOK_DIVIDE, TOK_MODULO]

/-- The nonterminal of the operands of a level: the next tighter level, `Unary` at the end. -/
def Level.operand : Level → NT
  | .LogicalOr => .Bin .LogicalAnd
  | .LogicalAnd => .Bin .Equality
  | .Equality => .Bin .Relational
  | .Relational => .Bin .Additive
  | .Additive => .Bin .Multiplicative
  | .Multiplicative => .Unary

/-- The literal tokens of `Primary`. -/
def literalTokens : List TokenType :=
  [TOK_INTEGER, TOK_DOUBLE, TOK_STRING, TOK_TRUE, TOK_FALSE]

/-- The rule `TypeTok -> 'troop' | 'ammo' | 'codename' | 'status'`. -/
def TypeTok (t : TokenType) : Prop :=
  t ∈ [TOK_TROOP, TOK_AMMO, TOK_CODENAME, TOK_STATUS]

/-- Derivability in the grammar of spec §4.2: `Derives n w` says that the
sequence of token kinds `w` is derivable from the nonterminal `n`. -/
inductive Derives : NT → List TokenType → Prop where
  /-- Rule `Program -> Declaration* EOF` -/
  | program {ds} : Derives .Declarations ds → Derives .Program (ds ++ [TOK_EOF])
  | declsNil : Derives .Declarations []
  | declsCons {d ds} : Derives .Declaration d → Derives .Declarations ds →
      Derives .Declarations (d ++ ds)
  /-- Rule `Declaration -> IncludeStmt | FuncDef | VarDecl` -/
  | declInclude {w} : Derives .IncludeStmt w → Derives .Declaration w
  | declFunc {w} : Derives .FuncDef w → Derives .Declaration w
  | declVar {w} : Derives .VarDecl w → Derives .Declaration w
  /-- Rule `IncludeStmt -> 'supply' IDENTIFIER` -/
  | includeStmt : Derives .IncludeStmt [TOK_SUPPLY, TOK_IDENTIFIER]
  /-- Rule `VarDecl -> TypeTok IDENTIFIER ('=' Expr)? ';'` -/
  | varDecl {t} : TypeTok t → Derives .VarDecl [t, TOK_IDENTIFIER, TOK_SEMICOLON]
  | varDeclInit {t e} : TypeTok t → Derives .Expr e →
      Derives .VarDecl (t :: TOK_IDENTIFIER :: TOK_ASSIGN :: e ++ [TOK_SEMICOLON])
  /-- Rule `FuncDef -> 'tactic' (IDENTIFIER | 'campaign') '(' ParamList? ')' Block` -/
  | funcDef {name b} : name = TOK_IDENTIFIER ∨ name = TOK_CAMPAIGN → Derives .Block b →
      Derives .FuncDef (TOK_TACTIC :: name :: TOK_LPAREN :: TOK_RPAREN :: b)
  | funcDefParams {name ps b} : name = TOK_IDENTIFIER ∨ name = TOK_CAMPAIGN →
      Derives .ParamList ps → Derives .Block b →
      Derives .FuncDef (TOK_TACTIC :: name :: TOK_LPAREN :: ps ++ TOK_RPAREN :: b)
  /-- Rule `ParamList -> TypeTok IDENTIFIER (',' TypeTok IDENTIFIER)*` -/
  | paramOne {t} : TypeTok t → Derives .ParamList [t, TOK_IDENTIFIER]
  | paramCons {t ps} : TypeTok t → Derives .ParamList ps →
      Derives .ParamList (t :: TOK_IDENTIFIER :: TOK_COMMA :: ps)
  /-- Rule `Block -> '{' Statement* '}'` -/
  | block {ss} : Derives .Statements ss → Derives .Block (TOK_LBRACE :: ss ++ [TOK_RBRACE])
  | stmtsNil : Derives .Statements []
  | stmtsCons {s ss} : Derives .Statement s → Derives .Statements ss →
      Derives .Statements (s ++ ss)
  /-- Rule `Statement -> Block | VarDecl | IfStmt | WhileStmt | ForStmt | OutputStmt
  | InputStmt | ReturnStmt | BreakStmt | ExprStmt` -/
  | stmtBlock {w} : Derives .Block w → Derives .Statement w
  | stmtVarDecl {w} : Derives .VarDecl w → Derives .Statement w
  | stmtIf {w} : Derives .IfStmt w → Derives .Statement w
  | stmtWhile {w} : Derives .WhileStmt w → Derives .Statement w
  | stmtFor {w} : Derives .ForStmt w → Derives .Statement w
  | stmtOutput {w} : Derives .OutputStmt w → Derives .Statement w
  | stmtInput {w} : Derives .InputStmt w → Derives .Statement w
  | stmtReturn {w} : Derives .ReturnStmt w → Derives .Statement w
  | stmtBreak {w} : Derives .BreakStmt w → Derives .Statement w
  | stmtExpr {w} : Derives .ExprStmt w → Derives .Statement w
  /-- Rule `IfStmt -> 'evaluate' '(' Expr ')' Block ('adjust' (IfStmt | Block))?` -/
  | ifStmt {e b} : Derives .Expr e → Derives .Block b →
      Derives .IfStmt (TOK_EVALUATE :: TOK_LPAREN :: e ++ TOK_RPAREN :: b)
  | ifElseIf {e b r} : Derives .Expr e → Derives .Block b → Derives .IfStmt r →
      Derives .IfStmt (TOK_EVALUATE :: TOK_LPAREN :: e ++ TOK_RPAREN :: b ++ TOK_ADJUST :: r)
  | ifElse {e b r} : Derives .Expr e → Derives .Block b → Derives .Block r →
      Derives .IfStmt (TOK_EVALUATE :: TOK_LPAREN :: e ++ TOK_RPAREN :: b ++ TOK_ADJUST :: r)
  /-- Rule `WhileStmt -> 'maintain' '(' Expr ')' Block` -/
  | whileStmt {e b} : Derives .Expr e → Derives .Block b →
      Derives .WhileStmt (TOK_MAINTAIN :: TOK_LPAREN :: e ++ TOK_RPAREN :: b)
  /-- Rule `ForStmt -> 'deploy' '(' (VarDecl | ExprStmt | ';') Expr? ';' Expr? ')' Block` -/
  | forStmt {i c u b} : Derives .ForInit i → Derives .OptExpr c → Derives .OptExpr u →
      Derives .Block b →
      Derives .ForStmt
        (TOK_DEPLOY :: TOK_LPAREN :: i ++ c ++ TOK_SEMICOLON :: u ++ TOK_RPAREN :: b)
  | forInitVar {w} : Derives .VarDecl w → Derives .ForInit w
  | forInitExpr {w} : Derives .ExprStmt w → Derives .ForInit w
  | forInitEmpty : Derives .ForInit [TOK_SEMICOLON]
  /-- Rule `Expr?` -/
  | optNone : Derives .OptExpr []
  | optSome {e} : Derives .Expr e → Derives .OptExpr e
  /-- Rule `OutputStmt -> 'brief' Expr ';'` -/
  | outputStmt {e} : Derives .Expr e → Derives .OutputStmt (TOK_BRIEF :: e ++ [TOK_SEMICOLON])
  /-- Rule `InputStmt -> 'intel' IDENTIFIER ';'` -/
  | inputStmt : Derives .InputStmt [TOK_INTEL, TOK_IDENTIFIER, TOK_SEMICOLON]
  /-- Rule `ReturnStmt -> 'retreat' Expr? ';'` -/
  | returnStmt {e} : Derives .OptExpr e →
      Derives .ReturnStmt (TOK_RETREAT :: e ++ [TOK_SEMICOLON])
  /-- Rule `BreakStmt -> 'abort' ';'` -/
  | breakStmt : Derives .BreakStmt [TOK_ABORT, TOK_SEMICOLON]
  /-- Rule `ExprStmt -> Expr ';'` -/
  | exprStmt {e} : Derives .Expr e → Derives .ExprStmt (e ++ [TOK_SEMICOLON])
  /-- Rule `Expr -> LogicalOr` -/
  | expr {w} : Derives (.Bin .LogicalOr) w → Derives .Expr w
  /-- Rule `Level -> Operand (op Operand)*`, for each of the six levels -/
  | bin {l w r} : Derives l.operand w → Derives (.BinRest l) r → Derives (.Bin l) (w ++ r)
  | binRestNil {l} : Derives (.BinRest l) []
  | binRestCons {l op w r} : op ∈ l.ops → Derives l.operand w → Derives (.BinRest l) r →
      Derives (.BinRest l) (op :: w ++ r)
  /-- Rule `Unary -> ('!'|'-') Unary | Primary` -/
  | unaryOp {op w} : op = TOK_NOT ∨ op = TOK_MINUS → Derives .Unary w →
      Derives .Unary (op :: w)
  | unaryPrimary {w} : Derives .Primary w → Derives .Unary w
  /-- Rule `Primary -> INTEGER | DOUBLE | STRING | 'true' | 'false' | IDENTIFIER '(' ArgList? ')'
  | IDENTIFIER '=' Expr | IDENTIFIER | '(' Expr ')'` -/
  | primLiteral {t} : t ∈ literalTokens → Derives .Primary [t]
  | primCall : Derives .Primary [TOK_IDENTIFIER, TOK_LPAREN, TOK_RPAREN]
  | primCallArgs {a} : Derives .ArgList a →
      Derives .Primary (TOK_IDENTIFIER :: TOK_LPAREN :: a ++ [TOK_RPAREN])
  | primAssign {e} : Derives .Expr e → Derives .Primary (TOK_IDENTIFIER :: TOK_ASSIGN :: e)
  | primIdent : Derives .Primary [TOK_IDENTIFIER]
  | primParen {e} : Derives .Expr e → Derives .Primary (TOK_LPAREN :: e ++ [TOK_RPAREN])
  /-- Rule `ArgList -> Expr (',' Expr)*` -/
  | argOne {e} : Derives .Expr e → Derives .ArgList e
  | argCons {e r} : Derives .Expr e → Derives .ArgList r →
      Derives .ArgList (e ++ TOK_COMMA :: r)

/-- The token at index `current` exists and has kind `k`. -/
def KindAt (tokens : List Token) (current : Nat) (k : TokenType) : Prop :=
  ∃ t, tokens[current]? = some t ∧ t.type = k

/-- From index `current` on, the kinds of `tokens` are `w`, then `next`, then anything. -/
def Ahead (tokens : List Token) (current : Nat) (w : List TokenType) (next : TokenType) : Prop :=
  ∃ rest, (kinds tokens).drop current = w ++ next :: rest

/-- All binary operator tokens. -/
def binaryOps : List TokenType :=
  [TOK_OR, TOK_AND, TOK_EQUAL, TOK_NOT_EQUAL, TOK_LESS, TOK_GREATER, TOK_LESS_EQUAL,
   TOK_GREATER_EQUAL, TOK_PLUS, TOK_MINUS, TOK_MULTIPLY, TOK_DIVIDE, TOK_MODULO]

/-- The number of a level, loosest first. -/
def Level.prec : Level → Nat
  | .LogicalOr => 0
  | .LogicalAnd => 1
  | .Equality => 2
  | .Relational => 3
  | .Additive => 4
  | .Multiplicative => 5

/-- The number of the level of a binary operator token. -/
def prec : TokenType → Nat
  | TOK_OR => 0
  | TOK_AND => 1
  | TOK_EQUAL | TOK_NOT_EQUAL => 2
  | TOK_LESS | TOK_GREATER | TOK_LESS_EQUAL | TOK_GREATER_EQUAL => 3
  | TOK_PLUS | TOK_MINUS => 4
  | _ => 5

/-- A token after which an expression cannot continue. -/
def FollowOK (next : TokenType) : Prop :=
  next ∉ binaryOps ∧ next ≠ TOK_LPAREN ∧ next ≠ TOK_ASSIGN

/-- The three sorts of strings of the flat form of expressions. -/
inductive FlatKind where
  | expr | atom | args

/-- Flat form of the expression grammar: an expression is a sequence of
operands separated by arbitrary binary operators, read from the left as the
parser meets it; an assignment extends to the end of its expression. -/
inductive Flat : FlatKind → List TokenType → Prop where
  | literal {t} : t ∈ literalTokens → Flat .atom [t]
  | ident : Flat .atom [TOK_IDENTIFIER]
  | call : Flat .atom [TOK_IDENTIFIER, TOK_LPAREN, TOK_RPAREN]
  | callArgs {a} : Flat .args a → Flat .atom (TOK_IDENTIFIER :: TOK_LPAREN :: a ++ [TOK_RPAREN])
  | paren {e} : Flat .expr e → Flat .atom (TOK_LPAREN :: e ++ [TOK_RPAREN])
  | argOne {e} : Flat .expr e → Flat .args e
  | argCons {e r} : Flat .expr e → Flat .args r → Flat .args (e ++ TOK_COMMA :: r)
  | pre {op e} : op = TOK_NOT ∨ op = TOK_MINUS → Flat .expr e → Flat .expr (op :: e)
  | single {a} : Flat .atom a → Flat .expr a
  | binary {a op r} : Flat .atom a → op ∈ binaryOps → Flat .expr r →
      Flat .expr (a ++ op :: r)
  | assign {e} : Flat .expr e → Flat .expr (TOK_IDENTIFIER :: TOK_ASSIGN :: e)

/-- What the conversion to flat form shows for each nonterminal. -/
def FlatOf : NT → List TokenType → Prop
  | .Expr, w => Flat .expr w
  | .Bin _, w => Flat .expr w
  | .Unary, w => Flat .expr w
  | .Primary, w => Flat .expr w
  | .BinRest _, w => ∀ a, Flat .expr a → Flat .expr (a ++ w)
  | .ArgList, w => Flat .args w
  | _, _ => True

namespace Parser

/-- The parser method of a binary level. -/
def levelParser : Level → List Token → Nat → Nat → Res
  | .LogicalOr => logicalOr
  | .LogicalAnd => logicalAnd
  | .Equality => equality
  | .Relational => relational
  | .Additive => additive
  | .Multiplicative => multiplicative

/-- The parser method for the operands of a binary level. -/
def operandParser : Level → List Token → Nat → Nat → Res
  | .LogicalOr => logicalAnd
  | .LogicalAnd => equality
  | .Equality => relational
  | .Relational => additive
  | .Additive => multiplicative
  | .Multiplicative => unary

/-- The body shared by the six binary-level methods, with the fuel of the
loop separate from the fuel of the operands. -/
def levelRun (l : Level) (tokens : List Token) (fuel loopFuel current : Nat) : Res :=
  (operandParser l tokens fuel current).bind
    (whileMatch tokens l.ops (operandParser l tokens fuel) loopFuel)

/-- The run of a parser function `p` from `current` over a flat expression
`w` stops inside `w` only in front of a binary operator of a level below `i`. -/
def StopsAt (p : Nat → Res) (i : Nat) (w : List TokenType) (current : Nat) : Prop :=
  ∃ w1 w2, w = w1 ++ w2 ∧ p current = .ok (current + w1.length) ∧
    (w2 = [] ∨ ∃ op w2', w2 = op :: w2' ∧ op ∈ binaryOps ∧ prec op < i ∧ Flat .expr w2')

/-- The binary level `l` accepts the flat expression `w`, up to the first
operator of a looser level. -/
def LevelAccepts (tokens : List Token) (l : Level) (w : List TokenType) : Prop :=
  ∀ fuel loopFuel current next, 11 * w.length + (6 - l.prec) ≤ fuel → w.length < loopFuel →
    Ahead tokens current w next → FollowOK next →
    StopsAt (levelRun l tokens fuel loopFuel) l.prec w current

/-- The method `primary` accepts the atom `w` when the token behind it is neither `(` nor `=`. -/
def AtomAccepts (tokens : List Token) (w : List TokenType) : Prop :=
  ∀ fuel current next, 11 * w.length ≤ fuel → Ahead tokens current w next →
    next ≠ TOK_LPAREN → next ≠ TOK_ASSIGN →
    primary tokens fuel current = .ok (current + w.length)

/-- The method `unary` accepts the first operand of the flat expression `w`. -/
def UnaryAccepts (tokens : List Token) (w : List TokenType) : Prop :=
  ∀ fuel current next, 11 * w.length + 1 ≤ fuel → Ahead tokens current w next →
    FollowOK next → StopsAt (unary tokens fuel) 6 w current

/-- The method `expr` accepts the whole flat expression `w`. -/
def ExprAccepts (tokens : List Token) (w : List TokenType) : Prop :=
  ∀ fuel current next, 11 * w.length + 8 ≤ fuel → Ahead tokens current w next →
    FollowOK next → expr tokens fuel current = .ok (current + w.length)

/-- The argument loop of a call accepts the argument list `w` in front of `)`. -/
def ArgsAccepts (tokens : List Token) (w : List TokenType) : Prop :=
  ∀ fuel loopFuel current, 11 * w.length + 8 ≤ fuel → w.length < loopFuel →
    Ahead tokens current w TOK_RPAREN →
    doWhileMatch tokens [TOK_COMMA] (expr tokens fuel) loopFuel current =
      .ok (current + w.length)

/-- The initializer clause of `forStatement`. -/
def forInit (tokens : List Token) (fuel current : Nat) : Res :=
  Res.ofOption (matchAny tokens current [TOK_SEMICOLON]) fun m =>
    if m.1 then .ok m.2
    else Res.ofOption (checkAny tokens m.2 typeTokens) fun b =>
      if b then variableDeclaration tokens fuel m.2
      else expressionStatement tokens fuel m.2

/-- An optional expression of `forStatement` or `returnStatement`, in front of `stop`. -/
def optExpr (tokens : List Token) (fuel : Nat) (stop : TokenType) (current : Nat) : Res :=
  Res.ofOption (check tokens current stop) fun b =>
    if !b then expr tokens fuel current else .ok current

/-- The optional-expression step accepts the string `w` in front of a `;` or a `)`. -/
def OptExprAccepts (tokens : List Token) (w : List TokenType) : Prop :=
  ∀ fuel current stop, 11 * w.length + 8 ≤ fuel →
    stop = TOK_SEMICOLON ∨ stop = TOK_RPAREN → Ahead tokens current w stop →
    optExpr tokens fuel stop current = .ok (current + w.length)

/-- A string that begins with a token other than `}`, end-of-input and `adjust`. -/
def StartsOK (w : List TokenType) : Prop :=
  ∃ t rest, w = t :: rest ∧ t ≠ TOK_RBRACE ∧ t ≠ TOK_EOF ∧ t ≠ TOK_ADJUST

/-- What is shown about the first token of the strings of a nonterminal. -/
def FirstOf : NT → List TokenType → Prop
  | .Declaration, w | .IncludeStmt, w | .VarDecl, w | .FuncDef, w | .Block, w | .Statement, w
  | .WhileStmt, w | .ForStmt, w | .OutputStmt, w | .InputStmt, w | .ReturnStmt, w
  | .BreakStmt, w | .ExprStmt, w => StartsOK w
  | .Statements, w => w = [] ∨ StartsOK w
  | .ParamList, w => ∃ t rest, w = t :: rest ∧ TypeTok t
  | .IfStmt, w => ∃ rest, w = TOK_EVALUATE :: rest
  | _, _ => True

/-- What the completeness induction shows for each nonterminal: the parser
method of the nonterminal, started in front of a string of the nonterminal
with enough fuel, returns normally right behind the string. -/
def Complete (tokens : List Token) : NT → List TokenType → Prop
  | .Program, w => kinds tokens = w →
      parse tokens = .finished ⟨[], "Parsing complete. Syntax is valid.", w.length - 1⟩
  | .Declarations, w => ∀ depth fuel current diags, 11 * w.length + 9 ≤ depth →
      w.length < fuel → Ahead tokens current w TOK_EOF →
      parseLoop tokens depth fuel current diags =
        .finished ⟨diags, "Parsing complete. Syntax is valid.", current + w.length⟩
  | .Declaration, w => ∀ fuel current next, 11 * w.length + 9 ≤ fuel →
      Ahead tokens current w next →
      declarationBody tokens fuel current = .ok (current + w.length)
  | .IncludeStmt, w => ∀ current next, Ahead tokens current w next →
      includeStatement tokens current = .ok (current + w.length)
  | .VarDecl, w => ∀ fuel current next, 11 * w.length + 8 ≤ fuel →
      Ahead tokens current w next →
      variableDeclaration tokens fuel current = .ok (current + w.length)
  | .FuncDef, w => ∀ fuel current next, 11 * w.length + 9 ≤ fuel →
      Ahead tokens current w next →
      functionDefinition tokens fuel current = .ok (current + w.length)
  | .ParamList, w => ∀ loopFuel current, w.length < loopFuel →
      Ahead tokens current w TOK_RPAREN →
      doWhileMatch tokens [TOK_COMMA] (parameter tokens) loopFuel current =
        .ok (current + w.length)
  | .Block, w => ∀ fuel current next, 11 * w.length + 9 ≤ fuel →
      Ahead tokens current w next → block tokens fuel current = .ok (current + w.length)
  | .Statements, w => ∀ fuel loopFuel current, 11 * w.length + 10 ≤ fuel →
      w.length < loopFuel → Ahead tokens current w TOK_RBRACE →
      blockLoop tokens (statement tokens fuel) loopFuel current = .ok (current + w.length)
  | .Statement, w => ∀ fuel current next, 11 * w.length + 10 ≤ fuel →
      Ahead tokens current w next → next ≠ TOK_ADJUST →
      statement tokens fuel current = .ok (current + w.length)
  | .IfStmt, w => ∀ fuel current next, 11 * w.length + 9 ≤ fuel →
      Ahead tokens current w next → next ≠ TOK_ADJUST →
      ifStatement tokens fuel current = .ok (current + w.length)
  | .WhileStmt, w => ∀ fuel current next, 11 * w.length + 9 ≤ fuel →
      Ahead tokens current w next →
      whileStatement tokens fuel current = .ok (current + w.length)
  | .ForStmt, w => ∀ fuel current next, 11 * w.length + 9 ≤ fuel →
      Ahead tokens current w next →
      forStatement tokens fuel current = .ok (current + w.length)
  | .ForInit, w => ∀ fuel current next, 11 * w.length + 8 ≤ fuel →
      Ahead tokens current w next →
      forInit tokens fuel current = .ok (current + w.length)
  | .OptExpr, w => OptExprAccepts tokens w
  | .OutputStmt, w => ∀ fuel current next, 11 * w.length + 8 ≤ fuel →
      Ahead tokens current w next →
      outputStatement tokens fuel current = .ok (current + w.length)
  | .InputStmt, w => ∀ current next, Ahead tokens current w next →
      inputStatement tokens current = .ok (current + w.length)
  | .ReturnStmt, w => ∀ fuel current next, 11 * w.length + 8 ≤ fuel →
      Ahead tokens current w next →
      returnStatement tokens fuel current = .ok (current + w.length)
  | .BreakStmt, w => ∀ current next, Ahead tokens current w next →
      breakStatement tokens current = .ok (current + w.length)
  | .ExprStmt, w => ∀ fuel current next, 11 * w.length + 8 ≤ fuel →
      Ahead tokens current w next →
      expressionStatement tokens fuel current = .ok (current + w.length)
  | _, _ => True

end Parser

/-- The tokens from index `current` up to, not including, `current'` have the kinds `w`. -/
def Reads (tokens : List Token) (current current' : Nat) (w : List TokenType) : Prop :=
  current' = current + w.length ∧ ∃ rest, (kinds tokens).drop current = w ++ rest

namespace Parser

/-- A parser function is sound for a nonterminal: whenever it returns normally
it has consumed a string of the nonterminal. -/
def Sound (tokens : List Token) (p : Nat → Res) (n : NT) : Prop :=
  ∀ current c', p current = .ok c' → ∃ w, Reads tokens current c' w ∧ Derives n w

end Parser

/-- The sequence ends in exactly one end-of-input token: its last token is
`TOK_EOF` and no token before it is. -/
def EndsInOneEOF (tokens : List Token) : Prop :=
  ∃ front last, tokens = front ++ [last] ∧ last.type = TOK_EOF ∧
    ∀ t ∈ front, t.type ≠ TOK_EOF

/-- Membership in the four type keywords is decidable. -/
instance : DecidablePred TypeTok :=
  fun t => inferInstanceAs (Decidable (t ∈ [TOK_TROOP, TOK_AMMO, TOK_CODENAME, TOK_STATUS]))

/-! ## Notions used in the scanner proofs -/

namespace Scanner

/-- Movement of the cursor inside one token: the text, the token start and the
token list are untouched, the cursor and the line counter do not go back, and
as long as the line is the same the column counter has moved with the cursor. -/
structure Moves (s s' : Scanner) : Prop where
  source_eq : s'.source = s.source
  start_eq : s'.start = s.start
  tokens_eq : s'.tokens = s.tokens
  current_le : s.current ≤ s'.current
  within : s.current ≤ s.source.length → s'.current ≤ s.source.length
  line_le : s.line ≤ s'.line
  column_eq : s'.line = s.line → s'.column = s.column + ((s'.current - s.current : Nat) : Int)
  column_nonneg : 0 ≤ s.column → 0 ≤ s'.column
  column_le : s.column ≤ s.current → s'.column ≤ s'.current

/-- What a call of `scanToken` from `s0` does, as far as positions go: it moves
the cursor by at least one character to a state `s1` and then pushes nothing,
or a token through `addToken`, or a `TOK_ERROR` token at the counters of `s1`. -/
def Shape (s0 : Scanner) (r : Option Scanner) : Prop :=
  ∃ s1, Moves s0 s1 ∧ s0.current < s1.current ∧
    (r = some s1 ∨ (∃ ty, ty ≠ TOK_EOF ∧ r = some (s1.addToken ty)) ∨
      ∃ msg, r = some (s1.push ⟨TOK_ERROR, msg, s1.line, s1.column⟩))

end Scanner

/-- The order of two consecutive tokens claimed for the scanner's output: the
line does not go back, and on the same line the column does not go back. -/
def Follows (a b : Token) : Prop :=
  a.line ≤ b.line ∧ (a.line = b.line → a.column ≤ b.column)

/-- Every pair of consecutive tokens is in the order `Follows`. -/
def Ordered (toks : List Token) : Prop := List.Chain' Follows toks

namespace Scanner

/-- Bounds that hold in every state of a scan that started from a fresh scanner. -/
structure Inv (s : Scanner) : Prop where
  current_le : s.current ≤ s.source.length
  column_nonneg : 0 ≤ s.column
  column_le : s.column ≤ s.current
  count_le : s.tokens.length ≤ s.current

/-- The tokens pushed so far are in order, and the last of them is not behind the counters. -/
structure Sorted (s : Scanner) : Prop where
  ordered : Ordered s.tokens
  last_le : ∀ t ∈ s.tokens.getLast?, t.line ≤ s.line ∧ (t.line = s.line → t.column ≤ s.column)

/-- The column counter after the loop of `scanString` has consumed `body`:
every character adds one, a newline first resets the counter to zero. -/
def colAfter (column : Int) (body : List Char) : Int :=
  body.foldl (fun c ch => (if ch = '\n' then 0 else c) + 1) column

/-- A line of `n` letters `a` with its newline. -/
def lineOf (n : Nat) : List Char := List.replicate n 'a' ++ ['\n']

end Scanner

/-- The operators that have a one-character and a two-character form ending
in `=`: the first character, the kind of the short form, the kind of the long form. -/
def compareOps : List (Char × TokenType × TokenType) :=
  [('=', TOK_ASSIGN, TOK_EQUAL), ('!', TOK_NOT, TOK_NOT_EQUAL),
   ('<', TOK_LESS, TOK_LESS_EQUAL), ('>', TOK_GREATER, TOK_GREATER_EQUAL)]

/-- The operators that exist only doubled: the character and the kind of the doubled form. -/
def doubledOps : List (Char × TokenType) := [('&', TOK_AND), ('|', TOK_OR)]

/-! ## Notions used in the proofs about recovery and termination of the parser -/

namespace Parser

/-- The eleven keywords in front of which `synchronize` stops. -/
def syncKeywords : List TokenType :=
  [TOK_TACTIC, TOK_TROOP, TOK_AMMO, TOK_CODENAME, TOK_STATUS, TOK_BRIEF,
   TOK_INTEL, TOK_EVALUATE, TOK_DEPLOY, TOK_MAINTAIN, TOK_RETREAT]

/-- A position at which the loop of `synchronize` stops: the cursor is on the
end-of-input token, or the token just consumed is `;`, or the token under the
cursor is one of the eleven keywords. -/
def SyncStop (tokens : List Token) (p : Nat) : Prop :=
  (∃ t, tokens[p]? = some t ∧ t.type = TOK_EOF) ∨
  (∃ t, tokens[p - 1]? = some t ∧ t.type = TOK_SEMICOLON) ∨
  (∃ t, tokens[p]? = some t ∧ t.type ∈ syncKeywords)

/-- What is shown about a statement list that is followed by the end-of-input
token instead of `}`: the loop of `block` consumes the whole list and stops. -/
def BeforeEOF (tokens : List Token) : NT → List TokenType → Prop
  | .Statements, w => ∀ fuel loopFuel current, 11 * w.length + 10 ≤ fuel →
      w.length < loopFuel → Ahead tokens current w TOK_EOF →
      blockLoop tokens (statement tokens fuel) loopFuel current = .ok (current + w.length)
  | _, _ => True

/-- The call ended by a normal return with the cursor at `lo` or later, or by a
throw with the cursor at `current` or later, in both cases on a token of the
sequence: it neither read outside the sequence nor ran out of fuel. -/
def Within (tokens : List Token) (lo current : Nat) : Res → Prop
  | .ok c => lo ≤ c ∧ c < tokens.length
  | .thrown _ c => current ≤ c ∧ c < tokens.length
  | .ub => False
  | .timeout => False

end Parser

/-! ## Notions used in the proofs about diagnostics, lexemes and reads inside the sequence -/

namespace Parser

/-- A throw names the token under the cursor at which it was raised. -/
def Faithful (tokens : List Token) (r : Res) : Prop :=
  ∀ e c, r = .thrown e c → tokens[c]? = some e.token

end Parser

namespace Scanner

/-- What a call of `scanToken` does when it pushes a token: it moves the cursor
by at least one character to a state `s1` and then pushes one token, through
`addToken` or as a `TOK_ERROR` token. -/
def Pushes (s0 : Scanner) (r : Option Scanner) : Prop :=
  ∃ s1, Moves s0 s1 ∧ s0.current < s1.current ∧
    ((∃ ty, ty ≠ TOK_EOF ∧ r = some (s1.addToken ty)) ∨
      ∃ msg, r = some (s1.push ⟨TOK_ERROR, msg, s1.line, s1.column⟩))

/-- Unless a lexical error was reported, the lexemes of the tokens pushed so
far are not empty and make up the text before the cursor. -/
def Covers (s : Scanner) : Prop :=
  (∀ t ∈ s.tokens, t.type ≠ TOK_ERROR) →
    (s.tokens.map fun t => t.lexeme.data).flatten = s.source.take s.current ∧
    ∀ t ∈ s.tokens, t.lexeme ≠ ""

end Scanner

namespace Parser

/-- A read that succeeds (`o`, on a prefix of the token sequence) gives the
same value on the whole sequence (`o'`). -/
def OptExtends {α : Type} (o o' : Option α) : Prop := ∀ a, o = some a → o' = some a

/-- Unless the run `r` on a prefix of the token sequence read outside the
prefix or ran out of fuel, the run `r'` on the whole sequence ends the same way. -/
def Extends (r r' : Res) : Prop := r = .ub ∨ r = .timeout ∨ r' = r

end Parser

/-! ## Deeply nested input -/

namespace Scanner

theorem Later.refl (s : Scanner) : Later s s := ⟨rfl, le_refl _, id⟩
theorem Later.trans {a b c : Scanner} (h1 : Later a b) (h2 : Later b c) : Later a c :=
  ⟨h2.source_eq.trans h1.source_eq, le_trans h1.current_le h2.current_le,
    fun h => h2.noEOF (h1.noEOF h)⟩
theorem later_advance (s : Scanner) : Later s s.advance.2 :=
  ⟨rfl, Nat.le_succ _, id⟩
theorem later_start (s : Scanner) (n : Nat) : Later s { s with start := n } :=
  ⟨rfl, le_refl _, id⟩
theorem later_newline (s : Scanner) :
    Later s ({ s with line := s.line + 1, column := 0 } : Scanner) :=
  ⟨rfl, le_refl _, id⟩
theorem later_push (s : Scanner) (t : Token) (ht : t.type ≠ TOK_EOF) : Later s (s.push t) := by
  refine ⟨rfl, le_refl _, fun h u hu => ?_⟩
  simp only [push, List.mem_append, List.mem_singleton] at hu
  rcases hu with hu | rfl
  · exact h u hu
  · exact ht
theorem later_addToken (s : Scanner) (ty : TokenType) (ht : ty ≠ TOK_EOF) :
    Later s (s.addToken ty) :=
  later_push s _ ht
theorem later_matchChar (s : Scanner) (c : Char) : Later s (s.matchChar c).2 := by
  unfold matchChar
  split
  · exact Later.refl s
  · split
    · exact Later.refl s
    · exact ⟨rfl, Nat.le_succ _, id⟩
theorem advanceWhile_later (cond : Scanner → Bool)
    (hc : ∀ s, cond s = true → s.current < s.source.length) : ∀ (fuel : Nat) (s : Scanner),
    s.source.length - s.current < fuel →
    ∃ s', advanceWhile cond fuel s = some s' ∧ Later s s'
  | 0, s, h => absurd h (Nat.not_lt_zero _)
  | fuel + 1, s, h => by
    unfold advanceWhile
    by_cases hcs : cond s = true
    · have := hc s hcs
      obtain ⟨s', h1, h2⟩ := advanceWhile_later cond hc fuel s.advance.2 (by
        simp only [advance]; omega)
      exact ⟨s', by simp [hcs, h1], (later_advance s).trans h2⟩
    · exact ⟨s, by simp [hcs], Later.refl s⟩
theorem skipWhitespace_later : ∀ (fuel : Nat) (s : Scanner),
    s.source.length - s.current < fuel →
    ∃ s', skipWhitespace fuel s = some s' ∧ Later s s'
  | 0, s, h => absurd h (Nat.not_lt_zero _)
  | fuel + 1, s, h => by
    unfold skipWhitespace
    by_cases he : s.isAtEnd = true
    · exact ⟨s, by simp [he], Later.refl s⟩
    · have hlt : s.current < s.source.length := by
        simpa [isAtEnd] using he
      simp only [he, Bool.false_eq_true, if_false]
      split
      · obtain ⟨s', h1, h2⟩ := skipWhitespace_later fuel s.advance.2 (by
          simp only [advance]; omega)
        exact ⟨s', h1, (later_advance s).trans h2⟩
      · split
        · obtain ⟨s', h1, h2⟩ := skipWhitespace_later fuel
            ({ s with line := s.line + 1, column := 0 } : Scanner).advance.2 (by
              simp only [advance]; omega)
          exact ⟨s', h1, ((later_newline s).trans (later_advance _)).trans h2⟩
        · exact ⟨s, rfl, Later.refl s⟩



theorem fuel_ok (s : Scanner) : s.source.length - s.current < s.fuel := by
  unfold fuel; omega

theorem fuel_ok_of_later {s s' : Scanner} (h : Later s s') :
    s'.source.length - s'.current < s.fuel := by
  unfold fuel; rw [h.source_eq]; omega

theorem peek_atEnd {s : Scanner} (h : ¬ s.current < s.source.length) : s.peek = '\x00' := by
  have : s.isAtEnd = true := by simpa [isAtEnd] using h
  simp [peek, this]

theorem lt_of_isdigit_peek (s : Scanner) (h : isdigit s.peek = true) :
    s.current < s.source.length := by
  by_contra hn
  rw [peek_atEnd hn] at h
  exact absurd h (by decide)

theorem lt_of_isalpha_peek (s : Scanner) (h : isalpha s.peek = true) :
    s.current < s.source.length := by
  by_contra hn
  rw [peek_atEnd hn] at h
  exact absurd h (by decide)

theorem lt_of_identChar_peek (s : Scanner) (h : (isalnum s.peek || s.peek = '_') = true) :
    s.current < s.source.length := by
  by_contra hn
  rw [peek_atEnd hn] at h
  exact absurd h (by decide)

theorem lt_of_not_atEnd (s : Scanner) (h : (!s.isAtEnd) = true) :
    s.current < s.source.length := by
  simpa [isAtEnd] using h

theorem scanComment_later (s : Scanner) : ∃ s', s.scanComment = some s' ∧ Later s s' :=
  advanceWhile_later _ (fun s h => lt_of_not_atEnd s (by
    simp only [Bool.and_eq_true] at h; exact h.2)) _ s (fuel_ok s)

theorem scanStringLoop_later : ∀ (fuel : Nat) (s : Scanner),
    s.source.length - s.current < fuel →
    ∃ s', scanStringLoop fuel s = some s' ∧ Later s s'
  | 0, s, h => absurd h (Nat.not_lt_zero _)
  | fuel + 1, s, h => by
    unfold scanStringLoop
    by_cases hcs : (s.peek ≠ '"' && !s.isAtEnd) = true
    · have hlt := lt_of_not_atEnd s (by simp only [Bool.and_eq_true] at hcs; exact hcs.2)
      simp only [hcs, if_true]
      by_cases hn : s.peek = '\n'
      · obtain ⟨s', h1, h2⟩ := scanStringLoop_later fuel
          ({ s with line := s.line + 1, column := 0 } : Scanner).advance.2 (by
            simp only [advance]; omega)
        exact ⟨s', by simp [hn, h1], ((later_newline s).trans (later_advance _)).trans h2⟩
      · obtain ⟨s', h1, h2⟩ := scanStringLoop_later fuel s.advance.2 (by
            simp only [advance]; omega)
        exact ⟨s', by simp [hn, h1], (later_advance s).trans h2⟩
    · exact ⟨s, by rw [if_neg hcs], Later.refl s⟩

theorem scanString_later (s : Scanner) : ∃ s', s.scanString = some s' ∧ Later s s' := by
  obtain ⟨s1, h1, h2⟩ := scanStringLoop_later s.fuel s (fuel_ok s)
  unfold scanString
  rw [h1]
  refine ⟨_, rfl, h2.trans ?_⟩
  dsimp only
  split
  · exact later_push _ _ (show TOK_ERROR ≠ TOK_EOF by decide)
  · exact (later_advance s1).trans (later_addToken _ _ (by decide))

theorem scanNumber_later (s : Scanner) : ∃ s', s.scanNumber = some s' ∧ Later s s' := by
  obtain ⟨s1, h1, h2⟩ := advanceWhile_later (fun s => isdigit s.peek) lt_of_isdigit_peek
    s.fuel s (fuel_ok s)
  unfold scanNumber
  rw [h1]
  simp only [Option.some_bind]
  split
  · obtain ⟨s2, h3, h4⟩ := advanceWhile_later (fun s => isdigit s.peek) lt_of_isdigit_peek
      s1.fuel s1.advance.2 (fuel_ok_of_later (later_advance s1))
    rw [h3]
    exact ⟨_, rfl, (h2.trans ((later_advance s1).trans h4)).trans
      (later_addToken _ _ (by decide))⟩
  · exact ⟨_, rfl, h2.trans (later_addToken _ _ (by decide))⟩

theorem keywords_ne_EOF (text : String) (k : TokenType) (h : keywords text = some k) :
    k ≠ TOK_EOF := by
  intro hk
  subst hk
  unfold keywords keywordTable at h
  simp only [List.lookup] at h
  repeat' split at h
  all_goals simp at h

theorem scanIdentifier_later (s : Scanner) : ∃ s', s.scanIdentifier = some s' ∧ Later s s' := by
  obtain ⟨s1, h1, h2⟩ := advanceWhile_later (fun s => isalnum s.peek || s.peek = '_')
    lt_of_identChar_peek s.fuel s (fuel_ok s)
  unfold scanIdentifier
  rw [h1]
  refine ⟨_, rfl, h2.trans (later_addToken _ _ ?_)⟩
  split
  · next k hk => exact keywords_ne_EOF _ k hk
  · decide

theorem scanSupply_later (s : Scanner) : ∃ s', s.scanSupply = some s' ∧ Later s s' := by
  obtain ⟨s1, h1, h2⟩ := advanceWhile_later (fun s => isalpha s.peek)
    lt_of_isalpha_peek s.fuel s (fuel_ok s)
  unfold scanSupply
  rw [h1]
  refine ⟨_, rfl, h2.trans ?_⟩
  simp only []
  split
  · exact later_addToken _ _ (by decide)
  · exact later_push _ _ (show TOK_ERROR ≠ TOK_EOF by decide)




theorem later_ite {s : Scanner} {c : Prop} [Decidable c] {a b : Option Scanner}
    (ha : ∃ s', a = some s' ∧ Later s s') (hb : ∃ s', b = some s' ∧ Later s s') :
    ∃ s', (if c then a else b) = some s' ∧ Later s s' := by
  split
  · exact ha
  · exact hb

theorem scanToken_later (s0 : Scanner) :
    ∃ s', s0.scanToken = some s' ∧ Later s0.advance.2 s' := by
  unfold scanToken
  dsimp only
  generalize s0.advance.1 = c
  generalize s0.advance.2 = s
  repeat' with_reducible apply later_ite
  all_goals first
    | exact ⟨_, rfl, later_addToken _ _ (by decide)⟩
    | exact ⟨_, rfl, (later_matchChar _ _).trans (later_addToken _ _ (by decide))⟩
    | exact ⟨_, rfl, (later_matchChar _ _).trans (later_addToken _ _ (by split <;> decide))⟩
    | exact ⟨_, rfl, (later_matchChar _ _).trans
        (later_push _ _ (show TOK_ERROR ≠ TOK_EOF by decide))⟩
    | exact ⟨_, rfl, later_push _ _ (show TOK_ERROR ≠ TOK_EOF by decide)⟩
    | exact scanSupply_later _
    | exact scanComment_later _
    | exact scanString_later _
    | exact scanNumber_later _
    | exact scanIdentifier_later _

theorem scanLoop_later : ∀ (fuel : Nat) (s : Scanner),
    s.source.length - s.current < fuel →
    ∃ s', scanLoop fuel s = some s' ∧ Later s s'
  | 0, s, h => absurd h (Nat.not_lt_zero _)
  | fuel + 1, s, h => by
    unfold scanLoop
    by_cases he : s.isAtEnd = true
    · exact ⟨s, by rw [if_pos he], Later.refl s⟩
    · have hlt : s.current < s.source.length := by simpa [isAtEnd] using he
      rw [if_neg he]
      obtain ⟨s1, h1, h2⟩ := skipWhitespace_later s.fuel { s with start := s.current }
        (fuel_ok s)
      rw [h1]
      dsimp only
      have h2' : Later s s1 := (later_start s _).trans h2
      by_cases he1 : (!s1.isAtEnd) = true
      · rw [if_pos he1]
        obtain ⟨s2, h3, h4⟩ := scanToken_later { s1 with start := s1.current }
        rw [h3]
        dsimp only
        have h5 : Later s s2 := h2'.trans ((later_start s1 _).trans ((later_advance _).trans h4))
        have h6 : s.current < s2.current := by
          have a := h2'.current_le
          have b := h4.current_le
          simp only [advance] at b
          omega
        obtain ⟨s3, h7, h8⟩ := scanLoop_later fuel s2 (by
          rw [h5.source_eq]; omega)
        exact ⟨s3, h7, h5.trans h8⟩
      · rw [if_neg he1]
        have hend : s1.source.length ≤ s1.current := by simpa [isAtEnd] using he1
        obtain ⟨s3, h7, h8⟩ := scanLoop_later fuel s1 (by omega)
        exact ⟨s3, h7, h2'.trans h8⟩

theorem scanTokens_spec (s : Scanner) (hs : NoEOF s) :
    ∃ toks s', s.scanTokens = some (toks, s') ∧ toks = s'.tokens ∧
      ∃ front last, toks = front ++ [last] ∧ last.type = TOK_EOF ∧ last.lexeme = "" ∧
        ∀ t ∈ front, t.type ≠ TOK_EOF := by
  obtain ⟨s1, h1, h2⟩ := scanLoop_later s.fuel s (fuel_ok s)
  unfold scanTokens
  rw [h1]
  exact ⟨_, _, rfl, rfl, s1.tokens, _, rfl, rfl, rfl, h2.noEOF hs⟩

end Scanner

namespace Scanner

theorem skip_zero (s : Scanner) : s.skip 0 = s := by
  cases s; simp [skip]

theorem advance_skip (s : Scanner) (n : Nat) : s.advance.2.skip n = s.skip (n + 1) := by
  cases s
  simp only [skip, advance, Scanner.mk.injEq, true_and, and_true]
  constructor
  · omega
  · push_cast; ring

theorem isAtEnd_eq_false {s : Scanner} (h : s.current < s.source.length) : s.isAtEnd = false := by
  simp [isAtEnd, h]

theorem isAtEnd_eq_true {s : Scanner} (h : s.source.length ≤ s.current) : s.isAtEnd = true := by
  simp [isAtEnd, h]

theorem getD_at (pre : List Char) (c : Char) (post : List Char) :
    (pre ++ c :: post).getD pre.length '\x00' = c := by
  induction pre with
  | nil => rfl
  | cons a pre ih => simpa using ih

theorem peek_at {s : Scanner} {pre post : List Char} {c : Char}
    (hs : s.source = pre ++ c :: post) (hc : s.current = pre.length) : s.peek = c := by
  have hlt : s.current < s.source.length := by rw [hs, hc]; simp
  rw [peek, isAtEnd_eq_false hlt, hs, hc]
  simp only [Bool.false_eq_true, if_false]
  exact getD_at pre c post

theorem advanceWhile_takeWhile (cond : Scanner → Bool) (p : Char → Bool)
    (hin : ∀ s : Scanner, s.current < s.source.length →
      cond s = p (s.source.getD s.current '\x00'))
    (hend : ∀ s : Scanner, s.source.length ≤ s.current → cond s = false) :
    ∀ (rest pre : List Char) (fuel : Nat) (s : Scanner),
      s.source = pre ++ rest → s.current = pre.length → rest.length < fuel →
      advanceWhile cond fuel s = some (s.skip (rest.takeWhile p).length)
  | [], pre, fuel, s, hs, hc, hf => by
    obtain ⟨fuel, rfl⟩ : ∃ k, fuel = k + 1 := ⟨fuel - 1, by simp at hf; omega⟩
    have : cond s = false := hend s (by rw [hs, hc]; simp)
    simp [advanceWhile, this, skip_zero]
  | c :: rest, pre, fuel, s, hs, hc, hf => by
    obtain ⟨fuel, rfl⟩ : ∃ k, fuel = k + 1 := ⟨fuel - 1, by simp at hf; omega⟩
    have hcond : cond s = p c := by
      rw [hin s (by rw [hs, hc]; simp), hs, hc, getD_at]
    unfold advanceWhile
    by_cases hp : p c = true
    · rw [hcond, if_pos hp]
      rw [advanceWhile_takeWhile cond p hin hend rest (pre ++ [c]) fuel s.advance.2
        (by simp [advance, hs]) (by simp [advance, hc]) (by simp at hf; omega)]
      rw [advance_skip]
      simp [List.takeWhile, hp]
    · rw [hcond, if_neg hp]
      simp [List.takeWhile, hp, skip_zero]

theorem takeWhile_all (p : Char → Bool) : ∀ (run : List Char) (post : List Char),
    (∀ c ∈ run, p c = true) → (∀ c, post.head? = some c → p c = false) →
    (run ++ post).takeWhile p = run
  | [], [], _, _ => rfl
  | [], c :: post, _, h => by simp [List.takeWhile, h c rfl]
  | c :: run, post, h1, h2 => by
    have := takeWhile_all p run post (fun x hx => h1 x (List.mem_cons_of_mem _ hx)) h2
    simp [List.takeWhile, h1 c (List.mem_cons_self _ _), this]

theorem skipWhitespace_none (s : Scanner) (fuel : Nat) (h : s.current < s.source.length)
    (hc : s.source.getD s.current '\x00' ∉ [' ', '\r', '\t', '\n']) :
    skipWhitespace (fuel + 1) s = some s := by
  have hp : s.peek = s.source.getD s.current '\x00' := by
    simp [peek, isAtEnd_eq_false h]
  simp only [List.mem_cons, List.mem_singleton, List.not_mem_nil, or_false, not_or] at hc
  unfold skipWhitespace
  rw [isAtEnd_eq_false h]
  simp only [Bool.false_eq_true, if_false, hp]
  rw [if_neg (by tauto), if_neg (by tauto)]

/-- One iteration of the main loop on a character that is not white space. -/
theorem scanLoop_step (s : Scanner) (fuel : Nat) (h : s.current < s.source.length)
    (hc : s.source.getD s.current '\x00' ∉ [' ', '\r', '\t', '\n']) :
    scanLoop (fuel + 1) s = (scanToken { s with start := s.current }).bind (scanLoop fuel) := by
  have h1 : skipWhitespace s.fuel { s with start := s.current } =
      some { s with start := s.current } :=
    skipWhitespace_none { s with start := s.current } s.source.length h hc
  have h2 : ({ s with start := s.current } : Scanner).isAtEnd = false := isAtEnd_eq_false h
  rw [scanLoop, isAtEnd_eq_false h]
  simp only [Bool.false_eq_true, if_false, h1, h2, Bool.not_false, if_true]
  cases scanToken { s with start := s.current } <;> rfl

theorem scanLoop_end (s : Scanner) (fuel : Nat) (h : s.source.length ≤ s.current) :
    scanLoop (fuel + 1) s = some s := by
  rw [scanLoop, isAtEnd_eq_true h]; simp

theorem scanToken_default (s : Scanner) (h : s.advance.1 ∉ caseChars) :
    s.scanToken =
      if isdigit s.advance.1 then s.advance.2.scanNumber
      else if isalpha s.advance.1 || s.advance.1 = '_' then s.advance.2.scanIdentifier
      else some (s.advance.2.push ⟨TOK_ERROR,
        "Unexpected character: " ++ String.singleton s.advance.1,
        s.advance.2.line, s.advance.2.column⟩) := by
  simp only [caseChars, List.mem_cons, List.mem_singleton, List.not_mem_nil, or_false,
    not_or] at h
  obtain ⟨h1, h2, h3, h4, h5, h6, h7, h8, h9, h10, h11, h12, h13, h14, h15, h16, h17, h18,
    h19⟩ := h
  unfold scanToken
  dsimp only
  rw [if_neg h1, if_neg h2, if_neg h3, if_neg h4, if_neg h5, if_neg h6, if_neg h7, if_neg h8,
    if_neg h9, if_neg h10, if_neg h11, if_neg h12, if_neg h13, if_neg h14, if_neg h15,
    if_neg h16, if_neg h17, if_neg h18, if_neg h19]

theorem not_caseChar_of_isdigit {c : Char} (h : c.isDigit = true) : c ∉ caseChars := by
  intro hm
  simp only [caseChars, List.mem_cons, List.mem_singleton, List.not_mem_nil, or_false] at hm
  rcases hm with rfl | rfl | rfl | rfl | rfl | rfl | rfl | rfl | rfl | rfl | rfl | rfl | rfl |
    rfl | rfl | rfl | rfl | rfl | rfl <;> exact absurd h (by decide)

theorem not_caseChar_of_identStart {c : Char} (h : c.isAlpha = true ∨ c = '_') :
    c ∉ caseChars := by
  intro hm
  simp only [caseChars, List.mem_cons, List.mem_singleton, List.not_mem_nil, or_false] at hm
  rcases hm with rfl | rfl | rfl | rfl | rfl | rfl | rfl | rfl | rfl | rfl | rfl | rfl | rfl |
    rfl | rfl | rfl | rfl | rfl | rfl <;> exact absurd h (by decide)

theorem not_space_of_isdigit {c : Char} (h : c.isDigit = true) : c ∉ [' ', '\r', '\t', '\n'] := by
  intro hm
  simp only [List.mem_cons, List.mem_singleton, List.not_mem_nil, or_false] at hm
  rcases hm with rfl | rfl | rfl | rfl <;> exact absurd h (by decide)

theorem not_space_of_identStart {c : Char} (h : c.isAlpha = true ∨ c = '_') :
    c ∉ [' ', '\r', '\t', '\n'] := by
  intro hm
  simp only [List.mem_cons, List.mem_singleton, List.not_mem_nil, or_false] at hm
  rcases hm with rfl | rfl | rfl | rfl <;> exact absurd h (by decide)


theorem peekNext_at {s : Scanner} {pre post : List Char} {c d : Char}
    (hs : s.source = pre ++ c :: d :: post) (hc : s.current = pre.length) : s.peekNext = d := by
  have hlt : ¬ (s.current + 1 ≥ s.source.length) := by rw [hs, hc]; simp
  rw [peekNext, if_neg hlt, hs, hc]
  have := getD_at (pre ++ [c]) d post
  simpa using this

theorem peekNext_last (s : Scanner) (pre : List Char) (c : Char)
    (hs : s.source = pre ++ [c]) (hc : s.current = pre.length) : s.peekNext = '\x00' := by
  have hlt : s.current + 1 ≥ s.source.length := by rw [hs, hc]; simp
  rw [peekNext, if_pos hlt]

theorem digits_run (s : Scanner) (pre run post : List Char) (hs : s.source = pre ++ (run ++ post))
    (hc : s.current = pre.length) (hrun : ∀ c ∈ run, c.isDigit = true)
    (hpost : ∀ c, post.head? = some c → c.isDigit = false) :
    advanceWhile (fun s => isdigit s.peek) s.fuel s = some (s.skip run.length) := by
  have := advanceWhile_takeWhile (fun s => isdigit s.peek) Char.isDigit
    (fun s h => by simp [peek, isAtEnd_eq_false h, isdigit])
    (fun s h => by simp only [peek, isAtEnd_eq_true h, if_true]; decide)
    (run ++ post) pre s.fuel s hs hc (by rw [fuel, hs]; simp; omega)
  rw [this, takeWhile_all Char.isDigit run post hrun hpost]

theorem scanNumber_double (s : Scanner) (pre a b : List Char)
    (hs : s.source = pre ++ (a ++ '.' :: b)) (hc : s.current = pre.length)
    (ha : ∀ c ∈ a, c.isDigit = true) (hb : ∀ c ∈ b, c.isDigit = true) (hne : b ≠ []) :
    s.scanNumber = some ((s.skip (a.length + 1 + b.length)).addToken TOK_DOUBLE) := by
  obtain ⟨d, b', rfl⟩ : ∃ d b', b = d :: b' := by
    cases b with
    | nil => exact absurd rfl hne
    | cons d b' => exact ⟨d, b', rfl⟩
  have h1 := digits_run s pre a ('.' :: d :: b') hs hc ha (by
    intro c hc; simp at hc; subst hc; decide)
  have hs2 : (s.skip a.length).source = (pre ++ a) ++ '.' :: d :: b' := by
    simp [skip, hs]
  have hc2 : (s.skip a.length).current = (pre ++ a).length := by simp [skip, hc]
  have hdot : (s.skip a.length).peek = '.' := peek_at hs2 hc2
  have hnext : (s.skip a.length).peekNext = d := peekNext_at hs2 hc2
  have hd : isdigit d = true := hb d (List.mem_cons_self _ _)
  have h2 := digits_run (s.skip a.length).advance.2 (pre ++ a ++ ['.']) (d :: b') []
    (by simp [skip, advance, hs]) (by simp [skip, advance, hc, Nat.add_assoc]) hb (by simp)
  unfold scanNumber
  rw [h1]
  simp only [Option.some_bind, hdot, hnext, hd, decide_True, Bool.and_self, if_true]
  rw [show (s.skip a.length).fuel = (s.skip a.length).advance.2.fuel from rfl, h2]
  simp only [Option.map_some', advance_skip]
  congr 2
  cases s
  simp only [skip, Scanner.mk.injEq, true_and, and_true]
  constructor
  · omega
  · push_cast; ring

theorem scanNumber_integer (s : Scanner) (pre a post : List Char)
    (hs : s.source = pre ++ (a ++ post)) (hc : s.current = pre.length)
    (ha : ∀ c ∈ a, c.isDigit = true) (hpost : post = [] ∨ post = ['.']) :
    s.scanNumber = some ((s.skip a.length).addToken TOK_INTEGER) := by
  have h1 := digits_run s pre a post hs hc ha (by
    rcases hpost with rfl | rfl
    · simp
    · intro c hc; simp at hc; subst hc; decide)
  have hcond : ((s.skip a.length).peek = '.' && isdigit (s.skip a.length).peekNext) = false := by
    rcases hpost with rfl | rfl
    · have : (s.skip a.length).peek = '\x00' := by
        simp [peek, isAtEnd, skip, hs, hc]
      rw [this]; rfl
    · have : (s.skip a.length).peekNext = '\x00' :=
        peekNext_last _ (pre ++ a) '.' (by simp [skip, hs]) (by simp [skip, hc])
      rw [this]; simp [isdigit]
  unfold scanNumber
  rw [h1]
  simp only [Option.some_bind, hcond, Bool.false_eq_true, if_false]

end Scanner

/-- C1: for every source text, `scanTokens` on a fresh scanner returns a
non-empty sequence `front ++ [last]` whose last token is `TOK_EOF` with an
empty lexeme, and no token of `front` is `TOK_EOF`. -/
theorem scan_ends_in_one_EOF (src : String) :
    ∃ front last, scan src = some (front ++ [last]) ∧
      last.type = TOK_EOF ∧ last.lexeme = "" ∧ ∀ t ∈ front, t.type ≠ TOK_EOF := by
  obtain ⟨toks, s', h1, -, front, last, h2, h3, h4, h5⟩ :=
    Scanner.scanTokens_spec (Scanner.new src.data) (by intro t ht; cases ht)
  exact ⟨front, last, by simp [scan, h1, h2], h3, h4, h5⟩

/-- C10 (code at the failing input): the first token of `x` gets column 0 on
line 1, while the same token at the start of line 2 gets column 1. -/
theorem column_first_line_off_by_one :
    scan "x" = some [⟨TOK_IDENTIFIER, "x", 1, 0⟩, ⟨TOK_EOF, "", 1, 1⟩] ∧
    scan "\nx" = some [⟨TOK_IDENTIFIER, "x", 2, 1⟩, ⟨TOK_EOF, "", 2, 2⟩] := by
  decide

/-- C2 (code at the failing input): on the tokens of `troop x = ;` the parser
reports a diagnostic and still prints the verdict "Parsing complete. Syntax is valid.". -/
theorem parse_valid_verdict_with_diagnostic :
    scan "troop x = ;" = some [⟨TOK_TROOP, "troop", 1, 0⟩, ⟨TOK_IDENTIFIER, "x", 1, 6⟩,
      ⟨TOK_ASSIGN, "=", 1, 8⟩, ⟨TOK_SEMICOLON, ";", 1, 10⟩, ⟨TOK_EOF, "", 1, 11⟩] ∧
    Parser.parse [⟨TOK_TROOP, "troop", 1, 0⟩, ⟨TOK_IDENTIFIER, "x", 1, 6⟩,
      ⟨TOK_ASSIGN, "=", 1, 8⟩, ⟨TOK_SEMICOLON, ";", 1, 10⟩, ⟨TOK_EOF, "", 1, 11⟩] =
      .finished ⟨[⟨⟨⟨TOK_SEMICOLON, ";", 1, 10⟩,
        "Expected expression (literal, variable, grouping)."⟩, 3⟩],
        "Parsing complete. Syntax is valid.", 4⟩ := by
  decide!

/-! ## Scanner: numbers, identifiers, directives -/

namespace Scanner

theorem columnMinus_self (c : Int) (n : Nat) (h : c = n) : columnMinus c n = 0 := by
  subst h
  simp [columnMinus, toInt]

theorem substr_all (src : List Char) (n : Nat) (h : n = src.length) : substr src 0 n = ⟨src⟩ := by
  subst h
  simp [substr]

theorem substr_start (pre post : List Char) (n : Nat) (h : n = pre.length) :
    substr (pre ++ post) 0 n = ⟨pre⟩ := by
  subst h
  simp [substr]

theorem scan_eq (src : List Char) :
    scan ⟨src⟩ = (scanLoop (src.length + 1) (Scanner.new src)).map fun s =>
      s.tokens ++ [⟨TOK_EOF, "", s.line, s.column⟩] := by
  simp only [scan, scanTokens, fuel, Scanner.new, Option.map_map]
  rfl

end Scanner

open Scanner in
/-- C7: for non-empty digit strings `a` and `b`, the text `a.b` scans to one
`TOK_DOUBLE` token whose lexeme is the whole text, then `TOK_EOF`; the text
`a.` scans to `TOK_INTEGER` with lexeme `a`, then a `TOK_ERROR` token with
lexeme "Unexpected character: .", then `TOK_EOF`. -/
theorem number_maximal_munch (a b : List Char) (ha : a ≠ []) (hb : b ≠ [])
    (hda : ∀ c ∈ a, c.isDigit = true) (hdb : ∀ c ∈ b, c.isDigit = true) :
    scan ⟨a ++ '.' :: b⟩ =
      some [⟨TOK_DOUBLE, ⟨a ++ '.' :: b⟩, 1, 0⟩,
            ⟨TOK_EOF, "", 1, ((a ++ '.' :: b).length : Nat)⟩] ∧
    scan ⟨a ++ ['.']⟩ =
      some [⟨TOK_INTEGER, ⟨a⟩, 1, 0⟩,
            ⟨TOK_ERROR, "Unexpected character: .", 1, ((a ++ ['.']).length : Nat)⟩,
            ⟨TOK_EOF, "", 1, ((a ++ ['.']).length : Nat)⟩] := by
  obtain ⟨d, a', rfl⟩ : ∃ d a', a = d :: a' := by
    cases a with
    | nil => exact absurd rfl ha
    | cons d a' => exact ⟨d, a', rfl⟩
  have hd : d.isDigit = true := hda d (List.mem_cons_self _ _)
  have ha' : ∀ c ∈ a', c.isDigit = true := fun c hc => hda c (List.mem_cons_of_mem _ hc)
  constructor
  · set src := d :: a' ++ '.' :: b with hsrc
    have hlen : src.length = a'.length + 1 + b.length + 1 := by simp [hsrc]; omega
    have htok : (Scanner.new src).scanToken = some
        (((Scanner.new src).advance.2.skip (a'.length + 1 + b.length)).addToken TOK_DOUBLE) := by
      rw [scanToken_default (Scanner.new src) (not_caseChar_of_isdigit (c := d) hd),
        if_pos (show isdigit (Scanner.new src).advance.1 = true from hd)]
      exact scanNumber_double _ [d] a' b rfl rfl ha' hdb hb
    rw [scan_eq, scanLoop_step (Scanner.new src) _ (by simp [Scanner.new, hsrc])
      (not_space_of_isdigit (c := d) hd)]
    rw [show ({ Scanner.new src with start := (Scanner.new src).current } : Scanner) =
      Scanner.new src from rfl, htok, Option.some_bind, hlen,
      scanLoop_end _ _ (by simp [addToken, push, skip, advance, Scanner.new, hlen]; omega)]
    simp only [Option.map_some', addToken, push, skip, advance, Scanner.new, List.nil_append,
      List.cons_append, List.singleton_append, Nat.sub_zero]
    rw [substr_all src _ (by omega), columnMinus_self _ _ (by
      simp only [String.length, hlen]; push_cast; ring)]
    simp only [hsrc, List.length_cons, List.length_append]
    congr 4
    push_cast; ring
  · set src := d :: a' ++ ['.'] with hsrc
    have hlen : src.length = a'.length + 1 + 1 := by simp [hsrc]
    have htok : (Scanner.new src).scanToken = some
        (((Scanner.new src).advance.2.skip a'.length).addToken TOK_INTEGER) := by
      rw [scanToken_default (Scanner.new src) (not_caseChar_of_isdigit (c := d) hd),
        if_pos (show isdigit (Scanner.new src).advance.1 = true from hd)]
      exact scanNumber_integer _ [d] a' ['.'] rfl rfl ha' (Or.inr rfl)
    rw [scan_eq, scanLoop_step (Scanner.new src) _ (by simp [Scanner.new, hsrc])
      (not_space_of_isdigit (c := d) hd)]
    rw [show ({ Scanner.new src with start := (Scanner.new src).current } : Scanner) =
      Scanner.new src from rfl, htok, Option.some_bind, hlen]
    set s3 := ((Scanner.new src).advance.2.skip a'.length).addToken TOK_INTEGER with hs3
    have hsrc3 : s3.source = (d :: a') ++ '.' :: [] := rfl
    have hcur3 : s3.current = (d :: a').length := by
      simp [hs3, addToken, push, skip, advance, Scanner.new]; omega
    have hget : s3.source.getD s3.current '\x00' = '.' := by
      rw [hsrc3, hcur3]; exact getD_at _ _ _
    rw [scanLoop_step s3 _ (by rw [hsrc3, hcur3]; simp) (by rw [hget]; decide)]
    have htok2 : ({ s3 with start := s3.current } : Scanner).scanToken = some
        (({ s3 with start := s3.current } : Scanner).advance.2.push
          ⟨TOK_ERROR, "Unexpected character: .", s3.line, s3.column + 1⟩) := by
      rw [scanToken_default _ (by
        show s3.source.getD s3.current '\x00' ∉ caseChars
        rw [hget]; decide)]
      have : ({ s3 with start := s3.current } : Scanner).advance.1 = '.' := hget
      rw [this]
      rfl
    rw [htok2, Option.some_bind,
      scanLoop_end _ _ (by simp [push, advance, hcur3, hsrc3])]
    simp only [Option.map_some', hs3, addToken, push, skip, advance, Scanner.new,
      List.nil_append, List.cons_append, List.singleton_append, Nat.sub_zero]
    have hsub : substr src 0 (0 + 1 + a'.length) = ⟨d :: a'⟩ :=
      substr_start (d :: a') ['.'] _ (by simp; omega)
    rw [hsub, columnMinus_self _ _ (by simp only [String.length, List.length_cons]; push_cast; ring)]
    congr 5
    · push_cast; ring
    · push_cast; ring

namespace Scanner

theorem isDigit_false_of_isAlpha {c : Char} (h : c.isAlpha = true) : c.isDigit = false := by
  simp only [Char.isDigit, Char.isAlpha, Char.isUpper, Char.isLower, Bool.or_eq_true,
    Bool.and_eq_true, decide_eq_true_eq, ge_iff_le] at h
  simp only [Char.isDigit, Bool.and_eq_false_imp, decide_eq_true_eq, decide_eq_false_iff_not,
    ge_iff_le]
  intro _
  have key : ∀ a b : UInt32, a ≤ b ↔ a.toNat ≤ b.toNat := fun a b => Iff.rfl
  rw [key]
  rw [key, key, key, key] at h
  have e1 : (65 : UInt32).toNat = 65 := rfl
  have e2 : (90 : UInt32).toNat = 90 := rfl
  have e3 : (97 : UInt32).toNat = 97 := rfl
  have e4 : (122 : UInt32).toNat = 122 := rfl
  have e5 : (57 : UInt32).toNat = 57 := rfl
  rw [e1, e2, e3, e4] at h
  rw [e5]
  omega

theorem lookup_append_singleton (k k' : String) (v : TokenType) (h : k ≠ k') :
    ∀ l : List (String × TokenType), (l ++ [(k', v)]).lookup k = l.lookup k
  | [] => by
    have hk : (k == k') = false := by simpa using h
    simp [List.lookup, hk]
  | (a, b) :: l => by
    simp only [List.cons_append, List.lookup]
    split
    · rfl
    · exact lookup_append_singleton k k' v h l

theorem keywords_eq_reserved (c : Char) (w : List Char) (hc : c ≠ '#') :
    keywords ⟨c :: w⟩ = reservedWords.lookup ⟨c :: w⟩ := by
  have : keywordTable = reservedWords ++ [("#supply", TOK_SUPPLY)] := rfl
  rw [keywords, this]
  apply lookup_append_singleton
  intro h
  have h2 := congrArg String.data h
  have h3 : c :: w = '#' :: "supply".data := h2
  exact hc (List.cons.inj h3).1

theorem identChars_run (s : Scanner) (pre run : List Char) (hs : s.source = pre ++ run)
    (hc : s.current = pre.length) (hrun : ∀ c ∈ run, (c.isAlphanum || c = '_') = true) :
    advanceWhile (fun s => isalnum s.peek || s.peek = '_') s.fuel s =
      some (s.skip run.length) := by
  have := advanceWhile_takeWhile (fun s => isalnum s.peek || s.peek = '_')
    (fun c => c.isAlphanum || c = '_')
    (fun s h => by simp [peek, isAtEnd_eq_false h, isalnum])
    (fun s h => by simp only [peek, isAtEnd_eq_true h, if_true]; decide)
    run pre s.fuel s hs hc (by rw [fuel, hs]; simp; omega)
  rw [this]
  have h2 := takeWhile_all (fun c => c.isAlphanum || c = '_') run [] hrun (by simp)
  rw [List.append_nil] at h2
  rw [h2]

end Scanner

open Scanner in
/-- C8: a text made of a letter or underscore followed by letters, digits and
underscores scans to exactly one token and `TOK_EOF`; the token's lexeme is
the whole text and its kind is the reserved word's kind when the text is a
reserved word, `TOK_IDENTIFIER` otherwise. -/
theorem identifier_or_keyword (c : Char) (w : List Char) (hc : c.isAlpha = true ∨ c = '_')
    (hw : ∀ x ∈ w, x.isAlphanum = true ∨ x = '_') :
    scan ⟨c :: w⟩ =
      some [⟨(reservedWords.lookup ⟨c :: w⟩).getD TOK_IDENTIFIER, ⟨c :: w⟩, 1, 0⟩,
            ⟨TOK_EOF, "", 1, ((c :: w).length : Nat)⟩] := by
  have hne : c ≠ '#' := by
    rintro rfl
    exact absurd hc (by decide)
  have hdig : isdigit c = false := by
    rcases hc with h | rfl
    · exact isDigit_false_of_isAlpha h
    · decide
  have hstart : (isalpha c || c = '_') = true := by
    rcases hc with h | rfl
    · simp [isalpha, h]
    · decide
  have htok : (Scanner.new (c :: w)).scanToken = some
      (((Scanner.new (c :: w)).advance.2.skip w.length).addToken
        ((reservedWords.lookup ⟨c :: w⟩).getD TOK_IDENTIFIER)) := by
    rw [scanToken_default (Scanner.new (c :: w)) (not_caseChar_of_identStart (c := c) hc),
      if_neg (by
        show ¬ isdigit c = true
        rw [hdig]; simp),
      if_pos (show (isalpha (Scanner.new (c :: w)).advance.1 ||
        (Scanner.new (c :: w)).advance.1 = '_') = true from hstart)]
    unfold scanIdentifier
    rw [identChars_run _ [c] w rfl rfl (by
      intro x hx
      rcases hw x hx with h | h
      · simp [h]
      · simp [h])]
    simp only [Option.map_some']
    have htext : substr ((Scanner.new (c :: w)).advance.2.skip w.length).source
        ((Scanner.new (c :: w)).advance.2.skip w.length).start
        (((Scanner.new (c :: w)).advance.2.skip w.length).current -
          ((Scanner.new (c :: w)).advance.2.skip w.length).start) = ⟨c :: w⟩ := by
      have := substr_start (c :: w) [] (0 + 1 + w.length) (by simp; omega)
      simpa [skip, advance, Scanner.new] using this
    rw [htext, keywords_eq_reserved c w hne]
    cases List.lookup ⟨c :: w⟩ reservedWords <;> rfl
  rw [scan_eq, scanLoop_step (Scanner.new (c :: w)) _ (by simp [Scanner.new])
    (not_space_of_identStart (c := c) hc)]
  rw [show ({ Scanner.new (c :: w) with start := (Scanner.new (c :: w)).current } : Scanner) =
    Scanner.new (c :: w) from rfl, htok, Option.some_bind,
    show (c :: w).length = w.length + 1 from rfl,
    scanLoop_end _ _ (by simp [addToken, push, skip, advance, Scanner.new]; omega)]
  simp only [Option.map_some', addToken, push, skip, advance, Scanner.new, List.nil_append,
    List.cons_append, List.singleton_append, Nat.sub_zero]
  have hsub : substr (c :: w) 0 (0 + 1 + w.length) = ⟨c :: w⟩ := by
    have := substr_start (c :: w) [] (0 + 1 + w.length) (by simp; omega)
    simpa using this
  rw [hsub, columnMinus_self _ _ (by simp only [String.length, List.length_cons]; push_cast; ring)]
  congr 4
  push_cast; ring

namespace Scanner

theorem scanToken_hash (s : Scanner) (h : s.advance.1 = '#') :
    s.scanToken =
      if isalpha s.advance.2.peek then s.advance.2.scanSupply else s.advance.2.scanComment := by
  unfold scanToken
  dsimp only
  rw [h]
  rw [if_neg (by decide), if_neg (by decide), if_neg (by decide), if_neg (by decide),
    if_neg (by decide), if_neg (by decide), if_neg (by decide), if_neg (by decide),
    if_neg (by decide), if_neg (by decide), if_neg (by decide), if_neg (by decide),
    if_neg (by decide), if_neg (by decide), if_neg (by decide), if_neg (by decide),
    if_neg (by decide), if_pos rfl]

theorem take_takeWhile (p : Char → Bool) : ∀ l : List Char,
    l.take (l.takeWhile p).length = l.takeWhile p
  | [] => rfl
  | c :: l => by
    by_cases hp : p c = true
    · simp [List.takeWhile, hp, take_takeWhile p l]
    · simp [List.takeWhile, hp]

theorem alpha_run (s : Scanner) (pre rest : List Char) (hs : s.source = pre ++ rest)
    (hc : s.current = pre.length) :
    advanceWhile (fun s => isalpha s.peek) s.fuel s =
      some (s.skip (rest.takeWhile Char.isAlpha).length) :=
  advanceWhile_takeWhile (fun s => isalpha s.peek) Char.isAlpha
    (fun s h => by simp [peek, isAtEnd_eq_false h, isalpha])
    (fun s h => by simp only [peek, isAtEnd_eq_true h, if_true]; decide)
    rest pre s.fuel s hs hc (by rw [fuel, hs]; simp; omega)

theorem comment_run (s : Scanner) (pre rest : List Char) (hs : s.source = pre ++ rest)
    (hc : s.current = pre.length) :
    s.scanComment = some (s.skip (rest.takeWhile fun c => decide (c ≠ '\n')).length) :=
  advanceWhile_takeWhile (fun s => s.peek ≠ '\n' && !s.isAtEnd) (fun c => decide (c ≠ '\n'))
    (fun s h => by simp [peek, isAtEnd_eq_false h])
    (fun s h => by simp [isAtEnd_eq_true h])
    rest pre s.fuel s hs hc (by rw [fuel, hs]; simp; omega)

theorem peek_head (s : Scanner) (pre rest : List Char) (hs : s.source = pre ++ rest)
    (hc : s.current = pre.length) : s.peek = rest.headD '\x00' := by
  cases rest with
  | nil =>
    have : s.isAtEnd = true := isAtEnd_eq_true (by rw [hs, hc]; simp)
    simp [peek, this]
  | cons c rest => exact peek_at hs hc

end Scanner

open Scanner in
/-- C9: `scanToken` on a token that starts with `#`.  If the next character is
alphabetic it consumes the maximal alphabetic run `r` and pushes one token:
`TOK_SUPPLY` with lexeme `#supply` when `r` is `supply`, otherwise `TOK_ERROR`
with lexeme "Unknown directive: #r".  If not (or at the end of the text) it
consumes up to, not including, the next newline and pushes nothing.  The
three example texts scan as stated. -/
theorem hash_dispatch (s : Scanner) (pre rest : List Char)
    (hs : s.source = pre ++ '#' :: rest) (hc : s.current = pre.length)
    (hst : s.start = s.current) :
    ((rest.headD '\x00').isAlpha = true →
      ∃ s' tok, s.scanToken = some s' ∧ s'.tokens = s.tokens ++ [tok] ∧
        s'.current = s.current + 1 + (rest.takeWhile Char.isAlpha).length ∧
        (tok.type, tok.lexeme) =
          if rest.takeWhile Char.isAlpha = "supply".data then (TOK_SUPPLY, "#supply")
          else (TOK_ERROR, "Unknown directive: " ++ String.mk ('#' :: rest.takeWhile Char.isAlpha))) ∧
    ((rest.headD '\x00').isAlpha = false →
      ∃ s', s.scanToken = some s' ∧ s'.tokens = s.tokens ∧
        s'.current = s.current + 1 + (rest.takeWhile fun c => decide (c ≠ '\n')).length) ∧
    (scan "#supply math").map (List.map fun t => (t.type, t.lexeme)) =
      some [(TOK_SUPPLY, "#supply"), (TOK_IDENTIFIER, "math"), (TOK_EOF, "")] ∧
    (scan "#unknown").map (List.map fun t => (t.type, t.lexeme)) =
      some [(TOK_ERROR, "Unknown directive: #unknown"), (TOK_EOF, "")] ∧
    (scan "# this is a comment").map (List.map fun t => (t.type, t.lexeme)) =
      some [(TOK_EOF, "")] := by
  have hadv : s.advance.1 = '#' := by
    show s.source.getD s.current '\x00' = '#'
    rw [hs, hc]; exact getD_at _ _ _
  have hs1 : s.advance.2.source = (pre ++ ['#']) ++ rest := by simp [advance, hs]
  have hc1 : s.advance.2.current = (pre ++ ['#']).length := by simp [advance, hc]
  have hpk : s.advance.2.peek = rest.headD '\x00' := peek_head _ _ _ hs1 hc1
  refine ⟨fun h => ?_, fun h => ?_, by decide, by decide, by decide⟩
  · rw [scanToken_hash s hadv, hpk, if_pos (show isalpha _ = true from h)]
    unfold scanSupply
    rw [alpha_run _ _ _ hs1 hc1, advance_skip]
    simp only [Option.map_some']
    set r := rest.takeWhile Char.isAlpha with hr
    have htext : substr (s.skip (r.length + 1)).source (s.skip (r.length + 1)).start
        ((s.skip (r.length + 1)).current - (s.skip (r.length + 1)).start) = ⟨'#' :: r⟩ := by
      simp only [substr, skip, hs, hst, hc, List.drop_left]
      rw [show pre.length + (r.length + 1) - pre.length = r.length + 1 by omega]
      simp only [List.take_succ_cons]
      rw [hr, take_takeWhile]
    rw [htext]
    by_cases hsup : r = "supply".data
    · have h1 : (⟨'#' :: r⟩ : String) = "#supply" := by rw [hsup]
      rw [if_pos h1, if_pos hsup]
      refine ⟨_, _, rfl, rfl, ?_, ?_⟩
      · simp [addToken, push, skip]; omega
      · simp only [htext, h1]
    · have h1 : ¬ (⟨'#' :: r⟩ : String) = "#supply" := by
        intro h2
        apply hsup
        have h3 := congrArg String.data h2
        exact (List.cons.inj h3).2
      rw [if_neg h1, if_neg hsup]
      refine ⟨_, _, rfl, rfl, ?_, rfl⟩
      simp [push, skip]; omega
  · rw [scanToken_hash s hadv, hpk, if_neg (by
      show ¬ isalpha _ = true
      rw [isalpha, h]; simp)]
    rw [comment_run _ _ _ hs1 hc1, advance_skip]
    refine ⟨_, rfl, rfl, ?_⟩
    simp [skip]; omega

/-- Witness for C7: the texts `123.45` and `123.`. -/
theorem number_maximal_munch_witness :
    scan "123.45" = some [⟨TOK_DOUBLE, "123.45", 1, 0⟩, ⟨TOK_EOF, "", 1, 6⟩] ∧
    scan "123." = some [⟨TOK_INTEGER, "123", 1, 0⟩,
      ⟨TOK_ERROR, "Unexpected character: .", 1, 4⟩, ⟨TOK_EOF, "", 1, 4⟩] :=
  number_maximal_munch ['1', '2', '3'] ['4', '5'] (by decide) (by decide) (by decide) (by decide)

/-- Witness for C8: the text `troopship` is one identifier, not the keyword `troop`. -/
theorem identifier_or_keyword_witness :
    scan "troopship" = some [⟨TOK_IDENTIFIER, "troopship", 1, 0⟩, ⟨TOK_EOF, "", 1, 9⟩] :=
  identifier_or_keyword 't' ['r', 'o', 'o', 'p', 's', 'h', 'i', 'p'] (by decide) (by decide)

/-- Witness for C9: the first token of `#supply math`. -/
theorem hash_dispatch_witness :
    ∃ s' tok, (Scanner.new "#supply math".data).scanToken = some s' ∧
      s'.tokens = [] ++ [tok] ∧ s'.current = 0 + 1 + 6 ∧
      (tok.type, tok.lexeme) = (TOK_SUPPLY, "#supply") :=
  (hash_dispatch (Scanner.new "#supply math".data) [] "supply math".data rfl rfl rfl).1
    (by decide)

/-! ## Parser: completeness and soundness with respect to the grammar -/



namespace Parser

variable {tokens : List Token} {current : Nat} {t : Token}

theorem peek_eq (h : tokens[current]? = some t) : peek tokens current = some t := h

theorem isAtEnd_eq (h : tokens[current]? = some t) :
    isAtEnd tokens current = some (decide (t.type = TOK_EOF)) := by
  simp [isAtEnd, peek, h]

theorem previous_succ (h : tokens[current]? = some t) :
    previous tokens (current + 1) = some t := by
  simp [previous, h]

theorem advance_eq (h : tokens[current]? = some t) (hne : t.type ≠ TOK_EOF) :
    advance tokens current = some (t, current + 1) := by
  simp [advance, isAtEnd_eq h, hne, previous_succ h]

theorem check_eq (h : tokens[current]? = some t) (type : TokenType) :
    check tokens current type = some (decide (t.type ≠ TOK_EOF ∧ t.type = type)) := by
  by_cases he : t.type = TOK_EOF
  · simp [check, isAtEnd_eq h, he]
  · simp [check, isAtEnd_eq h, he, peek, h]

theorem checkAny_eq (h : tokens[current]? = some t) : ∀ types : List TokenType,
    checkAny tokens current types = some (decide (t.type ≠ TOK_EOF ∧ t.type ∈ types))
  | [] => by simp [checkAny]
  | type :: types => by
    rw [checkAny, check_eq h, checkAny_eq h types]
    by_cases h1 : t.type ≠ TOK_EOF ∧ t.type = type
    · have h3 : t.type ≠ TOK_EOF ∧ t.type ∈ type :: types :=
        ⟨h1.1, List.mem_cons.2 (Or.inl h1.2)⟩
      simp only [Option.some_bind, decide_eq_true h1, decide_eq_true h3, if_true]
    · have h3 : (t.type ≠ TOK_EOF ∧ t.type ∈ type :: types) ↔
          (t.type ≠ TOK_EOF ∧ t.type ∈ types) := by
        constructor
        · rintro ⟨h3, h4⟩
          rcases List.mem_cons.1 h4 with h5 | h5
          · exact absurd ⟨h3, h5⟩ h1
          · exact ⟨h3, h5⟩
        · rintro ⟨h3, h4⟩
          exact ⟨h3, List.mem_cons_of_mem _ h4⟩
      simp only [Option.some_bind, decide_eq_false h1, Bool.false_eq_true, if_false,
        decide_eq_decide.2 h3]

theorem matchAny_eq (h : tokens[current]? = some t) : ∀ types : List TokenType,
    matchAny tokens current types =
      some (if t.type ≠ TOK_EOF ∧ t.type ∈ types then (true, current + 1) else (false, current))
  | [] => by simp [matchAny]
  | type :: types => by
    rw [matchAny, check_eq h, matchAny_eq h types]
    by_cases h1 : t.type ≠ TOK_EOF ∧ t.type = type
    · have h3 : t.type ≠ TOK_EOF ∧ t.type ∈ type :: types :=
        ⟨h1.1, List.mem_cons.2 (Or.inl h1.2)⟩
      simp only [Option.some_bind, decide_eq_true h1, if_true, advance_eq h h1.1,
        Option.map_some', if_pos h3]
    · have h3 : (t.type ≠ TOK_EOF ∧ t.type ∈ type :: types) ↔
          (t.type ≠ TOK_EOF ∧ t.type ∈ types) := by
        constructor
        · rintro ⟨h3, h4⟩
          rcases List.mem_cons.1 h4 with h5 | h5
          · exact absurd ⟨h3, h5⟩ h1
          · exact ⟨h3, h5⟩
        · rintro ⟨h3, h4⟩
          exact ⟨h3, List.mem_cons_of_mem _ h4⟩
      simp only [Option.some_bind, decide_eq_false h1, Bool.false_eq_true, if_false]
      by_cases h4 : t.type ≠ TOK_EOF ∧ t.type ∈ types
      · rw [if_pos h4, if_pos (h3.2 h4)]
      · rw [if_neg h4, if_neg (fun h5 => h4 (h3.1 h5))]

theorem throwAt_eq (h : tokens[current]? = some t) (message : String) :
    throwAt tokens current message = .thrown ⟨t, message⟩ current := by
  simp [throwAt, peek, h, Res.ofOption, error]

theorem consume_eq (h : tokens[current]? = some t) (type : TokenType) (message : String) :
    consume tokens current type message =
      if t.type ≠ TOK_EOF ∧ t.type = type then .ok (current + 1)
      else .thrown ⟨t, message⟩ current := by
  rw [consume, check_eq h]
  by_cases h1 : t.type ≠ TOK_EOF ∧ t.type = type
  · simp only [Res.ofOption, decide_eq_true h1, if_true, advance_eq h h1.1, if_pos h1]
  · simp only [Res.ofOption, decide_eq_false h1, Bool.false_eq_true, if_false, throwAt_eq h,
      if_neg h1]

end Parser

theorem flat_pre_ops {op : TokenType} {e : List TokenType} (h : op = TOK_NOT ∨ op = TOK_MINUS)
    (he : Flat .expr e) : Flat .expr (op :: e) := Flat.pre h he

/-- Joining two flat expressions with a binary operator gives a flat expression. -/
theorem flat_join {b : List TokenType} {op : TokenType} (hop : op ∈ binaryOps)
    (hb : Flat .expr b) : ∀ {k : FlatKind} {a : List TokenType}, Flat k a → k = .expr →
    Flat .expr (a ++ op :: b) := by
  intro k a ha
  induction ha with
  | literal h => intro hk; cases hk
  | ident => intro hk; cases hk
  | call => intro hk; cases hk
  | callArgs _ _ => intro hk; cases hk
  | paren _ _ => intro hk; cases hk
  | argOne _ _ => intro hk; cases hk
  | argCons _ _ _ _ => intro hk; cases hk
  | pre h _ ih => intro _; exact Flat.pre h (ih rfl)
  | single h => intro _; exact Flat.binary h hop hb
  | binary h1 h2 _ _ ih =>
    intro _
    rw [List.append_assoc]
    exact Flat.binary h1 h2 (ih rfl)
  | assign _ ih => intro _; exact Flat.assign (ih rfl)

theorem ops_subset_binaryOps {l : Level} {op : TokenType} (h : op ∈ l.ops) : op ∈ binaryOps := by
  cases l <;> cases op <;> simp [Level.ops, binaryOps] at h ⊢

theorem flat_of_derives {n : NT} {w : List TokenType} (h : Derives n w) : FlatOf n w := by
  induction h with
  | expr _ ih => exact ih
  | @bin l w r _ _ ih1 ih2 =>
    have h1 : Flat .expr w := by cases l <;> exact ih1
    exact ih2 w h1
  | binRestNil => intro a ha; simpa using ha
  | @binRestCons l op w r hop _ _ ih1 ih2 =>
    intro a ha
    have h1 : Flat .expr w := by cases l <;> exact ih1
    have := ih2 (a ++ op :: w) (flat_join (ops_subset_binaryOps hop) h1 ha rfl)
    simpa using this
  | unaryOp hop _ ih => exact Flat.pre hop ih
  | unaryPrimary _ ih => exact ih
  | primLiteral h => exact Flat.single (Flat.literal h)
  | primCall => exact Flat.single Flat.call
  | primCallArgs _ ih => exact Flat.single (Flat.callArgs ih)
  | primAssign _ ih => exact Flat.assign ih
  | primIdent => exact Flat.single Flat.ident
  | primParen _ ih => exact Flat.single (Flat.paren ih)
  | argOne _ ih => exact Flat.argOne ih
  | argCons _ _ ih1 ih2 => exact Flat.argCons ih1 ih2
  | _ => trivial

theorem kindAt_of_drop {tokens : List Token} {current : Nat} {k : TokenType}
    {rest : List TokenType} (h : (kinds tokens).drop current = k :: rest) :
    KindAt tokens current k := by
  have h1 : (kinds tokens)[current]? = some k := by
    have := congrArg List.head? h
    simpa [List.head?_drop] using this
  simp only [kinds, List.getElem?_map, Option.map_eq_some'] at h1
  exact h1

theorem Ahead.kindAt_nil {tokens : List Token} {current : Nat} {next : TokenType}
    (h : Ahead tokens current [] next) : KindAt tokens current next := by
  obtain ⟨rest, h⟩ := h
  exact kindAt_of_drop h

theorem Ahead.kindAt {tokens : List Token} {current : Nat} {k next : TokenType}
    {w : List TokenType} (h : Ahead tokens current (k :: w) next) : KindAt tokens current k := by
  obtain ⟨rest, h⟩ := h
  exact kindAt_of_drop h

theorem Ahead.right {tokens : List Token} {current : Nat} {next : TokenType}
    {w1 w2 : List TokenType} (h : Ahead tokens current (w1 ++ w2) next) :
    Ahead tokens (current + w1.length) w2 next := by
  obtain ⟨rest, h⟩ := h
  refine ⟨rest, ?_⟩
  rw [← List.drop_drop, h, List.append_assoc, List.drop_left]

theorem Ahead.tail {tokens : List Token} {current : Nat} {k next : TokenType}
    {w : List TokenType} (h : Ahead tokens current (k :: w) next) :
    Ahead tokens (current + 1) w next :=
  @Ahead.right _ _ _ [k] _ h

theorem Ahead.left {tokens : List Token} {current : Nat} {next : TokenType}
    {w1 w2 : List TokenType} (h : Ahead tokens current (w1 ++ w2) next) :
    Ahead tokens current w1 (w2.headD next) := by
  obtain ⟨rest, h⟩ := h
  cases w2 with
  | nil => exact ⟨rest, by simpa using h⟩
  | cons k w2 => exact ⟨w2 ++ next :: rest, by simpa using h⟩

namespace Parser

variable {tokens : List Token} {current : Nat} {k : TokenType}

theorem check_kind (h : KindAt tokens current k) (type : TokenType) :
    check tokens current type = some (decide (k ≠ TOK_EOF ∧ k = type)) := by
  obtain ⟨t, ht, rfl⟩ := h
  exact check_eq ht type

theorem checkAny_kind (h : KindAt tokens current k) (types : List TokenType) :
    checkAny tokens current types = some (decide (k ≠ TOK_EOF ∧ k ∈ types)) := by
  obtain ⟨t, ht, rfl⟩ := h
  exact checkAny_eq ht types

theorem isAtEnd_kind (h : KindAt tokens current k) :
    isAtEnd tokens current = some (decide (k = TOK_EOF)) := by
  obtain ⟨t, ht, rfl⟩ := h
  exact isAtEnd_eq ht

theorem matchAny_hit (h : KindAt tokens current k) {types : List TokenType}
    (h1 : k ≠ TOK_EOF) (h2 : k ∈ types) :
    matchAny tokens current types = some (true, current + 1) := by
  obtain ⟨t, ht, rfl⟩ := h
  rw [matchAny_eq ht, if_pos ⟨h1, h2⟩]

theorem matchAny_miss (h : KindAt tokens current k) {types : List TokenType}
    (h2 : k ∉ types) : matchAny tokens current types = some (false, current) := by
  obtain ⟨t, ht, rfl⟩ := h
  rw [matchAny_eq ht, if_neg (fun h3 => h2 h3.2)]

theorem check_hit (h : KindAt tokens current k) (h1 : k ≠ TOK_EOF) :
    check tokens current k = some true := by
  rw [check_kind h, decide_eq_true ⟨h1, rfl⟩]

theorem check_miss (h : KindAt tokens current k) {type : TokenType} (h2 : k ≠ type) :
    check tokens current type = some false := by
  rw [check_kind h, decide_eq_false (fun h3 => h2 h3.2)]

theorem checkAny_hit (h : KindAt tokens current k) {types : List TokenType}
    (h1 : k ≠ TOK_EOF) (h2 : k ∈ types) : checkAny tokens current types = some true := by
  rw [checkAny_kind h, decide_eq_true ⟨h1, h2⟩]

theorem checkAny_miss (h : KindAt tokens current k) {types : List TokenType}
    (h2 : k ∉ types) : checkAny tokens current types = some false := by
  rw [checkAny_kind h, decide_eq_false (fun h3 => h2 h3.2)]

theorem consume_hit (h : KindAt tokens current k) (h1 : k ≠ TOK_EOF) (message : String) :
    consume tokens current k message = .ok (current + 1) := by
  obtain ⟨t, ht, rfl⟩ := h
  rw [consume_eq ht, if_pos ⟨h1, rfl⟩]

theorem advance_kind (h : KindAt tokens current k) (h1 : k ≠ TOK_EOF) :
    ∃ t, advance tokens current = some (t, current + 1) := by
  obtain ⟨t, ht, rfl⟩ := h
  exact ⟨t, advance_eq ht h1⟩

theorem lookahead_kind (h : KindAt tokens (current + 1) k) (type : TokenType) :
    (tokens[current + 1]?).map (fun t => decide (t.type = type)) = some (decide (k = type)) := by
  obtain ⟨t, ht, rfl⟩ := h
  simp [ht]

theorem levelParser_succ (l : Level) (tokens : List Token) (fuel current : Nat) :
    levelParser l tokens (fuel + 1) current = levelRun l tokens fuel fuel current := by
  cases l <;> rfl

theorem expr_succ (tokens : List Token) (fuel current : Nat) :
    expr tokens (fuel + 1) current = logicalOr tokens fuel current := rfl

end Parser

theorem flat_first {k : FlatKind} {w : List TokenType} (h : Flat k w) :
    ∃ t rest, w = t :: rest ∧
      (t ∈ literalTokens ∨ t = TOK_IDENTIFIER ∨ t = TOK_LPAREN ∨ t = TOK_NOT ∨ t = TOK_MINUS) := by
  induction h with
  | literal h => exact ⟨_, _, rfl, Or.inl h⟩
  | ident => exact ⟨_, _, rfl, Or.inr (Or.inl rfl)⟩
  | call => exact ⟨_, _, rfl, Or.inr (Or.inl rfl)⟩
  | callArgs _ _ => exact ⟨_, _, rfl, Or.inr (Or.inl rfl)⟩
  | paren _ _ => exact ⟨_, _, rfl, Or.inr (Or.inr (Or.inl rfl))⟩
  | argOne _ ih => exact ih
  | argCons _ _ ih _ =>
    obtain ⟨t, rest, rfl, h⟩ := ih
    exact ⟨t, _, rfl, h⟩
  | pre h _ _ =>
    rcases h with rfl | rfl
    · exact ⟨_, _, rfl, Or.inr (Or.inr (Or.inr (Or.inl rfl)))⟩
    · exact ⟨_, _, rfl, Or.inr (Or.inr (Or.inr (Or.inr rfl)))⟩
  | single _ ih => exact ih
  | binary _ _ _ ih _ =>
    obtain ⟨t, rest, rfl, h⟩ := ih
    exact ⟨t, _, rfl, h⟩
  | assign _ _ => exact ⟨_, _, rfl, Or.inr (Or.inl rfl)⟩

namespace Parser

theorem bind_ok (current : Nat) (k : Nat → Res) : (Res.ok current).bind k = k current := rfl

theorem ofOption_some {α : Type} (a : α) (k : α → Res) : Res.ofOption (some a) k = k a := rfl

theorem mem_ops_iff {l : Level} {op : TokenType} :
    op ∈ l.ops ↔ op ∈ binaryOps ∧ prec op = l.prec := by
  cases l <;> cases op <;> simp [Level.ops, binaryOps, prec, Level.prec]

theorem binaryOps_ne_EOF {op : TokenType} (h : op ∈ binaryOps) : op ≠ TOK_EOF := by
  rintro rfl
  simp [binaryOps] at h

theorem prec_le (op : TokenType) : prec op ≤ 5 := by
  cases op <;> simp [prec]

theorem level_step (tokens : List Token) (l : Level) (w : List TokenType)
    (hrec : ∀ w', w'.length < w.length → Flat .expr w' → LevelAccepts tokens l w')
    (hop : ∀ fuel current next, 11 * w.length + (6 - l.prec) ≤ fuel →
      Ahead tokens current w next → FollowOK next →
      StopsAt (operandParser l tokens fuel) (l.prec + 1) w current) :
    LevelAccepts tokens l w := by
  intro fuel lf cur nxt hf hlf hA hfo
  obtain ⟨w1, w2, hw, hP, hcase⟩ := hop fuel cur nxt hf hA hfo
  obtain ⟨lf', rfl⟩ : ∃ k, lf = k + 1 := ⟨lf - 1, by omega⟩
  have hA2 : Ahead tokens (cur + w1.length) w2 nxt := by rw [hw] at hA; exact hA.right
  rcases hcase with rfl | ⟨op, w2', rfl, hop1, hop2, hflat⟩
  · refine ⟨w1, [], hw, ?_, Or.inl rfl⟩
    have hk := hA2.kindAt_nil
    have hmiss : nxt ∉ l.ops := fun h => hfo.1 (ops_subset_binaryOps h)
    simp only [levelRun, hP, bind_ok, whileMatch, matchAny_miss hk hmiss, ofOption_some,
      Bool.false_eq_true, if_false]
  · have hk := hA2.kindAt
    by_cases hmem : op ∈ l.ops
    · have hlen : w.length = w1.length + (w2'.length + 1) := by rw [hw]; simp
      obtain ⟨v1, v2, hv, hP2, hcase2⟩ := hrec w2' (by omega) hflat fuel lf'
        (cur + w1.length + 1) nxt (by omega) (by omega) hA2.tail hfo
      refine ⟨w1 ++ op :: v1, v2, by rw [hw, hv]; simp, ?_, hcase2⟩
      unfold levelRun at hP2
      simp only [levelRun, hP, bind_ok, whileMatch,
        matchAny_hit hk (binaryOps_ne_EOF hop1) hmem, ofOption_some, if_true, hP2]
      congr 1
      simp only [List.length_append, List.length_cons]
      omega
    · have hlt : prec op < l.prec := by
        have hne : prec op ≠ l.prec := fun h => hmem (mem_ops_iff.2 ⟨hop1, h⟩)
        omega
      refine ⟨w1, op :: w2', hw, ?_, Or.inr ⟨op, w2', rfl, hop1, hlt, hflat⟩⟩
      simp only [levelRun, hP, bind_ok, whileMatch, matchAny_miss hk hmem, ofOption_some,
        Bool.false_eq_true, if_false]

end Parser

namespace Parser

theorem primary_succ (tokens : List Token) (fuel current : Nat) :
    primary tokens (fuel + 1) current =
    Res.ofOption (matchAny tokens current
        [TOK_INTEGER, TOK_DOUBLE, TOK_STRING, TOK_TRUE, TOK_FALSE]) fun m =>
      if m.1 then .ok m.2
      else
        Res.ofOption (check tokens m.2 TOK_IDENTIFIER) fun isId =>
          Res.ofOption (if isId then (tokens[m.2 + 1]?).map fun t =>
              decide (t.type = TOK_LPAREN) else some false) fun isCall =>
            if isCall then
              Res.ofOption (advance tokens m.2) fun a1 =>
                Res.ofOption (advance tokens a1.2) fun a2 =>
                  Res.ofOption (check tokens a2.2 TOK_RPAREN) fun closing =>
                    (if !closing then
                      doWhileMatch tokens [TOK_COMMA] (expr tokens fuel) fuel a2.2
                    else .ok a2.2).bind fun c =>
                      consume tokens c TOK_RPAREN "Expected ')' after function call arguments."
            else
              Res.ofOption (check tokens m.2 TOK_IDENTIFIER) fun isId =>
                Res.ofOption (if isId then (tokens[m.2 + 1]?).map fun t =>
                    decide (t.type = TOK_ASSIGN) else some false) fun isAssign =>
                  if isAssign then
                    Res.ofOption (advance tokens m.2) fun a1 =>
                      Res.ofOption (advance tokens a1.2) fun a2 =>
                        expr tokens fuel a2.2
                  else
                    Res.ofOption (matchAny tokens m.2 [TOK_IDENTIFIER]) fun m =>
                      if m.1 then .ok m.2
                      else
                        Res.ofOption (matchAny tokens m.2 [TOK_LPAREN]) fun m =>
                          if m.1 then
                            (expr tokens fuel m.2).bind fun c =>
                              consume tokens c TOK_RPAREN "Expected ')' after expression."
                          else
                            throwAt tokens m.2
                              "Expected expression (literal, variable, grouping)." := rfl

theorem unary_succ (tokens : List Token) (fuel current : Nat) :
    unary tokens (fuel + 1) current =
    Res.ofOption (matchAny tokens current [TOK_NOT, TOK_MINUS]) fun m =>
      if m.1 then unary tokens fuel m.2
      else primary tokens fuel m.2 := rfl

theorem literal_ne_EOF {t : TokenType} (h : t ∈ literalTokens) : t ≠ TOK_EOF := by
  rintro rfl
  simp [literalTokens] at h

/-- The steps of `primary` up to the identifier tests, when the token is not a literal. -/
theorem primary_ident (tokens : List Token) (fuel current : Nat) (next : TokenType)
    (h0 : KindAt tokens current TOK_IDENTIFIER) (h1 : KindAt tokens (current + 1) next) :
    primary tokens (fuel + 1) current =
      if next = TOK_LPAREN then
        Res.ofOption (check tokens (current + 2) TOK_RPAREN) fun closing =>
          (if !closing then
            doWhileMatch tokens [TOK_COMMA] (expr tokens fuel) fuel (current + 2)
          else .ok (current + 2)).bind fun c =>
            consume tokens c TOK_RPAREN "Expected ')' after function call arguments."
      else if next = TOK_ASSIGN then expr tokens fuel (current + 2)
      else .ok (current + 1) := by
  obtain ⟨t0, ht0⟩ := advance_kind h0 (by decide)
  rw [primary_succ, matchAny_miss h0 (by decide), ofOption_some]
  simp only [Bool.false_eq_true, if_false, check_hit h0 (by decide), ofOption_some, if_true,
    lookahead_kind h1, ht0]
  by_cases hl : next = TOK_LPAREN
  · subst hl
    obtain ⟨t1, ht1⟩ := advance_kind h1 (by decide)
    simp only [decide_True, if_true, ht1, ofOption_some]
  · by_cases ha : next = TOK_ASSIGN
    · subst ha
      obtain ⟨t1, ht1⟩ := advance_kind h1 (by decide)
      simp only [decide_False, decide_True, Bool.false_eq_true, if_false, if_true, ht1,
        ofOption_some, reduceCtorEq]
    · simp only [hl, ha, decide_False, Bool.false_eq_true, if_false,
        matchAny_hit h0 (by decide : TOK_IDENTIFIER ≠ TOK_EOF) (List.mem_singleton.2 rfl),
        ofOption_some, if_true]

theorem primary_literal (tokens : List Token) (fuel current : Nat) {k : TokenType}
    (h0 : KindAt tokens current k) (hk : k ∈ literalTokens) :
    primary tokens (fuel + 1) current = .ok (current + 1) := by
  have hk' : k ∈ [TOK_INTEGER, TOK_DOUBLE, TOK_STRING, TOK_TRUE, TOK_FALSE] := hk
  rw [primary_succ, matchAny_hit h0 (literal_ne_EOF hk) hk', ofOption_some]
  rfl

theorem primary_paren (tokens : List Token) (fuel current : Nat)
    (h0 : KindAt tokens current TOK_LPAREN) :
    primary tokens (fuel + 1) current =
      (expr tokens fuel (current + 1)).bind fun c =>
        consume tokens c TOK_RPAREN "Expected ')' after expression." := by
  rw [primary_succ, matchAny_miss h0 (by decide), ofOption_some]
  simp only [Bool.false_eq_true, if_false, check_miss h0 (by decide : TOK_LPAREN ≠ TOK_IDENTIFIER),
    ofOption_some, matchAny_miss h0 (by decide : TOK_LPAREN ∉ [TOK_IDENTIFIER]),
    matchAny_hit h0 (by decide : TOK_LPAREN ≠ TOK_EOF) (List.mem_singleton.2 rfl), if_true]

theorem exprAccepts_of_level {tokens : List Token} {w : List TokenType}
    (h : LevelAccepts tokens .LogicalOr w) : ExprAccepts tokens w := by
  intro fuel cur nxt hf hA hfo
  obtain ⟨f, rfl⟩ : ∃ k, fuel = k + 2 := ⟨fuel - 2, by omega⟩
  obtain ⟨w1, w2, hw, hP, hcase⟩ := h f f cur nxt (by simp [Level.prec]; omega) (by omega) hA hfo
  rcases hcase with rfl | ⟨op, w2', -, -, hlt, -⟩
  · rw [List.append_nil] at hw
    subst hw
    exact hP
  · simp [Level.prec] at hlt

theorem atom_accepts (tokens : List Token) (w : List TokenType)
    (hE : ∀ w', w'.length < w.length → Flat .expr w' → ExprAccepts tokens w')
    (hG : ∀ w', w'.length < w.length → Flat .args w' → ArgsAccepts tokens w')
    (h : Flat .atom w) : AtomAccepts tokens w := by
  intro fuel cur nxt hf hA hn1 hn2
  cases h with
  | literal hk =>
    obtain ⟨f, rfl⟩ : ∃ k, fuel = k + 1 := ⟨fuel - 1, by simp at hf; omega⟩
    exact primary_literal tokens f cur hA.kindAt hk
  | ident =>
    obtain ⟨f, rfl⟩ : ∃ k, fuel = k + 1 := ⟨fuel - 1, by simp at hf; omega⟩
    rw [primary_ident tokens f cur nxt hA.kindAt hA.tail.kindAt_nil, if_neg hn1, if_neg hn2]
    rfl
  | call =>
    obtain ⟨f, rfl⟩ : ∃ k, fuel = k + 1 := ⟨fuel - 1, by simp at hf; omega⟩
    rw [primary_ident tokens f cur TOK_LPAREN hA.kindAt hA.tail.kindAt, if_pos rfl,
      check_hit hA.tail.tail.kindAt (by decide), ofOption_some]
    simp only [Bool.not_true, Bool.false_eq_true, if_false, bind_ok,
      consume_hit hA.tail.tail.kindAt (by decide)]
    rfl
  | @callArgs a ha =>
    have hlen : (TOK_IDENTIFIER :: TOK_LPAREN :: a ++ [TOK_RPAREN]).length = a.length + 3 := by
      simp
    rw [hlen] at hf
    obtain ⟨f, rfl⟩ : ∃ k, fuel = k + 1 := ⟨fuel - 1, by omega⟩
    have hA2 : Ahead tokens (cur + 2) (a ++ [TOK_RPAREN]) nxt := hA.tail.tail
    obtain ⟨t, rest, hta, htfirst⟩ := flat_first ha
    have hk2 : KindAt tokens (cur + 2) t := by
      have hA3 := hA2
      rw [hta] at hA3
      exact hA3.kindAt
    have hne : t ≠ TOK_RPAREN := by
      rintro rfl
      simp [literalTokens] at htfirst
    have hargs := hG a (by rw [hlen]; omega) ha f f (cur + 2) (by omega) (by omega) hA2.left
    rw [primary_ident tokens f cur TOK_LPAREN hA.kindAt hA.tail.kindAt, if_pos rfl,
      check_miss hk2 hne, ofOption_some]
    simp only [Bool.not_false, if_true, hargs, bind_ok, consume_hit hA2.right.kindAt (by decide)]
    rw [hlen]
    congr 1
    omega
  | @paren e he =>
    have hlen : (TOK_LPAREN :: e ++ [TOK_RPAREN]).length = e.length + 2 := by simp
    rw [hlen] at hf
    obtain ⟨f, rfl⟩ : ∃ k, fuel = k + 1 := ⟨fuel - 1, by omega⟩
    have hA1 : Ahead tokens (cur + 1) (e ++ [TOK_RPAREN]) nxt := hA.tail
    have hexpr := hE e (by rw [hlen]; omega) he f (cur + 1) TOK_RPAREN (by omega) hA1.left
      (by simp [FollowOK, binaryOps])
    rw [primary_paren tokens f cur hA.kindAt, hexpr, bind_ok,
      consume_hit hA1.right.kindAt (by decide), hlen]
    congr 1
    omega

theorem atom_first {w : List TokenType} (h : Flat .atom w) :
    ∃ t rest, w = t :: rest ∧ t ∉ [TOK_NOT, TOK_MINUS] := by
  cases h with
  | literal h =>
    refine ⟨_, _, rfl, ?_⟩
    intro hm
    simp only [List.mem_cons, List.mem_singleton, List.not_mem_nil, or_false] at hm
    rcases hm with rfl | rfl <;> simp [literalTokens] at h
  | ident => exact ⟨_, _, rfl, by decide⟩
  | call => exact ⟨_, _, rfl, by decide⟩
  | callArgs _ => exact ⟨_, _, rfl, by decide⟩
  | paren _ => exact ⟨_, _, rfl, by decide⟩

theorem binaryOps_ne {op : TokenType} (h : op ∈ binaryOps) :
    op ≠ TOK_LPAREN ∧ op ≠ TOK_ASSIGN := by
  constructor <;> rintro rfl <;> simp [binaryOps] at h

theorem unary_accepts (tokens : List Token) (w : List TokenType)
    (hAself : Flat .atom w → AtomAccepts tokens w)
    (hA : ∀ w', w'.length < w.length → Flat .atom w' → AtomAccepts tokens w')
    (hU : ∀ w', w'.length < w.length → Flat .expr w' → UnaryAccepts tokens w')
    (hE : ∀ w', w'.length < w.length → Flat .expr w' → ExprAccepts tokens w')
    (h : Flat .expr w) : UnaryAccepts tokens w := by
  intro fuel cur nxt hf hAh hfo
  obtain ⟨f, rfl⟩ : ∃ k, fuel = k + 1 := ⟨fuel - 1, by omega⟩
  cases h with
  | @pre op e hop he =>
    have hlen : (op :: e).length = e.length + 1 := rfl
    rw [hlen] at hf
    have hmem : op ∈ [TOK_NOT, TOK_MINUS] := by
      rcases hop with rfl | rfl <;> simp
    have hne : op ≠ TOK_EOF := by
      rcases hop with rfl | rfl <;> decide
    obtain ⟨w1, w2, hw, hP, hcase⟩ := hU e (by rw [hlen]; omega) he f (cur + 1) nxt (by omega)
      hAh.tail hfo
    refine ⟨op :: w1, w2, by rw [hw]; rfl, ?_, hcase⟩
    rw [unary_succ, matchAny_hit hAh.kindAt hne hmem, ofOption_some]
    simp only [if_true, hP]
    congr 1
    simp only [List.length_cons]
    omega
  | @single a ha =>
    obtain ⟨t, rest, hta, htfirst⟩ := atom_first ha
    have hk : KindAt tokens cur t := by
      have h2 := hAh
      rw [hta] at h2
      exact h2.kindAt
    have hP := hAself ha f cur nxt (by omega) hAh hfo.2.1 hfo.2.2
    refine ⟨w, [], by simp, ?_, Or.inl rfl⟩
    rw [unary_succ, matchAny_miss hk htfirst, ofOption_some]
    simpa using hP
  | @binary a op r ha hop hr =>
    obtain ⟨t, rest, hta, htfirst⟩ := atom_first ha
    have hk : KindAt tokens cur t := by
      have h2 := hAh
      rw [hta] at h2
      exact h2.kindAt
    have hlen : (a ++ op :: r).length = a.length + (r.length + 1) := by simp
    have hP := hA a (by rw [hlen]; omega) ha f cur op (by rw [hlen] at hf; omega) hAh.left
      (binaryOps_ne hop).1 (binaryOps_ne hop).2
    refine ⟨a, op :: r, rfl, ?_, Or.inr ⟨op, r, rfl, hop, ?_, hr⟩⟩
    · rw [unary_succ, matchAny_miss hk htfirst, ofOption_some]
      simpa using hP
    · have := prec_le op
      omega
  | @assign e he =>
    have hlen : (TOK_IDENTIFIER :: TOK_ASSIGN :: e).length = e.length + 2 := rfl
    rw [hlen] at hf
    obtain ⟨f', rfl⟩ : ∃ k, f = k + 1 := ⟨f - 1, by omega⟩
    have hP := hE e (by rw [hlen]; omega) he f' (cur + 2) nxt (by omega) hAh.tail.tail hfo
    refine ⟨TOK_IDENTIFIER :: TOK_ASSIGN :: e, [], by simp, ?_, Or.inl rfl⟩
    rw [unary_succ, matchAny_miss hAh.kindAt (by decide), ofOption_some]
    simp only [Bool.false_eq_true, if_false]
    rw [primary_ident tokens f' cur TOK_ASSIGN hAh.kindAt hAh.tail.kindAt,
      if_neg (by decide), if_pos rfl, hP, hlen]
    congr 1
    omega

theorem kindAt_after {tokens : List Token} {current : Nat} {w : List TokenType}
    {next : TokenType} (h : Ahead tokens current w next) :
    KindAt tokens (current + w.length) next := by
  have h2 : Ahead tokens current (w ++ []) next := by rwa [List.append_nil]
  exact h2.right.kindAt_nil

theorem doWhileMatch_succ (tokens : List Token) (ops : List TokenType) (body : Nat → Res)
    (fuel current : Nat) :
    doWhileMatch tokens ops body (fuel + 1) current =
      (body current).bind fun c =>
        Res.ofOption (matchAny tokens c ops) fun m =>
          if m.1 then doWhileMatch tokens ops body fuel m.2 else .ok m.2 := rfl

theorem args_accepts (tokens : List Token) (w : List TokenType)
    (hEself : Flat .expr w → ExprAccepts tokens w)
    (hE : ∀ w', w'.length < w.length → Flat .expr w' → ExprAccepts tokens w')
    (hG : ∀ w', w'.length < w.length → Flat .args w' → ArgsAccepts tokens w')
    (h : Flat .args w) : ArgsAccepts tokens w := by
  intro fuel lf cur hf hlf hAh
  obtain ⟨lf', rfl⟩ : ∃ k, lf = k + 1 := ⟨lf - 1, by omega⟩
  cases h with
  | argOne he =>
    have hP := hEself he fuel cur TOK_RPAREN hf hAh (by simp [FollowOK, binaryOps])
    rw [doWhileMatch_succ, hP, bind_ok, matchAny_miss (kindAt_after hAh) (by decide),
      ofOption_some]
    rfl
  | @argCons e r he hr =>
    have hlen : (e ++ TOK_COMMA :: r).length = e.length + (r.length + 1) := by simp
    rw [hlen] at hf hlf
    have hP := hE e (by rw [hlen]; omega) he fuel cur TOK_COMMA (by omega) hAh.left
      (by simp [FollowOK, binaryOps])
    have hA2 : Ahead tokens (cur + e.length) (TOK_COMMA :: r) TOK_RPAREN := hAh.right
    have hR := hG r (by rw [hlen]; omega) hr fuel lf' (cur + e.length + 1) (by omega) (by omega)
      hA2.tail
    rw [doWhileMatch_succ, hP, bind_ok,
      matchAny_hit hA2.kindAt (by decide) (List.mem_singleton.2 rfl), ofOption_some]
    simp only [if_true, hR, hlen]
    congr 1
    omega

theorem operand_of_level {tokens : List Token} {w : List TokenType} (l l' : Level)
    (hl : operandParser l = levelParser l') (hp : l'.prec = l.prec + 1)
    (h : LevelAccepts tokens l' w) :
    ∀ fuel current next, 11 * w.length + (6 - l.prec) ≤ fuel →
      Ahead tokens current w next → FollowOK next →
      StopsAt (operandParser l tokens fuel) (l.prec + 1) w current := by
  intro fuel cur nxt hf hAh hfo
  have hle : l'.prec ≤ 5 := by cases l' <;> simp [Level.prec]
  obtain ⟨f, rfl⟩ : ∃ k, fuel = k + 1 := ⟨fuel - 1, by omega⟩
  have := h f f cur nxt (by omega) (by omega) hAh hfo
  rw [hl, ← hp]
  unfold StopsAt at this ⊢
  simp only [levelParser_succ]
  exact this

theorem flat_accepts (tokens : List Token) : ∀ (n : Nat) (w : List TokenType), w.length ≤ n →
    (Flat .atom w → AtomAccepts tokens w) ∧
    (Flat .expr w → UnaryAccepts tokens w ∧ ∀ l, LevelAccepts tokens l w) ∧
    (Flat .args w → ArgsAccepts tokens w)
  | 0, w, hw => by
    have hnil : w = [] := List.length_eq_zero.1 (Nat.le_zero.1 hw)
    subst hnil
    refine ⟨fun h => ?_, fun h => ?_, fun h => ?_⟩ <;>
      (obtain ⟨t, rest, h1, -⟩ := flat_first h; cases h1)
  | n + 1, w, hw => by
    have ih := flat_accepts tokens n
    have hE : ∀ w', w'.length < w.length → Flat .expr w' → ExprAccepts tokens w' :=
      fun w' h1 h2 => exprAccepts_of_level (((ih w' (by omega)).2.1 h2).2 .LogicalOr)
    have hG : ∀ w', w'.length < w.length → Flat .args w' → ArgsAccepts tokens w' :=
      fun w' h1 h2 => (ih w' (by omega)).2.2 h2
    have hA : ∀ w', w'.length < w.length → Flat .atom w' → AtomAccepts tokens w' :=
      fun w' h1 h2 => (ih w' (by omega)).1 h2
    have hU : ∀ w', w'.length < w.length → Flat .expr w' → UnaryAccepts tokens w' :=
      fun w' h1 h2 => ((ih w' (by omega)).2.1 h2).1
    have hL : ∀ l w', w'.length < w.length → Flat .expr w' → LevelAccepts tokens l w' :=
      fun l w' h1 h2 => ((ih w' (by omega)).2.1 h2).2 l
    have hAself : Flat .atom w → AtomAccepts tokens w := atom_accepts tokens w hE hG
    have hLevels : Flat .expr w → UnaryAccepts tokens w ∧ ∀ l, LevelAccepts tokens l w := by
      intro hflat
      have hUn : UnaryAccepts tokens w := unary_accepts tokens w hAself hA hU hE hflat
      have h5 : LevelAccepts tokens .Multiplicative w :=
        level_step tokens .Multiplicative w (hL .Multiplicative) (fun fuel cur nxt hf hAh hfo =>
          hUn fuel cur nxt (by simpa [Level.prec] using hf) hAh hfo)
      have h4 : LevelAccepts tokens .Additive w :=
        level_step tokens .Additive w (hL .Additive)
          (operand_of_level .Additive .Multiplicative rfl rfl h5)
      have h3 : LevelAccepts tokens .Relational w :=
        level_step tokens .Relational w (hL .Relational)
          (operand_of_level .Relational .Additive rfl rfl h4)
      have h2 : LevelAccepts tokens .Equality w :=
        level_step tokens .Equality w (hL .Equality)
          (operand_of_level .Equality .Relational rfl rfl h3)
      have h1 : LevelAccepts tokens .LogicalAnd w :=
        level_step tokens .LogicalAnd w (hL .LogicalAnd)
          (operand_of_level .LogicalAnd .Equality rfl rfl h2)
      have h0 : LevelAccepts tokens .LogicalOr w :=
        level_step tokens .LogicalOr w (hL .LogicalOr)
          (operand_of_level .LogicalOr .LogicalAnd rfl rfl h1)
      refine ⟨hUn, fun l => ?_⟩
      cases l <;> assumption
    refine ⟨hAself, hLevels, ?_⟩
    exact args_accepts tokens w (fun h => exprAccepts_of_level ((hLevels h).2 .LogicalOr)) hE hG

/-- The method `expr` accepts every expression of the grammar that is followed
by a token which cannot continue it. -/
theorem expr_complete {tokens : List Token} {w : List TokenType} (h : Derives .Expr w)
    (fuel current : Nat) (next : TokenType) (hf : 11 * w.length + 8 ≤ fuel)
    (hA : Ahead tokens current w next) (hfo : FollowOK next) :
    expr tokens fuel current = .ok (current + w.length) :=
  exprAccepts_of_level ((((flat_accepts tokens w.length w (le_refl _)).2.1
    (flat_of_derives h : Flat .expr w)).2) .LogicalOr) fuel current next hf hA hfo

end Parser

namespace Parser

theorem ofOption_bind {α : Type} (o : Option α) (g : α → Res) (k : Nat → Res) :
    Res.ofOption o (fun b => (g b).bind k) = (Res.ofOption o g).bind k := by
  cases o <;> rfl

theorem typeTok_ne_EOF {t : TokenType} (h : TypeTok t) : t ≠ TOK_EOF := by
  rintro rfl
  simp [TypeTok] at h

theorem typeTok_mem {t : TokenType} (h : TypeTok t) : t ∈ typeTokens := h

/-- The first token of an expression. -/
theorem expr_first {w : List TokenType} (h : Derives .Expr w) :
    ∃ t rest, w = t :: rest ∧
      (t ∈ literalTokens ∨ t = TOK_IDENTIFIER ∨ t = TOK_LPAREN ∨ t = TOK_NOT ∨ t = TOK_MINUS) :=
  flat_first (flat_of_derives h : Flat .expr w)

theorem followOK_semicolon : FollowOK TOK_SEMICOLON := by simp [FollowOK, binaryOps]

theorem followOK_rparen : FollowOK TOK_RPAREN := by simp [FollowOK, binaryOps]

theorem includeStatement_complete {tokens : List Token} {current : Nat} {next : TokenType}
    (hA : Ahead tokens current [TOK_SUPPLY, TOK_IDENTIFIER] next) :
    includeStatement tokens current = .ok (current + 2) := by
  rw [includeStatement, consume_hit hA.kindAt (by decide), bind_ok,
    consume_hit hA.tail.kindAt (by decide)]

theorem variableDeclaration_plain {tokens : List Token} {current : Nat} {t next : TokenType}
    (ht : TypeTok t) (fuel : Nat)
    (hA : Ahead tokens current [t, TOK_IDENTIFIER, TOK_SEMICOLON] next) :
    variableDeclaration tokens fuel current = .ok (current + 3) := by
  obtain ⟨t0, ht0⟩ := advance_kind hA.kindAt (typeTok_ne_EOF ht)
  rw [variableDeclaration, ht0, ofOption_some, consume_hit hA.tail.kindAt (by decide), bind_ok,
    matchAny_miss hA.tail.tail.kindAt (by decide), ofOption_some]
  simp only [Bool.false_eq_true, if_false, bind_ok,
    consume_hit hA.tail.tail.kindAt (by decide)]

theorem variableDeclaration_init {tokens : List Token} {current : Nat} {t next : TokenType}
    {e : List TokenType} (ht : TypeTok t) (he : Derives .Expr e) (fuel : Nat)
    (hf : 11 * e.length + 8 ≤ fuel)
    (hA : Ahead tokens current
      (t :: TOK_IDENTIFIER :: TOK_ASSIGN :: e ++ [TOK_SEMICOLON]) next) :
    variableDeclaration tokens fuel current = .ok (current + (e.length + 4)) := by
  obtain ⟨t0, ht0⟩ := advance_kind hA.kindAt (typeTok_ne_EOF ht)
  have hA3 : Ahead tokens (current + 1 + 1 + 1) (e ++ [TOK_SEMICOLON]) next := hA.tail.tail.tail
  have hexpr := expr_complete he fuel _ _ hf hA3.left followOK_semicolon
  rw [variableDeclaration, ht0, ofOption_some, consume_hit hA.tail.kindAt (by decide), bind_ok,
    matchAny_hit hA.tail.tail.kindAt (by decide) (List.mem_singleton.2 rfl), ofOption_some]
  simp only [if_true, hexpr, bind_ok, consume_hit hA3.right.kindAt (by decide)]
  congr 1
  omega

theorem outputStatement_complete {tokens : List Token} {current : Nat} {next : TokenType}
    {e : List TokenType} (he : Derives .Expr e) (fuel : Nat) (hf : 11 * e.length + 8 ≤ fuel)
    (hA : Ahead tokens current (TOK_BRIEF :: e ++ [TOK_SEMICOLON]) next) :
    outputStatement tokens fuel current = .ok (current + (e.length + 2)) := by
  have hA1 : Ahead tokens (current + 1) (e ++ [TOK_SEMICOLON]) next := hA.tail
  have hexpr := expr_complete he fuel _ _ hf hA1.left followOK_semicolon
  rw [outputStatement, consume_hit hA.kindAt (by decide), bind_ok, hexpr, bind_ok,
    consume_hit hA1.right.kindAt (by decide)]
  congr 1
  omega

theorem inputStatement_complete {tokens : List Token} {current : Nat} {next : TokenType}
    (hA : Ahead tokens current [TOK_INTEL, TOK_IDENTIFIER, TOK_SEMICOLON] next) :
    inputStatement tokens current = .ok (current + 3) := by
  rw [inputStatement, consume_hit hA.kindAt (by decide), bind_ok,
    consume_hit hA.tail.kindAt (by decide), bind_ok,
    consume_hit hA.tail.tail.kindAt (by decide)]

theorem breakStatement_complete {tokens : List Token} {current : Nat} {next : TokenType}
    (hA : Ahead tokens current [TOK_ABORT, TOK_SEMICOLON] next) :
    breakStatement tokens current = .ok (current + 2) := by
  rw [breakStatement, consume_hit hA.kindAt (by decide), bind_ok,
    consume_hit hA.tail.kindAt (by decide)]

theorem expressionStatement_complete {tokens : List Token} {current : Nat} {next : TokenType}
    {e : List TokenType} (he : Derives .Expr e) (fuel : Nat) (hf : 11 * e.length + 8 ≤ fuel)
    (hA : Ahead tokens current (e ++ [TOK_SEMICOLON]) next) :
    expressionStatement tokens fuel current = .ok (current + (e.length + 1)) := by
  have hexpr := expr_complete he fuel _ _ hf hA.left followOK_semicolon
  rw [expressionStatement, hexpr, bind_ok, consume_hit hA.right.kindAt (by decide)]
  congr 1

theorem optExpr_complete {tokens : List Token} {w : List TokenType} (h : Derives .OptExpr w) :
    OptExprAccepts tokens w := by
  intro fuel cur stop hf hstop hA
  have hne : stop ≠ TOK_EOF := by rcases hstop with rfl | rfl <;> decide
  have hfo : FollowOK stop := by
    rcases hstop with rfl | rfl
    · exact followOK_semicolon
    · exact followOK_rparen
  rw [optExpr]
  cases h with
  | optNone =>
    rw [check_hit hA.kindAt_nil hne, ofOption_some]
    rfl
  | optSome he =>
    obtain ⟨t, rest, hw, hfirst⟩ := expr_first he
    have hk : KindAt tokens cur t := by
      have h2 := hA
      rw [hw] at h2
      exact h2.kindAt
    have hts : t ≠ stop := by
      rintro rfl
      rcases hstop with rfl | rfl <;> simp [literalTokens] at hfirst
    rw [check_miss hk hts, ofOption_some]
    simp only [Bool.not_false, if_true]
    exact expr_complete he fuel cur stop hf hA hfo

theorem returnStatement_complete {tokens : List Token} {current : Nat} {next : TokenType}
    {e : List TokenType} (he : Derives .OptExpr e) (fuel : Nat) (hf : 11 * e.length + 8 ≤ fuel)
    (hA : Ahead tokens current (TOK_RETREAT :: e ++ [TOK_SEMICOLON]) next) :
    returnStatement tokens fuel current = .ok (current + (e.length + 2)) := by
  have hA1 : Ahead tokens (current + 1) (e ++ [TOK_SEMICOLON]) next := hA.tail
  have hopt := optExpr_complete he fuel (current + 1) TOK_SEMICOLON hf (Or.inl rfl) hA1.left
  rw [optExpr] at hopt
  rw [returnStatement, consume_hit hA.kindAt (by decide), bind_ok, ofOption_bind, hopt, bind_ok,
    consume_hit hA1.right.kindAt (by decide)]
  congr 1
  omega

end Parser

namespace Parser

theorem blockLoop_succ (tokens : List Token) (statement : Nat → Res) (fuel current : Nat) :
    blockLoop tokens statement (fuel + 1) current =
      Res.ofOption (check tokens current TOK_RBRACE) fun closing =>
        Res.ofOption (if !closing then (isAtEnd tokens current).map fun e => !e
            else some false) fun continue_ =>
          if continue_ then (statement current).bind (blockLoop tokens statement fuel)
          else .ok current := rfl

theorem block_succ (tokens : List Token) (fuel current : Nat) :
    block tokens (fuel + 1) current =
      (consume tokens current TOK_LBRACE "Expected '\x7b' to begin block.").bind fun c =>
        (blockLoop tokens (statement tokens fuel) fuel c).bind fun c =>
          consume tokens c TOK_RBRACE "Expected '\x7d' to end block." := rfl

theorem statement_dispatch {tokens : List Token} {current : Nat} {k : TokenType}
    (hk : KindAt tokens current k) (fuel : Nat) :
    statement tokens (fuel + 1) current =
      if k ≠ TOK_EOF ∧ k = TOK_LBRACE then block tokens fuel current
      else if k ≠ TOK_EOF ∧ k ∈ typeTokens then variableDeclaration tokens fuel current
      else if k ≠ TOK_EOF ∧ k = TOK_EVALUATE then ifStatement tokens fuel current
      else if k ≠ TOK_EOF ∧ k = TOK_MAINTAIN then whileStatement tokens fuel current
      else if k ≠ TOK_EOF ∧ k = TOK_DEPLOY then forStatement tokens fuel current
      else if k ≠ TOK_EOF ∧ k = TOK_BRIEF then outputStatement tokens fuel current
      else if k ≠ TOK_EOF ∧ k = TOK_INTEL then inputStatement tokens current
      else if k ≠ TOK_EOF ∧ k = TOK_RETREAT then returnStatement tokens fuel current
      else if k ≠ TOK_EOF ∧ k = TOK_ABORT then breakStatement tokens current
      else expressionStatement tokens fuel current := by
  rw [statement]
  simp only [check_kind hk, checkAny_kind hk, ofOption_some, decide_eq_true_eq]

theorem ifStatement_succ (tokens : List Token) (fuel current : Nat) :
    ifStatement tokens (fuel + 1) current =
    (consume tokens current TOK_EVALUATE "Expected 'evaluate'.").bind fun c =>
      (consume tokens c TOK_LPAREN "Expected '(' after 'evaluate'.").bind fun c =>
        (expr tokens fuel c).bind fun c =>
          (consume tokens c TOK_RPAREN "Expected ')' after condition.").bind fun c =>
            (block tokens fuel c).bind fun c =>
              Res.ofOption (matchAny tokens c [TOK_ADJUST]) fun m =>
                if m.1 then
                  Res.ofOption (check tokens m.2 TOK_EVALUATE) fun b =>
                    if b then ifStatement tokens fuel m.2
                    else block tokens fuel m.2
                else .ok m.2 := rfl

theorem whileStatement_succ (tokens : List Token) (fuel current : Nat) :
    whileStatement tokens (fuel + 1) current =
    (consume tokens current TOK_MAINTAIN "Expected 'maintain'.").bind fun c =>
      (consume tokens c TOK_LPAREN "Expected '(' after 'maintain'.").bind fun c =>
        (expr tokens fuel c).bind fun c =>
          (consume tokens c TOK_RPAREN "Expected ')' after condition.").bind fun c =>
            block tokens fuel c := rfl

theorem forStatement_succ (tokens : List Token) (fuel current : Nat) :
    forStatement tokens (fuel + 1) current =
    (consume tokens current TOK_DEPLOY "Expected 'deploy'.").bind fun c =>
      (consume tokens c TOK_LPAREN "Expected '(' after 'deploy'.").bind fun c =>
        (forInit tokens fuel c).bind fun c =>
          (optExpr tokens fuel TOK_SEMICOLON c).bind fun c =>
            (consume tokens c TOK_SEMICOLON "Expected ';' after loop condition.").bind fun c =>
              (optExpr tokens fuel TOK_RPAREN c).bind fun c =>
                (consume tokens c TOK_RPAREN "Expected ')' after for clauses.").bind fun c =>
                  block tokens fuel c := by
  rw [forStatement]
  congr 1
  funext c
  congr 1
  funext c
  rw [forInit, ofOption_bind]
  congr 1
  funext c
  rw [optExpr, ofOption_bind]
  congr 1
  funext c
  congr 1
  funext c
  rw [optExpr, ofOption_bind]

end Parser

namespace Parser

theorem startsOK_typeTok {t : TokenType} (ht : TypeTok t) (rest : List TokenType) :
    StartsOK (t :: rest) := by
  refine ⟨t, rest, rfl, ?_, ?_, ?_⟩ <;> rintro rfl <;> simp [TypeTok] at ht

theorem startsOK_expr {e : List TokenType} (he : Derives .Expr e) (rest : List TokenType) :
    StartsOK (e ++ rest) := by
  obtain ⟨t, r, rfl, hfirst⟩ := expr_first he
  refine ⟨t, r ++ rest, rfl, ?_, ?_, ?_⟩ <;> rintro rfl <;> simp [literalTokens] at hfirst

theorem first_of_derives {n : NT} {w : List TokenType} (h : Derives n w) : FirstOf n w := by
  induction h with
  | declInclude _ ih => exact ih
  | declFunc _ ih => exact ih
  | declVar _ ih => exact ih
  | includeStmt => exact ⟨_, _, rfl, by decide, by decide, by decide⟩
  | varDecl ht => exact startsOK_typeTok ht _
  | varDeclInit ht _ _ => exact startsOK_typeTok ht _
  | funcDef _ _ _ => exact ⟨_, _, rfl, by decide, by decide, by decide⟩
  | funcDefParams _ _ _ _ _ => exact ⟨_, _, rfl, by decide, by decide, by decide⟩
  | block _ _ => exact ⟨_, _, rfl, by decide, by decide, by decide⟩
  | stmtBlock _ ih => exact ih
  | stmtVarDecl _ ih => exact ih
  | stmtIf _ ih =>
    obtain ⟨rest, rfl⟩ := ih
    exact ⟨_, _, rfl, by decide, by decide, by decide⟩
  | stmtWhile _ ih => exact ih
  | stmtFor _ ih => exact ih
  | stmtOutput _ ih => exact ih
  | stmtInput _ ih => exact ih
  | stmtReturn _ ih => exact ih
  | stmtBreak _ ih => exact ih
  | stmtExpr _ ih => exact ih
  | ifStmt _ _ _ _ => exact ⟨_, rfl⟩
  | ifElseIf _ _ _ _ _ _ => exact ⟨_, rfl⟩
  | ifElse _ _ _ _ _ _ => exact ⟨_, rfl⟩
  | stmtsNil => exact Or.inl rfl
  | stmtsCons _ _ ih _ =>
    obtain ⟨t, rest, rfl, h⟩ := ih
    exact Or.inr ⟨t, _, rfl, h⟩
  | paramOne ht => exact ⟨_, _, rfl, ht⟩
  | paramCons ht _ _ => exact ⟨_, _, rfl, ht⟩
  | whileStmt _ _ _ _ => exact ⟨_, _, rfl, by decide, by decide, by decide⟩
  | forStmt _ _ _ _ _ _ _ _ => exact ⟨_, _, rfl, by decide, by decide, by decide⟩
  | outputStmt _ _ => exact ⟨_, _, rfl, by decide, by decide, by decide⟩
  | inputStmt => exact ⟨_, _, rfl, by decide, by decide, by decide⟩
  | returnStmt _ _ => exact ⟨_, _, rfl, by decide, by decide, by decide⟩
  | breakStmt => exact ⟨_, _, rfl, by decide, by decide, by decide⟩
  | exprStmt he _ => exact startsOK_expr he _
  | _ => trivial

end Parser

namespace Parser

theorem functionDefinition_eq (tokens : List Token) (fuel current : Nat) :
    functionDefinition tokens fuel current =
    (consume tokens current TOK_TACTIC "Expected 'tactic'.").bind fun c =>
      Res.ofOption (matchAny tokens c [TOK_IDENTIFIER, TOK_CAMPAIGN]) fun m =>
        if !m.1 then throwAt tokens m.2 "Expected function name or 'campaign'."
        else
          (consume tokens m.2 TOK_LPAREN "Expected '(' after function name.").bind fun c =>
            (Res.ofOption (check tokens c TOK_RPAREN) fun closing =>
              if !closing then doWhileMatch tokens [TOK_COMMA] (parameter tokens) fuel c
              else .ok c).bind fun c =>
                (consume tokens c TOK_RPAREN "Expected ')' after parameters.").bind fun c =>
                  block tokens fuel c := by
  rw [functionDefinition]
  congr 1
  funext c
  congr 1
  funext m
  congr 1
  congr 1
  funext c
  rw [ofOption_bind]

theorem parameter_complete {tokens : List Token} {current : Nat} {t next : TokenType}
    {rest : List TokenType} (ht : TypeTok t)
    (hA : Ahead tokens current (t :: TOK_IDENTIFIER :: rest) next) :
    parameter tokens current = .ok (current + 2) := by
  rw [parameter, matchAny_hit hA.kindAt (typeTok_ne_EOF ht) (typeTok_mem ht), ofOption_some]
  simp only [Bool.not_true, Bool.false_eq_true, if_false,
    consume_hit hA.tail.kindAt (by decide)]

theorem parseLoop_succ (tokens : List Token) (depth fuel current : Nat)
    (diags : List Diagnostic) :
    parseLoop tokens depth (fuel + 1) current diags =
    match isAtEnd tokens current with
    | none => .ub
    | some true => .finished ⟨diags, "Parsing complete. Syntax is valid.", current⟩
    | some false =>
      match declaration tokens depth current with
      | (ds, .ok c) => parseLoop tokens depth fuel c (diags ++ ds)
      | (ds, .thrown _ c) => .finished ⟨diags ++ ds, "Parsing failed.", c⟩
      | (_, .ub) => .ub
      | (_, .timeout) => .timeout := rfl

theorem declaration_ok {tokens : List Token} {fuel current c : Nat}
    (h : declarationBody tokens fuel current = .ok c) :
    declaration tokens fuel current = ([], .ok c) := by
  rw [declaration, h]

theorem complete_of_derives (tokens : List Token) {n : NT} {w : List TokenType}
    (h : Derives n w) : Complete tokens n w := by
  induction h with
  | @program ds hds ih =>
    intro hk
    have hlen : tokens.length = ds.length + 1 := by
      have := congrArg List.length hk
      simpa [kinds] using this
    have hA : Ahead tokens 0 ds TOK_EOF := ⟨[], by simpa using hk⟩
    have := ih (depthFuel tokens) (tokens.length + 1) 0 []
      (by rw [depthFuel, hlen]; omega) (by omega) hA
    rw [parse, this]
    simp
  | declsNil =>
    intro depth fuel cur diags _ hf hA
    obtain ⟨f, rfl⟩ : ∃ k, fuel = k + 1 := ⟨fuel - 1, by omega⟩
    rw [parseLoop_succ, isAtEnd_kind hA.kindAt_nil]
    rfl
  | @declsCons d ds hd hds ihd ihds =>
    intro depth fuel cur diags hdep hf hA
    obtain ⟨f, rfl⟩ : ∃ k, fuel = k + 1 := ⟨fuel - 1, by omega⟩
    obtain ⟨t, rest, rfl, -, hne, -⟩ := first_of_derives hd
    have hk : KindAt tokens cur t := hA.kindAt
    simp only [List.length_cons, List.length_append] at hdep hf
    have hbody := ihd depth cur _ (by simp only [List.length_cons]; omega) hA.left
    have hrest := ihds depth f (cur + (t :: rest).length) (diags ++ [])
      (by omega) (by omega) hA.right
    simp only [List.append_nil, List.length_cons] at hrest hbody
    rw [parseLoop_succ, isAtEnd_kind hk, decide_eq_false hne]
    simp only [declaration_ok hbody, List.append_nil, hrest, List.length_cons,
      List.length_append]
    congr 2
    omega
  | @declInclude w h ih =>
    intro fuel cur nxt _ hA
    cases h
    rw [declarationBody, check_hit hA.kindAt (by decide), ofOption_some]
    exact ih cur nxt hA
  | @declFunc w h ih =>
    intro fuel cur nxt hf hA
    have hk : KindAt tokens cur TOK_TACTIC := by cases h <;> exact hA.kindAt
    rw [declarationBody, check_miss hk (by decide), ofOption_some]
    simp only [Bool.false_eq_true, if_false, check_hit hk (by decide), ofOption_some, if_true]
    exact ih fuel cur nxt hf hA
  | @declVar w h ih =>
    intro fuel cur nxt hf hA
    have hk : ∃ t, TypeTok t ∧ KindAt tokens cur t := by
      cases h with
      | varDecl ht => exact ⟨_, ht, hA.kindAt⟩
      | varDeclInit ht _ => exact ⟨_, ht, hA.kindAt⟩
    obtain ⟨t, ht, hk⟩ := hk
    have h1 : t ≠ TOK_SUPPLY := by rintro rfl; simp [TypeTok] at ht
    have h2 : t ≠ TOK_TACTIC := by rintro rfl; simp [TypeTok] at ht
    rw [declarationBody, check_miss hk h1, ofOption_some]
    simp only [Bool.false_eq_true, if_false, check_miss hk h2, ofOption_some,
      checkAny_hit hk (typeTok_ne_EOF ht) (typeTok_mem ht), if_true]
    exact ih fuel cur nxt (by omega) hA
  | includeStmt =>
    intro cur nxt hA
    exact includeStatement_complete hA
  | varDecl ht =>
    intro fuel cur nxt _ hA
    exact variableDeclaration_plain ht fuel hA
  | @varDeclInit t e ht he _ =>
    intro fuel cur nxt hf hA
    simp only [List.length_cons, List.length_append, List.length_nil] at hf ⊢
    rw [variableDeclaration_init ht he fuel (by omega) hA]
  | @funcDef name b hname hb ihb =>
    intro fuel cur nxt hf hA
    simp only [List.length_cons] at hf ⊢
    have hn1 : name ≠ TOK_EOF := by rcases hname with rfl | rfl <;> decide
    have hn2 : name ∈ [TOK_IDENTIFIER, TOK_CAMPAIGN] := by rcases hname with rfl | rfl <;> simp
    have hA4 : Ahead tokens (cur + 1 + 1 + 1 + 1) b nxt := hA.tail.tail.tail.tail
    have hblock := ihb fuel _ nxt (by omega) hA4
    rw [functionDefinition_eq, consume_hit hA.kindAt (by decide), bind_ok,
      matchAny_hit hA.tail.kindAt hn1 hn2, ofOption_some]
    simp only [Bool.not_true, Bool.false_eq_true, if_false,
      consume_hit hA.tail.tail.kindAt (by decide), bind_ok,
      check_hit hA.tail.tail.tail.kindAt (by decide), ofOption_some,
      consume_hit hA.tail.tail.tail.kindAt (by decide), hblock]
    congr 1
    omega
  | @funcDefParams name ps b hname hps hb ihps ihb =>
    intro fuel cur nxt hf hA
    simp only [List.length_cons, List.length_append] at hf ⊢
    have hn1 : name ≠ TOK_EOF := by rcases hname with rfl | rfl <;> decide
    have hn2 : name ∈ [TOK_IDENTIFIER, TOK_CAMPAIGN] := by rcases hname with rfl | rfl <;> simp
    have hA3 : Ahead tokens (cur + 1 + 1 + 1) (ps ++ TOK_RPAREN :: b) nxt := hA.tail.tail.tail
    obtain ⟨t, rest, hps', ht⟩ := first_of_derives hps
    have hk3 : KindAt tokens (cur + 1 + 1 + 1) t := by
      have h2 := hA3
      rw [hps'] at h2
      exact h2.kindAt
    have ht' : t ≠ TOK_RPAREN := by rintro rfl; simp [TypeTok] at ht
    have hparams := ihps fuel (cur + 1 + 1 + 1) (by omega) hA3.left
    have hA5 : Ahead tokens (cur + 1 + 1 + 1 + ps.length) (TOK_RPAREN :: b) nxt := hA3.right
    have hblock := ihb fuel _ nxt (by omega) hA5.tail
    rw [functionDefinition_eq, consume_hit hA.kindAt (by decide), bind_ok,
      matchAny_hit hA.tail.kindAt hn1 hn2, ofOption_some]
    simp only [Bool.not_true, Bool.false_eq_true, if_false,
      consume_hit hA.tail.tail.kindAt (by decide), bind_ok, check_miss hk3 ht', ofOption_some,
      Bool.not_false, if_true, hparams, consume_hit hA5.kindAt (by decide), hblock]
    congr 1
    omega
  | @paramOne t ht =>
    intro lf cur hlf hA
    obtain ⟨lf', rfl⟩ : ∃ k, lf = k + 1 := ⟨lf - 1, by omega⟩
    rw [doWhileMatch_succ, parameter_complete ht hA, bind_ok,
      matchAny_miss hA.tail.tail.kindAt_nil (by decide), ofOption_some]
    rfl
  | @paramCons t ps ht hps ih =>
    intro lf cur hlf hA
    simp only [List.length_cons] at hlf ⊢
    obtain ⟨lf', rfl⟩ : ∃ k, lf = k + 1 := ⟨lf - 1, by omega⟩
    have hrest := ih lf' (cur + 1 + 1 + 1) (by omega) hA.tail.tail.tail
    rw [doWhileMatch_succ, parameter_complete ht hA, bind_ok,
      matchAny_hit hA.tail.tail.kindAt (by decide) (List.mem_singleton.2 rfl), ofOption_some]
    simp only [if_true, hrest]
    congr 1
    omega
  | @block ss hss ih =>
    intro fuel cur nxt hf hA
    simp only [List.length_cons, List.length_append, List.length_nil] at hf ⊢
    obtain ⟨f, rfl⟩ : ∃ k, fuel = k + 1 := ⟨fuel - 1, by omega⟩
    have hA1 : Ahead tokens (cur + 1) (ss ++ [TOK_RBRACE]) nxt := hA.tail
    have hloop := ih f f (cur + 1) (by omega) (by omega) hA1.left
    rw [block_succ, consume_hit hA.kindAt (by decide), bind_ok, hloop, bind_ok,
      consume_hit hA1.right.kindAt (by decide)]
    congr 1
    omega
  | stmtsNil =>
    intro fuel lf cur _ hlf hA
    obtain ⟨lf', rfl⟩ : ∃ k, lf = k + 1 := ⟨lf - 1, by omega⟩
    rw [blockLoop_succ, check_hit hA.kindAt_nil (by decide), ofOption_some]
    rfl
  | @stmtsCons s ss hs hss ihs ihss =>
    intro fuel lf cur hf hlf hA
    simp only [List.length_append] at hf hlf ⊢
    obtain ⟨lf', rfl⟩ : ∃ k, lf = k + 1 := ⟨lf - 1, by omega⟩
    obtain ⟨t, rest, hs', h1, h2, -⟩ := first_of_derives hs
    have hk : KindAt tokens cur t := by
      have h3 := hA
      rw [hs'] at h3
      exact h3.kindAt
    have hslen : 1 ≤ s.length := by rw [hs']; simp
    have hnext : ss.headD TOK_RBRACE ≠ TOK_ADJUST := by
      rcases first_of_derives hss with rfl | ⟨t', rest', rfl, -, -, h3⟩
      · decide
      · exact h3
    have hstmt := ihs fuel cur _ (by omega) hA.left hnext
    have hrest := ihss fuel lf' (cur + s.length) (by omega) (by omega) hA.right
    rw [blockLoop_succ, check_miss hk h1, ofOption_some]
    simp only [Bool.not_false, if_true, isAtEnd_kind hk, decide_eq_false h2, Option.map_some',
      ofOption_some, hstmt, bind_ok, hrest]
    congr 1
    omega
  | @stmtBlock w h ih =>
    intro fuel cur nxt hf hA _
    obtain ⟨f, rfl⟩ : ∃ k, fuel = k + 1 := ⟨fuel - 1, by omega⟩
    have hk : KindAt tokens cur TOK_LBRACE := by cases h; exact hA.kindAt
    rw [statement_dispatch hk f]
    simp only [ne_eq, reduceCtorEq, not_false_eq_true, and_self, if_true]
    exact ih f cur nxt (by omega) hA
  | @stmtVarDecl w h ih =>
    intro fuel cur nxt hf hA _
    obtain ⟨f, rfl⟩ : ∃ k, fuel = k + 1 := ⟨fuel - 1, by omega⟩
    have hk : ∃ t, TypeTok t ∧ KindAt tokens cur t := by
      cases h with
      | varDecl ht => exact ⟨_, ht, hA.kindAt⟩
      | varDeclInit ht _ => exact ⟨_, ht, hA.kindAt⟩
    obtain ⟨t, ht, hk⟩ := hk
    have h1 : t ≠ TOK_LBRACE := by rintro rfl; simp [TypeTok] at ht
    rw [statement_dispatch hk f, if_neg (fun h => h1 h.2),
      if_pos ⟨typeTok_ne_EOF ht, typeTok_mem ht⟩]
    exact ih f cur nxt (by omega) hA
  | @stmtIf w h ih =>
    intro fuel cur nxt hf hA hnx
    obtain ⟨f, rfl⟩ : ∃ k, fuel = k + 1 := ⟨fuel - 1, by omega⟩
    obtain ⟨rest, rfl⟩ := first_of_derives h
    rw [statement_dispatch hA.kindAt f]
    simp only [ne_eq, reduceCtorEq, not_false_eq_true, and_self, and_false, if_true, if_false,
      typeTokens, List.mem_cons, List.mem_singleton, List.not_mem_nil, or_self]
    exact ih f cur nxt (by omega) hA hnx
  | @stmtWhile w h ih =>
    intro fuel cur nxt hf hA _
    obtain ⟨f, rfl⟩ : ∃ k, fuel = k + 1 := ⟨fuel - 1, by omega⟩
    have hk : KindAt tokens cur TOK_MAINTAIN := by cases h; exact hA.kindAt
    rw [statement_dispatch hk f]
    simp only [ne_eq, reduceCtorEq, not_false_eq_true, and_self, and_false, if_true, if_false,
      typeTokens, List.mem_cons, List.mem_singleton, List.not_mem_nil, or_self]
    exact ih f cur nxt (by omega) hA
  | @stmtFor w h ih =>
    intro fuel cur nxt hf hA _
    obtain ⟨f, rfl⟩ : ∃ k, fuel = k + 1 := ⟨fuel - 1, by omega⟩
    have hk : KindAt tokens cur TOK_DEPLOY := by cases h; exact hA.kindAt
    rw [statement_dispatch hk f]
    simp only [ne_eq, reduceCtorEq, not_false_eq_true, and_self, and_false, if_true, if_false,
      typeTokens, List.mem_cons, List.mem_singleton, List.not_mem_nil, or_self]
    exact ih f cur nxt (by omega) hA
  | @stmtOutput w h ih =>
    intro fuel cur nxt hf hA _
    obtain ⟨f, rfl⟩ : ∃ k, fuel = k + 1 := ⟨fuel - 1, by omega⟩
    have hk : KindAt tokens cur TOK_BRIEF := by cases h; exact hA.kindAt
    rw [statement_dispatch hk f]
    simp only [ne_eq, reduceCtorEq, not_false_eq_true, and_self, and_false, if_true, if_false,
      typeTokens, List.mem_cons, List.mem_singleton, List.not_mem_nil, or_self]
    exact ih f cur nxt (by omega) hA
  | @stmtInput w h ih =>
    intro fuel cur nxt hf hA _
    obtain ⟨f, rfl⟩ : ∃ k, fuel = k + 1 := ⟨fuel - 1, by omega⟩
    have hk : KindAt tokens cur TOK_INTEL := by cases h; exact hA.kindAt
    rw [statement_dispatch hk f]
    simp only [ne_eq, reduceCtorEq, not_false_eq_true, and_self, and_false, if_true, if_false,
      typeTokens, List.mem_cons, List.mem_singleton, List.not_mem_nil, or_self]
    exact ih cur nxt hA
  | @stmtReturn w h ih =>
    intro fuel cur nxt hf hA _
    obtain ⟨f, rfl⟩ : ∃ k, fuel = k + 1 := ⟨fuel - 1, by omega⟩
    have hk : KindAt tokens cur TOK_RETREAT := by cases h; exact hA.kindAt
    rw [statement_dispatch hk f]
    simp only [ne_eq, reduceCtorEq, not_false_eq_true, and_self, and_false, if_true, if_false,
      typeTokens, List.mem_cons, List.mem_singleton, List.not_mem_nil, or_self]
    exact ih f cur nxt (by omega) hA
  | @stmtBreak w h ih =>
    intro fuel cur nxt hf hA _
    obtain ⟨f, rfl⟩ : ∃ k, fuel = k + 1 := ⟨fuel - 1, by omega⟩
    have hk : KindAt tokens cur TOK_ABORT := by cases h; exact hA.kindAt
    rw [statement_dispatch hk f]
    simp only [ne_eq, reduceCtorEq, not_false_eq_true, and_self, and_false, if_true, if_false,
      typeTokens, List.mem_cons, List.mem_singleton, List.not_mem_nil, or_self]
    exact ih cur nxt hA
  | @stmtExpr w h ih =>
    intro fuel cur nxt hf hA _
    obtain ⟨f, rfl⟩ : ∃ k, fuel = k + 1 := ⟨fuel - 1, by omega⟩
    have hk : ∃ t, KindAt tokens cur t ∧
        (t ∈ literalTokens ∨ t = TOK_IDENTIFIER ∨ t = TOK_LPAREN ∨ t = TOK_NOT ∨
          t = TOK_MINUS) := by
      cases h with
      | exprStmt he =>
        obtain ⟨t, rest, rfl, hfirst⟩ := expr_first he
        exact ⟨t, hA.kindAt, hfirst⟩
    obtain ⟨t, hk, hfirst⟩ := hk
    rw [statement_dispatch hk f]
    have hcases : t = TOK_INTEGER ∨ t = TOK_DOUBLE ∨ t = TOK_STRING ∨ t = TOK_TRUE ∨
        t = TOK_FALSE ∨ t = TOK_IDENTIFIER ∨ t = TOK_LPAREN ∨ t = TOK_NOT ∨ t = TOK_MINUS := by
      simpa [literalTokens, or_assoc] using hfirst
    have hgoal := ih f cur nxt (by omega) hA
    rcases hcases with rfl | rfl | rfl | rfl | rfl | rfl | rfl | rfl | rfl <;>
      simpa [typeTokens] using hgoal
  | @ifStmt e b he hb _ ihb =>
    intro fuel cur nxt hf hA hnx
    simp only [List.length_cons, List.length_append] at hf ⊢
    obtain ⟨f, rfl⟩ : ∃ k, fuel = k + 1 := ⟨fuel - 1, by omega⟩
    have hA2 : Ahead tokens (cur + 1 + 1) (e ++ TOK_RPAREN :: b) nxt := hA.tail.tail
    have hexpr := expr_complete he f _ _ (by omega) hA2.left followOK_rparen
    have hA3 : Ahead tokens (cur + 1 + 1 + e.length) (TOK_RPAREN :: b) nxt := hA2.right
    have hblock := ihb f _ nxt (by omega) hA3.tail
    rw [ifStatement_succ, consume_hit hA.kindAt (by decide), bind_ok,
      consume_hit hA.tail.kindAt (by decide), bind_ok, hexpr, bind_ok,
      consume_hit hA3.kindAt (by decide), bind_ok, hblock, bind_ok,
      matchAny_miss (kindAt_after hA3.tail) (by simpa using hnx), ofOption_some]
    simp only [Bool.false_eq_true, if_false]
    congr 1
    omega
  | @ifElseIf e b r he hb hr _ ihb ihr =>
    intro fuel cur nxt hf hA hnx
    simp only [List.cons_append, List.append_assoc] at hA
    simp only [List.length_cons, List.length_append] at hf ⊢
    obtain ⟨f, rfl⟩ : ∃ k, fuel = k + 1 := ⟨fuel - 1, by omega⟩
    have hA2 : Ahead tokens (cur + 1 + 1) (e ++ TOK_RPAREN :: (b ++ TOK_ADJUST :: r)) nxt :=
      hA.tail.tail
    have hexpr := expr_complete he f _ _ (by omega) hA2.left followOK_rparen
    have hA3 : Ahead tokens (cur + 1 + 1 + e.length) (TOK_RPAREN :: (b ++ TOK_ADJUST :: r)) nxt :=
      hA2.right
    have hA4 : Ahead tokens (cur + 1 + 1 + e.length + 1) (b ++ TOK_ADJUST :: r) nxt := hA3.tail
    have hblock := ihb f _ _ (by omega) hA4.left
    have hA5 : Ahead tokens (cur + 1 + 1 + e.length + 1 + b.length) (TOK_ADJUST :: r) nxt :=
      hA4.right
    obtain ⟨rest, hr'⟩ := first_of_derives hr
    have hk6 : KindAt tokens (cur + 1 + 1 + e.length + 1 + b.length + 1) TOK_EVALUATE := by
      have h2 := hA5.tail
      rw [hr'] at h2
      exact h2.kindAt
    have helse := ihr f _ nxt (by omega) hA5.tail hnx
    rw [ifStatement_succ, consume_hit hA.kindAt (by decide), bind_ok,
      consume_hit hA.tail.kindAt (by decide), bind_ok, hexpr, bind_ok,
      consume_hit hA3.kindAt (by decide), bind_ok, hblock, bind_ok,
      matchAny_hit hA5.kindAt (by decide) (List.mem_singleton.2 rfl), ofOption_some]
    simp only [if_true, check_hit hk6 (by decide), ofOption_some, helse]
    congr 1
    omega
  | @ifElse e b r he hb hr _ ihb ihr =>
    intro fuel cur nxt hf hA hnx
    simp only [List.cons_append, List.append_assoc] at hA
    simp only [List.length_cons, List.length_append] at hf ⊢
    obtain ⟨f, rfl⟩ : ∃ k, fuel = k + 1 := ⟨fuel - 1, by omega⟩
    have hA2 : Ahead tokens (cur + 1 + 1) (e ++ TOK_RPAREN :: (b ++ TOK_ADJUST :: r)) nxt :=
      hA.tail.tail
    have hexpr := expr_complete he f _ _ (by omega) hA2.left followOK_rparen
    have hA3 : Ahead tokens (cur + 1 + 1 + e.length) (TOK_RPAREN :: (b ++ TOK_ADJUST :: r)) nxt :=
      hA2.right
    have hA4 : Ahead tokens (cur + 1 + 1 + e.length + 1) (b ++ TOK_ADJUST :: r) nxt := hA3.tail
    have hblock := ihb f _ _ (by omega) hA4.left
    have hA5 : Ahead tokens (cur + 1 + 1 + e.length + 1 + b.length) (TOK_ADJUST :: r) nxt :=
      hA4.right
    have hk6 : KindAt tokens (cur + 1 + 1 + e.length + 1 + b.length + 1) TOK_LBRACE := by
      have h2 := hA5.tail
      cases hr
      exact h2.kindAt
    have helse := ihr f _ nxt (by omega) hA5.tail
    rw [ifStatement_succ, consume_hit hA.kindAt (by decide), bind_ok,
      consume_hit hA.tail.kindAt (by decide), bind_ok, hexpr, bind_ok,
      consume_hit hA3.kindAt (by decide), bind_ok, hblock, bind_ok,
      matchAny_hit hA5.kindAt (by decide) (List.mem_singleton.2 rfl), ofOption_some]
    simp only [if_true, check_miss hk6 (by decide : TOK_LBRACE ≠ TOK_EVALUATE), ofOption_some,
      Bool.false_eq_true, if_false, helse]
    congr 1
    omega
  | @whileStmt e b he hb _ ihb =>
    intro fuel cur nxt hf hA
    simp only [List.length_cons, List.length_append] at hf ⊢
    obtain ⟨f, rfl⟩ : ∃ k, fuel = k + 1 := ⟨fuel - 1, by omega⟩
    have hA2 : Ahead tokens (cur + 1 + 1) (e ++ TOK_RPAREN :: b) nxt := hA.tail.tail
    have hexpr := expr_complete he f _ _ (by omega) hA2.left followOK_rparen
    have hA3 : Ahead tokens (cur + 1 + 1 + e.length) (TOK_RPAREN :: b) nxt := hA2.right
    have hblock := ihb f _ nxt (by omega) hA3.tail
    rw [whileStatement_succ, consume_hit hA.kindAt (by decide), bind_ok,
      consume_hit hA.tail.kindAt (by decide), bind_ok, hexpr, bind_ok,
      consume_hit hA3.kindAt (by decide), bind_ok, hblock]
    congr 1
    omega
  | @forStmt i c u b hi hc hu hb ihi ihc ihu ihb =>
    intro fuel cur nxt hf hA
    simp only [List.cons_append, List.append_assoc] at hA
    simp only [List.length_cons, List.length_append] at hf ⊢
    obtain ⟨f, rfl⟩ : ∃ k, fuel = k + 1 := ⟨fuel - 1, by omega⟩
    have hA2 : Ahead tokens (cur + 1 + 1)
        (i ++ (c ++ TOK_SEMICOLON :: (u ++ TOK_RPAREN :: b))) nxt := hA.tail.tail
    have hinit := ihi f _ _ (by omega) hA2.left
    have hA3 : Ahead tokens (cur + 1 + 1 + i.length)
        (c ++ TOK_SEMICOLON :: (u ++ TOK_RPAREN :: b)) nxt := hA2.right
    have hcond := ihc f _ TOK_SEMICOLON (by omega) (Or.inl rfl) hA3.left
    have hA4 : Ahead tokens (cur + 1 + 1 + i.length + c.length)
        (TOK_SEMICOLON :: (u ++ TOK_RPAREN :: b)) nxt := hA3.right
    have hA5 : Ahead tokens (cur + 1 + 1 + i.length + c.length + 1)
        (u ++ TOK_RPAREN :: b) nxt := hA4.tail
    have hupd := ihu f _ TOK_RPAREN (by omega) (Or.inr rfl) hA5.left
    have hA6 : Ahead tokens (cur + 1 + 1 + i.length + c.length + 1 + u.length)
        (TOK_RPAREN :: b) nxt := hA5.right
    have hblock := ihb f _ nxt (by omega) hA6.tail
    rw [forStatement_succ, consume_hit hA.kindAt (by decide), bind_ok,
      consume_hit hA.tail.kindAt (by decide), bind_ok, hinit, bind_ok, hcond, bind_ok,
      consume_hit hA4.kindAt (by decide), bind_ok, hupd, bind_ok,
      consume_hit hA6.kindAt (by decide), bind_ok, hblock]
    congr 1
    omega
  | @forInitVar w h ih =>
    intro fuel cur nxt hf hA
    have hk : ∃ t, TypeTok t ∧ KindAt tokens cur t := by
      cases h with
      | varDecl ht => exact ⟨_, ht, hA.kindAt⟩
      | varDeclInit ht _ => exact ⟨_, ht, hA.kindAt⟩
    obtain ⟨t, ht, hk⟩ := hk
    have h1 : t ∉ [TOK_SEMICOLON] := by
      intro hm
      rw [List.mem_singleton] at hm
      subst hm
      simp [TypeTok] at ht
    rw [forInit, matchAny_miss hk h1, ofOption_some]
    simp only [Bool.false_eq_true, if_false,
      checkAny_hit hk (typeTok_ne_EOF ht) (typeTok_mem ht), ofOption_some, if_true]
    exact ih fuel cur nxt hf hA
  | @forInitExpr w h ih =>
    intro fuel cur nxt hf hA
    have hk : ∃ t, KindAt tokens cur t ∧
        (t ∈ literalTokens ∨ t = TOK_IDENTIFIER ∨ t = TOK_LPAREN ∨ t = TOK_NOT ∨
          t = TOK_MINUS) := by
      cases h with
      | exprStmt he =>
        obtain ⟨t, rest, rfl, hfirst⟩ := expr_first he
        exact ⟨t, hA.kindAt, hfirst⟩
    obtain ⟨t, hk, hfirst⟩ := hk
    have h1 : t ∉ [TOK_SEMICOLON] := by
      intro hm
      rw [List.mem_singleton] at hm
      subst hm
      simp [literalTokens] at hfirst
    have h2 : t ∉ typeTokens := by
      intro hm
      simp only [typeTokens, List.mem_cons, List.mem_singleton, List.not_mem_nil,
        or_false] at hm
      rcases hm with rfl | rfl | rfl | rfl <;> simp [literalTokens] at hfirst
    rw [forInit, matchAny_miss hk h1, ofOption_some]
    simp only [Bool.false_eq_true, if_false, checkAny_miss hk h2, ofOption_some]
    exact ih fuel cur nxt hf hA
  | forInitEmpty =>
    intro fuel cur nxt _ hA
    rw [forInit, matchAny_hit hA.kindAt (by decide) (List.mem_singleton.2 rfl), ofOption_some]
    rfl
  | optNone =>
    intro fuel cur stop hf hstop hA
    exact optExpr_complete Derives.optNone fuel cur stop hf hstop hA
  | optSome he _ =>
    intro fuel cur stop hf hstop hA
    exact optExpr_complete (Derives.optSome he) fuel cur stop hf hstop hA
  | @outputStmt e he _ =>
    intro fuel cur nxt hf hA
    simp only [List.length_cons, List.length_append, List.length_nil] at hf ⊢
    rw [outputStatement_complete he fuel (by omega) hA]
  | inputStmt =>
    intro cur nxt hA
    exact inputStatement_complete hA
  | @returnStmt e he _ =>
    intro fuel cur nxt hf hA
    simp only [List.length_cons, List.length_append, List.length_nil] at hf ⊢
    rw [returnStatement_complete he fuel (by omega) hA]
  | breakStmt =>
    intro cur nxt hA
    exact breakStatement_complete hA
  | @exprStmt e he _ =>
    intro fuel cur nxt hf hA
    simp only [List.length_append, List.length_cons, List.length_nil] at hf ⊢
    rw [expressionStatement_complete he fuel (by omega) hA]
  | _ => trivial

/-! ## The verdict line -/

/-- The recovery loop raises no `ParseError`. -/
theorem synchronizeLoop_not_thrown (tokens : List Token) : ∀ (fuel current : Nat)
    (e : ParseError) (c : Nat), synchronizeLoop tokens fuel current ≠ .thrown e c
  | 0, _, _, _ => by
    intro h
    cases h
  | fuel + 1, cur, e, c => by
    intro h
    rw [synchronizeLoop] at h
    cases h1 : isAtEnd tokens cur with
    | none => rw [h1] at h; cases h
    | some atEnd =>
      rw [h1, ofOption_some] at h
      cases atEnd with
      | true => cases h
      | false =>
        simp only [Bool.false_eq_true, if_false] at h
        cases h2 : previous tokens cur with
        | none => rw [h2] at h; cases h
        | some p =>
          rw [h2, ofOption_some] at h
          split_ifs at h
          cases h3 : peek tokens cur with
          | none => rw [h3] at h; cases h
          | some t =>
            rw [h3, ofOption_some] at h
            split_ifs at h
            cases h4 : advance tokens cur with
            | none => rw [h4] at h; cases h
            | some a =>
              rw [h4, ofOption_some] at h
              exact synchronizeLoop_not_thrown tokens fuel a.2 e c h

/-- No `ParseError` leaves `synchronize`. -/
theorem synchronize_not_thrown (tokens : List Token) (current : Nat) (e : ParseError)
    (c : Nat) : synchronize tokens current ≠ .thrown e c := by
  intro h
  rw [synchronize] at h
  cases h4 : advance tokens current with
  | none => rw [h4] at h; cases h
  | some a =>
    rw [h4, ofOption_some] at h
    exact synchronizeLoop_not_thrown tokens _ a.2 e c h

/-- No `ParseError` leaves `declaration`: it catches every one of them. -/
theorem declaration_not_thrown (tokens : List Token) (fuel current : Nat) (e : ParseError)
    (c : Nat) : (declaration tokens fuel current).2 ≠ .thrown e c := by
  rw [declaration]
  cases h : declarationBody tokens fuel current with
  | ok c1 => intro h2; cases h2
  | thrown e1 c1 => exact synchronize_not_thrown tokens c1 e c
  | ub => intro h2; cases h2
  | timeout => intro h2; cases h2

/-- The declaration loop can only end with the verdict "Parsing complete. Syntax is
valid.". -/
theorem parseLoop_verdict (tokens : List Token) (depth : Nat) : ∀ fuel current diags out,
    parseLoop tokens depth fuel current diags = .finished out →
    out.verdict = "Parsing complete. Syntax is valid."
  | 0, _, _, _, h => by cases h
  | fuel + 1, cur, diags, out, h => by
    rw [parseLoop_succ] at h
    cases hend : isAtEnd tokens cur with
    | none => rw [hend] at h; cases h
    | some atEnd =>
      rw [hend] at h
      cases atEnd with
      | true =>
        cases h
        rfl
      | false =>
        simp only at h
        have hnt := declaration_not_thrown tokens depth cur
        cases hdecl : declaration tokens depth cur with
        | mk ds r =>
          rw [hdecl] at h hnt
          cases r with
          | ok c => exact parseLoop_verdict tokens depth fuel c _ out h
          | thrown e c => exact absurd rfl (hnt e c)
          | ub => cases h
          | timeout => cases h

/-- Whenever `parse` finishes, its verdict line is "Parsing complete. Syntax is
valid.", whatever diagnostics were reported: the "Parsing failed." branch is dead. -/
theorem parse_verdict (tokens : List Token) (out : Output)
    (h : parse tokens = .finished out) :
    out.verdict = "Parsing complete. Syntax is valid." :=
  parseLoop_verdict tokens _ _ _ _ out h

end Parser

theorem Reads.nil (tokens : List Token) (current : Nat) : Reads tokens current current [] :=
  ⟨rfl, _, rfl⟩

theorem Reads.single {tokens : List Token} {current : Nat} {k : TokenType}
    (h : KindAt tokens current k) : Reads tokens current (current + 1) [k] := by
  obtain ⟨t, ht, rfl⟩ := h
  refine ⟨rfl, (kinds tokens).drop (current + 1), ?_⟩
  have h1 : (kinds tokens)[current]? = some t.type := by
    simp [kinds, List.getElem?_map, ht]
  obtain ⟨hlt, hget⟩ := List.getElem?_eq_some_iff.1 h1
  rw [List.drop_eq_getElem_cons hlt, hget]
  rfl

theorem Reads.append {tokens : List Token} {a b c : Nat} {w1 w2 : List TokenType}
    (h1 : Reads tokens a b w1) (h2 : Reads tokens b c w2) : Reads tokens a c (w1 ++ w2) := by
  obtain ⟨hb, r1, hr1⟩ := h1
  obtain ⟨hc, r2, hr2⟩ := h2
  refine ⟨by rw [hc, hb, List.length_append]; omega, r2, ?_⟩
  have : (kinds tokens).drop b = r1 := by
    rw [hb, ← List.drop_drop, hr1, List.drop_left]
  rw [hr1, ← this, hr2, List.append_assoc]

theorem Reads.cons {tokens : List Token} {a c : Nat} {k : TokenType} {w : List TokenType}
    (h1 : KindAt tokens a k) (h2 : Reads tokens (a + 1) c w) : Reads tokens a c (k :: w) :=
  Reads.append (Reads.single h1) h2

namespace Parser

theorem bind_eq_ok {r : Res} {k : Nat → Res} {c' : Nat} (h : r.bind k = .ok c') :
    ∃ c, r = .ok c ∧ k c = .ok c' := by
  cases r with
  | ok c => exact ⟨c, rfl, h⟩
  | thrown e c => cases h
  | ub => cases h
  | timeout => cases h

theorem ofOption_eq_ok {α : Type} {o : Option α} {k : α → Res} {c' : Nat}
    (h : Res.ofOption o k = .ok c') : ∃ a, o = some a ∧ k a = .ok c' := by
  cases o with
  | none => cases h
  | some a => exact ⟨a, rfl, h⟩

theorem check_eq_some {tokens : List Token} {current : Nat} {type : TokenType} {b : Bool}
    (h : check tokens current type = some b) :
    ∃ k, KindAt tokens current k ∧ b = decide (k ≠ TOK_EOF ∧ k = type) := by
  cases ht : tokens[current]? with
  | none => simp [check, isAtEnd, peek, ht] at h
  | some t =>
    rw [check_eq ht] at h
    exact ⟨t.type, ⟨t, ht, rfl⟩, (Option.some.inj h).symm⟩

theorem checkAny_eq_some {tokens : List Token} {current : Nat} {type : TokenType}
    {types : List TokenType} {b : Bool} (h : checkAny tokens current (type :: types) = some b) :
    ∃ k, KindAt tokens current k ∧ b = decide (k ≠ TOK_EOF ∧ k ∈ type :: types) := by
  cases ht : tokens[current]? with
  | none => simp [checkAny, check, isAtEnd, peek, ht] at h
  | some t =>
    rw [checkAny_eq ht] at h
    exact ⟨t.type, ⟨t, ht, rfl⟩, (Option.some.inj h).symm⟩

theorem matchAny_eq_some {tokens : List Token} {current : Nat} {type : TokenType}
    {types : List TokenType} {m : Bool × Nat}
    (h : matchAny tokens current (type :: types) = some m) :
    ∃ k, KindAt tokens current k ∧
      m = if k ≠ TOK_EOF ∧ k ∈ type :: types then (true, current + 1) else (false, current) := by
  cases ht : tokens[current]? with
  | none => simp [matchAny, check, isAtEnd, peek, ht] at h
  | some t =>
    rw [matchAny_eq ht] at h
    exact ⟨t.type, ⟨t, ht, rfl⟩, (Option.some.inj h).symm⟩

theorem consume_eq_ok {tokens : List Token} {current c' : Nat} {type : TokenType}
    {message : String} (h : consume tokens current type message = .ok c') :
    c' = current + 1 ∧ KindAt tokens current type ∧ type ≠ TOK_EOF := by
  cases ht : tokens[current]? with
  | none => simp [consume, check, isAtEnd, peek, ht, Res.ofOption] at h
  | some t =>
    rw [consume_eq ht] at h
    by_cases h1 : t.type ≠ TOK_EOF ∧ t.type = type
    · rw [if_pos h1] at h
      obtain ⟨h2, rfl⟩ := h1
      exact ⟨(Res.ok.inj h).symm, ⟨t, ht, rfl⟩, h2⟩
    · rw [if_neg h1] at h
      cases h

theorem consume_reads {tokens : List Token} {current c' : Nat} {type : TokenType}
    {message : String} (h : consume tokens current type message = .ok c') :
    Reads tokens current c' [type] := by
  obtain ⟨rfl, hk, -⟩ := consume_eq_ok h
  exact Reads.single hk

theorem whileMatch_sound {tokens : List Token} (l : Level) (p : Nat → Res)
    (hp : Sound tokens p l.operand) : ∀ loopFuel current c',
    whileMatch tokens l.ops p loopFuel current = .ok c' →
    ∃ r, Reads tokens current c' r ∧ Derives (.BinRest l) r
  | 0, _, _, h => by cases h
  | lf + 1, cur, c', h => by
    rw [whileMatch] at h
    obtain ⟨m, hm, h⟩ := ofOption_eq_ok h
    have hne : l.ops ≠ [] := by cases l <;> simp [Level.ops]
    obtain ⟨op, ops, hops⟩ := List.exists_cons_of_ne_nil hne
    rw [hops] at hm
    obtain ⟨k, hk, rfl⟩ := matchAny_eq_some hm
    rw [← hops] at h
    by_cases hhit : k ≠ TOK_EOF ∧ k ∈ l.ops
    · rw [if_pos hhit] at h
      simp only [if_true] at h
      obtain ⟨c1, h1, h2⟩ := bind_eq_ok h
      obtain ⟨w, hw, hd⟩ := hp _ _ h1
      obtain ⟨r, hr, hdr⟩ := whileMatch_sound l p hp lf c1 c' h2
      exact ⟨k :: w ++ r, Reads.append (Reads.cons hk hw) hr, Derives.binRestCons hhit.2 hd hdr⟩
    · rw [if_neg hhit] at h
      simp only [Bool.false_eq_true, if_false] at h
      cases h
      exact ⟨[], Reads.nil _ _, Derives.binRestNil⟩

theorem levelRun_sound {tokens : List Token} (l : Level) (fuel loopFuel : Nat)
    (hp : Sound tokens (operandParser l tokens fuel) l.operand) :
    Sound tokens (levelRun l tokens fuel loopFuel) (.Bin l) := by
  intro cur c' h
  obtain ⟨c1, h1, h2⟩ := bind_eq_ok h
  obtain ⟨w, hw, hd⟩ := hp _ _ h1
  obtain ⟨r, hr, hdr⟩ := whileMatch_sound l _ hp loopFuel c1 c' h2
  exact ⟨w ++ r, hw.append hr, Derives.bin hd hdr⟩

theorem doWhileMatch_args_sound {tokens : List Token} (p : Nat → Res)
    (hp : Sound tokens p .Expr) : ∀ loopFuel current c',
    doWhileMatch tokens [TOK_COMMA] p loopFuel current = .ok c' →
    ∃ w, Reads tokens current c' w ∧ Derives .ArgList w
  | 0, _, _, h => by cases h
  | lf + 1, cur, c', h => by
    rw [doWhileMatch_succ] at h
    obtain ⟨c1, h1, h⟩ := bind_eq_ok h
    obtain ⟨e, he, hde⟩ := hp _ _ h1
    obtain ⟨m, hm, h⟩ := ofOption_eq_ok h
    obtain ⟨k, hk, rfl⟩ := matchAny_eq_some hm
    by_cases hhit : k ≠ TOK_EOF ∧ k ∈ [TOK_COMMA]
    · rw [if_pos hhit] at h
      simp only [if_true] at h
      obtain ⟨r, hr, hdr⟩ := doWhileMatch_args_sound p hp lf _ c' h
      have hkc : k = TOK_COMMA := List.mem_singleton.1 hhit.2
      subst hkc
      exact ⟨e ++ TOK_COMMA :: r, he.append (Reads.cons hk hr), Derives.argCons hde hdr⟩
    · rw [if_neg hhit] at h
      simp only [Bool.false_eq_true, if_false] at h
      cases h
      exact ⟨e, he, Derives.argOne hde⟩

end Parser

namespace Parser

theorem primary_other (tokens : List Token) (fuel current : Nat) {k : TokenType}
    (hk : KindAt tokens current k) (h1 : k ∉ literalTokens) (h2 : k ≠ TOK_IDENTIFIER)
    (h3 : k ≠ TOK_LPAREN) :
    ∃ t, tokens[current]? = some t ∧ primary tokens (fuel + 1) current =
      .thrown ⟨t, "Expected expression (literal, variable, grouping)."⟩ current := by
  have h1' : k ∉ [TOK_INTEGER, TOK_DOUBLE, TOK_STRING, TOK_TRUE, TOK_FALSE] := h1
  have hk' := hk
  obtain ⟨t, ht, -⟩ := hk'
  refine ⟨t, ht, ?_⟩
  rw [primary_succ, matchAny_miss hk h1', ofOption_some]
  simp only [Bool.false_eq_true, if_false, check_miss hk h2, ofOption_some,
    matchAny_miss hk (fun h => h2 (List.mem_singleton.1 h)),
    matchAny_miss hk (fun h => h3 (List.mem_singleton.1 h)), throwAt_eq ht]

theorem primary_ident_ub (tokens : List Token) (fuel current : Nat)
    (h0 : KindAt tokens current TOK_IDENTIFIER) (h1 : tokens[current + 1]? = none) :
    primary tokens (fuel + 1) current = .ub := by
  rw [primary_succ, matchAny_miss h0 (by decide), ofOption_some]
  simp only [Bool.false_eq_true, if_false, check_hit h0 (by decide), ofOption_some, if_true, h1,
    Option.map_none']
  rfl

theorem primary_sound_step {tokens : List Token} {fuel : Nat}
    (hE : Sound tokens (expr tokens fuel) .Expr) :
    Sound tokens (primary tokens (fuel + 1)) .Primary := by
  intro cur c' h
  have hk : ∃ k, KindAt tokens cur k := by
    rw [primary_succ] at h
    obtain ⟨m, hm, -⟩ := ofOption_eq_ok h
    obtain ⟨k, hk, -⟩ := matchAny_eq_some hm
    exact ⟨k, hk⟩
  obtain ⟨k, hk⟩ := hk
  by_cases hl : k ∈ literalTokens
  · rw [primary_literal tokens fuel cur hk hl] at h
    cases h
    exact ⟨[k], Reads.single hk, Derives.primLiteral hl⟩
  by_cases hi : k = TOK_IDENTIFIER
  · subst hi
    cases hnext : tokens[cur + 1]? with
    | none =>
      rw [primary_ident_ub tokens fuel cur hk hnext] at h
      cases h
    | some t1 =>
      have hk1 : KindAt tokens (cur + 1) t1.type := ⟨t1, hnext, rfl⟩
      rw [primary_ident tokens fuel cur t1.type hk hk1] at h
      by_cases hcall : t1.type = TOK_LPAREN
      · rw [if_pos hcall] at h
        rw [hcall] at hk1
        obtain ⟨closing, hc, h⟩ := ofOption_eq_ok h
        obtain ⟨c1, h1, h2⟩ := bind_eq_ok h
        obtain ⟨rfl, hk3, -⟩ := consume_eq_ok h2
        cases closing with
        | true =>
          simp only [Bool.not_true, Bool.false_eq_true, if_false] at h1
          cases h1
          exact ⟨[TOK_IDENTIFIER, TOK_LPAREN, TOK_RPAREN],
            Reads.cons hk (Reads.cons hk1 (Reads.single hk3)), Derives.primCall⟩
        | false =>
          simp only [Bool.not_false, if_true] at h1
          obtain ⟨a, ha, hda⟩ := doWhileMatch_args_sound _ hE fuel _ _ h1
          refine ⟨TOK_IDENTIFIER :: TOK_LPAREN :: a ++ [TOK_RPAREN], ?_,
            Derives.primCallArgs hda⟩
          exact Reads.cons hk (Reads.cons hk1 (ha.append (Reads.single hk3)))
      · rw [if_neg hcall] at h
        by_cases hassign : t1.type = TOK_ASSIGN
        · rw [if_pos hassign] at h
          rw [hassign] at hk1
          obtain ⟨e, he, hde⟩ := hE _ _ h
          exact ⟨TOK_IDENTIFIER :: TOK_ASSIGN :: e, Reads.cons hk (Reads.cons hk1 he),
            Derives.primAssign hde⟩
        · rw [if_neg hassign] at h
          cases h
          exact ⟨[TOK_IDENTIFIER], Reads.single hk, Derives.primIdent⟩
  by_cases hp : k = TOK_LPAREN
  · subst hp
    rw [primary_paren tokens fuel cur hk] at h
    obtain ⟨c1, h1, h2⟩ := bind_eq_ok h
    obtain ⟨e, he, hde⟩ := hE _ _ h1
    obtain ⟨rfl, hk3, -⟩ := consume_eq_ok h2
    exact ⟨TOK_LPAREN :: e ++ [TOK_RPAREN], Reads.cons hk (he.append (Reads.single hk3)),
      Derives.primParen hde⟩
  · obtain ⟨t, -, hthrown⟩ := primary_other tokens fuel cur hk hl hi hp
    rw [hthrown] at h
    cases h

theorem unary_sound_step {tokens : List Token} {fuel : Nat}
    (hU : Sound tokens (unary tokens fuel) .Unary)
    (hP : Sound tokens (primary tokens fuel) .Primary) :
    Sound tokens (unary tokens (fuel + 1)) .Unary := by
  intro cur c' h
  rw [unary_succ] at h
  obtain ⟨m, hm, h⟩ := ofOption_eq_ok h
  obtain ⟨k, hk, rfl⟩ := matchAny_eq_some hm
  by_cases hhit : k ≠ TOK_EOF ∧ k ∈ [TOK_NOT, TOK_MINUS]
  · rw [if_pos hhit] at h
    simp only [if_true] at h
    obtain ⟨w, hw, hd⟩ := hU _ _ h
    have hop : k = TOK_NOT ∨ k = TOK_MINUS := by simpa using hhit.2
    exact ⟨k :: w, Reads.cons hk hw, Derives.unaryOp hop hd⟩
  · rw [if_neg hhit] at h
    simp only [Bool.false_eq_true, if_false] at h
    obtain ⟨w, hw, hd⟩ := hP _ _ h
    exact ⟨w, hw, Derives.unaryPrimary hd⟩

theorem sound_of_timeout {tokens : List Token} {p : Nat → Res} {n : NT}
    (h : ∀ c, p c = .timeout) : Sound tokens p n := by
  intro cur c' hc
  rw [h] at hc
  cases hc

theorem expr_sound_all (tokens : List Token) : ∀ fuel,
    Sound tokens (expr tokens fuel) .Expr ∧
    (∀ l, Sound tokens (levelParser l tokens fuel) (.Bin l)) ∧
    Sound tokens (unary tokens fuel) .Unary ∧
    Sound tokens (primary tokens fuel) .Primary
  | 0 => by
    refine ⟨sound_of_timeout fun _ => rfl, fun l => ?_, sound_of_timeout fun _ => rfl,
      sound_of_timeout fun _ => rfl⟩
    cases l <;> exact sound_of_timeout fun _ => rfl
  | fuel + 1 => by
    obtain ⟨hE, hL, hU, hP⟩ := expr_sound_all tokens fuel
    refine ⟨?_, ?_, unary_sound_step hU hP, primary_sound_step hE⟩
    · intro cur c' h
      obtain ⟨w, hw, hd⟩ := hL .LogicalOr cur c' h
      exact ⟨w, hw, Derives.expr hd⟩
    · intro l
      have hop : Sound tokens (operandParser l tokens fuel) l.operand := by
        cases l
        · exact hL .LogicalAnd
        · exact hL .Equality
        · exact hL .Relational
        · exact hL .Additive
        · exact hL .Multiplicative
        · exact hU
      intro cur c' h
      rw [levelParser_succ] at h
      exact levelRun_sound l fuel fuel hop cur c' h

theorem expr_sound (tokens : List Token) (fuel : Nat) : Sound tokens (expr tokens fuel) .Expr :=
  (expr_sound_all tokens fuel).1

end Parser

namespace Parser

theorem typeTok_of_mem {k : TokenType} (h : k ∈ typeTokens) : TypeTok k := h

theorem variableDeclaration_sound {tokens : List Token} {fuel current c' : Nat} {k : TokenType}
    (hk : KindAt tokens current k) (ht : TypeTok k)
    (h : variableDeclaration tokens fuel current = .ok c') :
    ∃ w, Reads tokens current c' w ∧ Derives .VarDecl w := by
  obtain ⟨t0, ht0⟩ := advance_kind hk (typeTok_ne_EOF ht)
  rw [variableDeclaration, ht0, ofOption_some] at h
  obtain ⟨c1, h1, h⟩ := bind_eq_ok h
  obtain ⟨rfl, hk1, -⟩ := consume_eq_ok h1
  obtain ⟨m, hm, h⟩ := ofOption_eq_ok h
  obtain ⟨k2, hk2, rfl⟩ := matchAny_eq_some hm
  obtain ⟨c2, h2, h3⟩ := bind_eq_ok h
  obtain ⟨rfl, hk3, -⟩ := consume_eq_ok h3
  by_cases hhit : k2 ≠ TOK_EOF ∧ k2 ∈ [TOK_ASSIGN]
  · rw [if_pos hhit] at h2
    simp only [if_true] at h2
    have hka : k2 = TOK_ASSIGN := List.mem_singleton.1 hhit.2
    subst hka
    obtain ⟨e, he, hde⟩ := expr_sound tokens fuel _ _ h2
    exact ⟨k :: TOK_IDENTIFIER :: TOK_ASSIGN :: e ++ [TOK_SEMICOLON],
      Reads.cons hk (Reads.cons hk1 (Reads.cons hk2 (he.append (Reads.single hk3)))),
      Derives.varDeclInit ht hde⟩
  · rw [if_neg hhit] at h2
    simp only [Bool.false_eq_true, if_false] at h2
    cases h2
    exact ⟨[k, TOK_IDENTIFIER, TOK_SEMICOLON],
      Reads.cons hk (Reads.cons hk1 (Reads.single hk3)), Derives.varDecl ht⟩

theorem includeStatement_sound {tokens : List Token} :
    Sound tokens (includeStatement tokens) .IncludeStmt := by
  intro cur c' h
  obtain ⟨c1, h1, h2⟩ := bind_eq_ok h
  obtain ⟨rfl, hk1, -⟩ := consume_eq_ok h1
  obtain ⟨rfl, hk2, -⟩ := consume_eq_ok h2
  exact ⟨_, Reads.cons hk1 (Reads.single hk2), Derives.includeStmt⟩

theorem outputStatement_sound {tokens : List Token} (fuel : Nat) :
    Sound tokens (outputStatement tokens fuel) .OutputStmt := by
  intro cur c' h
  obtain ⟨c1, h1, h⟩ := bind_eq_ok h
  obtain ⟨rfl, hk1, -⟩ := consume_eq_ok h1
  obtain ⟨c2, h2, h3⟩ := bind_eq_ok h
  obtain ⟨e, he, hde⟩ := expr_sound tokens fuel _ _ h2
  obtain ⟨rfl, hk3, -⟩ := consume_eq_ok h3
  exact ⟨TOK_BRIEF :: e ++ [TOK_SEMICOLON], Reads.cons hk1 (he.append (Reads.single hk3)),
    Derives.outputStmt hde⟩

theorem inputStatement_sound {tokens : List Token} :
    Sound tokens (inputStatement tokens) .InputStmt := by
  intro cur c' h
  obtain ⟨c1, h1, h⟩ := bind_eq_ok h
  obtain ⟨rfl, hk1, -⟩ := consume_eq_ok h1
  obtain ⟨c2, h2, h3⟩ := bind_eq_ok h
  obtain ⟨rfl, hk2, -⟩ := consume_eq_ok h2
  obtain ⟨rfl, hk3, -⟩ := consume_eq_ok h3
  exact ⟨_, Reads.cons hk1 (Reads.cons hk2 (Reads.single hk3)), Derives.inputStmt⟩

theorem breakStatement_sound {tokens : List Token} :
    Sound tokens (breakStatement tokens) .BreakStmt := by
  intro cur c' h
  obtain ⟨c1, h1, h2⟩ := bind_eq_ok h
  obtain ⟨rfl, hk1, -⟩ := consume_eq_ok h1
  obtain ⟨rfl, hk2, -⟩ := consume_eq_ok h2
  exact ⟨_, Reads.cons hk1 (Reads.single hk2), Derives.breakStmt⟩

theorem expressionStatement_sound {tokens : List Token} (fuel : Nat) :
    Sound tokens (expressionStatement tokens fuel) .ExprStmt := by
  intro cur c' h
  obtain ⟨c1, h1, h2⟩ := bind_eq_ok h
  obtain ⟨e, he, hde⟩ := expr_sound tokens fuel _ _ h1
  obtain ⟨rfl, hk2, -⟩ := consume_eq_ok h2
  exact ⟨e ++ [TOK_SEMICOLON], he.append (Reads.single hk2), Derives.exprStmt hde⟩

theorem optExpr_sound {tokens : List Token} (fuel : Nat) (stop : TokenType) :
    Sound tokens (optExpr tokens fuel stop) .OptExpr := by
  intro cur c' h
  obtain ⟨b, hb, h⟩ := ofOption_eq_ok h
  cases b with
  | true =>
    simp only [Bool.not_true, Bool.false_eq_true, if_false] at h
    cases h
    exact ⟨[], Reads.nil _ _, Derives.optNone⟩
  | false =>
    simp only [Bool.not_false, if_true] at h
    obtain ⟨e, he, hde⟩ := expr_sound tokens fuel _ _ h
    exact ⟨e, he, Derives.optSome hde⟩

theorem returnStatement_sound {tokens : List Token} (fuel : Nat) :
    Sound tokens (returnStatement tokens fuel) .ReturnStmt := by
  intro cur c' h
  rw [returnStatement] at h
  obtain ⟨c1, h1, h⟩ := bind_eq_ok h
  obtain ⟨rfl, hk1, -⟩ := consume_eq_ok h1
  rw [ofOption_bind] at h
  obtain ⟨c2, h2, h3⟩ := bind_eq_ok h
  obtain ⟨e, he, hde⟩ := optExpr_sound fuel TOK_SEMICOLON _ _ h2
  obtain ⟨rfl, hk3, -⟩ := consume_eq_ok h3
  exact ⟨TOK_RETREAT :: e ++ [TOK_SEMICOLON], Reads.cons hk1 (he.append (Reads.single hk3)),
    Derives.returnStmt hde⟩

theorem forInit_sound {tokens : List Token} (fuel : Nat) :
    Sound tokens (forInit tokens fuel) .ForInit := by
  intro cur c' h
  obtain ⟨m, hm, h⟩ := ofOption_eq_ok h
  obtain ⟨k, hk, rfl⟩ := matchAny_eq_some hm
  by_cases hhit : k ≠ TOK_EOF ∧ k ∈ [TOK_SEMICOLON]
  · rw [if_pos hhit] at h
    simp only [if_true] at h
    cases h
    have hks : k = TOK_SEMICOLON := List.mem_singleton.1 hhit.2
    subst hks
    exact ⟨[TOK_SEMICOLON], Reads.single hk, Derives.forInitEmpty⟩
  · rw [if_neg hhit] at h
    simp only [Bool.false_eq_true, if_false, checkAny_kind hk, ofOption_some,
      decide_eq_true_eq] at h
    by_cases hty : k ≠ TOK_EOF ∧ k ∈ typeTokens
    · rw [if_pos hty] at h
      obtain ⟨w, hw, hd⟩ := variableDeclaration_sound hk (typeTok_of_mem hty.2) h
      exact ⟨w, hw, Derives.forInitVar hd⟩
    · rw [if_neg hty] at h
      obtain ⟨w, hw, hd⟩ := expressionStatement_sound fuel _ _ h
      exact ⟨w, hw, Derives.forInitExpr hd⟩

theorem blockLoop_sound {tokens : List Token} (p : Nat → Res) (hp : Sound tokens p .Statement) :
    ∀ loopFuel current c', blockLoop tokens p loopFuel current = .ok c' →
    ∃ w, Reads tokens current c' w ∧ Derives .Statements w
  | 0, _, _, h => by cases h
  | lf + 1, cur, c', h => by
    rw [blockLoop_succ] at h
    obtain ⟨closing, hc, h⟩ := ofOption_eq_ok h
    obtain ⟨cont, hcont, h⟩ := ofOption_eq_ok h
    cases cont with
    | false =>
      simp only [Bool.false_eq_true, if_false] at h
      cases h
      exact ⟨[], Reads.nil _ _, Derives.stmtsNil⟩
    | true =>
      simp only [if_true] at h
      obtain ⟨c1, h1, h2⟩ := bind_eq_ok h
      obtain ⟨s, hs, hds⟩ := hp _ _ h1
      obtain ⟨ss, hss, hdss⟩ := blockLoop_sound p hp lf c1 c' h2
      exact ⟨s ++ ss, hs.append hss, Derives.stmtsCons hds hdss⟩

theorem block_sound_step {tokens : List Token} {fuel : Nat}
    (hS : Sound tokens (statement tokens fuel) .Statement) :
    Sound tokens (block tokens (fuel + 1)) .Block := by
  intro cur c' h
  rw [block_succ] at h
  obtain ⟨c1, h1, h⟩ := bind_eq_ok h
  obtain ⟨rfl, hk1, -⟩ := consume_eq_ok h1
  obtain ⟨c2, h2, h3⟩ := bind_eq_ok h
  obtain ⟨ss, hss, hdss⟩ := blockLoop_sound _ hS fuel _ _ h2
  obtain ⟨rfl, hk3, -⟩ := consume_eq_ok h3
  exact ⟨TOK_LBRACE :: ss ++ [TOK_RBRACE], Reads.cons hk1 (hss.append (Reads.single hk3)),
    Derives.block hdss⟩

theorem ifStatement_sound_step {tokens : List Token} {fuel : Nat}
    (hB : Sound tokens (block tokens fuel) .Block)
    (hI : Sound tokens (ifStatement tokens fuel) .IfStmt) :
    Sound tokens (ifStatement tokens (fuel + 1)) .IfStmt := by
  intro cur c' h
  rw [ifStatement_succ] at h
  obtain ⟨c1, h1, h⟩ := bind_eq_ok h
  obtain ⟨rfl, hk1, -⟩ := consume_eq_ok h1
  obtain ⟨c2, h2, h⟩ := bind_eq_ok h
  obtain ⟨rfl, hk2, -⟩ := consume_eq_ok h2
  obtain ⟨c3, h3, h⟩ := bind_eq_ok h
  obtain ⟨e, he, hde⟩ := expr_sound tokens fuel _ _ h3
  obtain ⟨c4, h4, h⟩ := bind_eq_ok h
  obtain ⟨rfl, hk4, -⟩ := consume_eq_ok h4
  obtain ⟨c5, h5, h⟩ := bind_eq_ok h
  obtain ⟨b, hb, hdb⟩ := hB _ _ h5
  obtain ⟨m, hm, h⟩ := ofOption_eq_ok h
  obtain ⟨k, hk, rfl⟩ := matchAny_eq_some hm
  have hfront : Reads tokens cur c5 (TOK_EVALUATE :: TOK_LPAREN :: e ++ TOK_RPAREN :: b) :=
    Reads.cons hk1 (Reads.cons hk2 (he.append (Reads.cons hk4 hb)))
  by_cases hhit : k ≠ TOK_EOF ∧ k ∈ [TOK_ADJUST]
  · rw [if_pos hhit] at h
    simp only [if_true] at h
    have hka : k = TOK_ADJUST := List.mem_singleton.1 hhit.2
    subst hka
    obtain ⟨isIf, hc, h⟩ := ofOption_eq_ok h
    cases isIf with
    | true =>
      simp only [if_true] at h
      obtain ⟨r, hr, hdr⟩ := hI _ _ h
      exact ⟨TOK_EVALUATE :: TOK_LPAREN :: e ++ TOK_RPAREN :: b ++ TOK_ADJUST :: r,
        hfront.append (Reads.cons hk hr), Derives.ifElseIf hde hdb hdr⟩
    | false =>
      simp only [Bool.false_eq_true, if_false] at h
      obtain ⟨r, hr, hdr⟩ := hB _ _ h
      exact ⟨TOK_EVALUATE :: TOK_LPAREN :: e ++ TOK_RPAREN :: b ++ TOK_ADJUST :: r,
        hfront.append (Reads.cons hk hr), Derives.ifElse hde hdb hdr⟩
  · rw [if_neg hhit] at h
    simp only [Bool.false_eq_true, if_false] at h
    cases h
    exact ⟨_, hfront, Derives.ifStmt hde hdb⟩

theorem whileStatement_sound_step {tokens : List Token} {fuel : Nat}
    (hB : Sound tokens (block tokens fuel) .Block) :
    Sound tokens (whileStatement tokens (fuel + 1)) .WhileStmt := by
  intro cur c' h
  rw [whileStatement_succ] at h
  obtain ⟨c1, h1, h⟩ := bind_eq_ok h
  obtain ⟨rfl, hk1, -⟩ := consume_eq_ok h1
  obtain ⟨c2, h2, h⟩ := bind_eq_ok h
  obtain ⟨rfl, hk2, -⟩ := consume_eq_ok h2
  obtain ⟨c3, h3, h⟩ := bind_eq_ok h
  obtain ⟨e, he, hde⟩ := expr_sound tokens fuel _ _ h3
  obtain ⟨c4, h4, h⟩ := bind_eq_ok h
  obtain ⟨rfl, hk4, -⟩ := consume_eq_ok h4
  obtain ⟨b, hb, hdb⟩ := hB _ _ h
  exact ⟨TOK_MAINTAIN :: TOK_LPAREN :: e ++ TOK_RPAREN :: b,
    Reads.cons hk1 (Reads.cons hk2 (he.append (Reads.cons hk4 hb))), Derives.whileStmt hde hdb⟩

theorem forStatement_sound_step {tokens : List Token} {fuel : Nat}
    (hB : Sound tokens (block tokens fuel) .Block) :
    Sound tokens (forStatement tokens (fuel + 1)) .ForStmt := by
  intro cur c' h
  rw [forStatement_succ] at h
  obtain ⟨c1, h1, h⟩ := bind_eq_ok h
  obtain ⟨rfl, hk1, -⟩ := consume_eq_ok h1
  obtain ⟨c2, h2, h⟩ := bind_eq_ok h
  obtain ⟨rfl, hk2, -⟩ := consume_eq_ok h2
  obtain ⟨c3, h3, h⟩ := bind_eq_ok h
  obtain ⟨i, hi, hdi⟩ := forInit_sound fuel _ _ h3
  obtain ⟨c4, h4, h⟩ := bind_eq_ok h
  obtain ⟨c, hc, hdc⟩ := optExpr_sound fuel _ _ _ h4
  obtain ⟨c5, h5, h⟩ := bind_eq_ok h
  obtain ⟨rfl, hk5, -⟩ := consume_eq_ok h5
  obtain ⟨c6, h6, h⟩ := bind_eq_ok h
  obtain ⟨u, hu, hdu⟩ := optExpr_sound fuel _ _ _ h6
  obtain ⟨c7, h7, h⟩ := bind_eq_ok h
  obtain ⟨rfl, hk7, -⟩ := consume_eq_ok h7
  obtain ⟨b, hb, hdb⟩ := hB _ _ h
  refine ⟨TOK_DEPLOY :: TOK_LPAREN :: i ++ c ++ TOK_SEMICOLON :: u ++ TOK_RPAREN :: b, ?_,
    Derives.forStmt hdi hdc hdu hdb⟩
  have := Reads.cons hk1 (Reads.cons hk2 (hi.append (hc.append (Reads.cons hk5
    (hu.append (Reads.cons hk7 hb))))))
  simpa [List.append_assoc] using this

end Parser

namespace Parser

theorem statement_sound_step {tokens : List Token} {fuel : Nat}
    (hB : Sound tokens (block tokens fuel) .Block)
    (hI : Sound tokens (ifStatement tokens fuel) .IfStmt)
    (hW : Sound tokens (whileStatement tokens fuel) .WhileStmt)
    (hF : Sound tokens (forStatement tokens fuel) .ForStmt) :
    Sound tokens (statement tokens (fuel + 1)) .Statement := by
  intro cur c' h
  have hk : ∃ k, KindAt tokens cur k := by
    rw [statement] at h
    obtain ⟨b, hb, -⟩ := ofOption_eq_ok h
    obtain ⟨k, hk, -⟩ := check_eq_some hb
    exact ⟨k, hk⟩
  obtain ⟨k, hk⟩ := hk
  rw [statement_dispatch hk fuel] at h
  split_ifs at h with h1 h2 h3 h4 h5 h6 h7 h8 h9
  · obtain ⟨w, hw, hd⟩ := hB _ _ h
    exact ⟨w, hw, Derives.stmtBlock hd⟩
  · obtain ⟨w, hw, hd⟩ := variableDeclaration_sound hk (typeTok_of_mem h2.2) h
    exact ⟨w, hw, Derives.stmtVarDecl hd⟩
  · obtain ⟨w, hw, hd⟩ := hI _ _ h
    exact ⟨w, hw, Derives.stmtIf hd⟩
  · obtain ⟨w, hw, hd⟩ := hW _ _ h
    exact ⟨w, hw, Derives.stmtWhile hd⟩
  · obtain ⟨w, hw, hd⟩ := hF _ _ h
    exact ⟨w, hw, Derives.stmtFor hd⟩
  · obtain ⟨w, hw, hd⟩ := outputStatement_sound fuel _ _ h
    exact ⟨w, hw, Derives.stmtOutput hd⟩
  · obtain ⟨w, hw, hd⟩ := inputStatement_sound _ _ h
    exact ⟨w, hw, Derives.stmtInput hd⟩
  · obtain ⟨w, hw, hd⟩ := returnStatement_sound fuel _ _ h
    exact ⟨w, hw, Derives.stmtReturn hd⟩
  · obtain ⟨w, hw, hd⟩ := breakStatement_sound _ _ h
    exact ⟨w, hw, Derives.stmtBreak hd⟩
  · obtain ⟨w, hw, hd⟩ := expressionStatement_sound fuel _ _ h
    exact ⟨w, hw, Derives.stmtExpr hd⟩

theorem statement_sound_all (tokens : List Token) : ∀ fuel,
    Sound tokens (block tokens fuel) .Block ∧
    Sound tokens (statement tokens fuel) .Statement ∧
    Sound tokens (ifStatement tokens fuel) .IfStmt ∧
    Sound tokens (whileStatement tokens fuel) .WhileStmt ∧
    Sound tokens (forStatement tokens fuel) .ForStmt
  | 0 => ⟨sound_of_timeout fun _ => rfl, sound_of_timeout fun _ => rfl,
      sound_of_timeout fun _ => rfl, sound_of_timeout fun _ => rfl,
      sound_of_timeout fun _ => rfl⟩
  | fuel + 1 => by
    obtain ⟨hB, hS, hI, hW, hF⟩ := statement_sound_all tokens fuel
    exact ⟨block_sound_step hS, statement_sound_step hB hI hW hF,
      ifStatement_sound_step hB hI, whileStatement_sound_step hB, forStatement_sound_step hB⟩

theorem block_sound (tokens : List Token) (fuel : Nat) :
    Sound tokens (block tokens fuel) .Block :=
  (statement_sound_all tokens fuel).1

theorem parameters_sound {tokens : List Token} : ∀ loopFuel current c',
    doWhileMatch tokens [TOK_COMMA] (parameter tokens) loopFuel current = .ok c' →
    ∃ w, Reads tokens current c' w ∧ Derives .ParamList w
  | 0, _, _, h => by cases h
  | lf + 1, cur, c', h => by
    rw [doWhileMatch_succ] at h
    obtain ⟨c1, h1, h⟩ := bind_eq_ok h
    obtain ⟨m1, hm1, h1⟩ := ofOption_eq_ok h1
    obtain ⟨k, hk, rfl⟩ := matchAny_eq_some hm1
    by_cases hty : k ≠ TOK_EOF ∧ k ∈ typeTokens
    · have hty' : k ≠ TOK_EOF ∧ k ∈ [TOK_TROOP, TOK_AMMO, TOK_CODENAME, TOK_STATUS] := hty
      rw [if_pos hty'] at h1
      simp only [Bool.not_true, Bool.false_eq_true, if_false] at h1
      obtain ⟨rfl, hk1, -⟩ := consume_eq_ok h1
      obtain ⟨m, hm, h⟩ := ofOption_eq_ok h
      obtain ⟨k2, hk2, rfl⟩ := matchAny_eq_some hm
      by_cases hhit : k2 ≠ TOK_EOF ∧ k2 ∈ [TOK_COMMA]
      · rw [if_pos hhit] at h
        simp only [if_true] at h
        have hkc : k2 = TOK_COMMA := List.mem_singleton.1 hhit.2
        subst hkc
        obtain ⟨ps, hps, hdps⟩ := parameters_sound lf _ c' h
        exact ⟨k :: TOK_IDENTIFIER :: TOK_COMMA :: ps,
          Reads.cons hk (Reads.cons hk1 (Reads.cons hk2 hps)),
          Derives.paramCons (typeTok_of_mem hty.2) hdps⟩
      · rw [if_neg hhit] at h
        simp only [Bool.false_eq_true, if_false] at h
        cases h
        exact ⟨[k, TOK_IDENTIFIER], Reads.cons hk (Reads.single hk1),
          Derives.paramOne (typeTok_of_mem hty.2)⟩
    · have hty' : ¬ (k ≠ TOK_EOF ∧ k ∈ [TOK_TROOP, TOK_AMMO, TOK_CODENAME, TOK_STATUS]) := hty
      rw [if_neg hty'] at h1
      simp only [Bool.not_false, if_true] at h1
      obtain ⟨t, ht, -⟩ := hk
      rw [throwAt_eq ht] at h1
      cases h1

theorem functionDefinition_sound {tokens : List Token} (fuel : Nat) :
    Sound tokens (functionDefinition tokens fuel) .FuncDef := by
  intro cur c' h
  rw [functionDefinition_eq] at h
  obtain ⟨c1, h1, h⟩ := bind_eq_ok h
  obtain ⟨rfl, hk1, -⟩ := consume_eq_ok h1
  obtain ⟨m, hm, h⟩ := ofOption_eq_ok h
  obtain ⟨name, hk2, rfl⟩ := matchAny_eq_some hm
  by_cases hname : name ≠ TOK_EOF ∧ name ∈ [TOK_IDENTIFIER, TOK_CAMPAIGN]
  · rw [if_pos hname] at h
    simp only [Bool.not_true, Bool.false_eq_true, if_false] at h
    have hname' : name = TOK_IDENTIFIER ∨ name = TOK_CAMPAIGN := by simpa using hname.2
    obtain ⟨c3, h3, h⟩ := bind_eq_ok h
    obtain ⟨rfl, hk3, -⟩ := consume_eq_ok h3
    obtain ⟨c4, h4, h⟩ := bind_eq_ok h
    obtain ⟨c5, h5, h⟩ := bind_eq_ok h
    obtain ⟨rfl, hk5, -⟩ := consume_eq_ok h5
    obtain ⟨b, hb, hdb⟩ := block_sound tokens fuel _ _ h
    obtain ⟨closing, hc, h4⟩ := ofOption_eq_ok h4
    cases closing with
    | true =>
      simp only [Bool.not_true, Bool.false_eq_true, if_false] at h4
      cases h4
      exact ⟨TOK_TACTIC :: name :: TOK_LPAREN :: TOK_RPAREN :: b,
        Reads.cons hk1 (Reads.cons hk2 (Reads.cons hk3 (Reads.cons hk5 hb))),
        Derives.funcDef hname' hdb⟩
    | false =>
      simp only [Bool.not_false, if_true] at h4
      obtain ⟨ps, hps, hdps⟩ := parameters_sound fuel _ _ h4
      exact ⟨TOK_TACTIC :: name :: TOK_LPAREN :: ps ++ TOK_RPAREN :: b,
        Reads.cons hk1 (Reads.cons hk2 (Reads.cons hk3 (hps.append (Reads.cons hk5 hb)))),
        Derives.funcDefParams hname' hdps hdb⟩
  · rw [if_neg hname] at h
    simp only [Bool.not_false, if_true] at h
    obtain ⟨t, ht, -⟩ := hk2
    rw [throwAt_eq ht] at h
    cases h

theorem declarationBody_sound {tokens : List Token} (fuel : Nat) :
    Sound tokens (declarationBody tokens fuel) .Declaration := by
  intro cur c' h
  rw [declarationBody] at h
  obtain ⟨b1, hb1, h⟩ := ofOption_eq_ok h
  obtain ⟨k, hk, rfl⟩ := check_eq_some hb1
  simp only [check_kind hk, checkAny_kind hk, ofOption_some, decide_eq_true_eq] at h
  split_ifs at h with h1 h2 h3
  · obtain ⟨w, hw, hd⟩ := includeStatement_sound _ _ h
    exact ⟨w, hw, Derives.declInclude hd⟩
  · obtain ⟨w, hw, hd⟩ := functionDefinition_sound fuel _ _ h
    exact ⟨w, hw, Derives.declFunc hd⟩
  · obtain ⟨w, hw, hd⟩ := variableDeclaration_sound hk (typeTok_of_mem h3.2) h
    exact ⟨w, hw, Derives.declVar hd⟩
  · obtain ⟨t, ht, -⟩ := hk
    rw [throwAt_eq ht] at h
    cases h

/-- A run of the declaration loop that ends with no diagnostic started with
none, and consumed a sequence of declarations up to an end-of-input token. -/
theorem parseLoop_sound {tokens : List Token} (depth : Nat) : ∀ fuel current diags out,
    parseLoop tokens depth fuel current diags = .finished out → out.diagnostics = [] →
    diags = [] ∧ ∃ w, Reads tokens current out.current w ∧ Derives .Declarations w ∧
      KindAt tokens out.current TOK_EOF
  | 0, _, _, _, h, _ => by cases h
  | fuel + 1, cur, diags, out, h, hd => by
    rw [parseLoop_succ] at h
    cases hend : isAtEnd tokens cur with
    | none =>
      rw [hend] at h
      cases h
    | some atEnd =>
      rw [hend] at h
      have hk : ∃ k, KindAt tokens cur k ∧ atEnd = decide (k = TOK_EOF) := by
        cases ht : tokens[cur]? with
        | none => simp [isAtEnd, peek, ht] at hend
        | some t =>
          rw [isAtEnd_eq ht] at hend
          exact ⟨t.type, ⟨t, ht, rfl⟩, (Option.some.inj hend).symm⟩
      obtain ⟨k, hk, rfl⟩ := hk
      by_cases hke : k = TOK_EOF
      · subst hke
        simp only [decide_True] at h
        cases h
        exact ⟨hd, [], Reads.nil _ _, Derives.declsNil, hk⟩
      · simp only [decide_eq_false hke] at h
        cases hbody : declarationBody tokens depth cur with
        | ok c =>
          rw [declaration_ok hbody] at h
          simp only [List.append_nil] at h
          obtain ⟨hdiags, ds, hds, hdds, hkend⟩ := parseLoop_sound depth fuel c diags out h hd
          obtain ⟨d, hdr, hdd⟩ := declarationBody_sound depth _ _ hbody
          exact ⟨hdiags, d ++ ds, hdr.append hds, Derives.declsCons hdd hdds, hkend⟩
        | thrown e c =>
          exfalso
          have hdecl : declaration tokens depth cur = ([⟨e, c⟩], synchronize tokens c) := by
            rw [declaration, hbody]
          rw [hdecl] at h
          cases hsync : synchronize tokens c with
          | ok c2 =>
            rw [hsync] at h
            have := (parseLoop_sound depth fuel c2 _ out h hd).1
            simp at this
          | thrown e2 c2 =>
            rw [hsync] at h
            simp only at h
            cases h
            simp at hd
          | ub =>
            rw [hsync] at h
            cases h
          | timeout =>
            rw [hsync] at h
            cases h
        | ub =>
          have hdecl : declaration tokens depth cur = ([], .ub) := by
            rw [declaration, hbody]
          rw [hdecl] at h
          cases h
        | timeout =>
          have hdecl : declaration tokens depth cur = ([], .timeout) := by
            rw [declaration, hbody]
          rw [hdecl] at h
          cases h

end Parser

namespace Parser

theorem bind_thrown (e : ParseError) (current : Nat) (k : Nat → Res) :
    (Res.thrown e current).bind k = .thrown e current := rfl

theorem level_throws {tokens : List Token} {current c : Nat} {e : ParseError} (l : Level)
    (fuel : Nat) (h : operandParser l tokens fuel current = .thrown e c) :
    levelParser l tokens (fuel + 1) current = .thrown e c := by
  rw [levelParser_succ, levelRun, h]
  rfl

/-- On a token that cannot begin an expression, `expr` throws at that token. -/
theorem expr_throws {tokens : List Token} {current : Nat} {t : Token} (fuel : Nat)
    (ht : tokens[current]? = some t) (h1 : t.type ∉ literalTokens)
    (h2 : t.type ≠ TOK_IDENTIFIER) (h3 : t.type ≠ TOK_LPAREN) (h4 : t.type ≠ TOK_NOT)
    (h5 : t.type ≠ TOK_MINUS) :
    expr tokens (fuel + 9) current =
      .thrown ⟨t, "Expected expression (literal, variable, grouping)."⟩ current := by
  have hk : KindAt tokens current t.type := ⟨t, ht, rfl⟩
  have hprim : primary tokens (fuel + 1) current =
      .thrown ⟨t, "Expected expression (literal, variable, grouping)."⟩ current := by
    obtain ⟨t', ht', h⟩ := primary_other tokens fuel current hk h1 h2 h3
    rw [ht] at ht'
    cases ht'
    exact h
  have hun : unary tokens (fuel + 2) current =
      .thrown ⟨t, "Expected expression (literal, variable, grouping)."⟩ current := by
    have hmiss : t.type ∉ [TOK_NOT, TOK_MINUS] := by
      intro hm
      simp only [List.mem_cons, List.mem_singleton, List.not_mem_nil, or_false] at hm
      rcases hm with h | h
      · exact h4 h
      · exact h5 h
    rw [unary_succ, matchAny_miss hk hmiss, ofOption_some]
    simpa using hprim
  have h5' := level_throws .Multiplicative (fuel + 2) hun
  have h4' := level_throws .Additive (fuel + 3) h5'
  have h3' := level_throws .Relational (fuel + 4) h4'
  have h2' := level_throws .Equality (fuel + 5) h3'
  have h1' := level_throws .LogicalAnd (fuel + 6) h2'
  exact level_throws .LogicalOr (fuel + 7) h1'

/-- A sequence whose kinds the grammar derives from `Program` is parsed with
no diagnostic. -/
theorem parse_derivable (tokens : List Token) (h : Derives .Program (kinds tokens)) :
    parse tokens = .finished ⟨[], "Parsing complete. Syntax is valid.", tokens.length - 1⟩ := by
  have := complete_of_derives tokens h rfl
  simpa [kinds] using this

end Parser

open Parser in
/-- C3 (completeness): every token sequence whose kinds are derivable from
`Program` in the grammar is parsed with zero diagnostics, the cursor ending on
its last token, the end-of-input token. -/
theorem parse_complete (tokens : List Token) (h : Derives .Program (kinds tokens)) :
    Parser.parse tokens =
      .finished ⟨[], "Parsing complete. Syntax is valid.", tokens.length - 1⟩ := by
  have := complete_of_derives tokens h rfl
  simpa [kinds] using this

open Parser in
/-- C4 (soundness): if `parse`, run on a token sequence that ends in exactly
one end-of-input token, finishes having reported zero diagnostics, then the
kinds of the sequence are derivable from `Program` in the grammar. -/
theorem parse_sound (tokens : List Token) (hEOF : EndsInOneEOF tokens) (out : Parser.Output)
    (h : Parser.parse tokens = .finished out) (hd : out.diagnostics = []) :
    Derives .Program (kinds tokens) := by
  obtain ⟨-, w, ⟨hc, rest, hrest⟩, hdw, t, ht, hte⟩ :=
    parseLoop_sound (depthFuel tokens) _ _ _ _ h hd
  obtain ⟨front, last, rfl, hlast, hfront⟩ := hEOF
  have hlt : out.current < (front ++ [last]).length := by
    by_contra hge
    rw [List.getElem?_eq_none (by omega)] at ht
    cases ht
  have hcur : out.current = front.length := by
    by_contra hne
    have hlt2 : out.current < front.length := by
      simp only [List.length_append, List.length_cons, List.length_nil] at hlt
      omega
    rw [List.getElem?_append_left hlt2] at ht
    exact hfront t (List.mem_iff_getElem?.2 ⟨_, ht⟩) hte
  have hkinds : kinds (front ++ [last]) = w ++ rest := by simpa using hrest
  have hlen := congrArg List.length hkinds
  simp only [kinds, List.length_map, List.length_append, List.length_cons,
    List.length_nil] at hlen
  have hw : w.length = front.length := by omega
  have hrest1 : rest.length = 1 := by omega
  have hsplit : kinds front = w ∧ [last.type] = rest := by
    have : kinds front ++ [last.type] = w ++ rest := by simpa [kinds] using hkinds
    exact List.append_inj this (by simp [kinds, hw])
  rw [hkinds, ← hsplit.2, hlast]
  exact Derives.program hdw

namespace Parser

theorem synchronize_after_semicolon {tokens : List Token} {current : Nat} {s t : Token}
    (hs : tokens[current]? = some s) (hsemi : s.type = TOK_SEMICOLON)
    (ht : tokens[current + 1]? = some t) :
    synchronize tokens current = .ok (current + 1) := by
  have hne : s.type ≠ TOK_EOF := by rw [hsemi]; decide
  rw [synchronize, advance_eq hs hne, ofOption_some, synchronizeLoop, isAtEnd_eq ht,
    ofOption_some]
  by_cases hend : t.type = TOK_EOF
  · simp [hend]
  · simp only [decide_eq_false hend, Bool.false_eq_true, if_false, previous_succ hs,
      ofOption_some, hsemi, if_true]

end Parser

open Parser in
/-- C5: on the tokens of `T1 x = ; T2 y = e;`, for type keywords `T1`, `T2`,
identifiers `x`, `y` and any expression `e` of the grammar, `parse` reports
exactly one diagnostic, "Expected expression ..." at the first `;` (index 3),
and then consumes the second declaration in full, ending on the end-of-input
token with no further diagnostic. -/
theorem recovery_after_missing_initializer (t1 x a1 s1 t2 y a2 s2 eof : Token)
    (e : List Token) (ht1 : TypeTok t1.type) (hx : x.type = TOK_IDENTIFIER)
    (ha1 : a1.type = TOK_ASSIGN) (hs1 : s1.type = TOK_SEMICOLON) (ht2 : TypeTok t2.type)
    (hy : y.type = TOK_IDENTIFIER) (ha2 : a2.type = TOK_ASSIGN)
    (he : Derives .Expr (kinds e)) (hs2 : s2.type = TOK_SEMICOLON)
    (heof : eof.type = TOK_EOF) :
    Parser.parse ([t1, x, a1, s1, t2, y, a2] ++ e ++ [s2, eof]) =
      .finished ⟨[⟨⟨s1, "Expected expression (literal, variable, grouping)."⟩, 3⟩],
        "Parsing complete. Syntax is valid.", 8 + e.length⟩ := by
  set tokens := [t1, x, a1, s1, t2, y, a2] ++ e ++ [s2, eof] with htokens
  have hlen : tokens.length = e.length + 9 := by simp [htokens]
  have hk0 : KindAt tokens 0 t1.type := ⟨t1, by simp [htokens], rfl⟩
  have hk1 : KindAt tokens 1 TOK_IDENTIFIER := ⟨x, by simp [htokens], hx⟩
  have hk2 : KindAt tokens 2 TOK_ASSIGN := ⟨a1, by simp [htokens], ha1⟩
  have h3 : tokens[3]? = some s1 := by simp [htokens]
  have h4 : tokens[3 + 1]? = some t2 := by simp [htokens]
  have hA : Ahead tokens 4
      ((t2.type :: TOK_IDENTIFIER :: TOK_ASSIGN :: kinds e ++ [TOK_SEMICOLON]) ++ []) TOK_EOF :=
    ⟨[], by simp [htokens, kinds, hy, ha2, hs2, heof]⟩
  obtain ⟨d, hd⟩ : ∃ d, depthFuel tokens = d + 9 := ⟨depthFuel tokens - 9, by
    rw [depthFuel]; omega⟩
  have h1a : t1.type ≠ TOK_SUPPLY := by rintro h; rw [h] at ht1; simp [TypeTok] at ht1
  have h1b : t1.type ≠ TOK_TACTIC := by rintro h; rw [h] at ht1; simp [TypeTok] at ht1
  obtain ⟨t0, ht0⟩ := advance_kind hk0 (typeTok_ne_EOF ht1)
  have hbody : declarationBody tokens (depthFuel tokens) 0 =
      .thrown ⟨s1, "Expected expression (literal, variable, grouping)."⟩ 3 := by
    rw [declarationBody, check_miss hk0 h1a, ofOption_some]
    simp only [Bool.false_eq_true, if_false, check_miss hk0 h1b, ofOption_some,
      checkAny_hit hk0 (typeTok_ne_EOF ht1) (typeTok_mem ht1), if_true]
    rw [variableDeclaration, ht0, ofOption_some, consume_hit hk1 (by decide), bind_ok,
      matchAny_hit hk2 (by decide) (List.mem_singleton.2 rfl), ofOption_some]
    simp only [if_true]
    rw [hd, expr_throws d h3 (by rw [hs1]; decide) (by rw [hs1]; decide) (by rw [hs1]; decide)
      (by rw [hs1]; decide) (by rw [hs1]; decide)]
    rfl
  have hdecl : declaration tokens (depthFuel tokens) 0 =
      ([⟨⟨s1, "Expected expression (literal, variable, grouping)."⟩, 3⟩], .ok 4) := by
    rw [declaration, hbody]
    simp only [synchronize_after_semicolon h3 hs1 h4]
  have hrest := complete_of_derives tokens
    (Derives.declsCons (Derives.declVar (Derives.varDeclInit ht2 he)) Derives.declsNil)
    (depthFuel tokens) tokens.length 4
    [⟨⟨s1, "Expected expression (literal, variable, grouping)."⟩, 3⟩]
    (by simp [depthFuel, hlen, kinds]; omega) (by simp [hlen, kinds]) hA
  rw [parse, parseLoop_succ, isAtEnd_kind hk0, decide_eq_false (typeTok_ne_EOF ht1)]
  simp only [hdecl, List.nil_append]
  rw [hrest]
  congr 2
  simp [kinds]
  omega

theorem derives_expr_of_primary {w : List TokenType} (h : Derives .Primary w) :
    Derives .Expr w := by
  have h6 : Derives Level.Multiplicative.operand w := Derives.unaryPrimary h
  have h5 : Derives Level.Additive.operand w := by
    simpa using Derives.bin h6 Derives.binRestNil
  have h4 : Derives Level.Relational.operand w := by
    simpa using Derives.bin h5 Derives.binRestNil
  have h3 : Derives Level.Equality.operand w := by
    simpa using Derives.bin h4 Derives.binRestNil
  have h2 : Derives Level.LogicalAnd.operand w := by
    simpa using Derives.bin h3 Derives.binRestNil
  have h1 : Derives Level.LogicalOr.operand w := by
    simpa using Derives.bin h2 Derives.binRestNil
  have h0 : Derives (.Bin .LogicalOr) w := by
    simpa using Derives.bin h1 Derives.binRestNil
  exact Derives.expr h0

open Parser in
/-- C6: the text `tactic campaign() { troop x = 1; brief x; }` scans without an
error token and its tokens parse with zero diagnostics, the cursor ending on
the end-of-input token; and every sequence `tactic name ( ) block end-of-input`,
where `name` is an identifier or `campaign` and `block` is a block of the
grammar, parses with zero diagnostics. -/
theorem example_program_accepted :
    (∃ toks, scan "tactic campaign() \x7b troop x = 1; brief x; \x7d" = some toks ∧
      (∀ t ∈ toks, t.type ≠ TOK_ERROR) ∧
      Parser.parse toks = .finished ⟨[], "Parsing complete. Syntax is valid.", 14⟩ ∧
      (toks[14]?).map Token.type = some TOK_EOF) ∧
    (∀ (tac name lp rp eof : Token) (body : List Token), tac.type = TOK_TACTIC →
      (name.type = TOK_IDENTIFIER ∨ name.type = TOK_CAMPAIGN) → lp.type = TOK_LPAREN →
      rp.type = TOK_RPAREN → Derives .Block (kinds body) → eof.type = TOK_EOF →
      Parser.parse ([tac, name, lp, rp] ++ body ++ [eof]) =
        .finished ⟨[], "Parsing complete. Syntax is valid.", 4 + body.length⟩) := by
  constructor
  · refine ⟨[⟨TOK_TACTIC, "tactic", 1, 0⟩, ⟨TOK_CAMPAIGN, "campaign", 1, 7⟩,
      ⟨TOK_LPAREN, "(", 1, 15⟩, ⟨TOK_RPAREN, ")", 1, 16⟩, ⟨TOK_LBRACE, "\x7b", 1, 18⟩,
      ⟨TOK_TROOP, "troop", 1, 20⟩, ⟨TOK_IDENTIFIER, "x", 1, 26⟩, ⟨TOK_ASSIGN, "=", 1, 28⟩,
      ⟨TOK_INTEGER, "1", 1, 30⟩, ⟨TOK_SEMICOLON, ";", 1, 31⟩, ⟨TOK_BRIEF, "brief", 1, 33⟩,
      ⟨TOK_IDENTIFIER, "x", 1, 39⟩, ⟨TOK_SEMICOLON, ";", 1, 40⟩, ⟨TOK_RBRACE, "\x7d", 1, 42⟩,
      ⟨TOK_EOF, "", 1, 43⟩], by decide!, by decide, by decide!, by decide⟩
  · intro tac name lp rp eof body htac hname hlp hrp hbody heof
    have hprog : Derives .Program
        (kinds ([tac, name, lp, rp] ++ body ++ [eof])) := by
      have := Derives.program (Derives.declsCons
        (Derives.declFunc (Derives.funcDef hname hbody)) Derives.declsNil)
      simpa [kinds, htac, hlp, hrp, heof] using this
    rw [parse_derivable _ hprog]
    congr 2
    simp only [List.length_cons, List.length_append, List.length_nil]
    omega

/-- Witness for C3: the tokens of `troop x;`. -/
theorem parse_complete_witness :
    Parser.parse [⟨TOK_TROOP, "troop", 1, 0⟩, ⟨TOK_IDENTIFIER, "x", 1, 6⟩,
      ⟨TOK_SEMICOLON, ";", 1, 7⟩, ⟨TOK_EOF, "", 1, 8⟩] =
      .finished ⟨[], "Parsing complete. Syntax is valid.", 3⟩ :=
  parse_complete _ (Derives.program
    (Derives.declsCons (Derives.declVar (Derives.varDecl (by decide))) Derives.declsNil))

/-- Witness for C4: the tokens of `troop x;` are accepted, hence derivable. -/
theorem parse_sound_witness :
    Derives .Program [TOK_TROOP, TOK_IDENTIFIER, TOK_SEMICOLON, TOK_EOF] :=
  parse_sound [⟨TOK_TROOP, "troop", 1, 0⟩, ⟨TOK_IDENTIFIER, "x", 1, 6⟩,
      ⟨TOK_SEMICOLON, ";", 1, 7⟩, ⟨TOK_EOF, "", 1, 8⟩]
    ⟨[⟨TOK_TROOP, "troop", 1, 0⟩, ⟨TOK_IDENTIFIER, "x", 1, 6⟩, ⟨TOK_SEMICOLON, ";", 1, 7⟩],
      ⟨TOK_EOF, "", 1, 8⟩, rfl, rfl, by decide⟩
    ⟨[], "Parsing complete. Syntax is valid.", 3⟩ (by decide!) rfl

/-- Witness for C5: the tokens of `troop x = ; troop y = 2;`. -/
theorem recovery_after_missing_initializer_witness :
    Parser.parse [⟨TOK_TROOP, "troop", 1, 0⟩, ⟨TOK_IDENTIFIER, "x", 1, 6⟩,
      ⟨TOK_ASSIGN, "=", 1, 8⟩, ⟨TOK_SEMICOLON, ";", 1, 10⟩, ⟨TOK_TROOP, "troop", 1, 12⟩,
      ⟨TOK_IDENTIFIER, "y", 1, 18⟩, ⟨TOK_ASSIGN, "=", 1, 20⟩, ⟨TOK_INTEGER, "2", 1, 22⟩,
      ⟨TOK_SEMICOLON, ";", 1, 23⟩, ⟨TOK_EOF, "", 1, 24⟩] =
      .finished ⟨[⟨⟨⟨TOK_SEMICOLON, ";", 1, 10⟩,
        "Expected expression (literal, variable, grouping)."⟩, 3⟩],
        "Parsing complete. Syntax is valid.", 9⟩ :=
  recovery_after_missing_initializer ⟨TOK_TROOP, "troop", 1, 0⟩ ⟨TOK_IDENTIFIER, "x", 1, 6⟩
    ⟨TOK_ASSIGN, "=", 1, 8⟩ ⟨TOK_SEMICOLON, ";", 1, 10⟩ ⟨TOK_TROOP, "troop", 1, 12⟩
    ⟨TOK_IDENTIFIER, "y", 1, 18⟩ ⟨TOK_ASSIGN, "=", 1, 20⟩ ⟨TOK_SEMICOLON, ";", 1, 23⟩
    ⟨TOK_EOF, "", 1, 24⟩ [⟨TOK_INTEGER, "2", 1, 22⟩] (by decide) rfl rfl rfl (by decide) rfl rfl
    (derives_expr_of_primary (Derives.primLiteral (by decide))) rfl rfl

/-- Witness for C6: the tokens of `tactic f() { }`. -/
theorem example_program_accepted_witness :
    Parser.parse [⟨TOK_TACTIC, "tactic", 1, 0⟩, ⟨TOK_IDENTIFIER, "f", 1, 7⟩,
      ⟨TOK_LPAREN, "(", 1, 8⟩, ⟨TOK_RPAREN, ")", 1, 9⟩, ⟨TOK_LBRACE, "\x7b", 1, 11⟩,
      ⟨TOK_RBRACE, "\x7d", 1, 13⟩, ⟨TOK_EOF, "", 1, 14⟩] =
      .finished ⟨[], "Parsing complete. Syntax is valid.", 6⟩ :=
  example_program_accepted.2 ⟨TOK_TACTIC, "tactic", 1, 0⟩ ⟨TOK_IDENTIFIER, "f", 1, 7⟩
    ⟨TOK_LPAREN, "(", 1, 8⟩ ⟨TOK_RPAREN, ")", 1, 9⟩ ⟨TOK_EOF, "", 1, 14⟩
    [⟨TOK_LBRACE, "\x7b", 1, 11⟩, ⟨TOK_RBRACE, "\x7d", 1, 13⟩] rfl (Or.inl rfl) rfl rfl
    (Derives.block Derives.stmtsNil) rfl

/-! ## Scanner: positions, repeated calls, operators and strings -/

namespace Scanner

theorem Moves.same (s : Scanner) : Moves s s :=
  ⟨rfl, rfl, rfl, le_refl _, id, le_refl _, fun _ => by simp, id, id⟩

theorem Moves.followedBy {a b c : Scanner} (h1 : Moves a b) (h2 : Moves b c) : Moves a c := by
  have hs := h1.source_eq
  have hc1 := h1.current_le
  have hc2 := h2.current_le
  have hl1 := h1.line_le
  have hl2 := h2.line_le
  refine ⟨h2.source_eq.trans hs, h2.start_eq.trans h1.start_eq,
    h2.tokens_eq.trans h1.tokens_eq, le_trans hc1 hc2, fun h => ?_, le_trans hl1 hl2,
    fun h => ?_, fun h => h2.column_nonneg (h1.column_nonneg h),
    fun h => h2.column_le (h1.column_le h)⟩
  · have := h2.within (by rw [hs]; exact h1.within h)
    rwa [hs] at this
  · have e1 := h1.column_eq (by omega)
    have e2 := h2.column_eq (by omega)
    omega

theorem moves_advance (s : Scanner) (h : s.current < s.source.length) : Moves s s.advance.2 := by
  refine ⟨rfl, rfl, rfl, Nat.le_succ _, fun _ => h, le_refl _, fun _ => ?_, fun h => ?_,
    fun h => ?_⟩ <;> simp only [advance] <;> omega

theorem moves_newline (s : Scanner) (h : s.current < s.source.length) :
    Moves s ({ s with line := s.line + 1, column := 0 } : Scanner).advance.2 := by
  refine ⟨rfl, rfl, rfl, Nat.le_succ _, fun _ => h, ?_, fun hl => ?_, fun h => ?_,
    fun h => ?_⟩ <;> simp only [advance] at * <;> omega

theorem moves_matchChar (s : Scanner) (c : Char) : Moves s (s.matchChar c).2 := by
  unfold matchChar
  split
  · exact Moves.same s
  · next hne =>
    split
    · exact Moves.same s
    · have hlt : s.current < s.source.length := by simpa [isAtEnd] using hne
      refine ⟨rfl, rfl, rfl, Nat.le_succ _, fun _ => hlt, le_refl _, fun _ => ?_, fun h => ?_,
        fun h => ?_⟩ <;> simp only <;> omega

theorem advanceWhile_moves (cond : Scanner → Bool)
    (hc : ∀ s, cond s = true → s.current < s.source.length) : ∀ (fuel : Nat) (s : Scanner),
    s.source.length - s.current < fuel →
    ∃ s', advanceWhile cond fuel s = some s' ∧ Moves s s'
  | 0, s, h => absurd h (Nat.not_lt_zero _)
  | fuel + 1, s, h => by
    unfold advanceWhile
    by_cases hcs : cond s = true
    · have hlt := hc s hcs
      obtain ⟨s', h1, h2⟩ := advanceWhile_moves cond hc fuel s.advance.2 (by
        simp only [advance]; omega)
      exact ⟨s', by simp [hcs, h1], (moves_advance s hlt).followedBy h2⟩
    · exact ⟨s, by simp [hcs], Moves.same s⟩

theorem skipWhitespace_moves : ∀ (fuel : Nat) (s : Scanner),
    s.source.length - s.current < fuel →
    ∃ s', skipWhitespace fuel s = some s' ∧ Moves s s'
  | 0, s, h => absurd h (Nat.not_lt_zero _)
  | fuel + 1, s, h => by
    unfold skipWhitespace
    by_cases he : s.isAtEnd = true
    · exact ⟨s, by simp [he], Moves.same s⟩
    · have hlt : s.current < s.source.length := by
        simpa [isAtEnd] using he
      simp only [he, Bool.false_eq_true, if_false]
      split
      · obtain ⟨s', h1, h2⟩ := skipWhitespace_moves fuel s.advance.2 (by
          simp only [advance]; omega)
        exact ⟨s', h1, (moves_advance s hlt).followedBy h2⟩
      · split
        · obtain ⟨s', h1, h2⟩ := skipWhitespace_moves fuel
            ({ s with line := s.line + 1, column := 0 } : Scanner).advance.2 (by
              simp only [advance]; omega)
          exact ⟨s', h1, (moves_newline s hlt).followedBy h2⟩
        · exact ⟨s, rfl, Moves.same s⟩

theorem scanStringLoop_moves : ∀ (fuel : Nat) (s : Scanner),
    s.source.length - s.current < fuel →
    ∃ s', scanStringLoop fuel s = some s' ∧ Moves s s'
  | 0, s, h => absurd h (Nat.not_lt_zero _)
  | fuel + 1, s, h => by
    unfold scanStringLoop
    by_cases hcs : (s.peek ≠ '"' && !s.isAtEnd) = true
    · have hlt := lt_of_not_atEnd s (by simp only [Bool.and_eq_true] at hcs; exact hcs.2)
      simp only [hcs, if_true]
      by_cases hn : s.peek = '\n'
      · obtain ⟨s', h1, h2⟩ := scanStringLoop_moves fuel
          ({ s with line := s.line + 1, column := 0 } : Scanner).advance.2 (by
            simp only [advance]; omega)
        exact ⟨s', by simp [hn, h1], (moves_newline s hlt).followedBy h2⟩
      · obtain ⟨s', h1, h2⟩ := scanStringLoop_moves fuel s.advance.2 (by
            simp only [advance]; omega)
        exact ⟨s', by simp [hn, h1], (moves_advance s hlt).followedBy h2⟩
    · exact ⟨s, by rw [if_neg hcs], Moves.same s⟩

theorem moves_fuel {s s' : Scanner} (h : Moves s s') :
    s'.source.length - s'.current < s.fuel := by
  unfold fuel; rw [h.source_eq]; omega

theorem shape_addToken {s0 s1 : Scanner} (h : Moves s0 s1) (hlt : s0.current < s1.current)
    (ty : TokenType) (ht : ty ≠ TOK_EOF) : Shape s0 (some (s1.addToken ty)) :=
  ⟨s1, h, hlt, Or.inr (Or.inl ⟨ty, ht, rfl⟩)⟩

theorem shape_error {s0 s1 : Scanner} (h : Moves s0 s1) (hlt : s0.current < s1.current)
    (msg : String) : Shape s0 (some (s1.push ⟨TOK_ERROR, msg, s1.line, s1.column⟩)) :=
  ⟨s1, h, hlt, Or.inr (Or.inr ⟨msg, rfl⟩)⟩

theorem scanComment_shape {s0 s : Scanner} (h : Moves s0 s) (hlt : s0.current < s.current) :
    Shape s0 s.scanComment := by
  obtain ⟨s1, h1, h2⟩ := advanceWhile_moves (fun s => s.peek ≠ '\n' && !s.isAtEnd)
    (fun s h => lt_of_not_atEnd s (by simp only [Bool.and_eq_true] at h; exact h.2))
    s.fuel s (fuel_ok s)
  exact ⟨s1, h.followedBy h2, lt_of_lt_of_le hlt h2.current_le, Or.inl h1⟩

theorem scanString_shape {s0 s : Scanner} (h : Moves s0 s) (hlt : s0.current < s.current) :
    Shape s0 s.scanString := by
  obtain ⟨s1, h1, h2⟩ := scanStringLoop_moves s.fuel s (fuel_ok s)
  unfold scanString
  rw [h1]
  simp only [Option.map_some']
  have hlt1 := lt_of_lt_of_le hlt h2.current_le
  by_cases he : s1.isAtEnd = true
  · rw [if_pos he]
    exact shape_error (h.followedBy h2) hlt1 _
  · rw [if_neg he]
    have hl : s1.current < s1.source.length := by simpa [isAtEnd] using he
    have h3 := moves_advance s1 hl
    exact shape_addToken ((h.followedBy h2).followedBy h3) (lt_of_lt_of_le hlt1 h3.current_le) _
      (by decide)

theorem lt_of_peek_dot (s : Scanner) (h : s.peek = '.') : s.current < s.source.length := by
  by_contra hn
  rw [peek_atEnd hn] at h
  exact absurd h (by decide)

theorem scanNumber_shape {s0 s : Scanner} (h : Moves s0 s) (hlt : s0.current < s.current) :
    Shape s0 s.scanNumber := by
  obtain ⟨s1, h1, h2⟩ := advanceWhile_moves (fun s => isdigit s.peek) lt_of_isdigit_peek
    s.fuel s (fuel_ok s)
  unfold scanNumber
  rw [h1]
  simp only [Option.some_bind]
  have hlt1 := lt_of_lt_of_le hlt h2.current_le
  split
  · next hdot =>
    have hl : s1.current < s1.source.length :=
      lt_of_peek_dot s1 (by simp only [Bool.and_eq_true, decide_eq_true_eq] at hdot; exact hdot.1)
    have h3 := moves_advance s1 hl
    obtain ⟨s2, h4, h5⟩ := advanceWhile_moves (fun s => isdigit s.peek) lt_of_isdigit_peek
      s1.fuel s1.advance.2 (moves_fuel h3)
    rw [h4]
    exact shape_addToken (((h.followedBy h2).followedBy h3).followedBy h5)
      (lt_of_lt_of_le hlt1 (h3.followedBy h5).current_le) _ (by decide)
  · exact shape_addToken (h.followedBy h2) hlt1 _ (by decide)

theorem scanIdentifier_shape {s0 s : Scanner} (h : Moves s0 s) (hlt : s0.current < s.current) :
    Shape s0 s.scanIdentifier := by
  obtain ⟨s1, h1, h2⟩ := advanceWhile_moves (fun s => isalnum s.peek || s.peek = '_')
    lt_of_identChar_peek s.fuel s (fuel_ok s)
  unfold scanIdentifier
  rw [h1]
  refine shape_addToken (h.followedBy h2) (lt_of_lt_of_le hlt h2.current_le) _ ?_
  split
  · next k hk => exact keywords_ne_EOF _ k hk
  · decide

theorem scanSupply_shape {s0 s : Scanner} (h : Moves s0 s) (hlt : s0.current < s.current) :
    Shape s0 s.scanSupply := by
  obtain ⟨s1, h1, h2⟩ := advanceWhile_moves (fun s => isalpha s.peek)
    lt_of_isalpha_peek s.fuel s (fuel_ok s)
  unfold scanSupply
  rw [h1]
  simp only [Option.map_some']
  have hlt1 := lt_of_lt_of_le hlt h2.current_le
  split
  · exact shape_addToken (h.followedBy h2) hlt1 _ (by decide)
  · exact shape_error (h.followedBy h2) hlt1 _

theorem shape_ite {s0 : Scanner} {c : Prop} [Decidable c] {a b : Option Scanner}
    (ha : Shape s0 a) (hb : Shape s0 b) : Shape s0 (if c then a else b) := by
  split
  · exact ha
  · exact hb

theorem matchChar_shape {s0 s : Scanner} (h : Moves s0 s) (hlt : s0.current < s.current)
    (c : Char) : Moves s0 (s.matchChar c).2 ∧ s0.current < (s.matchChar c).2.current :=
  ⟨h.followedBy (moves_matchChar s c), lt_of_lt_of_le hlt (moves_matchChar s c).current_le⟩

/-- A call of `scanToken` on a state that is not at the end of the text
returns; it has moved the cursor forward by at least one character and pushed
at most one token. -/
theorem scanToken_shape (s0 : Scanner) (h0 : s0.current < s0.source.length) :
    Shape s0 s0.scanToken := by
  have hm : Moves s0 s0.advance.2 := moves_advance s0 h0
  have hlt : s0.current < s0.advance.2.current := Nat.lt_succ_self _
  unfold scanToken
  dsimp only
  generalize s0.advance.1 = c
  generalize s0.advance.2 = s at hm hlt
  repeat' with_reducible apply shape_ite
  all_goals first
    | exact shape_addToken hm hlt _ (by decide)
    | exact shape_addToken (matchChar_shape hm hlt _).1 (matchChar_shape hm hlt _).2 _ (by decide)
    | exact shape_addToken (matchChar_shape hm hlt _).1 (matchChar_shape hm hlt _).2 _
        (by split <;> decide)
    | exact shape_error (matchChar_shape hm hlt _).1 (matchChar_shape hm hlt _).2 _
    | exact shape_error hm hlt _
    | exact scanSupply_shape hm hlt
    | exact scanComment_shape hm hlt
    | exact scanString_shape hm hlt
    | exact scanNumber_shape hm hlt
    | exact scanIdentifier_shape hm hlt

/-- The main loop keeps every property that survives cursor movement and the
push of one token after a movement of at least one character. -/
theorem scanLoop_preserves (P : Scanner → Prop)
    (hstart : ∀ s : Scanner, P s → P { s with start := s.current })
    (hmoves : ∀ s s' : Scanner, P s → Moves s s' → P s')
    (hstep : ∀ (s0 r : Scanner), P s0 → s0.start = s0.current →
      s0.current < s0.source.length → Shape s0 (some r) → P r) :
    ∀ (fuel : Nat) (s : Scanner), s.source.length - s.current < fuel → P s →
      ∃ s', scanLoop fuel s = some s' ∧ P s' ∧ s'.source = s.source ∧
        s'.source.length ≤ s'.current
  | 0, s, h, _ => absurd h (Nat.not_lt_zero _)
  | fuel + 1, s, h, hp => by
    unfold scanLoop
    by_cases he : s.isAtEnd = true
    · exact ⟨s, by rw [if_pos he], hp, rfl, by simpa [isAtEnd] using he⟩
    · have hlt : s.current < s.source.length := by simpa [isAtEnd] using he
      rw [if_neg he]
      obtain ⟨s1, h1, h2⟩ := skipWhitespace_moves s.fuel { s with start := s.current }
        (fuel_ok s)
      rw [h1]
      dsimp only
      have hp1 : P s1 := hmoves _ _ (hstart s hp) h2
      have hs1 : s1.source = s.source := h2.source_eq
      have hc1 : s.current ≤ s1.current := h2.current_le
      by_cases he1 : (!s1.isAtEnd) = true
      · rw [if_pos he1]
        have hlt1 : s1.current < s1.source.length := lt_of_not_atEnd s1 he1
        have hsh := scanToken_shape { s1 with start := s1.current } hlt1
        have hp2 : P { s1 with start := s1.current } := hstart s1 hp1
        obtain ⟨s2, h3, h4⟩ := scanToken_later { s1 with start := s1.current }
        rw [h3] at hsh
        rw [h3]
        dsimp only
        have hc2 : s1.current + 1 ≤ s2.current := h4.current_le
        have hs2 : s2.source = s1.source := h4.source_eq
        obtain ⟨s3, h7, h8, h9, h10⟩ := scanLoop_preserves P hstart hmoves hstep fuel s2 (by
          rw [hs2, hs1]; omega) (hstep _ _ hp2 rfl hlt1 hsh)
        exact ⟨s3, h7, h8, by rw [h9, hs2, hs1], h10⟩
      · rw [if_neg he1]
        have hend : s1.source.length ≤ s1.current := by simpa [isAtEnd] using he1
        obtain ⟨s3, h7, h8, h9, h10⟩ := scanLoop_preserves P hstart hmoves hstep fuel s1
          (by omega) hp1
        exact ⟨s3, h7, h8, by rw [h9, hs1], h10⟩

theorem inv_new (src : List Char) : Inv (Scanner.new src) :=
  ⟨Nat.zero_le _, le_refl _, le_refl _, Nat.zero_le _⟩

theorem inv_moves {s s' : Scanner} (h : Inv s) (hm : Moves s s') : Inv s' :=
  ⟨by rw [hm.source_eq]; exact hm.within h.current_le, hm.column_nonneg h.column_nonneg,
    hm.column_le h.column_le, by rw [hm.tokens_eq]; exact le_trans h.count_le hm.current_le⟩

theorem inv_push {s0 s1 : Scanner} (h : Inv s0) (hm : Moves s0 s1)
    (hlt : s0.current < s1.current) (t : Token) : Inv (s1.push t) := by
  have h1 := inv_moves h hm
  refine ⟨h1.current_le, h1.column_nonneg, h1.column_le, ?_⟩
  have := h.count_le
  simp only [push, List.length_append, List.length_singleton, hm.tokens_eq]
  omega

theorem inv_step {s0 r : Scanner} (h : Inv s0) (hsh : Shape s0 (some r)) : Inv r := by
  obtain ⟨s1, hm, hlt, hr | ⟨ty, -, hr⟩ | ⟨msg, hr⟩⟩ := hsh
  · rw [Option.some.inj hr]; exact inv_moves h hm
  · rw [Option.some.inj hr]; exact inv_push h hm hlt _
  · rw [Option.some.inj hr]; exact inv_push h hm hlt _

/-- The main loop of a fresh scanner stops within `|source|` executions of its
body, with all of the text consumed and at most one token per character. -/
theorem scanLoop_new (src : List Char) :
    ∃ s', scanLoop (src.length + 1) (Scanner.new src) = some s' ∧ Inv s' ∧
      s'.source = src ∧ s'.current = src.length := by
  obtain ⟨s', h1, h2, h3, h4⟩ := scanLoop_preserves Inv (fun s h => ⟨h.1, h.2, h.3, h.4⟩)
    (fun s s' h hm => inv_moves h hm) (fun s0 r h _ _ hsh => inv_step h hsh)
    (src.length + 1) (Scanner.new src) (by simp [Scanner.new]) (inv_new src)
  have h5 : s'.source = src := h3
  refine ⟨s', h1, h2, h5, ?_⟩
  have := h2.current_le
  rw [h5] at this h4
  omega

end Scanner

/-- C15: the scanner terminates on every text.  Every call of `scanToken`
returns with the cursor moved forward by at least one character; the main loop
of a fresh scanner stops within `|source|` executions of its body (fuel
`|source| + 1` is enough) with the whole text consumed; and `scanTokens`
returns at most `|source| + 1` tokens. -/
theorem scanner_terminates (src : String) :
    (∀ s : Scanner, ∃ s', s.scanToken = some s' ∧ s.current < s'.current ∧
      s'.source = s.source) ∧
    (∃ s', Scanner.scanLoop (src.length + 1) (Scanner.new src.data) = some s' ∧
      s'.current = src.length) ∧
    ∃ toks, scan src = some toks ∧ toks.length ≤ src.length + 1 := by
  obtain ⟨s', h1, h2, h3, h4⟩ := Scanner.scanLoop_new src.data
  refine ⟨fun s => ?_, ⟨s', h1, h4⟩, ?_⟩
  · obtain ⟨s', h5, h6⟩ := Scanner.scanToken_later s
    exact ⟨s', h5, h6.current_le, h6.source_eq⟩
  · have hsc := Scanner.scan_eq src.data
    rw [h1] at hsc
    refine ⟨_, hsc, ?_⟩
    have := h2.count_le
    simp only [List.length_append, List.length_singleton]
    have h7 : src.length = src.data.length := rfl
    omega

namespace Scanner

theorem columnMinus_exact (c : Int) (n : Nat) (h1 : -2147483648 ≤ c - n)
    (h2 : c - n < 2147483648) : columnMinus c n = c - n := by
  unfold columnMinus toInt
  omega

theorem substr_length (src : List Char) (pos len : Nat) :
    (substr src pos len).length = min len (src.length - pos) := by
  simp [substr, String.length]

theorem sorted_moves {s s' : Scanner} (h : Sorted s) (hm : Moves s s') : Sorted s' := by
  refine ⟨by rw [hm.tokens_eq]; exact h.ordered, fun t ht => ?_⟩
  rw [hm.tokens_eq] at ht
  obtain ⟨h1, h2⟩ := h.last_le t ht
  have hl := hm.line_le
  refine ⟨le_trans h1 hl, fun he => ?_⟩
  have e1 : s'.line = s.line := by omega
  have := hm.column_eq e1
  have := h2 (by omega)
  omega

theorem sorted_push {s : Scanner} (h : Sorted s) (t : Token)
    (h1 : t.line ≤ s.line ∧ (t.line = s.line → t.column ≤ s.column))
    (h2 : ∀ u ∈ s.tokens.getLast?, Follows u t) : Sorted (s.push t) := by
  refine ⟨?_, fun u hu => ?_⟩
  · exact List.Chain'.append h.ordered (List.chain'_singleton t) (fun x hx y hy => by
      simp only [List.head?_cons, Option.mem_def, Option.some.injEq] at hy
      subst hy
      exact h2 x hx)
  · have hu' : u = t := by simpa [push] using hu.symm
    subst hu'
    exact h1

theorem sorted_error {s0 s1 : Scanner} (h : Sorted s0) (hm : Moves s0 s1) (msg : String) :
    Sorted (s1.push ⟨TOK_ERROR, msg, s1.line, s1.column⟩) := by
  have h1 := sorted_moves h hm
  exact sorted_push h1 _ ⟨le_refl _, fun _ => le_refl _⟩ (fun u hu => h1.last_le u hu)

theorem sorted_addToken {s0 s1 : Scanner} (hlen : s0.source.length < 2147483648)
    (hi : Inv s0) (h : Sorted s0) (hst : s0.start = s0.current) (hm : Moves s0 s1)
    (ty : TokenType) : Sorted (s1.addToken ty) := by
  have h1 := sorted_moves h hm
  have hi1 := inv_moves hi hm
  have hcl := hi1.current_le
  have hc0 := hi1.column_nonneg
  have hc1 := hi1.column_le
  have hcur := hm.current_le
  have hsrc := hm.source_eq
  rw [hsrc] at hcl
  have hstart : s1.start = s0.current := hm.start_eq.trans hst
  have hl : (substr s1.source s1.start (s1.current - s1.start)).length =
      s1.current - s0.current := by
    rw [substr_length, hstart, hsrc]
    omega
  have hcol : columnMinus s1.column (substr s1.source s1.start (s1.current - s1.start)).length =
      s1.column - ((s1.current - s0.current : Nat) : Int) := by
    rw [hl]
    apply columnMinus_exact <;> omega
  unfold addToken
  dsimp only
  rw [hcol]
  refine sorted_push h1 _ ⟨le_refl _, fun _ => by dsimp only; omega⟩ (fun u hu => ?_)
  rw [hm.tokens_eq] at hu
  obtain ⟨a, b⟩ := h.last_le u hu
  have hll := hm.line_le
  refine ⟨le_trans a hll, fun he => ?_⟩
  dsimp only at he ⊢
  have e1 : s1.line = s0.line := by omega
  have := hm.column_eq e1
  have := b (by omega)
  omega

theorem sorted_step {s0 r : Scanner} (hlen : s0.source.length < 2147483648) (hi : Inv s0)
    (h : Sorted s0) (hst : s0.start = s0.current) (hsh : Shape s0 (some r)) : Sorted r := by
  obtain ⟨s1, hm, hlt, hr | ⟨ty, -, hr⟩ | ⟨msg, hr⟩⟩ := hsh
  · rw [Option.some.inj hr]; exact sorted_moves h hm
  · rw [Option.some.inj hr]; exact sorted_addToken hlen hi h hst hm ty
  · rw [Option.some.inj hr]; exact sorted_error h hm msg

/-- On a text shorter than `2^31` characters the tokens pushed by the main loop are in order. -/
theorem scanLoop_sorted (src : List Char) (hlen : src.length < 2147483648) :
    ∃ s', scanLoop (src.length + 1) (Scanner.new src) = some s' ∧ Sorted s' := by
  obtain ⟨s', h1, h2, -, -⟩ := scanLoop_preserves
    (fun s => s.source.length < 2147483648 ∧ Inv s ∧ Sorted s)
    (fun s h => ⟨h.1, ⟨h.2.1.1, h.2.1.2, h.2.1.3, h.2.1.4⟩, ⟨h.2.2.1, h.2.2.2⟩⟩)
    (fun s s' h hm => ⟨by rw [hm.source_eq]; exact h.1, inv_moves h.2.1 hm,
      sorted_moves h.2.2 hm⟩)
    (fun s0 r h hst _ hsh => by
      obtain ⟨s1, hm, -, hr | ⟨ty, -, hr⟩ | ⟨msg, hr⟩⟩ := id hsh
      all_goals refine ⟨?_, inv_step h.2.1 hsh, sorted_step h.1 h.2.1 h.2.2 hst hsh⟩
      all_goals rw [Option.some.inj hr]
      · rw [hm.source_eq]; exact h.1
      · show s1.source.length < _
        rw [hm.source_eq]; exact h.1
      · show s1.source.length < _
        rw [hm.source_eq]; exact h.1)
    (src.length + 1) (Scanner.new src) (by simp [Scanner.new])
    ⟨hlen, inv_new src, ⟨List.chain'_nil, fun t ht => by cases ht⟩⟩
  exact ⟨s', h1, h2.2.2⟩

/-- On a text shorter than `2^31` characters the sequence returned by `scanTokens` is in order. -/
theorem scan_ordered (src : List Char) (hlen : src.length < 2147483648) :
    ∃ toks, scan ⟨src⟩ = some toks ∧ Ordered toks := by
  obtain ⟨s', h1, h2⟩ := scanLoop_sorted src hlen
  have hsc := scan_eq src
  rw [h1] at hsc
  refine ⟨_, hsc, ?_⟩
  exact (sorted_push h2 ⟨TOK_EOF, "", s'.line, s'.column⟩ ⟨le_refl _, fun _ => le_refl _⟩
    (fun u hu => h2.last_le u hu)).ordered

theorem scanToken_quote (s : Scanner) (h : s.advance.1 = '"') :
    s.scanToken = s.advance.2.scanString := by
  unfold scanToken
  dsimp only
  rw [h]
  rw [if_neg (by decide), if_neg (by decide), if_neg (by decide), if_neg (by decide),
    if_neg (by decide), if_neg (by decide), if_neg (by decide), if_neg (by decide),
    if_neg (by decide), if_neg (by decide), if_neg (by decide), if_neg (by decide),
    if_neg (by decide), if_neg (by decide), if_neg (by decide), if_neg (by decide),
    if_neg (by decide), if_neg (by decide), if_pos rfl]

/-- The loop of `scanString` consumes exactly the characters up to the next
double quote, or up to the end of the text when there is none. -/
theorem scanStringLoop_exact : ∀ (body pre post : List Char) (fuel : Nat) (s : Scanner),
    s.source = pre ++ body ++ post → s.current = pre.length → (∀ c ∈ body, c ≠ '"') →
    (post = [] ∨ post.head? = some '"') → body.length < fuel →
    scanStringLoop fuel s = some { s with
      current := s.current + body.length
      line := s.line + (body.count '\n' : Nat)
      column := colAfter s.column body }
  | [], pre, post, fuel, s, hs, hc, _, hpost, hf => by
    obtain ⟨fuel, rfl⟩ : ∃ k, fuel = k + 1 := ⟨fuel - 1, by simp at hf; omega⟩
    have hcond : (s.peek ≠ '"' && !s.isAtEnd) = false := by
      rcases hpost with rfl | hq
      · have : s.isAtEnd = true := isAtEnd_eq_true (by rw [hs, hc]; simp)
        simp [this]
      · obtain ⟨q, post', rfl⟩ : ∃ q post', post = q :: post' := by
          cases post with
          | nil => cases hq
          | cons q post' => exact ⟨q, post', rfl⟩
        simp only [List.head?_cons, Option.some.injEq] at hq
        subst hq
        have : s.peek = '"' := peek_at (by simpa using hs) hc
        simp [this]
    unfold scanStringLoop
    rw [hcond]
    cases s
    simp [colAfter]
  | c :: body, pre, post, fuel, s, hs, hc, hb, hpost, hf => by
    obtain ⟨fuel, rfl⟩ : ∃ k, fuel = k + 1 := ⟨fuel - 1, by simp at hf; omega⟩
    have hpk : s.peek = c := peek_at (by simpa using hs) hc
    have hlt : s.current < s.source.length := by rw [hs, hc]; simp
    have hne : c ≠ '"' := hb c (List.mem_cons_self _ _)
    have hcond : (s.peek ≠ '"' && !s.isAtEnd) = true := by
      simp [hpk, hne, isAtEnd_eq_false hlt]
    unfold scanStringLoop
    rw [hcond, if_pos rfl]
    dsimp only
    rw [scanStringLoop_exact body (pre ++ [c]) post fuel _ (by
        split <;> simp [advance, hs]) (by split <;> simp [advance, hc])
      (fun x hx => hb x (List.mem_cons_of_mem _ hx)) hpost (by simp at hf; omega)]
    rw [hpk]
    cases s
    by_cases hn : c = '\n'
    · subst hn
      simp only [if_true, advance, colAfter, List.foldl_cons, List.length_cons,
        List.count_cons_self, Option.some.injEq, Scanner.mk.injEq, true_and, and_true]
      constructor <;> omega
    · have hn' : ('\n' == c) = false := by
        simp only [beq_eq_false_iff_ne, ne_eq]; exact fun h => hn h.symm
      simp only [if_neg hn, advance, colAfter, List.foldl_cons, List.length_cons,
        List.count_cons, hn', Option.some.injEq, Scanner.mk.injEq, true_and, and_true]
      constructor
      · omega
      · simp [hn]

theorem colAfter_append (column : Int) (a b : List Char) :
    colAfter column (a ++ b) = colAfter (colAfter column a) b := by
  simp [colAfter, List.foldl_append]

/-- The main loop on a closed string literal whose body has no double quote. -/
theorem scanLoop_string_closed (body : List Char) (hb : ∀ c ∈ body, c ≠ '"') :
    scanLoop (('"' :: body ++ ['"']).length + 1) (Scanner.new ('"' :: body ++ ['"'])) =
      some { source := '"' :: body ++ ['"'], start := 0, current := body.length + 2,
             line := 1 + (body.count '\n' : Nat), column := colAfter 1 body + 1,
             tokens := [⟨TOK_STRING, ⟨'"' :: body ++ ['"']⟩, 1 + (body.count '\n' : Nat),
               columnMinus (colAfter 1 body + 1) (body.length + 2)⟩] } := by
  set src := '"' :: body ++ ['"'] with hsrc
  have hlen : src.length = body.length + 2 := by simp [hsrc]
  have hloop := scanStringLoop_exact body ['"'] ['"'] (src.length + 1)
    (Scanner.new src).advance.2 (by simp [advance, Scanner.new, hsrc]) rfl hb
    (Or.inr rfl) (by omega)
  have htok : (Scanner.new src).scanToken = some
      { source := src, start := 0, current := body.length + 2,
        line := 1 + (body.count '\n' : Nat), column := colAfter 1 body + 1,
        tokens := [⟨TOK_STRING, ⟨src⟩, 1 + (body.count '\n' : Nat),
          columnMinus (colAfter 1 body + 1) (body.length + 2)⟩] } := by
    rw [scanToken_quote (Scanner.new src) rfl]
    unfold scanString
    rw [show (Scanner.new src).advance.2.fuel = src.length + 1 from rfl, hloop]
    simp only [Option.map_some']
    rw [if_neg (by simp [isAtEnd, advance, Scanner.new, hlen]; omega)]
    simp only [addToken, push, advance, Scanner.new, List.nil_append, Nat.sub_zero,
      zero_add]
    rw [substr_all src _ (by omega)]
    simp only [String.length, hlen]
    congr 2
    omega
  rw [scanLoop_step (Scanner.new src) _ (by simp [Scanner.new, hsrc]) (by
    show src.getD 0 '\x00' ∉ _
    simp [hsrc])]
  rw [show ({ Scanner.new src with start := (Scanner.new src).current } : Scanner) =
    Scanner.new src from rfl, htok, Option.some_bind, hlen,
    scanLoop_end _ _ (by simp [hlen])]

/-- The main loop on a string literal without its closing quote. -/
theorem scanLoop_string_open (body : List Char) (hb : ∀ c ∈ body, c ≠ '"') :
    scanLoop (('"' :: body).length + 1) (Scanner.new ('"' :: body)) =
      some { source := '"' :: body, start := 0, current := body.length + 1,
             line := 1 + (body.count '\n' : Nat), column := colAfter 1 body,
             tokens := [⟨TOK_ERROR, "Unterminated string", 1 + (body.count '\n' : Nat),
               colAfter 1 body⟩] } := by
  set src := '"' :: body with hsrc
  have hlen : src.length = body.length + 1 := by simp [hsrc]
  have hloop := scanStringLoop_exact body ['"'] [] (src.length + 1)
    (Scanner.new src).advance.2 (by simp [advance, Scanner.new, hsrc]) rfl hb
    (Or.inl rfl) (by omega)
  have htok : (Scanner.new src).scanToken = some
      { source := src, start := 0, current := body.length + 1,
        line := 1 + (body.count '\n' : Nat), column := colAfter 1 body,
        tokens := [⟨TOK_ERROR, "Unterminated string", 1 + (body.count '\n' : Nat),
          colAfter 1 body⟩] } := by
    rw [scanToken_quote (Scanner.new src) rfl]
    unfold scanString
    rw [show (Scanner.new src).advance.2.fuel = src.length + 1 from rfl, hloop]
    simp only [Option.map_some']
    rw [if_pos (by simp [isAtEnd, advance, Scanner.new, hlen]; omega)]
    simp only [push, advance, Scanner.new, List.nil_append, zero_add]
    congr 2
    omega
  rw [scanLoop_step (Scanner.new src) _ (by simp [Scanner.new, hsrc]) (by
    show src.getD 0 '\x00' ∉ _
    simp [hsrc])]
  rw [show ({ Scanner.new src with start := (Scanner.new src).current } : Scanner) =
    Scanner.new src from rfl, htok, Option.some_bind, hlen,
    scanLoop_end _ _ (by simp [hlen])]

theorem scan_string_closed (body : List Char) (hb : ∀ c ∈ body, c ≠ '"') :
    scan ⟨'"' :: body ++ ['"']⟩ =
      some [⟨TOK_STRING, ⟨'"' :: body ++ ['"']⟩, 1 + (body.count '\n' : Nat),
              columnMinus (colAfter 1 body + 1) (body.length + 2)⟩,
            ⟨TOK_EOF, "", 1 + (body.count '\n' : Nat), colAfter 1 body + 1⟩] := by
  rw [scan_eq, scanLoop_string_closed body hb]
  rfl

theorem scan_string_open (body : List Char) (hb : ∀ c ∈ body, c ≠ '"') :
    scan ⟨'"' :: body⟩ =
      some [⟨TOK_ERROR, "Unterminated string", 1 + (body.count '\n' : Nat), colAfter 1 body⟩,
            ⟨TOK_EOF, "", 1 + (body.count '\n' : Nat), colAfter 1 body⟩] := by
  rw [scan_eq, scanLoop_string_open body hb]
  rfl

theorem colAfter_newline (column : Int) (a : List Char) : colAfter column (a ++ ['\n']) = 1 := by
  simp [colAfter, List.foldl_append]

theorem lineOf_no_quote (n : Nat) : ∀ c ∈ lineOf n, c ≠ '"' := by
  intro c hc
  simp only [lineOf, List.mem_append, List.mem_replicate, List.mem_singleton] at hc
  rcases hc with ⟨-, rfl⟩ | rfl <;> decide

theorem lineOf_length (n : Nat) : (lineOf n).length = n + 1 := by
  simp [lineOf]

/-- A string literal of three lines of `n` letters each, followed by the end of the text. -/
theorem scan_three_lines (n : Nat) :
    scan ⟨'"' :: (lineOf n ++ lineOf n ++ lineOf n) ++ ['"']⟩ =
      some [⟨TOK_STRING, ⟨'"' :: (lineOf n ++ lineOf n ++ lineOf n) ++ ['"']⟩, 4,
              columnMinus 2 (3 * n + 5)⟩,
            ⟨TOK_EOF, "", 4, 2⟩] := by
  have hb : ∀ c ∈ lineOf n ++ lineOf n ++ lineOf n, c ≠ '"' := by
    intro c hc
    simp only [List.mem_append] at hc
    rcases hc with (hc | hc) | hc <;> exact lineOf_no_quote n c hc
  have hcol : colAfter 1 (lineOf n ++ lineOf n ++ lineOf n) = 1 := by
    rw [show lineOf n ++ lineOf n ++ lineOf n =
      (lineOf n ++ lineOf n ++ List.replicate n 'a') ++ ['\n'] by simp [lineOf]]
    exact colAfter_newline _ _
  have hl : (lineOf n ++ lineOf n ++ lineOf n).length + 2 = 3 * n + 5 := by
    simp only [List.length_append, lineOf_length]; omega
  have hcount : (lineOf n ++ lineOf n ++ lineOf n).count '\n' = 3 := by
    have : (lineOf n).count '\n' = 1 := by
      simp [lineOf, List.count_append, List.count_replicate]
    simp [List.count_append, this]
  rw [scan_string_closed _ hb, hcol, hl, hcount]
  rfl

end Scanner

/-- C18: for every text `body` without a double quote, the closed literal
scans to one `TOK_STRING` token whose lexeme is the whole text with both
quotes, then `TOK_EOF`; the literal without its closing quote scans to one
`TOK_ERROR` token "Unterminated string", then `TOK_EOF`, and the scanner has
consumed all of the text.  The lines and columns are the counters after the
literal: the line of its end, and for the closed literal the end column less
the length of the lexeme. -/
theorem string_literal_scan (body : List Char) (hb : ∀ c ∈ body, c ≠ '"') :
    scan ⟨'"' :: body ++ ['"']⟩ =
      some [⟨TOK_STRING, ⟨'"' :: body ++ ['"']⟩, 1 + (body.count '\n' : Nat),
              columnMinus (Scanner.colAfter 1 body + 1) (body.length + 2)⟩,
            ⟨TOK_EOF, "", 1 + (body.count '\n' : Nat), Scanner.colAfter 1 body + 1⟩] ∧
    scan ⟨'"' :: body⟩ =
      some [⟨TOK_ERROR, "Unterminated string", 1 + (body.count '\n' : Nat),
              Scanner.colAfter 1 body⟩,
            ⟨TOK_EOF, "", 1 + (body.count '\n' : Nat), Scanner.colAfter 1 body⟩] ∧
    ∃ s', Scanner.scanLoop (('"' :: body).length + 1) (Scanner.new ('"' :: body)) = some s' ∧
      s'.current = ('"' :: body).length :=
  ⟨Scanner.scan_string_closed body hb, Scanner.scan_string_open body hb,
    _, Scanner.scanLoop_string_open body hb, rfl⟩

/-- Witness for C18: the literal with the body `a`, newline, `b`. -/
theorem string_literal_scan_witness :
    scan "\"a\nb\"" = some [⟨TOK_STRING, "\"a\nb\"", 2, -2⟩, ⟨TOK_EOF, "", 2, 3⟩] ∧
    scan "\"a\nb" = some [⟨TOK_ERROR, "Unterminated string", 2, 2⟩, ⟨TOK_EOF, "", 2, 2⟩] :=
  ⟨(string_literal_scan ['a', '\n', 'b'] (by decide)).1,
    (string_literal_scan ['a', '\n', 'b'] (by decide)).2.1⟩

theorem ordered_get {toks : List Token} (h : Ordered toks) : ∀ (i : Nat) (a b : Token),
    toks[i]? = some a → toks[i + 1]? = some b → Follows a b := by
  induction toks with
  | nil => intro i a b ha; simp at ha
  | cons t rest ih =>
    intro i a b ha hb
    cases i with
    | zero =>
      cases rest with
      | nil => simp at hb
      | cons u rest =>
        simp only [List.getElem?_cons_zero, Option.some.injEq, zero_add,
          List.getElem?_cons_succ] at ha hb
        subst ha hb
        exact (List.chain'_cons.1 h).1
    | succ i =>
      simp only [List.getElem?_cons_succ] at ha hb
      exact ih (List.Chain'.tail h) i a b ha hb

/-- C11 (amended): on a text shorter than `2^31` characters `scanTokens`
returns, and for every two consecutive tokens `a`, `b` of the result
`a.line ≤ b.line`, and `a.column ≤ b.column` when the lines are equal. -/
theorem positions_monotone (src : String) (hlen : src.length < 2147483648) :
    ∃ toks, scan src = some toks ∧ ∀ (i : Nat) (a b : Token),
      toks[i]? = some a → toks[i + 1]? = some b →
      a.line ≤ b.line ∧ (a.line = b.line → a.column ≤ b.column) := by
  obtain ⟨toks, h1, h2⟩ := Scanner.scan_ordered src.data hlen
  exact ⟨toks, h1, ordered_get h2⟩

theorem positions_monotone_witness :
    "x \"a\nb\" & y".length < 2147483648 ∧
    ∃ toks, scan "x \"a\nb\" & y" = some toks ∧ ∀ (i : Nat) (a b : Token),
      toks[i]? = some a → toks[i + 1]? = some b →
      a.line ≤ b.line ∧ (a.line = b.line → a.column ≤ b.column) :=
  ⟨by decide, positions_monotone "x \"a\nb\" & y" (by decide)⟩

/-- C11 (counterexample): a string literal of three lines of `2^30` letters
each, directly followed by the end of the text.  Its token gets the column
`2 - 3221225477` reduced to `int`, which is `1073741821`, on the same line as
the end-of-input token at column `2`. -/
theorem positions_not_monotone :
    ∃ a b : Token,
      scan ⟨'"' :: (Scanner.lineOf 1073741824 ++ Scanner.lineOf 1073741824 ++
        Scanner.lineOf 1073741824) ++ ['"']⟩ = some [a, b] ∧
      a.line = 4 ∧ a.column = 1073741821 ∧ b.line = 4 ∧ b.column = 2 ∧
      ¬ (a.line ≤ b.line ∧ (a.line = b.line → a.column ≤ b.column)) := by
  have h := Scanner.scan_three_lines 1073741824
  have e : columnMinus 2 (3 * 1073741824 + 5) = 1073741821 := by decide
  rw [e] at h
  exact ⟨_, _, h, rfl, rfl, rfl, rfl, fun hc => absurd (hc.2 rfl) (by decide)⟩

namespace Scanner

theorem matchChar_hit (s : Scanner) (pre rest : List Char) (e : Char)
    (hs : s.source = pre ++ e :: rest) (hc : s.current = pre.length) :
    s.matchChar e = (true, s.skip 1) := by
  have hlt : s.current < s.source.length := by rw [hs, hc]; simp
  have hg : s.source.getD s.current '\x00' = e := by rw [hs, hc]; exact getD_at _ _ _
  unfold matchChar
  rw [isAtEnd_eq_false hlt]
  simp only [Bool.false_eq_true, if_false, hg, ne_eq, not_true_eq_false, skip]
  rfl

theorem matchChar_miss (s : Scanner) (pre rest : List Char) (e : Char)
    (hs : s.source = pre ++ rest) (hc : s.current = pre.length) (hr : rest.head? ≠ some e) :
    s.matchChar e = (false, s) := by
  unfold matchChar
  cases rest with
  | nil =>
    rw [isAtEnd_eq_true (by rw [hs, hc]; simp)]
    simp
  | cons c rest =>
    have hlt : s.current < s.source.length := by rw [hs, hc]; simp
    have hg : s.source.getD s.current '\x00' = c := by rw [hs, hc]; exact getD_at _ _ _
    have hne : c ≠ e := by simpa using hr
    rw [isAtEnd_eq_false hlt]
    simp only [Bool.false_eq_true, if_false, hg]
    rw [if_pos hne]

theorem scanToken_compare (s : Scanner) (c : Char) (one two : TokenType)
    (hmem : (c, one, two) ∈ compareOps) (h : s.advance.1 = c) :
    s.scanToken = some ((s.advance.2.matchChar '=').2.addToken
      (if (s.advance.2.matchChar '=').1 then two else one)) := by
  unfold scanToken
  dsimp only
  rw [h]
  simp only [compareOps, List.mem_cons, Prod.mk.injEq, List.mem_singleton, List.not_mem_nil,
    or_false] at hmem
  rcases hmem with ⟨rfl, rfl, rfl⟩ | ⟨rfl, rfl, rfl⟩ | ⟨rfl, rfl, rfl⟩ | ⟨rfl, rfl, rfl⟩ <;>
    simp

theorem scanToken_doubled (s : Scanner) (c : Char) (two : TokenType)
    (hmem : (c, two) ∈ doubledOps) (h : s.advance.1 = c) :
    s.scanToken =
      if (s.advance.2.matchChar c).1 then some ((s.advance.2.matchChar c).2.addToken two)
      else some ((s.advance.2.matchChar c).2.push
        ⟨TOK_ERROR, "Unexpected character: " ++ String.singleton c,
          (s.advance.2.matchChar c).2.line, (s.advance.2.matchChar c).2.column⟩) := by
  unfold scanToken
  dsimp only
  rw [h]
  simp only [doubledOps, List.mem_cons, Prod.mk.injEq, List.mem_singleton, List.not_mem_nil,
    or_false] at hmem
  rcases hmem with ⟨rfl, rfl⟩ | ⟨rfl, rfl⟩ <;> simp <;> rfl

theorem substr_mid (pre w post : List Char) (n m : Nat) (hn : n = pre.length)
    (hm : m = w.length) : substr (pre ++ w ++ post) n m = ⟨w⟩ := by
  subst hn hm
  simp [substr]

theorem scanToken_long (s : Scanner) (pre rest : List Char) (c e : Char) (ty : TokenType)
    (hs : s.source = pre ++ c :: e :: rest) (hc : s.current = pre.length)
    (hst : s.start = s.current)
    (h : s.scanToken = some ((s.advance.2.matchChar e).2.addToken ty)) :
    s.scanToken = some ((s.skip 2).push
      ⟨ty, ⟨[c, e]⟩, s.line, columnMinus (s.column + 2) 2⟩) := by
  rw [h, matchChar_hit s.advance.2 (pre ++ [c]) rest e (by simp [advance, hs])
    (by simp [advance, hc])]
  have hsub : substr s.source s.start (s.current + 1 + 1 - s.start) = ⟨[c, e]⟩ := by
    rw [hs, hst, hc]
    have := substr_mid pre [c, e] rest pre.length (pre.length + 1 + 1 - pre.length) rfl
      (by simp only [List.length_cons, List.length_nil]; omega)
    simpa using this
  obtain ⟨src, st, cur, ln, col, toks⟩ := s
  simp only [addToken, push, skip, advance] at hsub ⊢
  rw [hsub]
  have e : col + 1 + 1 = col + 2 := by ring
  simp [e]

theorem scanToken_short (s : Scanner) (pre rest : List Char) (c e : Char) (ty : TokenType)
    (hs : s.source = pre ++ c :: rest) (hc : s.current = pre.length)
    (hst : s.start = s.current) (hr : rest.head? ≠ some e)
    (h : s.scanToken = some ((s.advance.2.matchChar e).2.addToken ty)) :
    s.scanToken = some ((s.skip 1).push
      ⟨ty, ⟨[c]⟩, s.line, columnMinus (s.column + 1) 1⟩) := by
  rw [h, matchChar_miss s.advance.2 (pre ++ [c]) rest e (by simp [advance, hs])
    (by simp [advance, hc]) hr]
  have hsub : substr s.source s.start (s.current + 1 - s.start) = ⟨[c]⟩ := by
    rw [hs, hst, hc]
    have := substr_mid pre [c] rest pre.length (pre.length + 1 - pre.length) rfl
      (by simp only [List.length_cons, List.length_nil]; omega)
    simpa using this
  cases s
  simp only [addToken, push, skip, advance] at hsub ⊢
  rw [hsub]
  simp

theorem scanToken_lone (s : Scanner) (pre rest : List Char) (c : Char) (msg : String)
    (hs : s.source = pre ++ c :: rest) (hc : s.current = pre.length)
    (hr : rest.head? ≠ some c)
    (h : s.scanToken = some ((s.advance.2.matchChar c).2.push
      ⟨TOK_ERROR, msg, (s.advance.2.matchChar c).2.line, (s.advance.2.matchChar c).2.column⟩)) :
    s.scanToken = some ((s.skip 1).push ⟨TOK_ERROR, msg, s.line, s.column + 1⟩) := by
  rw [h, matchChar_miss s.advance.2 (pre ++ [c]) rest c (by simp [advance, hs])
    (by simp [advance, hc]) hr]
  cases s
  simp only [push, skip, advance]
  rfl

end Scanner

open Scanner in
/-- C17: `scanToken` on a token that starts with the operator character `c`.
For `=`, `!`, `<`, `>`: followed by `=` it consumes both characters and pushes
the long kind (EQUAL, NOT_EQUAL, LESS_EQUAL, GREATER_EQUAL) with both
characters as lexeme; otherwise it consumes one character and pushes the short
kind (ASSIGN, NOT, LESS, GREATER).  For `&` and `|`: doubled it pushes AND or
OR with both characters as lexeme; alone it consumes that one character and
pushes `TOK_ERROR` with lexeme "Unexpected character: " and the character.
The twelve texts of one such token scan as stated. -/
theorem operator_scanning (s : Scanner) (pre rest : List Char) (c : Char)
    (hs : s.source = pre ++ c :: rest) (hc : s.current = pre.length)
    (hst : s.start = s.current) :
    (∀ one two, (c, one, two) ∈ compareOps →
      (rest.head? = some '=' → s.scanToken = some ((s.skip 2).push
        ⟨two, ⟨[c, '=']⟩, s.line, columnMinus (s.column + 2) 2⟩)) ∧
      (rest.head? ≠ some '=' → s.scanToken = some ((s.skip 1).push
        ⟨one, ⟨[c]⟩, s.line, columnMinus (s.column + 1) 1⟩))) ∧
    (∀ two, (c, two) ∈ doubledOps →
      (rest.head? = some c → s.scanToken = some ((s.skip 2).push
        ⟨two, ⟨[c, c]⟩, s.line, columnMinus (s.column + 2) 2⟩)) ∧
      (rest.head? ≠ some c → s.scanToken = some ((s.skip 1).push
        ⟨TOK_ERROR, "Unexpected character: " ++ String.singleton c, s.line, s.column + 1⟩))) ∧
    scan "==" = some [⟨TOK_EQUAL, "==", 1, 0⟩, ⟨TOK_EOF, "", 1, 2⟩] ∧
    scan "!=" = some [⟨TOK_NOT_EQUAL, "!=", 1, 0⟩, ⟨TOK_EOF, "", 1, 2⟩] ∧
    scan "<=" = some [⟨TOK_LESS_EQUAL, "<=", 1, 0⟩, ⟨TOK_EOF, "", 1, 2⟩] ∧
    scan ">=" = some [⟨TOK_GREATER_EQUAL, ">=", 1, 0⟩, ⟨TOK_EOF, "", 1, 2⟩] ∧
    scan "&&" = some [⟨TOK_AND, "&&", 1, 0⟩, ⟨TOK_EOF, "", 1, 2⟩] ∧
    scan "||" = some [⟨TOK_OR, "||", 1, 0⟩, ⟨TOK_EOF, "", 1, 2⟩] ∧
    scan "=" = some [⟨TOK_ASSIGN, "=", 1, 0⟩, ⟨TOK_EOF, "", 1, 1⟩] ∧
    scan "!" = some [⟨TOK_NOT, "!", 1, 0⟩, ⟨TOK_EOF, "", 1, 1⟩] ∧
    scan "<" = some [⟨TOK_LESS, "<", 1, 0⟩, ⟨TOK_EOF, "", 1, 1⟩] ∧
    scan ">" = some [⟨TOK_GREATER, ">", 1, 0⟩, ⟨TOK_EOF, "", 1, 1⟩] ∧
    scan "&" = some [⟨TOK_ERROR, "Unexpected character: &", 1, 1⟩, ⟨TOK_EOF, "", 1, 1⟩] ∧
    scan "|" = some [⟨TOK_ERROR, "Unexpected character: |", 1, 1⟩, ⟨TOK_EOF, "", 1, 1⟩] := by
  have hadv : s.advance.1 = c := by
    show s.source.getD s.current '\x00' = c
    rw [hs, hc]; exact getD_at _ _ _
  refine ⟨fun one two hmem => ⟨fun hr => ?_, fun hr => ?_⟩,
    fun two hmem => ⟨fun hr => ?_, fun hr => ?_⟩,
    by decide, by decide, by decide, by decide, by decide, by decide,
    by decide, by decide, by decide, by decide, by decide, by decide⟩
  · obtain ⟨rest', rfl⟩ : ∃ rest', rest = '=' :: rest' := by
      cases rest with
      | nil => cases hr
      | cons x rest' => simp only [List.head?_cons, Option.some.injEq] at hr; exact ⟨rest', by rw [hr]⟩
    have h := scanToken_compare s c one two hmem hadv
    rw [matchChar_hit s.advance.2 (pre ++ [c]) rest' '=' (by simp [advance, hs])
      (by simp [advance, hc])] at h
    have h' : s.scanToken = some ((s.advance.2.matchChar '=').2.addToken two) := by
      rw [h, matchChar_hit s.advance.2 (pre ++ [c]) rest' '=' (by simp [advance, hs])
        (by simp [advance, hc])]
      rfl
    exact scanToken_long s pre rest' c '=' two hs hc hst h'
  · have h := scanToken_compare s c one two hmem hadv
    have hm := matchChar_miss s.advance.2 (pre ++ [c]) rest '=' (by simp [advance, hs])
      (by simp [advance, hc]) hr
    have h' : s.scanToken = some ((s.advance.2.matchChar '=').2.addToken one) := by
      rw [h, hm]
      rfl
    exact scanToken_short s pre rest c '=' one hs hc hst hr h'
  · obtain ⟨rest', rfl⟩ : ∃ rest', rest = c :: rest' := by
      cases rest with
      | nil => cases hr
      | cons x rest' => simp only [List.head?_cons, Option.some.injEq] at hr; exact ⟨rest', by rw [hr]⟩
    have h := scanToken_doubled s c two hmem hadv
    have hm := matchChar_hit s.advance.2 (pre ++ [c]) rest' c (by simp [advance, hs])
      (by simp [advance, hc])
    have h' : s.scanToken = some ((s.advance.2.matchChar c).2.addToken two) := by
      rw [h, hm]
      rfl
    exact scanToken_long s pre rest' c c two hs hc hst h'
  · have h := scanToken_doubled s c two hmem hadv
    have hm := matchChar_miss s.advance.2 (pre ++ [c]) rest c (by simp [advance, hs])
      (by simp [advance, hc]) hr
    have h' : s.scanToken = some ((s.advance.2.matchChar c).2.push
        ⟨TOK_ERROR, "Unexpected character: " ++ String.singleton c,
          (s.advance.2.matchChar c).2.line, (s.advance.2.matchChar c).2.column⟩) := by
      rw [h, hm]
      rfl
    exact scanToken_lone s pre rest c _ hs hc hr h'

/-- Witness for C17: the first token of `a <= b` after the identifier, and of `a & b`. -/
theorem operator_scanning_witness :
    (Scanner.scanToken ⟨"a<=b".data, 1, 1, 1, 1, []⟩ =
      some ⟨"a<=b".data, 1, 3, 1, 3, [⟨TOK_LESS_EQUAL, "<=", 1, 1⟩]⟩) ∧
    (Scanner.scanToken ⟨"a&b".data, 1, 1, 1, 1, []⟩ =
      some ⟨"a&b".data, 1, 2, 1, 2, [⟨TOK_ERROR, "Unexpected character: &", 1, 2⟩]⟩) :=
  ⟨((operator_scanning ⟨"a<=b".data, 1, 1, 1, 1, []⟩ ['a'] ['=', 'b'] '<' rfl rfl rfl).1
      TOK_LESS TOK_LESS_EQUAL (by decide)).1 rfl,
   ((operator_scanning ⟨"a&b".data, 1, 1, 1, 1, []⟩ ['a'] ['b'] '&' rfl rfl rfl).2.1
      TOK_AND (by decide)).2 (by decide)⟩

/-- C14 (counterexample): for the text `x`, the second call of `scanTokens` on
the same scanner object returns three tokens, the first call two. -/
theorem second_call_differs :
    (Scanner.new "x".data).scanTokens =
      some ([⟨TOK_IDENTIFIER, "x", 1, 0⟩, ⟨TOK_EOF, "", 1, 1⟩],
        ⟨"x".data, 0, 1, 1, 1, [⟨TOK_IDENTIFIER, "x", 1, 0⟩, ⟨TOK_EOF, "", 1, 1⟩]⟩) ∧
    (Scanner.scanTokens
        ⟨"x".data, 0, 1, 1, 1, [⟨TOK_IDENTIFIER, "x", 1, 0⟩, ⟨TOK_EOF, "", 1, 1⟩]⟩).map Prod.fst =
      some [⟨TOK_IDENTIFIER, "x", 1, 0⟩, ⟨TOK_EOF, "", 1, 1⟩, ⟨TOK_EOF, "", 1, 1⟩] := by
  decide

/-- C14 (amended): for every text, `scanTokens` on a freshly constructed
scanner returns a sequence `front ++ [eof]` that depends on the text alone
(it is the value of `scan`), and leaves the object at the end of the text with
that sequence stored; a second call on the same object returns the stored
sequence with one more end-of-input token, `front ++ [eof, eof]`. -/
theorem second_call_appends_EOF (src : String) :
    ∃ front eof s1 s2, (Scanner.new src.data).scanTokens = some (front ++ [eof], s1) ∧
      scan src = some (front ++ [eof]) ∧
      eof.type = TOK_EOF ∧ (∀ t ∈ front, t.type ≠ TOK_EOF) ∧
      s1.current = src.length ∧ s1.tokens = front ++ [eof] ∧
      s1.scanTokens = some (front ++ [eof, eof], s2) := by
  obtain ⟨s', h1, h2, h3, h4⟩ := Scanner.scanLoop_new src.data
  obtain ⟨s'', h5, h6⟩ := Scanner.scanLoop_later (Scanner.new src.data).fuel
    (Scanner.new src.data) (Scanner.fuel_ok _)
  have hfuel : (Scanner.new src.data).fuel = src.data.length + 1 := rfl
  rw [hfuel, h1] at h5
  cases h5
  have hno : ∀ t ∈ s'.tokens, t.type ≠ TOK_EOF := h6.noEOF (by intro t ht; cases ht)
  have hfirst : (Scanner.new src.data).scanTokens =
      some (s'.tokens ++ [⟨TOK_EOF, "", s'.line, s'.column⟩],
        s'.push ⟨TOK_EOF, "", s'.line, s'.column⟩) := by
    unfold Scanner.scanTokens
    rw [hfuel, h1]
    rfl
  have hsecond : (s'.push ⟨TOK_EOF, "", s'.line, s'.column⟩).scanTokens =
      some (s'.tokens ++ [⟨TOK_EOF, "", s'.line, s'.column⟩, ⟨TOK_EOF, "", s'.line, s'.column⟩],
        (s'.push ⟨TOK_EOF, "", s'.line, s'.column⟩).push ⟨TOK_EOF, "", s'.line, s'.column⟩) := by
    unfold Scanner.scanTokens
    rw [show (s'.push ⟨TOK_EOF, "", s'.line, s'.column⟩).fuel = s'.source.length + 1 from rfl,
      Scanner.scanLoop_end _ _ (by
        show s'.source.length ≤ s'.current
        rw [h3, h4])]
    simp [Scanner.push]
  refine ⟨s'.tokens, ⟨TOK_EOF, "", s'.line, s'.column⟩, _, _, hfirst, ?_, rfl, hno, h4, rfl,
    hsecond⟩
  have hsc := Scanner.scan_eq src.data
  rw [h1] at hsc
  exact hsc

/-! ## Parser: disambiguation, recovery, unclosed blocks and termination -/

namespace Parser

/-- On a token that starts none of the other statements, `statement` is `expressionStatement`. -/
theorem statement_expression {tokens : List Token} {current : Nat} {k : TokenType}
    (hk : KindAt tokens current k) (fuel : Nat)
    (h : k ∉ [TOK_LBRACE, TOK_TROOP, TOK_AMMO, TOK_CODENAME, TOK_STATUS, TOK_EVALUATE,
      TOK_MAINTAIN, TOK_DEPLOY, TOK_BRIEF, TOK_INTEL, TOK_RETREAT, TOK_ABORT]) :
    statement tokens (fuel + 1) current = expressionStatement tokens fuel current := by
  rw [statement_dispatch hk]
  simp only [List.mem_cons, List.mem_singleton, List.not_mem_nil, or_false, not_or] at h
  obtain ⟨h1, h2, h3, h4, h5, h6, h7, h8, h9, h10, h11, h12⟩ := h
  rw [if_neg (fun x => h1 x.2), if_neg (fun x => by
      have := x.2
      simp only [typeTokens, List.mem_cons, List.mem_singleton, List.not_mem_nil,
        or_false] at this
      tauto),
    if_neg (fun x => h6 x.2), if_neg (fun x => h7 x.2), if_neg (fun x => h8 x.2),
    if_neg (fun x => h9 x.2), if_neg (fun x => h10 x.2), if_neg (fun x => h11 x.2),
    if_neg (fun x => h12 x.2)]

theorem derives_expr_of_literal {t : TokenType} (h : t ∈ literalTokens) : Derives .Expr [t] :=
  derives_expr_of_primary (Derives.primLiteral h)

end Parser

open Parser in
/-- C13: `primary` entered on an identifier looks at the kind `next` of the
token behind it: it takes the call branch (argument list, then `)`) when
`next` is `(`, the assignment branch (`expr` from two tokens on) when `next` is
`=`, and otherwise returns with exactly the identifier consumed.  Consequently
`statement`, on the tokens of `foo(1,2);`, of `foo = 1;` and of `foo;`, returns
normally right behind the `;`; and inside a block the three statements parse
with no diagnostic. -/
theorem primary_disambiguation (tokens : List Token) (fuel current : Nat) (next : TokenType)
    (h0 : KindAt tokens current TOK_IDENTIFIER) (h1 : KindAt tokens (current + 1) next) :
    primary tokens (fuel + 1) current =
      (if next = TOK_LPAREN then
        Res.ofOption (check tokens (current + 2) TOK_RPAREN) fun closing =>
          (if !closing then
            doWhileMatch tokens [TOK_COMMA] (expr tokens fuel) fuel (current + 2)
          else .ok (current + 2)).bind fun c =>
            consume tokens c TOK_RPAREN "Expected ')' after function call arguments."
      else if next = TOK_ASSIGN then expr tokens fuel (current + 2)
      else .ok (current + 1)) ∧
    (∀ after, Ahead tokens current [TOK_IDENTIFIER, TOK_LPAREN, TOK_INTEGER, TOK_COMMA,
        TOK_INTEGER, TOK_RPAREN, TOK_SEMICOLON] after →
      statement tokens (fuel + 100) current = .ok (current + 7)) ∧
    (∀ after, Ahead tokens current [TOK_IDENTIFIER, TOK_ASSIGN, TOK_INTEGER, TOK_SEMICOLON]
        after →
      statement tokens (fuel + 100) current = .ok (current + 4)) ∧
    (∀ after, Ahead tokens current [TOK_IDENTIFIER, TOK_SEMICOLON] after →
      statement tokens (fuel + 100) current = .ok (current + 2)) ∧
    (scan "tactic f() \x7b foo(1,2); foo = 1; foo; \x7d").map Parser.parse =
      some (.finished ⟨[], "Parsing complete. Syntax is valid.", 19⟩) := by
  have hlit : Derives .Expr [TOK_INTEGER] := derives_expr_of_literal (by decide)
  refine ⟨primary_ident tokens fuel current next h0 h1, fun after hA => ?_, fun after hA => ?_,
    fun after hA => ?_, by decide!⟩
  · have he : Derives .Expr [TOK_IDENTIFIER, TOK_LPAREN, TOK_INTEGER, TOK_COMMA, TOK_INTEGER,
        TOK_RPAREN] :=
      derives_expr_of_primary (Derives.primCallArgs (Derives.argCons hlit (Derives.argOne hlit)))
    rw [statement_expression hA.kindAt (fuel + 99) (by decide)]
    exact expressionStatement_complete he (fuel + 99) (by simp) hA
  · have he : Derives .Expr [TOK_IDENTIFIER, TOK_ASSIGN, TOK_INTEGER] :=
      derives_expr_of_primary (Derives.primAssign hlit)
    rw [statement_expression hA.kindAt (fuel + 99) (by decide)]
    exact expressionStatement_complete he (fuel + 99) (by simp) hA
  · have he : Derives .Expr [TOK_IDENTIFIER] := derives_expr_of_primary Derives.primIdent
    rw [statement_expression hA.kindAt (fuel + 99) (by decide)]
    exact expressionStatement_complete he (fuel + 99) (by simp) hA

/-- Witness for C13: `primary` on the first token of `foo = 1;`. -/
theorem primary_disambiguation_witness :
    Parser.primary [⟨TOK_IDENTIFIER, "foo", 1, 0⟩, ⟨TOK_ASSIGN, "=", 1, 4⟩,
        ⟨TOK_INTEGER, "1", 1, 6⟩, ⟨TOK_SEMICOLON, ";", 1, 7⟩, ⟨TOK_EOF, "", 1, 8⟩] (9 + 1) 0 =
      Parser.expr [⟨TOK_IDENTIFIER, "foo", 1, 0⟩, ⟨TOK_ASSIGN, "=", 1, 4⟩,
        ⟨TOK_INTEGER, "1", 1, 6⟩, ⟨TOK_SEMICOLON, ";", 1, 7⟩, ⟨TOK_EOF, "", 1, 8⟩] 9 (0 + 2) :=
  (primary_disambiguation [⟨TOK_IDENTIFIER, "foo", 1, 0⟩, ⟨TOK_ASSIGN, "=", 1, 4⟩,
      ⟨TOK_INTEGER, "1", 1, 6⟩, ⟨TOK_SEMICOLON, ";", 1, 7⟩, ⟨TOK_EOF, "", 1, 8⟩] 9 0 TOK_ASSIGN
    ⟨_, rfl, rfl⟩ ⟨_, rfl, rfl⟩).1

theorem EndsInOneEOF.length_pos {tokens : List Token} (h : EndsInOneEOF tokens) :
    0 < tokens.length := by
  obtain ⟨front, last, rfl, -, -⟩ := h
  simp

theorem EndsInOneEOF.get {tokens : List Token} (h : EndsInOneEOF tokens) {i : Nat}
    (hi : i < tokens.length) :
    ∃ t, tokens[i]? = some t ∧ (t.type = TOK_EOF ↔ i + 1 = tokens.length) := by
  obtain ⟨front, last, rfl, hlast, hfront⟩ := h
  simp only [List.length_append, List.length_singleton] at hi ⊢
  by_cases hlt : i < front.length
  · refine ⟨front[i], by simp [List.getElem?_append_left, hlt], ?_⟩
    constructor
    · intro he
      exact absurd he (hfront _ (List.getElem_mem _))
    · intro he; omega
  · have hi' : i = front.length := by omega
    subst hi'
    exact ⟨last, by simp, by simp [hlast]⟩

namespace Parser

theorem synchronizeLoop_succ (tokens : List Token) (fuel current : Nat) :
    synchronizeLoop tokens (fuel + 1) current =
      Res.ofOption (isAtEnd tokens current) fun atEnd =>
        if atEnd then .ok current
        else Res.ofOption (previous tokens current) fun p =>
          if p.type = TOK_SEMICOLON then .ok current
          else Res.ofOption (peek tokens current) fun t =>
            if t.type ∈ syncKeywords then .ok current
            else Res.ofOption (advance tokens current) fun a => synchronizeLoop tokens fuel a.2 :=
  rfl

theorem synchronizeLoop_stops {tokens : List Token} (hEOF : EndsInOneEOF tokens) :
    ∀ (fuel current : Nat), 0 < current → current < tokens.length →
      tokens.length - current ≤ fuel →
      ∃ c, synchronizeLoop tokens fuel current = .ok c ∧ current ≤ c ∧ c < tokens.length ∧
        SyncStop tokens c ∧ ∀ p, current ≤ p → p < c → ¬ SyncStop tokens p
  | 0, current, _, hlt, hf => by omega
  | fuel + 1, current, hpos, hlt, hf => by
    obtain ⟨t, ht, hte⟩ := hEOF.get hlt
    obtain ⟨u, hu, hue⟩ := hEOF.get (show current - 1 < tokens.length by omega)
    have hprev : previous tokens current = some u := by
      simp [previous, hu, Nat.ne_of_gt hpos]
    rw [synchronizeLoop_succ, isAtEnd_eq ht, ofOption_some]
    by_cases h1 : t.type = TOK_EOF
    · rw [decide_eq_true h1, if_pos rfl]
      exact ⟨current, rfl, le_refl _, hlt, Or.inl ⟨t, ht, h1⟩, fun p h2 h3 => by omega⟩
    · rw [decide_eq_false h1]
      simp only [Bool.false_eq_true, if_false, hprev, ofOption_some]
      by_cases h2 : u.type = TOK_SEMICOLON
      · rw [if_pos h2]
        exact ⟨current, rfl, le_refl _, hlt, Or.inr (Or.inl ⟨u, hu, h2⟩),
          fun p h2 h3 => by omega⟩
      · rw [if_neg h2, peek_eq ht, ofOption_some]
        by_cases h3 : t.type ∈ syncKeywords
        · rw [if_pos h3]
          exact ⟨current, rfl, le_refl _, hlt, Or.inr (Or.inr ⟨t, ht, h3⟩),
            fun p h2 h3 => by omega⟩
        · rw [if_neg h3, advance_eq ht h1, ofOption_some]
          have hlt' : current + 1 < tokens.length := by
            have := hte.not.1 h1
            omega
          obtain ⟨c, hc1, hc2, hc3, hc4, hc5⟩ := synchronizeLoop_stops hEOF fuel (current + 1)
            (by omega) hlt' (by omega)
          refine ⟨c, hc1, by omega, hc3, hc4, fun p hp1 hp2 => ?_⟩
          by_cases hp : p = current
          · subst hp
            rintro (⟨t', ht', h⟩ | ⟨u', hu', h⟩ | ⟨t', ht', h⟩)
            · rw [ht] at ht'; cases ht'; exact h1 h
            · rw [hu] at hu'; cases hu'; exact h2 h
            · rw [ht] at ht'; cases ht'; exact h3 h
          · exact hc5 p (by omega) hp2

end Parser

open Parser in
/-- C19: `synchronize`, called with the cursor on a token that is not the
end-of-input token, returns normally at a position `c` behind that token; `c`
is a stop position (cursor on end-of-input, or the token just consumed is
`;`, or the token under the cursor is one of the eleven keywords), no
position strictly between the start and `c` is one, and so every discarded
token other than the first is none of the eleven keywords and does not
follow a `;`.  The tokens from `c` on are not consumed. -/
theorem synchronize_postcondition (tokens : List Token) (current : Nat) (t : Token)
    (hEOF : EndsInOneEOF tokens) (ht : tokens[current]? = some t) (hne : t.type ≠ TOK_EOF) :
    ∃ c, synchronize tokens current = .ok c ∧ current < c ∧ c < tokens.length ∧
      SyncStop tokens c ∧ (∀ p, current < p → p < c → ¬ SyncStop tokens p) ∧
      ∀ p u, current < p → p < c → tokens[p]? = some u →
        u.type ∉ syncKeywords ∧ ∀ v, tokens[p - 1]? = some v → v.type ≠ TOK_SEMICOLON := by
  have hlt : current < tokens.length := by
    by_contra hge
    rw [List.getElem?_eq_none (by omega)] at ht
    cases ht
  obtain ⟨t', ht', hte⟩ := hEOF.get hlt
  rw [ht] at ht'
  cases ht'
  have hlt' : current + 1 < tokens.length := by
    have := hte.not.1 hne
    omega
  obtain ⟨c, hc1, hc2, hc3, hc4, hc5⟩ := synchronizeLoop_stops hEOF (tokens.length + 1)
    (current + 1) (by omega) hlt' (by omega)
  refine ⟨c, ?_, by omega, hc3, hc4, fun p hp1 hp2 => hc5 p (by omega) hp2,
    fun p u hp1 hp2 hu => ⟨fun hk => ?_, fun v hv hs => ?_⟩⟩
  · rw [synchronize, advance_eq ht hne, ofOption_some]
    exact hc1
  · exact hc5 p (by omega) hp2 (Or.inr (Or.inr ⟨u, hu, hk⟩))
  · exact hc5 p (by omega) hp2 (Or.inr (Or.inl ⟨v, hv, hs⟩))

/-- Witness for C19: recovery from the `=` of `troop x = ; troop y;` stops behind the `;`. -/
theorem synchronize_postcondition_witness :
    ∃ c, Parser.synchronize [⟨TOK_TROOP, "troop", 1, 0⟩, ⟨TOK_IDENTIFIER, "x", 1, 6⟩,
        ⟨TOK_ASSIGN, "=", 1, 8⟩, ⟨TOK_SEMICOLON, ";", 1, 10⟩, ⟨TOK_TROOP, "troop", 1, 12⟩,
        ⟨TOK_IDENTIFIER, "y", 1, 18⟩, ⟨TOK_SEMICOLON, ";", 1, 19⟩, ⟨TOK_EOF, "", 1, 20⟩] 2 =
      .ok c ∧ 2 < c ∧ c < 8 :=
  let ⟨c, h1, h2, h3, _⟩ := synchronize_postcondition [⟨TOK_TROOP, "troop", 1, 0⟩,
    ⟨TOK_IDENTIFIER, "x", 1, 6⟩, ⟨TOK_ASSIGN, "=", 1, 8⟩, ⟨TOK_SEMICOLON, ";", 1, 10⟩,
    ⟨TOK_TROOP, "troop", 1, 12⟩, ⟨TOK_IDENTIFIER, "y", 1, 18⟩, ⟨TOK_SEMICOLON, ";", 1, 19⟩,
    ⟨TOK_EOF, "", 1, 20⟩] 2 ⟨TOK_ASSIGN, "=", 1, 8⟩
    ⟨[⟨TOK_TROOP, "troop", 1, 0⟩, ⟨TOK_IDENTIFIER, "x", 1, 6⟩, ⟨TOK_ASSIGN, "=", 1, 8⟩,
      ⟨TOK_SEMICOLON, ";", 1, 10⟩, ⟨TOK_TROOP, "troop", 1, 12⟩, ⟨TOK_IDENTIFIER, "y", 1, 18⟩,
      ⟨TOK_SEMICOLON, ";", 1, 19⟩], ⟨TOK_EOF, "", 1, 20⟩, rfl, rfl, by decide⟩ rfl (by decide)
  ⟨c, h1, h2, h3⟩

namespace Parser

theorem statements_before_EOF (tokens : List Token) {n : NT} {w : List TokenType}
    (h : Derives n w) : BeforeEOF tokens n w := by
  induction h with
  | stmtsNil =>
    intro fuel lf cur _ hlf hA
    obtain ⟨lf', rfl⟩ : ∃ k, lf = k + 1 := ⟨lf - 1, by omega⟩
    rw [blockLoop_succ, check_miss hA.kindAt_nil (by decide), ofOption_some]
    simp only [Bool.not_false, if_true, isAtEnd_kind hA.kindAt_nil, decide_True,
      Option.map_some', ofOption_some, Bool.not_true, Bool.false_eq_true, if_false]
    rfl
  | @stmtsCons s ss hs hss _ ihss =>
    intro fuel lf cur hf hlf hA
    simp only [List.length_append] at hf hlf ⊢
    obtain ⟨lf', rfl⟩ : ∃ k, lf = k + 1 := ⟨lf - 1, by omega⟩
    obtain ⟨t, rest, hs', h1, h2, -⟩ := first_of_derives hs
    have hk : KindAt tokens cur t := by
      have h3 := hA
      rw [hs'] at h3
      exact h3.kindAt
    have hslen : 1 ≤ s.length := by rw [hs']; simp
    have hnext : ss.headD TOK_EOF ≠ TOK_ADJUST := by
      rcases first_of_derives hss with rfl | ⟨t', rest', rfl, -, -, h3⟩
      · decide
      · exact h3
    have hstmt := complete_of_derives tokens hs fuel cur _ (by omega) hA.left hnext
    have hrest := ihss fuel lf' (cur + s.length) (by omega) (by omega) hA.right
    rw [blockLoop_succ, check_miss hk h1, ofOption_some]
    simp only [Bool.not_false, if_true, isAtEnd_kind hk, decide_eq_false h2, Option.map_some',
      ofOption_some, hstmt, bind_ok, hrest]
    congr 1
    omega
  | _ => trivial

/-- A block whose closing brace is missing throws at the end-of-input token. -/
theorem block_unclosed {tokens : List Token} {ss : List TokenType} {current : Nat} {eof : Token}
    (hss : Derives .Statements ss) (fuel : Nat) (hf : 11 * ss.length + 11 ≤ fuel)
    (hA : Ahead tokens current (TOK_LBRACE :: ss) TOK_EOF)
    (he : tokens[current + 1 + ss.length]? = some eof) (hte : eof.type = TOK_EOF) :
    block tokens fuel current =
      .thrown ⟨eof, "Expected '\x7d' to end block."⟩ (current + 1 + ss.length) := by
  obtain ⟨f, rfl⟩ : ∃ k, fuel = k + 1 := ⟨fuel - 1, by omega⟩
  have hloop := statements_before_EOF tokens hss f f (current + 1) (by omega) (by omega) hA.tail
  rw [block_succ, consume_hit hA.kindAt (by decide), bind_ok, hloop, bind_ok, consume_eq he,
    if_neg (fun h => h.1 hte)]

/-- The header of a function definition, up to and including the `)`. -/
theorem functionDefinition_header {tokens : List Token} {name next : TokenType}
    {ps : List TokenType} {current : Nat} (hname : name = TOK_IDENTIFIER ∨ name = TOK_CAMPAIGN)
    (hps : ps = [] ∨ Derives .ParamList ps) (fuel : Nat) (hf : ps.length < fuel)
    (hA : Ahead tokens current (TOK_TACTIC :: name :: TOK_LPAREN :: ps ++ [TOK_RPAREN]) next) :
    functionDefinition tokens fuel current = block tokens fuel (current + 4 + ps.length) := by
  have hn1 : name ≠ TOK_EOF := by rcases hname with rfl | rfl <;> decide
  have hn2 : name ∈ [TOK_IDENTIFIER, TOK_CAMPAIGN] := by rcases hname with rfl | rfl <;> simp
  have hA3 : Ahead tokens (current + 1 + 1 + 1) (ps ++ [TOK_RPAREN]) next := hA.tail.tail.tail
  rcases hps with rfl | hps
  · rw [functionDefinition_eq, consume_hit hA.kindAt (by decide), bind_ok,
      matchAny_hit hA.tail.kindAt hn1 hn2, ofOption_some]
    simp only [Bool.not_true, Bool.false_eq_true, if_false,
      consume_hit hA.tail.tail.kindAt (by decide), bind_ok,
      check_hit hA.tail.tail.tail.kindAt (by decide), ofOption_some,
      consume_hit hA.tail.tail.tail.kindAt (by decide), List.length_nil]
  · obtain ⟨t, rest, hps', ht⟩ := first_of_derives hps
    have hk3 : KindAt tokens (current + 1 + 1 + 1) t := by
      have h2 := hA3
      rw [hps'] at h2
      exact h2.kindAt
    have ht' : t ≠ TOK_RPAREN := by rintro rfl; simp [TypeTok] at ht
    have hparams := complete_of_derives tokens hps fuel (current + 1 + 1 + 1) hf hA3.left
    have hA5 : Ahead tokens (current + 1 + 1 + 1 + ps.length) [TOK_RPAREN] next := hA3.right
    rw [functionDefinition_eq, consume_hit hA.kindAt (by decide), bind_ok,
      matchAny_hit hA.tail.kindAt hn1 hn2, ofOption_some]
    simp only [Bool.not_true, Bool.false_eq_true, if_false,
      consume_hit hA.tail.tail.kindAt (by decide), bind_ok, check_miss hk3 ht', ofOption_some,
      Bool.not_false, if_true, hparams, consume_hit hA5.kindAt (by decide)]
    congr 1
    omega

/-- Recovery that starts on the end-of-input token stays there. -/
theorem synchronize_at_EOF {tokens : List Token} {current : Nat} {eof u : Token}
    (he : tokens[current]? = some eof) (hte : eof.type = TOK_EOF)
    (hu : tokens[current - 1]? = some u) (hpos : 0 < current) :
    synchronize tokens current = .ok current := by
  have hadv : advance tokens current = some (u, current) := by
    simp [advance, isAtEnd_eq he, hte, previous, Nat.ne_of_gt hpos, hu]
  rw [synchronize, hadv, ofOption_some, synchronizeLoop, isAtEnd_eq he, ofOption_some,
    decide_eq_true hte, if_pos rfl]

end Parser

theorem what_at_end (eof : Token) (h : eof.type = TOK_EOF) (message : String) :
    ParseError.what ⟨eof, message⟩ =
      "[Line " ++ toString eof.line ++ ", Col " ++ toString eof.column ++ "] Error" ++
        (" at end: " ++ message) := by
  rw [ParseError.what, if_pos h]

open Parser in
/-- C12: on a token sequence made of a function header `tactic name ( params )`,
a `\x7b`, a list of statements of the grammar and then the end-of-input token,
`parse` returns with exactly one diagnostic: its offending token is the
end-of-input token, its message is "Expected '\x7d' to end block.", and the
text printed for it says "at end". -/
theorem unclosed_block_one_diagnostic (tokens : List Token) (name : TokenType)
    (ps ss : List TokenType) (hname : name = TOK_IDENTIFIER ∨ name = TOK_CAMPAIGN)
    (hps : ps = [] ∨ Derives .ParamList ps) (hss : Derives .Statements ss)
    (hk : kinds tokens = TOK_TACTIC :: name :: TOK_LPAREN :: ps ++ TOK_RPAREN ::
      TOK_LBRACE :: ss ++ [TOK_EOF]) :
    ∃ eof, tokens.getLast? = some eof ∧ eof.type = TOK_EOF ∧
      Parser.parse tokens =
        .finished ⟨[⟨⟨eof, "Expected '\x7d' to end block."⟩, tokens.length - 1⟩],
          "Parsing complete. Syntax is valid.", tokens.length - 1⟩ ∧
      ParseError.what ⟨eof, "Expected '\x7d' to end block."⟩ =
        "[Line " ++ toString eof.line ++ ", Col " ++ toString eof.column ++ "] Error" ++
          " at end: Expected '\x7d' to end block." := by
  have hlen : tokens.length = ps.length + ss.length + 6 := by
    have := congrArg List.length hk
    simp only [kinds, List.length_map, List.length_cons, List.length_append,
      List.length_nil] at this
    omega
  have hA : Ahead tokens 0
      ((TOK_TACTIC :: name :: TOK_LPAREN :: ps ++ [TOK_RPAREN]) ++ (TOK_LBRACE :: ss))
      TOK_EOF := ⟨[], by simp [hk]⟩
  have hA4 : Ahead tokens (0 + 4 + ps.length) (TOK_LBRACE :: ss) TOK_EOF := by
    have := hA.right
    simp only [List.length_cons, List.length_append, List.length_nil] at this
    have e : 0 + (ps.length + 1 + 1 + 1 + 1) = 0 + 4 + ps.length := by omega
    rw [e] at this
    exact this
  have hAe : Ahead tokens (0 + 4 + ps.length + 1 + ss.length) [] TOK_EOF := by
    have := @Ahead.right _ _ _ (TOK_LBRACE :: ss) [] (by simpa using hA4)
    simp only [List.length_cons] at this
    have e : 0 + 4 + ps.length + (ss.length + 1) = 0 + 4 + ps.length + 1 + ss.length := by omega
    rw [e] at this
    exact this
  obtain ⟨eof, he, hte⟩ := hAe.kindAt_nil
  have hidx : 0 + 4 + ps.length + 1 + ss.length = tokens.length - 1 := by omega
  obtain ⟨u, hu⟩ : ∃ u, tokens[tokens.length - 1 - 1]? = some u :=
    ⟨tokens[tokens.length - 1 - 1], List.getElem?_eq_getElem (by omega)⟩
  have hk0 : KindAt tokens 0 TOK_TACTIC := hA.kindAt
  have hfun : functionDefinition tokens (depthFuel tokens) 0 =
      .thrown ⟨eof, "Expected '\x7d' to end block."⟩ (tokens.length - 1) := by
    rw [functionDefinition_header hname hps (depthFuel tokens) (by rw [depthFuel]; omega) hA.left,
      block_unclosed hss (depthFuel tokens) (by rw [depthFuel]; omega) hA4 he hte, hidx]
  have hbody : declarationBody tokens (depthFuel tokens) 0 =
      .thrown ⟨eof, "Expected '\x7d' to end block."⟩ (tokens.length - 1) := by
    rw [declarationBody, check_miss hk0 (by decide), ofOption_some]
    simp only [Bool.false_eq_true, if_false, check_hit hk0 (by decide), ofOption_some, if_true]
    exact hfun
  rw [hidx] at he
  have hdecl : declaration tokens (depthFuel tokens) 0 =
      ([⟨⟨eof, "Expected '\x7d' to end block."⟩, tokens.length - 1⟩],
        .ok (tokens.length - 1)) := by
    rw [declaration, hbody]
    simp only [synchronize_at_EOF he hte hu (by omega)]
  refine ⟨eof, ?_, hte, ?_, ?_⟩
  · rw [List.getLast?_eq_getElem?]
    exact he
  · obtain ⟨f, hf⟩ : ∃ f, tokens.length + 1 = f + 1 + 1 := ⟨tokens.length - 1, by omega⟩
    rw [parse, hf, parseLoop_succ, isAtEnd_kind hk0, decide_eq_false (by decide)]
    simp only [hdecl, List.nil_append]
    rw [parseLoop_succ, isAtEnd_eq he, decide_eq_true hte]
  · rw [what_at_end eof hte]
    rfl

/-- Witness for C12: the tokens of `tactic f(troop a) { brief 1;`. -/
theorem unclosed_block_one_diagnostic_witness :
    ∃ eof, [(⟨TOK_TACTIC, "tactic", 1, 0⟩ : Token), ⟨TOK_IDENTIFIER, "f", 1, 7⟩,
        ⟨TOK_LPAREN, "(", 1, 8⟩, ⟨TOK_TROOP, "troop", 1, 9⟩, ⟨TOK_IDENTIFIER, "a", 1, 15⟩,
        ⟨TOK_RPAREN, ")", 1, 16⟩, ⟨TOK_LBRACE, "\x7b", 1, 18⟩, ⟨TOK_BRIEF, "brief", 1, 20⟩,
        ⟨TOK_INTEGER, "1", 1, 26⟩, ⟨TOK_SEMICOLON, ";", 1, 27⟩,
        ⟨TOK_EOF, "", 1, 29⟩].getLast? = some eof ∧ eof.type = TOK_EOF ∧
      Parser.parse [⟨TOK_TACTIC, "tactic", 1, 0⟩, ⟨TOK_IDENTIFIER, "f", 1, 7⟩,
        ⟨TOK_LPAREN, "(", 1, 8⟩, ⟨TOK_TROOP, "troop", 1, 9⟩, ⟨TOK_IDENTIFIER, "a", 1, 15⟩,
        ⟨TOK_RPAREN, ")", 1, 16⟩, ⟨TOK_LBRACE, "\x7b", 1, 18⟩, ⟨TOK_BRIEF, "brief", 1, 20⟩,
        ⟨TOK_INTEGER, "1", 1, 26⟩, ⟨TOK_SEMICOLON, ";", 1, 27⟩, ⟨TOK_EOF, "", 1, 29⟩] =
        .finished ⟨[⟨⟨eof, "Expected '\x7d' to end block."⟩, 10⟩],
          "Parsing complete. Syntax is valid.", 10⟩ :=
  let ⟨eof, h1, h2, h3, _⟩ := unclosed_block_one_diagnostic
    [⟨TOK_TACTIC, "tactic", 1, 0⟩, ⟨TOK_IDENTIFIER, "f", 1, 7⟩,
      ⟨TOK_LPAREN, "(", 1, 8⟩, ⟨TOK_TROOP, "troop", 1, 9⟩, ⟨TOK_IDENTIFIER, "a", 1, 15⟩,
      ⟨TOK_RPAREN, ")", 1, 16⟩, ⟨TOK_LBRACE, "\x7b", 1, 18⟩, ⟨TOK_BRIEF, "brief", 1, 20⟩,
      ⟨TOK_INTEGER, "1", 1, 26⟩, ⟨TOK_SEMICOLON, ";", 1, 27⟩, ⟨TOK_EOF, "", 1, 29⟩]
    TOK_IDENTIFIER [TOK_TROOP, TOK_IDENTIFIER] [TOK_BRIEF, TOK_INTEGER, TOK_SEMICOLON]
    (Or.inl rfl) (Or.inr (Derives.paramOne (by decide)))
    (Derives.stmtsCons (Derives.stmtOutput
      (Derives.outputStmt (Parser.derives_expr_of_literal (t := TOK_INTEGER) (by decide))))
      Derives.stmtsNil) rfl
  ⟨eof, h1, h2, h3⟩

namespace Parser

theorem Within.mono {tokens : List Token} {lo current lo' current' : Nat} {r : Res}
    (h : Within tokens lo current r) (h1 : lo' ≤ lo) (h2 : current' ≤ current) :
    Within tokens lo' current' r := by
  cases r with
  | ok c => exact ⟨le_trans h1 h.1, h.2⟩
  | thrown e c => exact ⟨le_trans h2 h.1, h.2⟩
  | ub => exact h
  | timeout => exact h

theorem Within.bind {tokens : List Token} {lo current lo' : Nat} {r : Res} {k : Nat → Res}
    (h : Within tokens lo current r) (hle : current ≤ lo)
    (hk : ∀ c, lo ≤ c → c < tokens.length → Within tokens lo' c (k c)) :
    Within tokens lo' current (r.bind k) := by
  cases r with
  | ok c => exact (hk c h.1 h.2).mono (le_refl _) (le_trans hle h.1)
  | thrown e c => exact h
  | ub => exact h
  | timeout => exact h

theorem consume_within {tokens : List Token} (hEOF : EndsInOneEOF tokens) {current : Nat}
    (hcur : current < tokens.length) (type : TokenType) (message : String) :
    Within tokens (current + 1) current (consume tokens current type message) := by
  obtain ⟨t, ht, hte⟩ := hEOF.get hcur
  rw [consume_eq ht]
  split
  · next h =>
    have := hte.not.1 h.1
    exact ⟨le_refl _, by omega⟩
  · exact ⟨le_refl _, hcur⟩

theorem throwAt_within {tokens : List Token} (hEOF : EndsInOneEOF tokens) {current : Nat}
    (hcur : current < tokens.length) (lo : Nat) (message : String) :
    Within tokens lo current (throwAt tokens current message) := by
  obtain ⟨t, ht, -⟩ := hEOF.get hcur
  rw [throwAt_eq ht]
  exact ⟨le_refl _, hcur⟩

theorem matchAny_cases {tokens : List Token} (hEOF : EndsInOneEOF tokens) {current : Nat}
    (hcur : current < tokens.length) (types : List TokenType) :
    (matchAny tokens current types = some (true, current + 1) ∧ current + 1 < tokens.length) ∨
    matchAny tokens current types = some (false, current) := by
  obtain ⟨t, ht, hte⟩ := hEOF.get hcur
  rw [matchAny_eq ht]
  split
  · next h =>
    have := hte.not.1 h.1
    exact Or.inl ⟨rfl, by omega⟩
  · exact Or.inr rfl

theorem check_cases {tokens : List Token} (hEOF : EndsInOneEOF tokens) {current : Nat}
    (hcur : current < tokens.length) (type : TokenType) :
    (check tokens current type = some true ∧ current + 1 < tokens.length ∧
      KindAt tokens current type) ∨
    check tokens current type = some false := by
  obtain ⟨t, ht, hte⟩ := hEOF.get hcur
  rw [check_eq ht]
  by_cases h : t.type ≠ TOK_EOF ∧ t.type = type
  · have := hte.not.1 h.1
    exact Or.inl ⟨by rw [decide_eq_true h], by omega, ⟨t, ht, h.2⟩⟩
  · exact Or.inr (by rw [decide_eq_false h])

theorem checkAny_cases {tokens : List Token} (hEOF : EndsInOneEOF tokens) {current : Nat}
    (hcur : current < tokens.length) (types : List TokenType) :
    (checkAny tokens current types = some true ∧ current + 1 < tokens.length ∧
      ∃ t, tokens[current]? = some t ∧ t.type ≠ TOK_EOF) ∨
    checkAny tokens current types = some false := by
  obtain ⟨t, ht, hte⟩ := hEOF.get hcur
  rw [checkAny_eq ht]
  by_cases h : t.type ≠ TOK_EOF ∧ t.type ∈ types
  · have := hte.not.1 h.1
    exact Or.inl ⟨by rw [decide_eq_true h], by omega, t, ht, h.1⟩
  · exact Or.inr (by rw [decide_eq_false h])

theorem isAtEnd_cases {tokens : List Token} (hEOF : EndsInOneEOF tokens) {current : Nat}
    (hcur : current < tokens.length) :
    (isAtEnd tokens current = some true ∧ current + 1 = tokens.length) ∨
    (isAtEnd tokens current = some false ∧ current + 1 < tokens.length) := by
  obtain ⟨t, ht, hte⟩ := hEOF.get hcur
  rw [isAtEnd_eq ht]
  by_cases h : t.type = TOK_EOF
  · exact Or.inl ⟨by rw [decide_eq_true h], hte.1 h⟩
  · have := hte.not.1 h
    exact Or.inr ⟨by rw [decide_eq_false h], by omega⟩

theorem advance_step {tokens : List Token} (hEOF : EndsInOneEOF tokens) {current : Nat}
    (hcur : current < tokens.length) (h : current + 1 < tokens.length) :
    ∃ t, advance tokens current = some (t, current + 1) := by
  obtain ⟨t, ht, hte⟩ := hEOF.get hcur
  exact ⟨t, advance_eq ht (fun he => by have := hte.1 he; omega)⟩

theorem whileMatch_within {tokens : List Token} (hEOF : EndsInOneEOF tokens)
    (ops : List TokenType) (operand : Nat → Res) (start : Nat)
    (hop : ∀ c, start ≤ c → c < tokens.length → Within tokens (c + 1) c (operand c)) :
    ∀ (loopFuel current : Nat), start ≤ current → current < tokens.length →
      tokens.length - current ≤ loopFuel →
      Within tokens current current (whileMatch tokens ops operand loopFuel current)
  | 0, current, _, hcur, hf => by omega
  | loopFuel + 1, current, hs, hcur, hf => by
    rw [whileMatch]
    rcases matchAny_cases hEOF hcur ops with ⟨h, hlt⟩ | h
    · rw [h, ofOption_some]
      simp only [if_true]
      refine ((hop (current + 1) (by omega) hlt).bind (Nat.le_succ _) fun c hc1 hc2 => ?_).mono
        (Nat.le_succ _) (Nat.le_succ _)
      exact (whileMatch_within hEOF ops operand start hop loopFuel c (by omega) hc2
        (by omega)).mono (by omega) (le_refl _)
    · rw [h, ofOption_some]
      exact ⟨le_refl _, hcur⟩

theorem levelRun_within {tokens : List Token} (hEOF : EndsInOneEOF tokens) (l : Level)
    (fuel loopFuel current : Nat) (hcur : current < tokens.length)
    (hf : tokens.length - current ≤ loopFuel)
    (hop : ∀ c, current ≤ c → c < tokens.length →
      Within tokens (c + 1) c (operandParser l tokens fuel c)) :
    Within tokens (current + 1) current (levelRun l tokens fuel loopFuel current) := by
  rw [levelRun]
  refine (hop current (le_refl _) hcur).bind (Nat.le_succ _) fun c hc1 hc2 => ?_
  exact (whileMatch_within hEOF l.ops _ current hop loopFuel c (by omega) hc2 (by omega)).mono
    hc1 (le_refl _)

theorem doWhileMatch_within {tokens : List Token} (hEOF : EndsInOneEOF tokens)
    (ops : List TokenType) (body : Nat → Res) (start : Nat)
    (hbody : ∀ c, start ≤ c → c < tokens.length → Within tokens c c (body c)) :
    ∀ (loopFuel current : Nat), start ≤ current → current < tokens.length →
      tokens.length - current ≤ loopFuel →
      Within tokens current current (doWhileMatch tokens ops body loopFuel current)
  | 0, current, _, hcur, hf => by omega
  | loopFuel + 1, current, hs, hcur, hf => by
    rw [doWhileMatch]
    refine (hbody current hs hcur).bind (le_refl _) fun c hc1 hc2 => ?_
    rcases matchAny_cases hEOF hc2 ops with ⟨h, hlt⟩ | h
    · rw [h, ofOption_some]
      simp only [if_true]
      exact (doWhileMatch_within hEOF ops body start hbody loopFuel (c + 1) (by omega) hlt
        (by omega)).mono (by omega) (Nat.le_succ _)
    · rw [h, ofOption_some]
      exact ⟨hc1, hc2⟩

theorem primary_within_step {tokens : List Token} (hEOF : EndsInOneEOF tokens) {fuel : Nat}
    (hE : ∀ c, c < tokens.length → 11 * (tokens.length - c) + 8 ≤ fuel + 10 →
      Within tokens (c + 1) c (expr tokens fuel c))
    (current : Nat) (hcur : current < tokens.length)
    (hf : 11 * (tokens.length - current) ≤ fuel + 1 + 10) :
    Within tokens (current + 1) current (primary tokens (fuel + 1) current) := by
  obtain ⟨t, ht, hte⟩ := hEOF.get hcur
  have hk : KindAt tokens current t.type := ⟨t, ht, rfl⟩
  by_cases h1 : t.type ∈ literalTokens
  · rw [primary_literal tokens fuel current hk h1]
    have := hte.not.1 (literal_ne_EOF h1)
    exact ⟨le_refl _, by omega⟩
  by_cases h2 : t.type = TOK_IDENTIFIER
  · have hlt : current + 1 < tokens.length := by
      have := hte.not.1 (by rw [h2]; decide)
      omega
    obtain ⟨u, hu, hue⟩ := hEOF.get hlt
    rw [h2] at hk
    rw [primary_ident tokens fuel current u.type hk ⟨u, hu, rfl⟩]
    by_cases h3 : u.type = TOK_LPAREN
    · have hlt2 : current + 2 < tokens.length := by
        have := hue.not.1 (by rw [h3]; decide)
        omega
      rw [if_pos h3]
      have hargs : Within tokens (current + 2) (current + 2)
          (doWhileMatch tokens [TOK_COMMA] (expr tokens fuel) fuel (current + 2)) :=
        doWhileMatch_within hEOF _ _ (current + 2)
          (fun c hc1 hc2 => (hE c hc2 (by omega)).mono (Nat.le_succ _) (le_refl _))
          fuel (current + 2) (le_refl _) hlt2 (by omega)
      rcases check_cases hEOF hlt2 TOK_RPAREN with ⟨h, -, -⟩ | h
      · rw [h, ofOption_some]
        simp only [Bool.not_true, Bool.false_eq_true, if_false, bind_ok]
        exact (consume_within hEOF hlt2 _ _).mono (by omega) (by omega)
      · rw [h, ofOption_some]
        simp only [Bool.not_false, if_true]
        exact (hargs.bind (le_refl _) fun c hc1 hc2 =>
          (consume_within hEOF hc2 _ _).mono (by omega) (le_refl _)).mono (le_refl _) (by omega)
    · rw [if_neg h3]
      by_cases h4 : u.type = TOK_ASSIGN
      · have hlt2 : current + 2 < tokens.length := by
          have := hue.not.1 (by rw [h4]; decide)
          omega
        rw [if_pos h4]
        exact (hE (current + 2) hlt2 (by omega)).mono (by omega) (by omega)
      · rw [if_neg h4]
        exact ⟨le_refl _, hlt⟩
  by_cases h3 : t.type = TOK_LPAREN
  · have hlt : current + 1 < tokens.length := by
      have := hte.not.1 (by rw [h3]; decide)
      omega
    rw [h3] at hk
    rw [primary_paren tokens fuel current hk]
    exact ((hE (current + 1) hlt (by omega)).bind (Nat.le_succ _) fun c hc1 hc2 =>
      (consume_within hEOF hc2 _ _).mono (by omega) (le_refl _)).mono (le_refl _) (Nat.le_succ _)
  · obtain ⟨t', ht', h⟩ := primary_other tokens fuel current hk h1 h2 h3
    rw [h]
    exact ⟨le_refl _, hcur⟩

theorem unary_within_step {tokens : List Token} (hEOF : EndsInOneEOF tokens) {fuel : Nat}
    (hU : ∀ c, c < tokens.length → 11 * (tokens.length - c) + 1 ≤ fuel + 10 →
      Within tokens (c + 1) c (unary tokens fuel c))
    (hP : ∀ c, c < tokens.length → 11 * (tokens.length - c) ≤ fuel + 10 →
      Within tokens (c + 1) c (primary tokens fuel c))
    (current : Nat) (hcur : current < tokens.length)
    (hf : 11 * (tokens.length - current) + 1 ≤ fuel + 1 + 10) :
    Within tokens (current + 1) current (unary tokens (fuel + 1) current) := by
  rw [unary_succ]
  rcases matchAny_cases hEOF hcur [TOK_NOT, TOK_MINUS] with ⟨h, hlt⟩ | h
  · rw [h, ofOption_some]
    simp only [if_true]
    exact (hU (current + 1) hlt (by omega)).mono (by omega) (Nat.le_succ _)
  · rw [h, ofOption_some]
    simp only [Bool.false_eq_true, if_false]
    exact hP current hcur (by omega)

/-- With fuel in proportion to the tokens that remain, the expression methods
return or throw inside the token sequence, and a normal return has consumed
at least one token. -/
theorem expr_within_all {tokens : List Token} (hEOF : EndsInOneEOF tokens) : ∀ fuel,
    (∀ c, c < tokens.length → 11 * (tokens.length - c) + 8 ≤ fuel + 10 →
      Within tokens (c + 1) c (expr tokens fuel c)) ∧
    (∀ l : Level, ∀ c, c < tokens.length →
      11 * (tokens.length - c) + (7 - l.prec) ≤ fuel + 10 →
      Within tokens (c + 1) c (levelParser l tokens fuel c)) ∧
    (∀ c, c < tokens.length → 11 * (tokens.length - c) + 1 ≤ fuel + 10 →
      Within tokens (c + 1) c (unary tokens fuel c)) ∧
    (∀ c, c < tokens.length → 11 * (tokens.length - c) ≤ fuel + 10 →
      Within tokens (c + 1) c (primary tokens fuel c))
  | 0 => by
    refine ⟨fun c hc hf => ?_, fun l c hc hf => ?_, fun c hc hf => ?_, fun c hc hf => ?_⟩ <;>
      omega
  | fuel + 1 => by
    obtain ⟨hE, hL, hU, hP⟩ := expr_within_all hEOF fuel
    refine ⟨fun c hc hf => ?_, fun l c hc hf => ?_,
      fun c hc hf => unary_within_step hEOF hU hP c hc hf,
      fun c hc hf => primary_within_step hEOF hE c hc hf⟩
    · rw [expr_succ]
      exact hL .LogicalOr c hc (by simp only [Level.prec]; omega)
    · rw [levelParser_succ]
      have hprec : l.prec ≤ 5 := by cases l <;> simp [Level.prec]
      refine levelRun_within hEOF l fuel fuel c hc (by omega) fun c' hc1 hc2 => ?_
      cases l
      · exact hL .LogicalAnd c' hc2 (by simp only [Level.prec] at hf ⊢; omega)
      · exact hL .Equality c' hc2 (by simp only [Level.prec] at hf ⊢; omega)
      · exact hL .Relational c' hc2 (by simp only [Level.prec] at hf ⊢; omega)
      · exact hL .Additive c' hc2 (by simp only [Level.prec] at hf ⊢; omega)
      · exact hL .Multiplicative c' hc2 (by simp only [Level.prec] at hf ⊢; omega)
      · exact hU c' hc2 (by simp only [Level.prec] at hf ⊢; omega)

theorem expr_within {tokens : List Token} (hEOF : EndsInOneEOF tokens) (fuel current : Nat)
    (hcur : current < tokens.length) (hf : 11 * (tokens.length - current) + 8 ≤ fuel + 10) :
    Within tokens (current + 1) current (expr tokens fuel current) :=
  (expr_within_all hEOF fuel).1 current hcur hf

theorem includeStatement_within {tokens : List Token} (hEOF : EndsInOneEOF tokens)
    {current : Nat} (hcur : current < tokens.length) :
    Within tokens (current + 1) current (includeStatement tokens current) := by
  rw [includeStatement]
  exact (consume_within hEOF hcur _ _).bind (Nat.le_succ _) fun c hc1 hc2 =>
    (consume_within hEOF hc2 _ _).mono (by omega) (le_refl _)

theorem inputStatement_within {tokens : List Token} (hEOF : EndsInOneEOF tokens)
    {current : Nat} (hcur : current < tokens.length) :
    Within tokens (current + 1) current (inputStatement tokens current) := by
  rw [inputStatement]
  exact (consume_within hEOF hcur _ _).bind (Nat.le_succ _) fun c hc1 hc2 =>
    ((consume_within hEOF hc2 _ _).bind (Nat.le_succ _) fun c' hc3 hc4 =>
      (consume_within hEOF hc4 _ _).mono (by omega) (le_refl _)).mono (le_refl _) (le_refl _)

theorem breakStatement_within {tokens : List Token} (hEOF : EndsInOneEOF tokens)
    {current : Nat} (hcur : current < tokens.length) :
    Within tokens (current + 1) current (breakStatement tokens current) := by
  rw [breakStatement]
  exact (consume_within hEOF hcur _ _).bind (Nat.le_succ _) fun c hc1 hc2 =>
    (consume_within hEOF hc2 _ _).mono (by omega) (le_refl _)

theorem expressionStatement_within {tokens : List Token} (hEOF : EndsInOneEOF tokens)
    {fuel current : Nat} (hcur : current < tokens.length)
    (hf : 11 * (tokens.length - current) + 8 ≤ fuel + 10) :
    Within tokens (current + 1) current (expressionStatement tokens fuel current) := by
  rw [expressionStatement]
  exact (expr_within hEOF fuel current hcur hf).bind (Nat.le_succ _) fun c hc1 hc2 =>
    (consume_within hEOF hc2 _ _).mono (by omega) (le_refl _)

theorem outputStatement_within {tokens : List Token} (hEOF : EndsInOneEOF tokens)
    {fuel current : Nat} (hcur : current < tokens.length)
    (hf : 11 * (tokens.length - current) + 8 ≤ fuel + 10) :
    Within tokens (current + 1) current (outputStatement tokens fuel current) := by
  rw [outputStatement]
  exact (consume_within hEOF hcur _ _).bind (Nat.le_succ _) fun c hc1 hc2 =>
    ((expr_within hEOF fuel c hc2 (by omega)).bind (Nat.le_succ _) fun c' hc3 hc4 =>
      (consume_within hEOF hc4 _ _).mono (by omega) (le_refl _)).mono (le_refl _) (le_refl _)

/-- An optional expression in front of `stop`, as in `forStatement` and `returnStatement`. -/
theorem optExpr_within {tokens : List Token} (hEOF : EndsInOneEOF tokens)
    {fuel current : Nat} (stop : TokenType) (hcur : current < tokens.length)
    (hf : 11 * (tokens.length - current) + 8 ≤ fuel + 10) :
    Within tokens current current (optExpr tokens fuel stop current) := by
  rw [optExpr]
  rcases check_cases hEOF hcur stop with ⟨h, -, -⟩ | h
  · rw [h, ofOption_some]
    exact ⟨le_refl _, hcur⟩
  · rw [h, ofOption_some]
    exact (expr_within hEOF fuel current hcur hf).mono (Nat.le_succ _) (le_refl _)

theorem returnStatement_within {tokens : List Token} (hEOF : EndsInOneEOF tokens)
    {fuel current : Nat} (hcur : current < tokens.length)
    (hf : 11 * (tokens.length - current) + 8 ≤ fuel + 10) :
    Within tokens (current + 1) current (returnStatement tokens fuel current) := by
  rw [returnStatement]
  refine (consume_within hEOF hcur _ _).bind (Nat.le_succ _) fun c hc1 hc2 => ?_
  have h := @optExpr_within _ hEOF fuel _ TOK_SEMICOLON hc2 (by omega)
  rw [optExpr] at h
  rw [ofOption_bind]
  exact h.bind (le_refl _) fun c' hc3 hc4 =>
    (consume_within hEOF hc4 _ _).mono (by omega) (le_refl _)

theorem variableDeclaration_within {tokens : List Token} (hEOF : EndsInOneEOF tokens)
    {fuel current : Nat} (hcur : current + 1 < tokens.length)
    (hf : 11 * (tokens.length - current) + 8 ≤ fuel + 10) :
    Within tokens (current + 1) current (variableDeclaration tokens fuel current) := by
  obtain ⟨t, ht⟩ := advance_step hEOF (show current < tokens.length by omega) hcur
  rw [variableDeclaration, ht, ofOption_some]
  refine ((consume_within hEOF hcur _ _).bind (Nat.le_succ _) fun c hc1 hc2 => ?_).mono
    (le_refl _) (Nat.le_succ _)
  rcases matchAny_cases hEOF hc2 [TOK_ASSIGN] with ⟨h, hlt⟩ | h
  · rw [h, ofOption_some]
    simp only [if_true]
    exact ((expr_within hEOF fuel (c + 1) hlt (by omega)).bind (Nat.le_succ _)
      fun c' hc3 hc4 => (consume_within hEOF hc4 _ _).mono (by omega) (le_refl _)).mono
        (le_refl _) (Nat.le_succ _)
  · rw [h, ofOption_some]
    simp only [Bool.false_eq_true, if_false, bind_ok]
    exact (consume_within hEOF hc2 _ _).mono (by omega) (le_refl _)

theorem blockLoop_within {tokens : List Token} (hEOF : EndsInOneEOF tokens)
    (statement : Nat → Res) (start : Nat)
    (hst : ∀ c, start ≤ c → c < tokens.length → Within tokens (c + 1) c (statement c)) :
    ∀ (loopFuel current : Nat), start ≤ current → current < tokens.length →
      tokens.length - current ≤ loopFuel →
      Within tokens current current (blockLoop tokens statement loopFuel current)
  | 0, current, _, hcur, hf => by omega
  | loopFuel + 1, current, hs, hcur, hf => by
    rw [blockLoop_succ]
    rcases check_cases hEOF hcur TOK_RBRACE with ⟨h, -, -⟩ | h
    · rw [h, ofOption_some]
      exact ⟨le_refl _, hcur⟩
    · rw [h, ofOption_some]
      rcases isAtEnd_cases hEOF hcur with ⟨h2, -⟩ | ⟨h2, hlt⟩
      · simp only [Bool.not_false, if_true, h2, Option.map_some', ofOption_some, Bool.not_true,
          Bool.false_eq_true, if_false]
        exact ⟨le_refl _, hcur⟩
      · simp only [Bool.not_false, if_true, h2, Option.map_some', ofOption_some]
        exact ((hst current hs hcur).bind (Nat.le_succ _) fun c hc1 hc2 =>
          (blockLoop_within hEOF statement start hst loopFuel c (by omega) hc2 (by omega)).mono
            hc1 (le_refl _)).mono (Nat.le_succ _) (le_refl _)

theorem Within.weak {tokens : List Token} {current : Nat} {r : Res}
    (h : Within tokens (current + 1) current r) : Within tokens current current r :=
  h.mono (Nat.le_succ _) (le_refl _)

theorem Within.andThen {tokens : List Token} {current : Nat} {r : Res} {k : Nat → Res}
    (h : Within tokens (current + 1) current r)
    (hk : ∀ c, current < c → c < tokens.length → Within tokens c c (k c)) :
    Within tokens (current + 1) current (r.bind k) :=
  h.bind (Nat.le_succ _) fun c h1 h2 => (hk c h1 h2).mono h1 (le_refl _)

theorem Within.andThen' {tokens : List Token} {current : Nat} {r : Res} {k : Nat → Res}
    (h : Within tokens current current r)
    (hk : ∀ c, current ≤ c → c < tokens.length → Within tokens c c (k c)) :
    Within tokens current current (r.bind k) :=
  h.bind (le_refl _) fun c h1 h2 => (hk c h1 h2).mono h1 (le_refl _)

theorem forInit_within {tokens : List Token} (hEOF : EndsInOneEOF tokens)
    {fuel current : Nat} (hcur : current < tokens.length)
    (hf : 11 * (tokens.length - current) + 8 ≤ fuel + 10) :
    Within tokens current current (forInit tokens fuel current) := by
  rw [forInit]
  rcases matchAny_cases hEOF hcur [TOK_SEMICOLON] with ⟨h, hlt⟩ | h
  · rw [h, ofOption_some]
    exact ⟨Nat.le_succ _, hlt⟩
  · rw [h, ofOption_some]
    simp only [Bool.false_eq_true, if_false]
    rcases checkAny_cases hEOF hcur typeTokens with ⟨h2, hlt, -⟩ | h2
    · rw [h2, ofOption_some]
      exact (variableDeclaration_within hEOF hlt hf).weak
    · rw [h2, ofOption_some]
      exact (expressionStatement_within hEOF hcur hf).weak

theorem block_within_step {tokens : List Token} (hEOF : EndsInOneEOF tokens) {fuel : Nat}
    (hS : ∀ c, c < tokens.length → 11 * (tokens.length - c) + 10 ≤ fuel + 10 →
      Within tokens (c + 1) c (statement tokens fuel c))
    (current : Nat) (hcur : current < tokens.length)
    (hf : 11 * (tokens.length - current) + 9 ≤ fuel + 1 + 10) :
    Within tokens (current + 1) current (block tokens (fuel + 1) current) := by
  rw [block_succ]
  refine (consume_within hEOF hcur _ _).andThen fun c hc1 hc2 => ?_
  refine (blockLoop_within hEOF _ c (fun c' h1 h2 => hS c' h2 (by omega)) fuel c (le_refl _) hc2
    (by omega)).andThen' fun c' hc3 hc4 => ?_
  exact (consume_within hEOF hc4 _ _).weak

theorem ifStatement_within_step {tokens : List Token} (hEOF : EndsInOneEOF tokens) {fuel : Nat}
    (hB : ∀ c, c < tokens.length → 11 * (tokens.length - c) + 9 ≤ fuel + 10 →
      Within tokens (c + 1) c (block tokens fuel c))
    (hI : ∀ c, c < tokens.length → 11 * (tokens.length - c) + 9 ≤ fuel + 10 →
      Within tokens (c + 1) c (ifStatement tokens fuel c))
    (current : Nat) (hcur : current < tokens.length)
    (hf : 11 * (tokens.length - current) + 9 ≤ fuel + 1 + 10) :
    Within tokens (current + 1) current (ifStatement tokens (fuel + 1) current) := by
  rw [ifStatement_succ]
  refine (consume_within hEOF hcur _ _).andThen fun c1 h1 h1' => ?_
  refine ((consume_within hEOF h1' _ _).andThen fun c2 h2 h2' => ?_).weak
  refine ((expr_within hEOF fuel c2 h2' (by omega)).andThen fun c3 h3 h3' => ?_).weak
  refine ((consume_within hEOF h3' _ _).andThen fun c4 h4 h4' => ?_).weak
  refine ((hB c4 h4' (by omega)).andThen fun c5 h5 h5' => ?_).weak
  rcases matchAny_cases hEOF h5' [TOK_ADJUST] with ⟨h, hlt⟩ | h
  · rw [h, ofOption_some]
    simp only [if_true]
    rcases check_cases hEOF hlt TOK_EVALUATE with ⟨h6, -, -⟩ | h6
    · rw [h6, ofOption_some]
      simp only [if_true]
      exact (hI (c5 + 1) hlt (by omega)).mono (by omega) (Nat.le_succ _)
    · rw [h6, ofOption_some]
      simp only [Bool.false_eq_true, if_false]
      exact (hB (c5 + 1) hlt (by omega)).mono (by omega) (Nat.le_succ _)
  · rw [h, ofOption_some]
    exact ⟨le_refl _, h5'⟩

theorem whileStatement_within_step {tokens : List Token} (hEOF : EndsInOneEOF tokens)
    {fuel : Nat}
    (hB : ∀ c, c < tokens.length → 11 * (tokens.length - c) + 9 ≤ fuel + 10 →
      Within tokens (c + 1) c (block tokens fuel c))
    (current : Nat) (hcur : current < tokens.length)
    (hf : 11 * (tokens.length - current) + 9 ≤ fuel + 1 + 10) :
    Within tokens (current + 1) current (whileStatement tokens (fuel + 1) current) := by
  rw [whileStatement_succ]
  refine (consume_within hEOF hcur _ _).andThen fun c1 h1 h1' => ?_
  refine ((consume_within hEOF h1' _ _).andThen fun c2 h2 h2' => ?_).weak
  refine ((expr_within hEOF fuel c2 h2' (by omega)).andThen fun c3 h3 h3' => ?_).weak
  refine ((consume_within hEOF h3' _ _).andThen fun c4 h4 h4' => ?_).weak
  exact (hB c4 h4' (by omega)).weak

theorem forStatement_within_step {tokens : List Token} (hEOF : EndsInOneEOF tokens)
    {fuel : Nat}
    (hB : ∀ c, c < tokens.length → 11 * (tokens.length - c) + 9 ≤ fuel + 10 →
      Within tokens (c + 1) c (block tokens fuel c))
    (current : Nat) (hcur : current < tokens.length)
    (hf : 11 * (tokens.length - current) + 9 ≤ fuel + 1 + 10) :
    Within tokens (current + 1) current (forStatement tokens (fuel + 1) current) := by
  rw [forStatement_succ]
  refine (consume_within hEOF hcur _ _).andThen fun c1 h1 h1' => ?_
  refine ((consume_within hEOF h1' _ _).andThen fun c2 h2 h2' => ?_).weak
  refine (forInit_within hEOF h2' (by omega)).andThen' fun c3 h3 h3' => ?_
  refine (optExpr_within hEOF TOK_SEMICOLON h3' (by omega)).andThen' fun c4 h4 h4' => ?_
  refine ((consume_within hEOF h4' _ _).andThen fun c5 h5 h5' => ?_).weak
  refine (optExpr_within hEOF TOK_RPAREN h5' (by omega)).andThen' fun c6 h6 h6' => ?_
  refine ((consume_within hEOF h6' _ _).andThen fun c7 h7 h7' => ?_).weak
  exact (hB c7 h7' (by omega)).weak

theorem statement_within_step {tokens : List Token} (hEOF : EndsInOneEOF tokens) {fuel : Nat}
    (hB : ∀ c, c < tokens.length → 11 * (tokens.length - c) + 9 ≤ fuel + 10 →
      Within tokens (c + 1) c (block tokens fuel c))
    (hI : ∀ c, c < tokens.length → 11 * (tokens.length - c) + 9 ≤ fuel + 10 →
      Within tokens (c + 1) c (ifStatement tokens fuel c))
    (hW : ∀ c, c < tokens.length → 11 * (tokens.length - c) + 9 ≤ fuel + 10 →
      Within tokens (c + 1) c (whileStatement tokens fuel c))
    (hF : ∀ c, c < tokens.length → 11 * (tokens.length - c) + 9 ≤ fuel + 10 →
      Within tokens (c + 1) c (forStatement tokens fuel c))
    (current : Nat) (hcur : current < tokens.length)
    (hf : 11 * (tokens.length - current) + 10 ≤ fuel + 1 + 10) :
    Within tokens (current + 1) current (statement tokens (fuel + 1) current) := by
  obtain ⟨t, ht, hte⟩ := hEOF.get hcur
  rw [statement_dispatch ⟨t, ht, rfl⟩ fuel]
  have hne : t.type ≠ TOK_EOF → current + 1 < tokens.length := fun h => by
    have := hte.not.1 h
    omega
  split_ifs with h1 h2 h3 h4 h5 h6 h7 h8 h9
  · exact hB current hcur (by omega)
  · exact variableDeclaration_within hEOF (hne h2.1) (by omega)
  · exact hI current hcur (by omega)
  · exact hW current hcur (by omega)
  · exact hF current hcur (by omega)
  · exact outputStatement_within hEOF hcur (by omega)
  · exact inputStatement_within hEOF hcur
  · exact returnStatement_within hEOF hcur (by omega)
  · exact breakStatement_within hEOF hcur
  · exact expressionStatement_within hEOF hcur (by omega)

/-- With fuel in proportion to the tokens that remain, the statement methods
return or throw inside the token sequence, and a normal return has consumed
at least one token. -/
theorem statement_within_all {tokens : List Token} (hEOF : EndsInOneEOF tokens) : ∀ fuel,
    (∀ c, c < tokens.length → 11 * (tokens.length - c) + 9 ≤ fuel + 10 →
      Within tokens (c + 1) c (block tokens fuel c)) ∧
    (∀ c, c < tokens.length → 11 * (tokens.length - c) + 10 ≤ fuel + 10 →
      Within tokens (c + 1) c (statement tokens fuel c)) ∧
    (∀ c, c < tokens.length → 11 * (tokens.length - c) + 9 ≤ fuel + 10 →
      Within tokens (c + 1) c (ifStatement tokens fuel c)) ∧
    (∀ c, c < tokens.length → 11 * (tokens.length - c) + 9 ≤ fuel + 10 →
      Within tokens (c + 1) c (whileStatement tokens fuel c)) ∧
    (∀ c, c < tokens.length → 11 * (tokens.length - c) + 9 ≤ fuel + 10 →
      Within tokens (c + 1) c (forStatement tokens fuel c))
  | 0 => by
    refine ⟨fun c hc hf => ?_, fun c hc hf => ?_, fun c hc hf => ?_, fun c hc hf => ?_,
      fun c hc hf => ?_⟩ <;> omega
  | fuel + 1 => by
    obtain ⟨hB, hS, hI, hW, hF⟩ := statement_within_all hEOF fuel
    exact ⟨fun c hc hf => block_within_step hEOF hS c hc hf,
      fun c hc hf => statement_within_step hEOF hB hI hW hF c hc hf,
      fun c hc hf => ifStatement_within_step hEOF hB hI c hc hf,
      fun c hc hf => whileStatement_within_step hEOF hB c hc hf,
      fun c hc hf => forStatement_within_step hEOF hB c hc hf⟩

theorem block_within {tokens : List Token} (hEOF : EndsInOneEOF tokens) (fuel current : Nat)
    (hcur : current < tokens.length) (hf : 11 * (tokens.length - current) + 9 ≤ fuel + 10) :
    Within tokens (current + 1) current (block tokens fuel current) :=
  (statement_within_all hEOF fuel).1 current hcur hf

theorem parameter_within {tokens : List Token} (hEOF : EndsInOneEOF tokens)
    {current : Nat} (hcur : current < tokens.length) :
    Within tokens (current + 1) current (parameter tokens current) := by
  rw [parameter]
  rcases matchAny_cases hEOF hcur typeTokens with ⟨h, hlt⟩ | h
  · rw [h, ofOption_some]
    simp only [Bool.not_true, Bool.false_eq_true, if_false]
    exact (consume_within hEOF hlt _ _).mono (by omega) (Nat.le_succ _)
  · rw [h, ofOption_some]
    simp only [Bool.not_false, if_true]
    exact throwAt_within hEOF hcur _ _

theorem functionDefinition_within {tokens : List Token} (hEOF : EndsInOneEOF tokens)
    {fuel current : Nat} (hcur : current < tokens.length)
    (hf : 11 * (tokens.length - current) + 9 ≤ fuel + 10) :
    Within tokens (current + 1) current (functionDefinition tokens fuel current) := by
  rw [functionDefinition_eq]
  refine (consume_within hEOF hcur _ _).andThen fun c1 h1 h1' => ?_
  rcases matchAny_cases hEOF h1' [TOK_IDENTIFIER, TOK_CAMPAIGN] with ⟨h, hlt⟩ | h
  · rw [h, ofOption_some]
    simp only [Bool.not_true, Bool.false_eq_true, if_false]
    refine ((consume_within hEOF hlt _ _).andThen fun c3 h3 h3' => ?_).mono
      (by omega) (Nat.le_succ _)
    have hparams : Within tokens c3 c3 (Res.ofOption (check tokens c3 TOK_RPAREN) fun closing =>
        if !closing then doWhileMatch tokens [TOK_COMMA] (parameter tokens) fuel c3
        else .ok c3) := by
      rcases check_cases hEOF h3' TOK_RPAREN with ⟨h4, -, -⟩ | h4
      · rw [h4, ofOption_some]
        exact ⟨le_refl _, h3'⟩
      · rw [h4, ofOption_some]
        exact doWhileMatch_within hEOF _ _ c3 (fun c _ hc => (parameter_within hEOF hc).weak)
          fuel c3 (le_refl _) h3' (by omega)
    refine hparams.andThen' fun c4 h4 h4' => ?_
    refine ((consume_within hEOF h4' _ _).andThen fun c5 h5 h5' => ?_).weak
    exact (block_within hEOF fuel c5 h5' (by omega)).weak
  · rw [h, ofOption_some]
    simp only [Bool.not_false, if_true]
    exact throwAt_within hEOF h1' _ _

theorem declarationBody_within {tokens : List Token} (hEOF : EndsInOneEOF tokens)
    {fuel current : Nat} (hcur : current < tokens.length)
    (hf : 11 * (tokens.length - current) + 9 ≤ fuel + 10) :
    Within tokens (current + 1) current (declarationBody tokens fuel current) := by
  rw [declarationBody]
  rcases check_cases hEOF hcur TOK_SUPPLY with ⟨h, -, -⟩ | h
  · rw [h, ofOption_some]
    exact includeStatement_within hEOF hcur
  · rw [h, ofOption_some]
    simp only [Bool.false_eq_true, if_false]
    rcases check_cases hEOF hcur TOK_TACTIC with ⟨h2, -, -⟩ | h2
    · rw [h2, ofOption_some]
      exact functionDefinition_within hEOF hcur hf
    · rw [h2, ofOption_some]
      simp only [Bool.false_eq_true, if_false]
      rcases checkAny_cases hEOF hcur typeTokens with ⟨h3, hlt, -⟩ | h3
      · rw [h3, ofOption_some]
        exact variableDeclaration_within hEOF hlt (by omega)
      · rw [h3, ofOption_some]
        exact throwAt_within hEOF hcur _ _

/-- Recovery from any token of the sequence returns normally: behind the token,
or on the end-of-input token when it started there. -/
theorem synchronize_within {tokens : List Token} (hEOF : EndsInOneEOF tokens)
    {current : Nat} (hcur : current < tokens.length)
    (hpos : current + 1 < tokens.length ∨ 0 < current) :
    ∃ c, synchronize tokens current = .ok c ∧ current ≤ c ∧ c < tokens.length ∧
      (current + 1 < tokens.length → current < c) := by
  by_cases hlt : current + 1 < tokens.length
  · obtain ⟨t, ht⟩ := advance_step hEOF hcur hlt
    obtain ⟨c, hc1, hc2, hc3, -, -⟩ := synchronizeLoop_stops hEOF (tokens.length + 1)
      (current + 1) (by omega) hlt (by omega)
    exact ⟨c, by rw [synchronize, ht, ofOption_some]; exact hc1, by omega, hc3, fun _ => by omega⟩
  · obtain ⟨eof, he, hte⟩ := hEOF.get hcur
    obtain ⟨u, hu, -⟩ := hEOF.get (show current - 1 < tokens.length by omega)
    exact ⟨current, synchronize_at_EOF he (hte.2 (by omega)) hu (by omega), le_refl _, hcur,
      fun h => absurd h hlt⟩

/-- A call of `declaration` on a token other than the end-of-input token
returns normally and has moved the cursor forward. -/
theorem declaration_within {tokens : List Token} (hEOF : EndsInOneEOF tokens)
    {fuel current : Nat} (hcur : current + 1 < tokens.length)
    (hf : 11 * (tokens.length - current) + 9 ≤ fuel + 10) :
    ∃ ds c, declaration tokens fuel current = (ds, .ok c) ∧ current < c ∧
      c < tokens.length := by
  have h := declarationBody_within hEOF (show current < tokens.length by omega) hf
  rw [declaration]
  cases hr : declarationBody tokens fuel current with
  | ok c =>
    rw [hr] at h
    exact ⟨[], c, rfl, h.1, h.2⟩
  | thrown e c =>
    rw [hr] at h
    have hc := h.1
    obtain ⟨c', h1, h2, h3, h4⟩ := synchronize_within hEOF h.2 (by omega)
    refine ⟨[⟨e, c⟩], c', by simp only [h1], ?_, h3⟩
    by_cases hlt : c + 1 < tokens.length
    · have := h4 hlt
      omega
    · omega
  | ub => rw [hr] at h; exact absurd h id
  | timeout => rw [hr] at h; exact absurd h id

end Parser

/-- C20 (code at the failing input): on the tokens of `tactic f() { brief ; }`
the parser reports two diagnostics: "Expected expression ..." at the `;`, and
after the recovery, which leaves the function body, "Expected a declaration
..." at the closing brace. -/
theorem cascade_after_statement_fault :
    scan "tactic f() \x7b brief ; \x7d" =
      some [⟨TOK_TACTIC, "tactic", 1, 0⟩, ⟨TOK_IDENTIFIER, "f", 1, 7⟩, ⟨TOK_LPAREN, "(", 1, 8⟩,
        ⟨TOK_RPAREN, ")", 1, 9⟩, ⟨TOK_LBRACE, "\x7b", 1, 11⟩, ⟨TOK_BRIEF, "brief", 1, 13⟩,
        ⟨TOK_SEMICOLON, ";", 1, 19⟩, ⟨TOK_RBRACE, "\x7d", 1, 21⟩, ⟨TOK_EOF, "", 1, 22⟩] ∧
    Parser.parse [⟨TOK_TACTIC, "tactic", 1, 0⟩, ⟨TOK_IDENTIFIER, "f", 1, 7⟩,
        ⟨TOK_LPAREN, "(", 1, 8⟩, ⟨TOK_RPAREN, ")", 1, 9⟩, ⟨TOK_LBRACE, "\x7b", 1, 11⟩,
        ⟨TOK_BRIEF, "brief", 1, 13⟩, ⟨TOK_SEMICOLON, ";", 1, 19⟩, ⟨TOK_RBRACE, "\x7d", 1, 21⟩,
        ⟨TOK_EOF, "", 1, 22⟩] =
      .finished ⟨[⟨⟨⟨TOK_SEMICOLON, ";", 1, 19⟩,
          "Expected expression (literal, variable, grouping)."⟩, 6⟩,
        ⟨⟨⟨TOK_RBRACE, "\x7d", 1, 21⟩,
          "Expected a declaration (#supply, tactic, or variable type)."⟩, 7⟩],
        "Parsing complete. Syntax is valid.", 8⟩ := by
  decide!

/-! ## Diagnostics in source order, lines, includes, lexemes and reads inside the sequence -/

namespace Parser

theorem faithful_ok (tokens : List Token) (c : Nat) : Faithful tokens (.ok c) := by
  intro e c' h; cases h

theorem faithful_ub (tokens : List Token) : Faithful tokens .ub := by
  intro e c' h; cases h

theorem faithful_timeout (tokens : List Token) : Faithful tokens .timeout := by
  intro e c' h; cases h

theorem faithful_ofOption {tokens : List Token} {α : Type} {o : Option α} {k : α → Res}
    (hk : ∀ a, Faithful tokens (k a)) : Faithful tokens (Res.ofOption o k) := by
  cases o with
  | none => exact faithful_ub tokens
  | some a => exact hk a

theorem faithful_bind {tokens : List Token} {r : Res} {k : Nat → Res}
    (h : Faithful tokens r) (hk : ∀ c, Faithful tokens (k c)) : Faithful tokens (r.bind k) := by
  cases r with
  | ok c => exact hk c
  | thrown e c => exact h
  | ub => exact faithful_ub tokens
  | timeout => exact faithful_timeout tokens

theorem faithful_ite {tokens : List Token} {c : Prop} [Decidable c] {a b : Res}
    (ha : Faithful tokens a) (hb : Faithful tokens b) : Faithful tokens (if c then a else b) := by
  split
  · exact ha
  · exact hb

theorem faithful_throwAt (tokens : List Token) (current : Nat) (message : String) :
    Faithful tokens (throwAt tokens current message) := by
  rw [throwAt]
  cases h : peek tokens current with
  | none => exact faithful_ub tokens
  | some t =>
    intro e c he
    simp only [Res.ofOption, error, Res.thrown.injEq] at he
    obtain ⟨rfl, rfl⟩ := he
    exact h

theorem faithful_consume (tokens : List Token) (current : Nat) (type : TokenType)
    (message : String) : Faithful tokens (consume tokens current type message) := by
  rw [consume]
  refine faithful_ofOption fun b => faithful_ite (faithful_ofOption fun a => faithful_ok _ _)
    (faithful_throwAt _ _ _)

theorem faithful_whileMatch {tokens : List Token} (ops : List TokenType) (operand : Nat → Res)
    (hop : ∀ c, Faithful tokens (operand c)) : ∀ (fuel current : Nat),
    Faithful tokens (whileMatch tokens ops operand fuel current)
  | 0, _ => faithful_timeout tokens
  | fuel + 1, current => by
    rw [whileMatch]
    exact faithful_ofOption fun m => faithful_ite
      (faithful_bind (hop _) fun c => faithful_whileMatch ops operand hop fuel c)
      (faithful_ok _ _)

theorem faithful_doWhileMatch {tokens : List Token} (ops : List TokenType) (body : Nat → Res)
    (hb : ∀ c, Faithful tokens (body c)) : ∀ (fuel current : Nat),
    Faithful tokens (doWhileMatch tokens ops body fuel current)
  | 0, _ => faithful_timeout tokens
  | fuel + 1, current => by
    rw [doWhileMatch]
    exact faithful_bind (hb _) fun c => faithful_ofOption fun m => faithful_ite
      (faithful_doWhileMatch ops body hb fuel _) (faithful_ok _ _)

theorem faithful_blockLoop {tokens : List Token} (statement : Nat → Res)
    (hs : ∀ c, Faithful tokens (statement c)) : ∀ (fuel current : Nat),
    Faithful tokens (blockLoop tokens statement fuel current)
  | 0, _ => faithful_timeout tokens
  | fuel + 1, current => by
    rw [blockLoop_succ]
    exact faithful_ofOption fun _ => faithful_ofOption fun _ => faithful_ite
      (faithful_bind (hs _) fun c => faithful_blockLoop statement hs fuel c) (faithful_ok _ _)

/-- Every throw of an expression method names the token under its cursor. -/
theorem faithful_expr_all (tokens : List Token) : ∀ fuel,
    (∀ c, Faithful tokens (expr tokens fuel c)) ∧
    (∀ l : Level, ∀ c, Faithful tokens (levelParser l tokens fuel c)) ∧
    (∀ c, Faithful tokens (unary tokens fuel c)) ∧
    (∀ c, Faithful tokens (primary tokens fuel c))
  | 0 => by
    refine ⟨fun c => faithful_timeout tokens, fun l c => ?_, fun c => faithful_timeout tokens,
      fun c => faithful_timeout tokens⟩
    cases l <;> exact faithful_timeout tokens
  | fuel + 1 => by
    obtain ⟨hE, hL, hU, hP⟩ := faithful_expr_all tokens fuel
    refine ⟨fun c => ?_, fun l c => ?_, fun c => ?_, fun c => ?_⟩
    · rw [expr_succ]
      exact hL .LogicalOr c
    · rw [levelParser_succ, levelRun]
      have hop : ∀ c, Faithful tokens (operandParser l tokens fuel c) := by
        cases l
        · exact hL .LogicalAnd
        · exact hL .Equality
        · exact hL .Relational
        · exact hL .Additive
        · exact hL .Multiplicative
        · exact hU
      exact faithful_bind (hop c) fun c' => faithful_whileMatch _ _ hop fuel c'
    · rw [unary_succ]
      exact faithful_ofOption fun m => faithful_ite (hU _) (hP _)
    · rw [primary_succ]
      repeat' first
        | exact faithful_ok _ _
        | exact faithful_throwAt _ _ _
        | exact faithful_consume _ _ _ _
        | exact hE _
        | exact faithful_doWhileMatch _ _ hE _ _
        | refine faithful_ofOption fun _ => ?_
        | refine faithful_bind ?_ fun _ => ?_
        | refine faithful_ite ?_ ?_

theorem faithful_expr (tokens : List Token) (fuel current : Nat) :
    Faithful tokens (expr tokens fuel current) :=
  (faithful_expr_all tokens fuel).1 current

theorem faithful_variableDeclaration (tokens : List Token) (fuel current : Nat) :
    Faithful tokens (variableDeclaration tokens fuel current) := by
  rw [variableDeclaration]
  repeat' first
    | exact faithful_ok _ _
    | exact faithful_consume _ _ _ _
    | exact faithful_expr _ _ _
    | refine faithful_ofOption fun _ => ?_
    | refine faithful_bind ?_ fun _ => ?_
    | refine faithful_ite ?_ ?_

theorem faithful_simpleStatements (tokens : List Token) (fuel current : Nat) :
    Faithful tokens (outputStatement tokens fuel current) ∧
    Faithful tokens (inputStatement tokens current) ∧
    Faithful tokens (returnStatement tokens fuel current) ∧
    Faithful tokens (breakStatement tokens current) ∧
    Faithful tokens (expressionStatement tokens fuel current) ∧
    Faithful tokens (includeStatement tokens current) := by
  rw [outputStatement, inputStatement, returnStatement, breakStatement, expressionStatement,
    includeStatement]
  refine ⟨?_, ?_, ?_, ?_, ?_, ?_⟩ <;>
  repeat' first
    | exact faithful_ok _ _
    | exact faithful_consume _ _ _ _
    | exact faithful_expr _ _ _
    | refine faithful_ofOption fun _ => ?_
    | refine faithful_bind ?_ fun _ => ?_
    | refine faithful_ite ?_ ?_

/-- Every throw of a statement method names the token under its cursor. -/
theorem faithful_statement_all (tokens : List Token) : ∀ fuel,
    (∀ c, Faithful tokens (block tokens fuel c)) ∧
    (∀ c, Faithful tokens (statement tokens fuel c)) ∧
    (∀ c, Faithful tokens (ifStatement tokens fuel c)) ∧
    (∀ c, Faithful tokens (whileStatement tokens fuel c)) ∧
    (∀ c, Faithful tokens (forStatement tokens fuel c))
  | 0 => ⟨fun _ => faithful_timeout tokens, fun _ => faithful_timeout tokens,
      fun _ => faithful_timeout tokens, fun _ => faithful_timeout tokens,
      fun _ => faithful_timeout tokens⟩
  | fuel + 1 => by
    obtain ⟨hB, hS, hI, hW, hF⟩ := faithful_statement_all tokens fuel
    refine ⟨fun c => ?_, fun c => ?_, fun c => ?_, fun c => ?_, fun c => ?_⟩
    · rw [block_succ]
      exact faithful_bind (faithful_consume _ _ _ _) fun _ =>
        faithful_bind (faithful_blockLoop _ hS _ _) fun _ => faithful_consume _ _ _ _
    · rw [statement]
      have hs := fun c => faithful_simpleStatements tokens fuel c
      repeat' first
        | exact hB _
        | exact hI _
        | exact hW _
        | exact hF _
        | exact faithful_variableDeclaration _ _ _
        | exact (hs _).1
        | exact (hs _).2.1
        | exact (hs _).2.2.1
        | exact (hs _).2.2.2.1
        | exact (hs _).2.2.2.2.1
        | refine faithful_ofOption fun _ => ?_
        | refine faithful_ite ?_ ?_
    · rw [ifStatement_succ]
      repeat' first
        | exact faithful_ok _ _
        | exact faithful_consume _ _ _ _
        | exact faithful_expr _ _ _
        | exact hB _
        | exact hI _
        | refine faithful_ofOption fun _ => ?_
        | refine faithful_bind ?_ fun _ => ?_
        | refine faithful_ite ?_ ?_
    · rw [whileStatement_succ]
      repeat' first
        | exact faithful_consume _ _ _ _
        | exact faithful_expr _ _ _
        | exact hB _
        | refine faithful_bind ?_ fun _ => ?_
    · rw [forStatement]
      repeat' first
        | exact faithful_ok _ _
        | exact faithful_consume _ _ _ _
        | exact faithful_expr _ _ _
        | exact faithful_variableDeclaration _ _ _
        | exact (faithful_simpleStatements _ _ _).2.2.2.2.1
        | exact hB _
        | refine faithful_ofOption fun _ => ?_
        | refine faithful_bind ?_ fun _ => ?_
        | refine faithful_ite ?_ ?_

theorem faithful_parameter (tokens : List Token) (current : Nat) :
    Faithful tokens (parameter tokens current) := by
  rw [parameter]
  exact faithful_ofOption fun _ => faithful_ite (faithful_throwAt _ _ _)
    (faithful_consume _ _ _ _)

theorem faithful_functionDefinition (tokens : List Token) (fuel current : Nat) :
    Faithful tokens (functionDefinition tokens fuel current) := by
  rw [functionDefinition]
  repeat' first
    | exact faithful_ok _ _
    | exact faithful_consume _ _ _ _
    | exact faithful_throwAt _ _ _
    | exact (faithful_statement_all _ _).1 _
    | exact faithful_doWhileMatch _ _ (faithful_parameter tokens) _ _
    | refine faithful_ofOption fun _ => ?_
    | refine faithful_bind ?_ fun _ => ?_
    | refine faithful_ite ?_ ?_

/-- The diagnostic of a declaration names the token at which it was raised. -/
theorem faithful_declarationBody (tokens : List Token) (fuel current : Nat) :
    Faithful tokens (declarationBody tokens fuel current) := by
  rw [declarationBody]
  repeat' first
    | exact faithful_throwAt _ _ _
    | exact (faithful_simpleStatements _ 0 _).2.2.2.2.2
    | exact faithful_functionDefinition _ _ _
    | exact faithful_variableDeclaration _ _ _
    | refine faithful_ofOption fun _ => ?_
    | refine faithful_ite ?_ ?_

/-- One call of `declaration` before the end of input: it returns normally
behind its starting point with at most one diagnostic, whose token is the one
at the recorded index, an index that the cursor has passed unless it is that
of the end-of-input token. -/
theorem declaration_result {tokens : List Token} (hEOF : EndsInOneEOF tokens)
    {fuel current : Nat} (hcur : current + 1 < tokens.length)
    (hf : 11 * (tokens.length - current) + 9 ≤ fuel + 10) :
    ∃ ds c, declaration tokens fuel current = (ds, .ok c) ∧ current < c ∧
      c < tokens.length ∧
      (ds = [] ∨ ∃ e c0, ds = [⟨e, c0⟩] ∧ current ≤ c0 ∧ c0 < tokens.length ∧
        tokens[c0]? = some e.token ∧ (c0 < c ∨ c + 1 = tokens.length)) := by
  have h := declarationBody_within hEOF (show current < tokens.length by omega) hf
  have hfa := faithful_declarationBody tokens fuel current
  rw [declaration]
  cases hr : declarationBody tokens fuel current with
  | ok c =>
    rw [hr] at h
    exact ⟨[], c, rfl, h.1, h.2, Or.inl rfl⟩
  | thrown e c =>
    rw [hr] at h
    have hc := h.1
    obtain ⟨c', h1, h2, h3, h4⟩ := synchronize_within hEOF h.2 (by omega)
    refine ⟨[⟨e, c⟩], c', by simp only [h1], ?_, h3,
      Or.inr ⟨e, c, rfl, hc, h.2, hfa e c hr, ?_⟩⟩
    · by_cases hlt : c + 1 < tokens.length
      · have := h4 hlt
        omega
      · omega
    · by_cases hlt : c + 1 < tokens.length
      · exact Or.inl (h4 hlt)
      · exact Or.inr (by omega)
  | ub => rw [hr] at h; exact absurd h id
  | timeout => rw [hr] at h; exact absurd h id

/-- The loop of `parse` keeps the diagnostics in source order: each names the
token at its index, the indices increase strictly, and all lie before the
cursor until the end-of-input token is reached. -/
theorem parseLoop_diagnostics {tokens : List Token} (hEOF : EndsInOneEOF tokens) (depth : Nat)
    (hd : 11 * tokens.length ≤ depth + 1) :
    ∀ (fuel current : Nat) (diags : List Diagnostic), current < tokens.length →
      tokens.length - current ≤ fuel →
      diags.Pairwise (fun a b => a.current < b.current) →
      (∀ d ∈ diags, d.current < current ∨ current + 1 = tokens.length) →
      (∀ d ∈ diags, d.current < tokens.length ∧ tokens[d.current]? = some d.error.token) →
      ∃ diags', parseLoop tokens depth fuel current diags =
          .finished ⟨diags', "Parsing complete. Syntax is valid.", tokens.length - 1⟩ ∧
        diags'.Pairwise (fun a b => a.current < b.current) ∧
        ∀ d ∈ diags', d.current < tokens.length ∧ tokens[d.current]? = some d.error.token
  | 0, current, _, hcur, hf, _, _, _ => by omega
  | fuel + 1, current, diags, hcur, hf, hp, hb, ht => by
    rw [parseLoop_succ]
    rcases isAtEnd_cases hEOF hcur with ⟨h, he⟩ | ⟨h, hlt⟩
    · rw [h]
      have e : current = tokens.length - 1 := by omega
      exact ⟨diags, by simp only [e], hp, ht⟩
    · rw [h]
      obtain ⟨ds, c, h1, h2, h3, h4⟩ := @declaration_result _ hEOF depth _ hlt (by omega)
      simp only [h1]
      have hb' : ∀ d ∈ diags, d.current < current := fun d hd =>
        (hb d hd).resolve_right (by omega)
      refine parseLoop_diagnostics hEOF depth hd fuel c _ h3 (by omega) ?_ ?_ ?_
      · rcases h4 with rfl | ⟨e, c0, rfl, h5, h6, h7, h8⟩
        · simpa using hp
        · rw [List.pairwise_append]
          refine ⟨hp, List.pairwise_singleton _ _, fun a ha b hb2 => ?_⟩
          rw [List.mem_singleton] at hb2
          subst hb2
          have := hb' a ha
          show a.current < c0
          omega
      · intro d hd
        rw [List.mem_append] at hd
        rcases hd with hd | hd
        · have := hb' d hd
          exact Or.inl (by omega)
        · rcases h4 with rfl | ⟨e, c0, rfl, h5, h6, h7, h8⟩
          · cases hd
          · rw [List.mem_singleton] at hd
            subst hd
            exact h8
      · intro d hd
        rw [List.mem_append] at hd
        rcases hd with hd | hd
        · exact ht d hd
        · rcases h4 with rfl | ⟨e, c0, rfl, h5, h6, h7, h8⟩
          · cases hd
          · rw [List.mem_singleton] at hd
            subst hd
            exact ⟨h6, h7⟩

/-- A list of strictly increasing numbers from `lo` up to below `n` has at most
`n - lo` elements. -/
theorem length_le_of_increasing : ∀ (l : List Nat) (lo n : Nat), l.Pairwise (· < ·) →
    (∀ x ∈ l, lo ≤ x ∧ x < n) → l.length ≤ n - lo
  | [], _, _, _, _ => Nat.zero_le _
  | a :: l, lo, n, hp, hb => by
    rw [List.pairwise_cons] at hp
    have ha := hb a (List.mem_cons_self _ _)
    have := length_le_of_increasing l (a + 1) n hp.2 fun x hx =>
      ⟨hp.1 x hx, (hb x (List.mem_cons_of_mem _ hx)).2⟩
    rw [List.length_cons]
    omega

/-- In a list in strictly increasing order of index, an element with the
greatest index is the last one. -/
theorem last_of_greatest : ∀ (l : List Diagnostic) (d : Diagnostic),
    l.Pairwise (fun a b => a.current < b.current) → d ∈ l →
    (∀ x ∈ l, x.current ≤ d.current) → l.getLast? = some d
  | [], d, _, hd, _ => by cases hd
  | [a], d, _, hd, _ => by
    rw [List.mem_singleton] at hd
    rw [hd]
    rfl
  | a :: b :: l, d, hp, hd, hg => by
    rw [List.pairwise_cons] at hp
    rw [List.getLast?_cons_cons]
    have hab := hp.1 b (List.mem_cons_self _ _)
    have hbd := hg b (List.mem_cons_of_mem _ (List.mem_cons_self _ _))
    rcases List.mem_cons.1 hd with rfl | hd'
    · omega
    · exact last_of_greatest (b :: l) d hp.2 hd' fun x hx => hg x (List.mem_cons_of_mem _ hx)

end Parser

/-- C21: for every token sequence whose only end-of-input token is its last
element, `parse` finishes, every diagnostic names the token at its recorded
index, the indices of successive diagnostics increase strictly, so there are
at most as many diagnostics as tokens, and a diagnostic that names the
end-of-input token is the last one, so there is at most one of them. -/
theorem diagnostics_in_source_order (tokens : List Token) (hEOF : EndsInOneEOF tokens) :
    ∃ out, Parser.parse tokens = .finished out ∧
      (∀ d ∈ out.diagnostics, d.current < tokens.length ∧
        tokens[d.current]? = some d.error.token) ∧
      out.diagnostics.Pairwise (fun a b => a.current < b.current) ∧
      out.diagnostics.length ≤ tokens.length ∧
      (∀ d ∈ out.diagnostics, d.error.token.type = TOK_EOF →
        out.diagnostics.getLast? = some d) ∧
      (out.diagnostics.filter fun d => d.error.token.type = TOK_EOF).length ≤ 1 := by
  have hpos := hEOF.length_pos
  obtain ⟨diags, h1, h2, h3⟩ := Parser.parseLoop_diagnostics hEOF (Parser.depthFuel tokens)
    (by rw [Parser.depthFuel]; omega) (tokens.length + 1) 0 [] hpos (by omega)
    List.Pairwise.nil (fun d hd => by cases hd) (fun d hd => by cases hd)
  have hidx : ∀ d ∈ diags, d.error.token.type = TOK_EOF → d.current = tokens.length - 1 := by
    intro d hd he
    obtain ⟨hlt, hd2⟩ := h3 d hd
    obtain ⟨t, ht, hte⟩ := hEOF.get hlt
    rw [ht] at hd2
    have : t = d.error.token := by simpa using hd2
    rw [← this] at he
    have := hte.1 he
    omega
  have hlast : ∀ d ∈ diags, d.error.token.type = TOK_EOF → diags.getLast? = some d := by
    intro d hd he
    refine Parser.last_of_greatest diags d h2 hd fun x hx => ?_
    have := (h3 x hx).1
    have := hidx d hd he
    omega
  refine ⟨_, h1, h3, h2, ?_, hlast, ?_⟩
  · have := Parser.length_le_of_increasing (diags.map Parser.Diagnostic.current) 0 tokens.length
      (by rw [List.pairwise_map]; exact h2)
      (fun x hx => by
        obtain ⟨d, hd, rfl⟩ := List.mem_map.1 hx
        exact ⟨Nat.zero_le _, (h3 d hd).1⟩)
    simpa using this
  · show (diags.filter fun d => d.error.token.type = TOK_EOF).length ≤ 1
    by_contra hcon
    have hsub : (diags.filter fun d => d.error.token.type = TOK_EOF).Pairwise
        (fun a b => a.current < b.current) := h2.sublist (List.filter_sublist _)
    generalize hl : (diags.filter fun d => decide (d.error.token.type = TOK_EOF)) = l at hsub hcon
    have hmem : ∀ x ∈ l, x ∈ diags ∧ x.error.token.type = TOK_EOF := by
      intro x hx
      rw [← hl, List.mem_filter] at hx
      exact ⟨hx.1, by simpa using hx.2⟩
    match l, hsub, hcon, hmem with
    | [], _, hcon, _ => exact hcon (by simp)
    | [_], _, hcon, _ => exact hcon (by simp)
    | a :: b :: l, hsub, _, hmem =>
      rw [List.pairwise_cons] at hsub
      have hab := hsub.1 b (List.mem_cons_self _ _)
      have ha := hmem a (List.mem_cons_self _ _)
      have hb := hmem b (List.mem_cons_of_mem _ (List.mem_cons_self _ _))
      have := hidx a ha.1 ha.2
      have := hidx b hb.1 hb.2
      omega

/-- Witness for C21: on the tokens of `; troop x` the parser reports the `;`
and then the end of input. -/
theorem diagnostics_in_source_order_witness :
    ∃ out, Parser.parse [⟨TOK_SEMICOLON, ";", 1, 0⟩, ⟨TOK_TROOP, "troop", 1, 2⟩,
        ⟨TOK_IDENTIFIER, "x", 1, 8⟩, ⟨TOK_EOF, "", 1, 9⟩] = .finished out ∧
      out.diagnostics.Pairwise (fun a b => a.current < b.current) ∧
      out.diagnostics.length ≤ 4 :=
  Exists.imp (fun _ h => ⟨h.1, h.2.2.1, h.2.2.2.1⟩)
    (diagnostics_in_source_order [⟨TOK_SEMICOLON, ";", 1, 0⟩, ⟨TOK_TROOP, "troop", 1, 2⟩,
        ⟨TOK_IDENTIFIER, "x", 1, 8⟩, ⟨TOK_EOF, "", 1, 9⟩]
      ⟨[⟨TOK_SEMICOLON, ";", 1, 0⟩, ⟨TOK_TROOP, "troop", 1, 2⟩, ⟨TOK_IDENTIFIER, "x", 1, 8⟩],
        ⟨TOK_EOF, "", 1, 9⟩, rfl, rfl, by decide⟩)

/-- C22 (code at the failing input): in the text of `brief "a`, newline, `b";`
the string literal begins at character 6 of line 1 (no newline precedes it),
yet its token carries line 2, the line on which the literal ends, together
with the column -2. -/
theorem multiline_string_line :
    scan "brief \"a\nb\";" =
      some [⟨TOK_BRIEF, "brief", 1, 0⟩, ⟨TOK_STRING, "\"a\nb\"", 2, -2⟩,
        ⟨TOK_SEMICOLON, ";", 2, 3⟩, ⟨TOK_EOF, "", 2, 4⟩] ∧
    ("brief \"a\nb\";".data.drop 6).take 5 = "\"a\nb\"".data ∧
    1 + ("brief \"a\nb\";".data.take 6).count '\n' = 1 := by
  refine ⟨by decide!, by decide, by decide⟩

namespace Parser

/-- A variable declaration returns normally only behind a `;`. -/
theorem variableDeclaration_ends_semicolon {tokens : List Token} {fuel current c : Nat}
    (h : variableDeclaration tokens fuel current = .ok c) :
    0 < c ∧ KindAt tokens (c - 1) TOK_SEMICOLON := by
  rw [variableDeclaration] at h
  obtain ⟨a, -, h⟩ := ofOption_eq_ok h
  obtain ⟨c1, -, h⟩ := bind_eq_ok h
  obtain ⟨m, -, h⟩ := ofOption_eq_ok h
  obtain ⟨c2, -, h⟩ := bind_eq_ok h
  obtain ⟨rfl, hk, -⟩ := consume_eq_ok h
  exact ⟨Nat.succ_pos _, by simpa using hk⟩

/-- A declaration `T x` that is followed by anything but `;` or `=` throws at
the token that follows. -/
theorem variableDeclaration_unterminated {tokens : List Token} {current : Nat}
    {t next : TokenType} (ht : TypeTok t) (fuel : Nat)
    (hA : Ahead tokens current [t, TOK_IDENTIFIER] next) (h1 : next ≠ TOK_SEMICOLON)
    (h2 : next ≠ TOK_ASSIGN) :
    ∃ tok, tokens[current + 2]? = some tok ∧ tok.type = next ∧
      variableDeclaration tokens fuel current =
        .thrown ⟨tok, "Expected ';' after variable declaration."⟩ (current + 2) := by
  obtain ⟨t0, ht0⟩ := advance_kind hA.kindAt (typeTok_ne_EOF ht)
  have hk := hA.tail.tail.kindAt_nil
  obtain ⟨tok, htok, hty⟩ := hk
  refine ⟨tok, htok, hty, ?_⟩
  rw [variableDeclaration, ht0, ofOption_some, consume_hit hA.tail.kindAt (by decide), bind_ok,
    matchAny_miss hA.tail.tail.kindAt_nil (by simpa using h2), ofOption_some]
  simp only [Bool.false_eq_true, if_false, bind_ok]
  rw [consume_eq htok, if_neg (by rw [hty]; exact fun h => h1 h.2)]

/-- A declaration `T x = e` whose expression `e` is followed by a token that
neither continues the expression nor is `;` throws at that token. -/
theorem variableDeclaration_init_unterminated {tokens : List Token} {current : Nat}
    {t next : TokenType} {e : List TokenType} (ht : TypeTok t) (he : Derives .Expr e)
    (fuel : Nat) (hf : 11 * e.length + 8 ≤ fuel)
    (hA : Ahead tokens current (t :: TOK_IDENTIFIER :: TOK_ASSIGN :: e) next)
    (hfo : FollowOK next) (h1 : next ≠ TOK_SEMICOLON) :
    ∃ tok, tokens[current + 3 + e.length]? = some tok ∧ tok.type = next ∧
      variableDeclaration tokens fuel current =
        .thrown ⟨tok, "Expected ';' after variable declaration."⟩ (current + 3 + e.length) := by
  obtain ⟨t0, ht0⟩ := advance_kind hA.kindAt (typeTok_ne_EOF ht)
  have hA3 : Ahead tokens (current + 1 + 1 + 1) e next := hA.tail.tail.tail
  have hexpr := expr_complete he fuel _ _ hf hA3 hfo
  have hA4 : Ahead tokens (current + 1 + 1 + 1 + e.length) [] next :=
    @Ahead.right _ _ _ e [] (by simpa using hA3)
  obtain ⟨tok, htok, hty⟩ := hA4.kindAt_nil
  refine ⟨tok, htok, hty, ?_⟩
  rw [variableDeclaration, ht0, ofOption_some, consume_hit hA.tail.kindAt (by decide), bind_ok,
    matchAny_hit hA.tail.tail.kindAt (by decide) (List.mem_singleton.2 rfl), ofOption_some]
  simp only [if_true]
  rw [hexpr, bind_ok, consume_eq htok, if_neg (by rw [hty]; exact fun h => h1 h.2)]

/-- The tokens of `#supply x ;`: the include is accepted and the `;` is
reported as the start of no declaration. -/
theorem parse_include_semicolon (s i semi eof : Token) (hs : s.type = TOK_SUPPLY)
    (hi : i.type = TOK_IDENTIFIER) (hsemi : semi.type = TOK_SEMICOLON)
    (heof : eof.type = TOK_EOF) :
    parse [s, i, semi, eof] =
      .finished ⟨[⟨⟨semi, "Expected a declaration (#supply, tactic, or variable type)."⟩, 2⟩],
        "Parsing complete. Syntax is valid.", 3⟩ := by
  set tokens := [s, i, semi, eof] with htokens
  have hk0 : KindAt tokens 0 TOK_SUPPLY := ⟨s, rfl, hs⟩
  have h2 : tokens[2]? = some semi := rfl
  have hk2 : KindAt tokens 2 TOK_SEMICOLON := ⟨semi, rfl, hsemi⟩
  have h3 : tokens[2 + 1]? = some eof := rfl
  have hk3 : KindAt tokens 3 TOK_EOF := ⟨eof, rfl, heof⟩
  have hA : Ahead tokens 0 [TOK_SUPPLY, TOK_IDENTIFIER] TOK_SEMICOLON :=
    ⟨[TOK_EOF], by simp [htokens, kinds, hs, hi, hsemi, heof]⟩
  have hd0 : declaration tokens (depthFuel tokens) 0 = ([], .ok 2) := by
    apply declaration_ok
    rw [declarationBody, check_hit hk0 (by decide), ofOption_some, if_pos rfl,
      includeStatement_complete hA]
  have hb2 : declarationBody tokens (depthFuel tokens) 2 =
      .thrown ⟨semi, "Expected a declaration (#supply, tactic, or variable type)."⟩ 2 := by
    rw [declarationBody, check_miss hk2 (by decide), ofOption_some]
    simp only [Bool.false_eq_true, if_false, check_miss hk2 (show TOK_SEMICOLON ≠ TOK_TACTIC by
      decide), ofOption_some, checkAny_miss hk2 (show TOK_SEMICOLON ∉ typeTokens by decide),
      throwAt_eq h2]
  have hd2 : declaration tokens (depthFuel tokens) 2 =
      ([⟨⟨semi, "Expected a declaration (#supply, tactic, or variable type)."⟩, 2⟩],
        .ok 3) := by
    rw [declaration, hb2]
    simp only [synchronize_after_semicolon h2 hsemi h3]
  show parseLoop tokens (depthFuel tokens) (2 + 1 + 1 + 1) 0 [] = _
  rw [parseLoop_succ, isAtEnd_kind hk0, decide_eq_false (by decide)]
  simp only [hd0, List.nil_append]
  rw [parseLoop_succ, isAtEnd_kind hk2, decide_eq_false (by decide)]
  simp only [hd2, List.nil_append]
  rw [parseLoop_succ, isAtEnd_kind hk3, decide_eq_true rfl]

/-- The tokens of `T x` with nothing behind: the missing `;` is reported at
the end-of-input token. -/
theorem parse_declaration_no_semicolon (t x eof : Token) (ht : TypeTok t.type)
    (hx : x.type = TOK_IDENTIFIER) (heof : eof.type = TOK_EOF) :
    parse [t, x, eof] =
      .finished ⟨[⟨⟨eof, "Expected ';' after variable declaration."⟩, 2⟩],
        "Parsing complete. Syntax is valid.", 2⟩ := by
  set tokens := [t, x, eof] with htokens
  have hk0 : KindAt tokens 0 t.type := ⟨t, rfl, rfl⟩
  have h1 : tokens[2 - 1]? = some x := rfl
  have h2 : tokens[2]? = some eof := rfl
  have hk2 : KindAt tokens 2 TOK_EOF := ⟨eof, rfl, heof⟩
  have hA : Ahead tokens 0 [t.type, TOK_IDENTIFIER] TOK_EOF :=
    ⟨[], by simp [htokens, kinds, hx, heof]⟩
  have h1a : t.type ≠ TOK_SUPPLY := by rintro h; rw [h] at ht; simp [TypeTok] at ht
  have h1b : t.type ≠ TOK_TACTIC := by rintro h; rw [h] at ht; simp [TypeTok] at ht
  obtain ⟨tok, htok, -, hv⟩ := variableDeclaration_unterminated ht (depthFuel tokens) hA
    (by decide) (by decide)
  have htok' : tok = eof := by
    have : tokens[0 + 2]? = some eof := rfl
    rw [this] at htok
    exact (Option.some.inj htok).symm
  subst htok'
  have hb : declarationBody tokens (depthFuel tokens) 0 =
      .thrown ⟨tok, "Expected ';' after variable declaration."⟩ 2 := by
    rw [declarationBody, check_miss hk0 h1a, ofOption_some]
    simp only [Bool.false_eq_true, if_false, check_miss hk0 h1b, ofOption_some,
      checkAny_hit hk0 (typeTok_ne_EOF ht) (typeTok_mem ht), if_true]
    exact hv
  have hd : declaration tokens (depthFuel tokens) 0 =
      ([⟨⟨tok, "Expected ';' after variable declaration."⟩, 2⟩], .ok 2) := by
    rw [declaration, hb]
    simp only [synchronize_at_EOF h2 heof h1 (by decide)]
  show parseLoop tokens (depthFuel tokens) (2 + 1 + 1) 0 [] = _
  rw [parseLoop_succ, isAtEnd_kind hk0, decide_eq_false (typeTok_ne_EOF ht)]
  simp only [hd, List.nil_append]
  rw [parseLoop_succ, isAtEnd_kind hk2, decide_eq_true rfl]

end Parser

open Parser in
/-- C23: for tokens `s`, `i`, `semi`, `eof` of kinds `#supply`, identifier, `;`
and end-of-input, the sequence `[s, i, eof]` parses with zero diagnostics, and
so does `s, i` in front of any program of the grammar; `[s, i, semi, eof]`
yields exactly one diagnostic, "Expected a declaration ..." at the `;`
(index 2).  A variable declaration, by contrast, returns normally only behind
a `;`: `T x` followed by anything but `;` or `=`, and `T x = e` followed by a
token that neither continues `e` nor is `;`, throw "Expected ';' after
variable declaration." at that token, and `[T, x, eof]` parses with exactly
that diagnostic at the end-of-input token. -/
theorem include_takes_no_semicolon (s i semi eof : Token) (hs : s.type = TOK_SUPPLY)
    (hi : i.type = TOK_IDENTIFIER) (hsemi : semi.type = TOK_SEMICOLON)
    (heof : eof.type = TOK_EOF) :
    Parser.parse [s, i, eof] = .finished ⟨[], "Parsing complete. Syntax is valid.", 2⟩ ∧
    (∀ rest : List Token, Derives .Program (kinds rest) →
      Parser.parse (s :: i :: rest) =
        .finished ⟨[], "Parsing complete. Syntax is valid.", rest.length + 1⟩) ∧
    Parser.parse [s, i, semi, eof] =
      .finished ⟨[⟨⟨semi, "Expected a declaration (#supply, tactic, or variable type)."⟩, 2⟩],
        "Parsing complete. Syntax is valid.", 3⟩ ∧
    (∀ (tokens : List Token) (fuel current c : Nat),
      variableDeclaration tokens fuel current = .ok c →
        0 < c ∧ KindAt tokens (c - 1) TOK_SEMICOLON) ∧
    (∀ (tokens : List Token) (fuel current : Nat) (t next : TokenType), TypeTok t →
      Ahead tokens current [t, TOK_IDENTIFIER] next → next ≠ TOK_SEMICOLON →
      next ≠ TOK_ASSIGN →
      ∃ tok, tokens[current + 2]? = some tok ∧ tok.type = next ∧
        variableDeclaration tokens fuel current =
          .thrown ⟨tok, "Expected ';' after variable declaration."⟩ (current + 2)) ∧
    (∀ (tokens : List Token) (fuel current : Nat) (t next : TokenType) (e : List TokenType),
      TypeTok t → Derives .Expr e → 11 * e.length + 8 ≤ fuel →
      Ahead tokens current (t :: TOK_IDENTIFIER :: TOK_ASSIGN :: e) next → FollowOK next →
      next ≠ TOK_SEMICOLON →
      ∃ tok, tokens[current + 3 + e.length]? = some tok ∧ tok.type = next ∧
        variableDeclaration tokens fuel current =
          .thrown ⟨tok, "Expected ';' after variable declaration."⟩
            (current + 3 + e.length)) ∧
    (∀ t x : Token, TypeTok t.type → x.type = TOK_IDENTIFIER →
      Parser.parse [t, x, eof] =
        .finished ⟨[⟨⟨eof, "Expected ';' after variable declaration."⟩, 2⟩],
          "Parsing complete. Syntax is valid.", 2⟩) := by
  have hrest : ∀ rest : List Token, Derives .Program (kinds rest) →
      Parser.parse (s :: i :: rest) =
        .finished ⟨[], "Parsing complete. Syntax is valid.", rest.length + 1⟩ := by
    intro rest h
    have hprog : Derives .Program (kinds (s :: i :: rest)) := by
      generalize hw : kinds rest = w at h
      cases h with
      | @program ds hds =>
        have := Derives.program (Derives.declsCons (Derives.declInclude Derives.includeStmt) hds)
        rw [show kinds (s :: i :: rest) = TOK_SUPPLY :: TOK_IDENTIFIER :: kinds rest by
          simp [kinds, hs, hi], hw]
        simpa using this
    rw [parse_derivable _ hprog]
    rfl
  refine ⟨?_, hrest, parse_include_semicolon s i semi eof hs hi hsemi heof,
    fun tokens fuel current c h => variableDeclaration_ends_semicolon h,
    fun tokens fuel current t next ht hA h1 h2 => variableDeclaration_unterminated ht fuel hA h1 h2,
    fun tokens fuel current t next e ht he hf hA hfo h1 =>
      variableDeclaration_init_unterminated ht he fuel hf hA hfo h1,
    fun t x ht hx => parse_declaration_no_semicolon t x eof ht hx heof⟩
  exact hrest [eof] (by
    have := Derives.program Derives.declsNil
    simpa [kinds, heof] using this)

/-- Witness for C23: the tokens of `#supply math`, alone and followed by `;`. -/
theorem include_takes_no_semicolon_witness :
    Parser.parse [⟨TOK_SUPPLY, "#supply", 1, 0⟩, ⟨TOK_IDENTIFIER, "math", 1, 8⟩,
        ⟨TOK_EOF, "", 1, 12⟩] =
      .finished ⟨[], "Parsing complete. Syntax is valid.", 2⟩ ∧
    Parser.parse [⟨TOK_SUPPLY, "#supply", 1, 0⟩, ⟨TOK_IDENTIFIER, "math", 1, 8⟩,
        ⟨TOK_SEMICOLON, ";", 1, 12⟩, ⟨TOK_EOF, "", 1, 12⟩] =
      .finished ⟨[⟨⟨⟨TOK_SEMICOLON, ";", 1, 12⟩,
          "Expected a declaration (#supply, tactic, or variable type)."⟩, 2⟩],
        "Parsing complete. Syntax is valid.", 3⟩ :=
  let h := include_takes_no_semicolon ⟨TOK_SUPPLY, "#supply", 1, 0⟩
    ⟨TOK_IDENTIFIER, "math", 1, 8⟩ ⟨TOK_SEMICOLON, ";", 1, 12⟩ ⟨TOK_EOF, "", 1, 12⟩
    rfl rfl rfl rfl
  ⟨h.1, h.2.2.1⟩

namespace Scanner

theorem pushes_addToken {s0 s1 : Scanner} (h : Moves s0 s1) (hlt : s0.current < s1.current)
    (ty : TokenType) (ht : ty ≠ TOK_EOF) : Pushes s0 (some (s1.addToken ty)) :=
  ⟨s1, h, hlt, Or.inl ⟨ty, ht, rfl⟩⟩

theorem pushes_error {s0 s1 : Scanner} (h : Moves s0 s1) (hlt : s0.current < s1.current)
    (msg : String) : Pushes s0 (some (s1.push ⟨TOK_ERROR, msg, s1.line, s1.column⟩)) :=
  ⟨s1, h, hlt, Or.inr ⟨msg, rfl⟩⟩

theorem scanString_pushes {s0 s : Scanner} (h : Moves s0 s) (hlt : s0.current < s.current) :
    Pushes s0 s.scanString := by
  obtain ⟨s1, h1, h2⟩ := scanStringLoop_moves s.fuel s (fuel_ok s)
  unfold scanString
  rw [h1]
  simp only [Option.map_some']
  have hlt1 := lt_of_lt_of_le hlt h2.current_le
  by_cases he : s1.isAtEnd = true
  · rw [if_pos he]
    exact pushes_error (h.followedBy h2) hlt1 _
  · rw [if_neg he]
    have hl : s1.current < s1.source.length := by simpa [isAtEnd] using he
    have h3 := moves_advance s1 hl
    exact pushes_addToken ((h.followedBy h2).followedBy h3) (lt_of_lt_of_le hlt1 h3.current_le) _
      (by decide)

theorem scanNumber_pushes {s0 s : Scanner} (h : Moves s0 s) (hlt : s0.current < s.current) :
    Pushes s0 s.scanNumber := by
  obtain ⟨s1, h1, h2⟩ := advanceWhile_moves (fun s => isdigit s.peek) lt_of_isdigit_peek
    s.fuel s (fuel_ok s)
  unfold scanNumber
  rw [h1]
  simp only [Option.some_bind]
  have hlt1 := lt_of_lt_of_le hlt h2.current_le
  split
  · next hdot =>
    have hl : s1.current < s1.source.length :=
      lt_of_peek_dot s1 (by simp only [Bool.and_eq_true, decide_eq_true_eq] at hdot; exact hdot.1)
    have h3 := moves_advance s1 hl
    obtain ⟨s2, h4, h5⟩ := advanceWhile_moves (fun s => isdigit s.peek) lt_of_isdigit_peek
      s1.fuel s1.advance.2 (moves_fuel h3)
    rw [h4]
    exact pushes_addToken (((h.followedBy h2).followedBy h3).followedBy h5)
      (lt_of_lt_of_le hlt1 (h3.followedBy h5).current_le) _ (by decide)
  · exact pushes_addToken (h.followedBy h2) hlt1 _ (by decide)

theorem scanIdentifier_pushes {s0 s : Scanner} (h : Moves s0 s) (hlt : s0.current < s.current) :
    Pushes s0 s.scanIdentifier := by
  obtain ⟨s1, h1, h2⟩ := advanceWhile_moves (fun s => isalnum s.peek || s.peek = '_')
    lt_of_identChar_peek s.fuel s (fuel_ok s)
  unfold scanIdentifier
  rw [h1]
  refine pushes_addToken (h.followedBy h2) (lt_of_lt_of_le hlt h2.current_le) _ ?_
  split
  · next k hk => exact keywords_ne_EOF _ k hk
  · decide

theorem pushes_ite {s0 : Scanner} {c : Prop} [Decidable c] {a b : Option Scanner}
    (ha : c → Pushes s0 a) (hb : ¬ c → Pushes s0 b) : Pushes s0 (if c then a else b) := by
  split
  · next h => exact ha h
  · next h => exact hb h

/-- A call of `scanToken` on a character other than `#` pushes exactly one
token, having moved the cursor forward by at least one character. -/
theorem scanToken_pushes (s0 : Scanner) (h0 : s0.current < s0.source.length)
    (hc : s0.source.getD s0.current '\x00' ≠ '#') : Pushes s0 s0.scanToken := by
  have hm : Moves s0 s0.advance.2 := moves_advance s0 h0
  have hlt : s0.current < s0.advance.2.current := Nat.lt_succ_self _
  have hc' : s0.advance.1 ≠ '#' := hc
  unfold scanToken
  dsimp only
  generalize s0.advance.1 = c at hc'
  generalize s0.advance.2 = s at hm hlt
  repeat' first
    | with_reducible apply pushes_ite
    | intro _
  all_goals first
    | contradiction
    | exact pushes_addToken hm hlt _ (by decide)
    | exact pushes_addToken (matchChar_shape hm hlt _).1 (matchChar_shape hm hlt _).2 _
        (by decide)
    | exact pushes_addToken (matchChar_shape hm hlt _).1 (matchChar_shape hm hlt _).2 _
        (by split <;> decide)
    | exact pushes_error (matchChar_shape hm hlt _).1 (matchChar_shape hm hlt _).2 _
    | exact pushes_error hm hlt _
    | exact scanString_pushes hm hlt
    | exact scanNumber_pushes hm hlt
    | exact scanIdentifier_pushes hm hlt

theorem covers_new (src : List Char) : Covers (Scanner.new src) := by
  intro _
  exact ⟨by simp [Scanner.new], fun t ht => by cases ht⟩

theorem covers_addToken {s s1 : Scanner} (hcur : s.current ≤ s.source.length)
    (h : Covers s) (hm : Moves { s with start := s.current } s1)
    (hlt : s.current < s1.current) (ty : TokenType) : Covers (s1.addToken ty) := by
  intro hne
  have hsrc : s1.source = s.source := hm.source_eq
  have hst : s1.start = s.current := hm.start_eq
  have htok : s1.tokens = s.tokens := hm.tokens_eq
  have hle : s1.current ≤ s.source.length := hm.within hcur
  have htoks : (s1.addToken ty).tokens = s.tokens ++
      [⟨ty, substr s.source s.current (s1.current - s.current), s1.line,
        columnMinus s1.column (substr s.source s.current (s1.current - s.current)).length⟩] := by
    simp only [addToken, push, hsrc, hst, htok]
  have hcs : (s1.addToken ty).source = s.source := hsrc
  have hcc : (s1.addToken ty).current = s1.current := rfl
  rw [htoks] at hne
  obtain ⟨h1, h2⟩ := h fun t ht => hne t (List.mem_append_left _ ht)
  rw [htoks, hcs, hcc]
  constructor
  · rw [List.map_append, List.flatten_append, h1]
    have e : s1.current = s.current + (s1.current - s.current) := by omega
    conv_rhs => rw [e, List.take_add]
    simp [substr]
  · intro t ht
    rcases List.mem_append.1 ht with ht | ht
    · exact h2 t ht
    · rw [List.mem_singleton] at ht
      subst ht
      intro hemp
      have hl := substr_length s.source s.current (s1.current - s.current)
      rw [show substr s.source s.current (s1.current - s.current) = "" from hemp] at hl
      have : ("" : String).length = 0 := rfl
      omega

theorem covers_error (s1 : Scanner) (msg : String) :
    Covers (s1.push ⟨TOK_ERROR, msg, s1.line, s1.column⟩) := by
  intro hne
  exact absurd rfl (hne ⟨TOK_ERROR, msg, s1.line, s1.column⟩ (by simp [push]))

/-- On a text without white space and without `#` every execution of the body
of the main loop pushes one token, which begins where the previous one ended. -/
theorem scanLoop_covers : ∀ (fuel : Nat) (s : Scanner),
    (∀ c ∈ s.source, c ∉ [' ', '\r', '\t', '\n', '#']) → s.current ≤ s.source.length →
    s.source.length - s.current < fuel → Covers s →
    ∃ s', scanLoop fuel s = some s' ∧ Covers s' ∧ s'.source = s.source ∧
      s'.current = s.source.length
  | 0, s, _, _, h, _ => absurd h (Nat.not_lt_zero _)
  | fuel + 1, s, hsrc, hcur, hf, hcov => by
    unfold scanLoop
    by_cases he : s.isAtEnd = true
    · have : s.source.length ≤ s.current := by simpa [isAtEnd] using he
      exact ⟨s, by rw [if_pos he], hcov, rfl, by omega⟩
    · have hlt : s.current < s.source.length := by simpa [isAtEnd] using he
      rw [if_neg he]
      have hmem : s.source.getD s.current '\x00' ∈ s.source := by
        rw [List.getD_eq_getElem _ _ hlt]
        exact List.getElem_mem _
      have hch := hsrc _ hmem
      have hws : s.source.getD s.current '\x00' ∉ [' ', '\r', '\t', '\n'] := by
        intro h
        apply hch
        simp only [List.mem_cons, List.mem_singleton, List.not_mem_nil, or_false] at h ⊢
        tauto
      have hhash : s.source.getD s.current '\x00' ≠ '#' := by
        intro h
        apply hch
        rw [h]
        decide
      have h1 : skipWhitespace s.fuel { s with start := s.current } =
          some { s with start := s.current } :=
        skipWhitespace_none { s with start := s.current } s.source.length hlt hws
      rw [h1]
      dsimp only
      have he1 : (!({ s with start := s.current } : Scanner).isAtEnd) = true := by
        simpa [isAtEnd] using hlt
      rw [if_pos he1]
      obtain ⟨s1, hm, hlt1, ⟨ty, -, hr⟩ | ⟨msg, hr⟩⟩ :=
        scanToken_pushes { s with start := s.current } hlt hhash
      · rw [hr]
        dsimp only
        have hs1 : s1.source = s.source := hm.source_eq
        have hle : s1.current ≤ s.source.length := hm.within hcur
        obtain ⟨s', h2, h3, h4, h5⟩ := scanLoop_covers fuel (s1.addToken ty)
          (by rw [show (s1.addToken ty).source = s.source from hs1]; exact hsrc)
          (by rw [show (s1.addToken ty).source = s.source from hs1]; exact hle)
          (by
            rw [show (s1.addToken ty).source = s.source from hs1]
            have : (s1.addToken ty).current = s1.current := rfl
            have : s.current < s1.current := hlt1
            omega)
          (covers_addToken hcur hcov hm hlt1 ty)
        exact ⟨s', h2, h3, by rw [h4]; exact hs1, by rw [h5]; exact congrArg List.length hs1⟩
      · rw [hr]
        dsimp only
        have hs1 : s1.source = s.source := hm.source_eq
        have hle : s1.current ≤ s.source.length := hm.within hcur
        obtain ⟨s', h2, h3, h4, h5⟩ := scanLoop_covers fuel
          (s1.push ⟨TOK_ERROR, msg, s1.line, s1.column⟩)
          (by rw [show (s1.push _).source = s.source from hs1]; exact hsrc)
          (by rw [show (s1.push _).source = s.source from hs1]; exact hle)
          (by
            rw [show (s1.push _).source = s.source from hs1]
            have : (s1.push ⟨TOK_ERROR, msg, s1.line, s1.column⟩).current = s1.current := rfl
            have : s.current < s1.current := hlt1
            omega)
          (covers_error s1 msg)
        exact ⟨s', h2, h3, by rw [h4]; exact hs1, by rw [h5]; exact congrArg List.length hs1⟩

end Scanner

/-- C24: for every source text without a blank, tab, carriage return, newline
or `#`, the scan returns, and if its output holds no `TOK_ERROR` token then
every token other than the end-of-input token has a non-empty lexeme and the
lexemes of the output, concatenated in order, are exactly the source text. -/
theorem lexemes_concatenate (src : String)
    (hsrc : ∀ c ∈ src.data, c ∉ [' ', '\r', '\t', '\n', '#']) :
    ∃ toks, scan src = some toks ∧
      ((∀ t ∈ toks, t.type ≠ TOK_ERROR) →
        (∀ t ∈ toks, t.type ≠ TOK_EOF → t.lexeme ≠ "") ∧
        (toks.map fun t => t.lexeme.data).flatten = src.data ∧
        String.join (toks.map Token.lexeme) = src) := by
  obtain ⟨s', h1, h2, h3, h4⟩ := Scanner.scanLoop_covers (src.data.length + 1)
    (Scanner.new src.data) hsrc (Nat.zero_le _) (by simp [Scanner.new]) (Scanner.covers_new _)
  have hscan : scan src = some (s'.tokens ++ [⟨TOK_EOF, "", s'.line, s'.column⟩]) := by
    have := Scanner.scan_eq src.data
    rw [h1] at this
    exact this
  refine ⟨_, hscan, fun hne => ?_⟩
  obtain ⟨h5, h6⟩ := h2 fun t ht => hne t (List.mem_append_left _ ht)
  have h3' : s'.source = src.data := h3
  have h4' : s'.current = src.data.length := h4
  have hjoin : List.flatten (List.map (fun t : Token => t.lexeme.data)
      (s'.tokens ++ [⟨TOK_EOF, "", s'.line, s'.column⟩])) = src.data := by
    rw [List.map_append, List.flatten_append, h5, h3', h4']
    simp
  refine ⟨fun t ht hte => ?_, hjoin, ?_⟩
  · rcases List.mem_append.1 ht with ht | ht
    · exact h6 t ht
    · rw [List.mem_singleton] at ht
      subst ht
      exact absurd rfl hte
  · apply String.ext
    rw [String.data_join, List.map_map]
    exact hjoin

/-- Witness for C24: the text `x<=12;` has no white space and no `#`, its scan
holds no error token, every lexeme but the last is non-empty, and the lexemes
`x`, `<=`, `12`, `;` and the empty one of the end of input make up the text. -/
theorem lexemes_concatenate_witness :
    (∀ c ∈ "x<=12;".data, c ∉ [' ', '\r', '\t', '\n', '#']) ∧
    scan "x<=12;" = some [⟨TOK_IDENTIFIER, "x", 1, 0⟩, ⟨TOK_LESS_EQUAL, "<=", 1, 1⟩,
      ⟨TOK_INTEGER, "12", 1, 3⟩, ⟨TOK_SEMICOLON, ";", 1, 5⟩, ⟨TOK_EOF, "", 1, 6⟩] ∧
    (∀ t ∈ [(⟨TOK_IDENTIFIER, "x", 1, 0⟩ : Token), ⟨TOK_LESS_EQUAL, "<=", 1, 1⟩,
      ⟨TOK_INTEGER, "12", 1, 3⟩, ⟨TOK_SEMICOLON, ";", 1, 5⟩, ⟨TOK_EOF, "", 1, 6⟩],
        t.type ≠ TOK_ERROR) ∧
    (∀ t ∈ [(⟨TOK_IDENTIFIER, "x", 1, 0⟩ : Token), ⟨TOK_LESS_EQUAL, "<=", 1, 1⟩,
      ⟨TOK_INTEGER, "12", 1, 3⟩, ⟨TOK_SEMICOLON, ";", 1, 5⟩, ⟨TOK_EOF, "", 1, 6⟩],
        t.type ≠ TOK_EOF → t.lexeme ≠ "") ∧
    (["x".data, "<=".data, "12".data, ";".data, "".data] : List (List Char)).flatten =
      "x<=12;".data ∧
    String.join ["x", "<=", "12", ";", ""] = "x<=12;" := by
  have hs : scan "x<=12;" = some [⟨TOK_IDENTIFIER, "x", 1, 0⟩, ⟨TOK_LESS_EQUAL, "<=", 1, 1⟩,
      ⟨TOK_INTEGER, "12", 1, 3⟩, ⟨TOK_SEMICOLON, ";", 1, 5⟩, ⟨TOK_EOF, "", 1, 6⟩] := by
    decide
  obtain ⟨toks, h1, h2⟩ := lexemes_concatenate "x<=12;" (by decide)
  rw [hs] at h1
  cases h1
  exact ⟨by decide, hs, by decide, h2 (by decide)⟩

namespace Parser

theorem optExtends_same {α : Type} (o : Option α) : OptExtends o o := fun _ h => h

theorem optExtends_getElem (pre tail : List Token) (i : Nat) :
    OptExtends pre[i]? (pre ++ tail)[i]? := by
  intro a h
  have hlt : i < pre.length := by
    by_contra hn
    rw [List.getElem?_eq_none (by omega)] at h
    cases h
  rw [List.getElem?_append_left hlt]
  exact h

theorem optExtends_map {α β : Type} {o o' : Option α} (f : α → β) (h : OptExtends o o') :
    OptExtends (o.map f) (o'.map f) := by
  intro b hb
  cases o with
  | none => cases hb
  | some a => rw [h a rfl]; exact hb

theorem optExtends_bind {α β : Type} {o o' : Option α} {k k' : α → Option β}
    (h : OptExtends o o') (hk : ∀ a, OptExtends (k a) (k' a)) :
    OptExtends (o.bind k) (o'.bind k') := by
  intro b hb
  cases o with
  | none => cases hb
  | some a => rw [h a rfl]; exact hk a b hb

theorem optExtends_ite {α : Type} {c : Prop} [Decidable c] {a a' b b' : Option α}
    (ha : OptExtends a a') (hb : OptExtends b b') :
    OptExtends (if c then a else b) (if c then a' else b') := by
  split
  · exact ha
  · exact hb

theorem peek_extends (pre tail : List Token) (c : Nat) :
    OptExtends (peek pre c) (peek (pre ++ tail) c) :=
  optExtends_getElem pre tail c

theorem previous_extends (pre tail : List Token) (c : Nat) :
    OptExtends (previous pre c) (previous (pre ++ tail) c) := by
  rw [previous, previous]
  exact optExtends_ite (optExtends_same _) (optExtends_getElem pre tail _)

theorem isAtEnd_extends (pre tail : List Token) (c : Nat) :
    OptExtends (isAtEnd pre c) (isAtEnd (pre ++ tail) c) :=
  optExtends_map _ (peek_extends pre tail c)

theorem advance_extends (pre tail : List Token) (c : Nat) :
    OptExtends (advance pre c) (advance (pre ++ tail) c) :=
  optExtends_bind (isAtEnd_extends pre tail c) fun _ =>
    optExtends_map _ (previous_extends pre tail _)

theorem check_extends (pre tail : List Token) (c : Nat) (type : TokenType) :
    OptExtends (check pre c type) (check (pre ++ tail) c type) :=
  optExtends_bind (isAtEnd_extends pre tail c) fun _ =>
    optExtends_ite (optExtends_same _) (optExtends_map _ (peek_extends pre tail c))

theorem checkAny_extends (pre tail : List Token) (c : Nat) : ∀ types : List TokenType,
    OptExtends (checkAny pre c types) (checkAny (pre ++ tail) c types)
  | [] => optExtends_same _
  | type :: types =>
    optExtends_bind (check_extends pre tail c type) fun _ =>
      optExtends_ite (optExtends_same _) (checkAny_extends pre tail c types)

theorem matchAny_extends (pre tail : List Token) (c : Nat) : ∀ types : List TokenType,
    OptExtends (matchAny pre c types) (matchAny (pre ++ tail) c types)
  | [] => optExtends_same _
  | type :: types =>
    optExtends_bind (check_extends pre tail c type) fun _ =>
      optExtends_ite (optExtends_map _ (advance_extends pre tail c))
        (matchAny_extends pre tail c types)

theorem extends_same (r : Res) : Extends r r := Or.inr (Or.inr rfl)

theorem extends_timeout (r : Res) : Extends .timeout r := Or.inr (Or.inl rfl)

theorem extends_ofOption {α : Type} {o o' : Option α} {k k' : α → Res}
    (h : OptExtends o o') (hk : ∀ a, Extends (k a) (k' a)) :
    Extends (Res.ofOption o k) (Res.ofOption o' k') := by
  cases o with
  | none => exact Or.inl rfl
  | some a => rw [h a rfl]; exact hk a

theorem extends_bind {r r' : Res} {k k' : Nat → Res} (h : Extends r r')
    (hk : ∀ c, Extends (k c) (k' c)) : Extends (r.bind k) (r'.bind k') := by
  rcases h with rfl | rfl | rfl
  · exact Or.inl rfl
  · exact Or.inr (Or.inl rfl)
  · cases r' with
    | ok c => exact hk c
    | thrown e c => exact extends_same _
    | ub => exact Or.inl rfl
    | timeout => exact Or.inr (Or.inl rfl)

theorem extends_ite {c : Prop} [Decidable c] {a a' b b' : Res}
    (ha : Extends a a') (hb : Extends b b') :
    Extends (if c then a else b) (if c then a' else b') := by
  split
  · exact ha
  · exact hb

theorem throwAt_extends (pre tail : List Token) (c : Nat) (message : String) :
    Extends (throwAt pre c message) (throwAt (pre ++ tail) c message) :=
  extends_ofOption (peek_extends pre tail c) fun _ => extends_same _

theorem consume_extends (pre tail : List Token) (c : Nat) (type : TokenType)
    (message : String) :
    Extends (consume pre c type message) (consume (pre ++ tail) c type message) :=
  extends_ofOption (check_extends pre tail c type) fun _ =>
    extends_ite (extends_ofOption (advance_extends pre tail c) fun _ => extends_same _)
      (throwAt_extends pre tail c message)

theorem whileMatch_extends (pre tail : List Token) (ops : List TokenType)
    {operand operand' : Nat → Res} (hop : ∀ c, Extends (operand c) (operand' c)) :
    ∀ (fuel current : Nat), Extends (whileMatch pre ops operand fuel current)
      (whileMatch (pre ++ tail) ops operand' fuel current)
  | 0, _ => extends_timeout _
  | fuel + 1, current => by
    rw [whileMatch, whileMatch]
    exact extends_ofOption (matchAny_extends pre tail current ops) fun m => extends_ite
      (extends_bind (hop _) fun c => whileMatch_extends pre tail ops hop fuel c)
      (extends_same _)

theorem doWhileMatch_extends (pre tail : List Token) (ops : List TokenType)
    {body body' : Nat → Res} (hb : ∀ c, Extends (body c) (body' c)) :
    ∀ (fuel current : Nat), Extends (doWhileMatch pre ops body fuel current)
      (doWhileMatch (pre ++ tail) ops body' fuel current)
  | 0, _ => extends_timeout _
  | fuel + 1, current => by
    rw [doWhileMatch, doWhileMatch]
    exact extends_bind (hb _) fun c => extends_ofOption (matchAny_extends pre tail c ops)
      fun m => extends_ite (doWhileMatch_extends pre tail ops hb fuel _) (extends_same _)

theorem blockLoop_extends (pre tail : List Token) {statement statement' : Nat → Res}
    (hs : ∀ c, Extends (statement c) (statement' c)) :
    ∀ (fuel current : Nat), Extends (blockLoop pre statement fuel current)
      (blockLoop (pre ++ tail) statement' fuel current)
  | 0, _ => extends_timeout _
  | fuel + 1, current => by
    rw [blockLoop_succ, blockLoop_succ]
    exact extends_ofOption (check_extends pre tail current _) fun _ =>
      extends_ofOption (optExtends_ite (optExtends_map _ (isAtEnd_extends pre tail current))
        (optExtends_same _)) fun _ => extends_ite
          (extends_bind (hs _) fun c => blockLoop_extends pre tail hs fuel c) (extends_same _)

/-- The expression methods end on the whole sequence as they do on a prefix
that they do not leave. -/
theorem expr_extends_all (pre tail : List Token) : ∀ fuel,
    (∀ c, Extends (expr pre fuel c) (expr (pre ++ tail) fuel c)) ∧
    (∀ l : Level, ∀ c, Extends (levelParser l pre fuel c) (levelParser l (pre ++ tail) fuel c)) ∧
    (∀ c, Extends (unary pre fuel c) (unary (pre ++ tail) fuel c)) ∧
    (∀ c, Extends (primary pre fuel c) (primary (pre ++ tail) fuel c))
  | 0 => by
    refine ⟨fun c => extends_timeout _, fun l c => ?_, fun c => extends_timeout _,
      fun c => extends_timeout _⟩
    cases l <;> exact extends_timeout _
  | fuel + 1 => by
    obtain ⟨hE, hL, hU, hP⟩ := expr_extends_all pre tail fuel
    refine ⟨fun c => ?_, fun l c => ?_, fun c => ?_, fun c => ?_⟩
    · rw [expr_succ, expr_succ]
      exact hL .LogicalOr c
    · rw [levelParser_succ, levelParser_succ, levelRun, levelRun]
      have hop : ∀ c, Extends (operandParser l pre fuel c)
          (operandParser l (pre ++ tail) fuel c) := by
        cases l
        · exact hL .LogicalAnd
        · exact hL .Equality
        · exact hL .Relational
        · exact hL .Additive
        · exact hL .Multiplicative
        · exact hU
      exact extends_bind (hop c) fun c' => whileMatch_extends pre tail _ hop fuel c'
    · rw [unary_succ, unary_succ]
      exact extends_ofOption (matchAny_extends pre tail c _) fun m => extends_ite (hU _) (hP _)
    · rw [primary_succ, primary_succ]
      repeat' first
        | exact extends_same _
        | exact throwAt_extends _ _ _ _
        | exact consume_extends _ _ _ _ _
        | exact hE _
        | exact doWhileMatch_extends _ _ _ hE _ _
        | exact matchAny_extends _ _ _ _
        | exact check_extends _ _ _ _
        | exact advance_extends _ _ _
        | exact optExtends_same _
        | exact optExtends_map _ (optExtends_getElem _ _ _)
        | refine optExtends_ite ?_ ?_
        | refine extends_ofOption ?_ fun _ => ?_
        | refine extends_bind ?_ fun _ => ?_
        | refine extends_ite ?_ ?_

theorem expr_extends (pre tail : List Token) (fuel current : Nat) :
    Extends (expr pre fuel current) (expr (pre ++ tail) fuel current) :=
  (expr_extends_all pre tail fuel).1 current

theorem variableDeclaration_extends (pre tail : List Token) (fuel current : Nat) :
    Extends (variableDeclaration pre fuel current)
      (variableDeclaration (pre ++ tail) fuel current) := by
  rw [variableDeclaration, variableDeclaration]
  repeat' first
    | exact extends_same _
    | exact consume_extends _ _ _ _ _
    | exact expr_extends _ _ _ _
    | exact matchAny_extends _ _ _ _
    | exact advance_extends _ _ _
    | refine extends_ofOption ?_ fun _ => ?_
    | refine extends_bind ?_ fun _ => ?_
    | refine extends_ite ?_ ?_

theorem simpleStatements_extend (pre tail : List Token) (fuel current : Nat) :
    Extends (outputStatement pre fuel current) (outputStatement (pre ++ tail) fuel current) ∧
    Extends (inputStatement pre current) (inputStatement (pre ++ tail) current) ∧
    Extends (returnStatement pre fuel current) (returnStatement (pre ++ tail) fuel current) ∧
    Extends (breakStatement pre current) (breakStatement (pre ++ tail) current) ∧
    Extends (expressionStatement pre fuel current)
      (expressionStatement (pre ++ tail) fuel current) ∧
    Extends (includeStatement pre current) (includeStatement (pre ++ tail) current) := by
  simp only [outputStatement, inputStatement, returnStatement, breakStatement,
    expressionStatement, includeStatement]
  refine ⟨?_, ?_, ?_, ?_, ?_, ?_⟩ <;>
  repeat' first
    | exact extends_same _
    | exact consume_extends _ _ _ _ _
    | exact expr_extends _ _ _ _
    | exact check_extends _ _ _ _
    | refine extends_ofOption ?_ fun _ => ?_
    | refine extends_bind ?_ fun _ => ?_
    | refine extends_ite ?_ ?_

/-- The statement methods end on the whole sequence as they do on a prefix
that they do not leave. -/
theorem statement_extends_all (pre tail : List Token) : ∀ fuel,
    (∀ c, Extends (block pre fuel c) (block (pre ++ tail) fuel c)) ∧
    (∀ c, Extends (statement pre fuel c) (statement (pre ++ tail) fuel c)) ∧
    (∀ c, Extends (ifStatement pre fuel c) (ifStatement (pre ++ tail) fuel c)) ∧
    (∀ c, Extends (whileStatement pre fuel c) (whileStatement (pre ++ tail) fuel c)) ∧
    (∀ c, Extends (forStatement pre fuel c) (forStatement (pre ++ tail) fuel c))
  | 0 => ⟨fun _ => extends_timeout _, fun _ => extends_timeout _,
      fun _ => extends_timeout _, fun _ => extends_timeout _, fun _ => extends_timeout _⟩
  | fuel + 1 => by
    obtain ⟨hB, hS, hI, hW, hF⟩ := statement_extends_all pre tail fuel
    refine ⟨fun c => ?_, fun c => ?_, fun c => ?_, fun c => ?_, fun c => ?_⟩
    · rw [block_succ, block_succ]
      exact extends_bind (consume_extends _ _ _ _ _) fun _ =>
        extends_bind (blockLoop_extends pre tail hS _ _) fun _ => consume_extends _ _ _ _ _
    · rw [statement, statement]
      have hs := fun c => simpleStatements_extend pre tail fuel c
      repeat' first
        | exact hB _
        | exact hI _
        | exact hW _
        | exact hF _
        | exact variableDeclaration_extends _ _ _ _
        | exact (hs _).1
        | exact (hs _).2.1
        | exact (hs _).2.2.1
        | exact (hs _).2.2.2.1
        | exact (hs _).2.2.2.2.1
        | exact check_extends _ _ _ _
        | exact checkAny_extends _ _ _ _
        | refine extends_ofOption ?_ fun _ => ?_
        | refine extends_ite ?_ ?_
    · rw [ifStatement_succ, ifStatement_succ]
      repeat' first
        | exact extends_same _
        | exact consume_extends _ _ _ _ _
        | exact expr_extends _ _ _ _
        | exact hB _
        | exact hI _
        | exact check_extends _ _ _ _
        | exact matchAny_extends _ _ _ _
        | refine extends_ofOption ?_ fun _ => ?_
        | refine extends_bind ?_ fun _ => ?_
        | refine extends_ite ?_ ?_
    · rw [whileStatement_succ, whileStatement_succ]
      repeat' first
        | exact consume_extends _ _ _ _ _
        | exact expr_extends _ _ _ _
        | exact hB _
        | refine extends_bind ?_ fun _ => ?_
    · rw [forStatement, forStatement]
      repeat' first
        | exact extends_same _
        | exact consume_extends _ _ _ _ _
        | exact expr_extends _ _ _ _
        | exact variableDeclaration_extends _ _ _ _
        | exact (simpleStatements_extend _ _ _ _).2.2.2.2.1
        | exact hB _
        | exact check_extends _ _ _ _
        | exact checkAny_extends _ _ _ _
        | exact matchAny_extends _ _ _ _
        | refine extends_ofOption ?_ fun _ => ?_
        | refine extends_bind ?_ fun _ => ?_
        | refine extends_ite ?_ ?_

theorem parameter_extends (pre tail : List Token) (current : Nat) :
    Extends (parameter pre current) (parameter (pre ++ tail) current) := by
  rw [parameter, parameter]
  exact extends_ofOption (matchAny_extends _ _ _ _) fun _ =>
    extends_ite (throwAt_extends _ _ _ _) (consume_extends _ _ _ _ _)

theorem functionDefinition_extends (pre tail : List Token) (fuel current : Nat) :
    Extends (functionDefinition pre fuel current)
      (functionDefinition (pre ++ tail) fuel current) := by
  rw [functionDefinition, functionDefinition]
  repeat' first
    | exact extends_same _
    | exact consume_extends _ _ _ _ _
    | exact throwAt_extends _ _ _ _
    | exact (statement_extends_all _ _ _).1 _
    | exact doWhileMatch_extends _ _ _ (parameter_extends pre tail) _ _
    | exact check_extends _ _ _ _
    | exact matchAny_extends _ _ _ _
    | refine extends_ofOption ?_ fun _ => ?_
    | refine extends_bind ?_ fun _ => ?_
    | refine extends_ite ?_ ?_

theorem declarationBody_extends (pre tail : List Token) (fuel current : Nat) :
    Extends (declarationBody pre fuel current) (declarationBody (pre ++ tail) fuel current) := by
  rw [declarationBody, declarationBody]
  repeat' first
    | exact throwAt_extends _ _ _ _
    | exact (simpleStatements_extend _ _ 0 _).2.2.2.2.2
    | exact functionDefinition_extends _ _ _ _
    | exact variableDeclaration_extends _ _ _ _
    | exact check_extends _ _ _ _
    | exact checkAny_extends _ _ _ _
    | refine extends_ofOption ?_ fun _ => ?_
    | refine extends_ite ?_ ?_

theorem synchronizeLoop_extends (pre tail : List Token) : ∀ (fuel fuel' current : Nat),
    fuel ≤ fuel' →
    Extends (synchronizeLoop pre fuel current) (synchronizeLoop (pre ++ tail) fuel' current)
  | 0, _, _, _ => extends_timeout _
  | fuel + 1, 0, _, h => absurd h (by omega)
  | fuel + 1, fuel' + 1, current, h => by
    rw [synchronizeLoop, synchronizeLoop]
    have ih := fun c => synchronizeLoop_extends pre tail fuel fuel' c (by omega)
    repeat' first
      | exact extends_same _
      | exact ih _
      | exact isAtEnd_extends _ _ _
      | exact previous_extends _ _ _
      | exact peek_extends _ _ _
      | exact advance_extends _ _ _
      | refine extends_ofOption ?_ fun _ => ?_
      | refine extends_ite ?_ ?_

theorem synchronize_extends (pre tail : List Token) (current : Nat) :
    Extends (synchronize pre current) (synchronize (pre ++ tail) current) := by
  rw [synchronize, synchronize]
  exact extends_ofOption (advance_extends _ _ _) fun _ =>
    synchronizeLoop_extends pre tail _ _ _ (by simp)

/-- A call of `declaration` that returns normally on a prefix of the sequence
does the same on the whole sequence. -/
theorem declaration_extends (pre tail : List Token) {fuel current c : Nat}
    {ds : List Diagnostic} (h : declaration pre fuel current = (ds, .ok c)) :
    declaration (pre ++ tail) fuel current = (ds, .ok c) := by
  have hb := declarationBody_extends pre tail fuel current
  rw [declaration] at h ⊢
  cases hr : declarationBody pre fuel current with
  | ok c0 =>
    rw [hr] at h hb
    rcases hb with hb | hb | hb
    · cases hb
    · cases hb
    · rw [hb]; exact h
  | thrown e c0 =>
    rw [hr] at h hb
    rcases hb with hb | hb | hb
    · cases hb
    · cases hb
    · rw [hb]
      simp only [Prod.mk.injEq] at h ⊢
      refine ⟨h.1, ?_⟩
      rcases synchronize_extends pre tail c0 with hs | hs | hs
      · rw [hs] at h; cases h.2
      · rw [hs] at h; cases h.2
      · rw [hs]; exact h.2
  | ub => rw [hr] at h; cases h
  | timeout => rw [hr] at h; cases h

/-- A run of the loop of `parse` that finishes on a prefix of the sequence
finishes in the same way on the whole sequence. -/
theorem parseLoop_extends (pre tail : List Token) (depth : Nat) :
    ∀ (fuel current : Nat) (diags : List Diagnostic) (out : Output),
      parseLoop pre depth fuel current diags = .finished out →
      parseLoop (pre ++ tail) depth fuel current diags = .finished out
  | 0, _, _, _, h => by cases h
  | fuel + 1, current, diags, out, h => by
    rw [parseLoop_succ] at h ⊢
    cases he : isAtEnd pre current with
    | none => rw [he] at h; cases h
    | some b =>
      rw [he] at h
      rw [isAtEnd_extends pre tail current b he]
      cases b with
      | true => exact h
      | false =>
        simp only at h ⊢
        cases hd : declaration pre depth current with
        | mk ds r =>
          rw [hd] at h
          cases r with
          | ok c =>
            rw [declaration_extends pre tail hd]
            exact parseLoop_extends pre tail depth fuel c _ out h
          | thrown e c =>
            exact absurd (congrArg Prod.snd hd) (declaration_not_thrown pre depth current e c)
          | ub => cases h
          | timeout => cases h

/-- A sequence that holds an end-of-input token splits at the first one. -/
theorem split_at_first_EOF : ∀ (tokens : List Token), (∃ t ∈ tokens, t.type = TOK_EOF) →
    ∃ front first rest, tokens = front ++ first :: rest ∧ first.type = TOK_EOF ∧
      ∀ t ∈ front, t.type ≠ TOK_EOF
  | [], h => by obtain ⟨t, ht, -⟩ := h; cases ht
  | a :: tokens, h => by
    by_cases ha : a.type = TOK_EOF
    · exact ⟨[], a, tokens, rfl, ha, fun t ht => by cases ht⟩
    · obtain ⟨t, ht, hte⟩ := h
      have hmem : t ∈ tokens := by
        rcases List.mem_cons.1 ht with rfl | ht
        · exact absurd hte ha
        · exact ht
      obtain ⟨front, first, rest, h1, h2, h3⟩ := split_at_first_EOF tokens ⟨t, hmem, hte⟩
      refine ⟨a :: front, first, rest, by rw [h1]; rfl, h2, fun u hu => ?_⟩
      rcases List.mem_cons.1 hu with rfl | hu
      · exact ha
      · exact h3 u hu

end Parser

open Parser in
/-- C25: for every token sequence whose last element is an end-of-input token
(others may stand before it), `parse` finishes without a read outside the
sequence: with `front` the tokens before the first end-of-input token, the run
ends with the cursor on that token (index `front.length`), every diagnostic was
raised at an index up to it and names the token there, every call of
`declaration` from an index before it returns normally with the cursor moved
forward and still not behind it, and an identifier at an index up to it has a
successor up to it, which is what the lookahead of `primary` reads.  In the
model a read outside the sequence, `previous` at cursor 0 included, ends the
run as `ub`. -/
theorem parse_in_bounds (tokens : List Token) (eof : Token)
    (hlast : tokens.getLast? = some eof) (heof : eof.type = TOK_EOF) :
    ∃ front first rest diags, tokens = front ++ first :: rest ∧ first.type = TOK_EOF ∧
      (∀ t ∈ front, t.type ≠ TOK_EOF) ∧
      Parser.parse tokens =
        .finished ⟨diags, "Parsing complete. Syntax is valid.", front.length⟩ ∧
      (∀ d ∈ diags, d.current ≤ front.length ∧ tokens[d.current]? = some d.error.token) ∧
      (∀ current, current < front.length →
        ∃ ds c, Parser.declaration tokens (Parser.depthFuel tokens) current = (ds, .ok c) ∧
          current < c ∧ c ≤ front.length) ∧
      (∀ current t, current ≤ front.length → tokens[current]? = some t →
        t.type = TOK_IDENTIFIER →
        current + 1 ≤ front.length ∧ ∃ u, tokens[current + 1]? = some u) := by
  obtain ⟨front, first, rest, h1, h2, h3⟩ := split_at_first_EOF tokens
    ⟨eof, List.mem_of_mem_getLast? hlast, heof⟩
  have e : tokens = (front ++ [first]) ++ rest := by rw [h1]; simp
  have hE : EndsInOneEOF (front ++ [first]) := ⟨front, first, rfl, h2, h3⟩
  have hlen : (front ++ [first]).length = front.length + 1 := by simp
  have htl : tokens.length = front.length + 1 + rest.length := by
    rw [e]
    simp only [List.length_append, List.length_cons, List.length_nil]
  obtain ⟨diags, h4, -, h5⟩ := parseLoop_diagnostics hE (depthFuel tokens)
    (by rw [depthFuel, hlen, htl]; omega) (tokens.length + 1) 0 [] (by rw [hlen]; omega)
    (by rw [hlen, htl]; omega) List.Pairwise.nil (fun d hd => by cases hd)
    (fun d hd => by cases hd)
  have h6 := parseLoop_extends (front ++ [first]) rest _ _ _ _ _ h4
  rw [← e] at h6
  have hfirst : tokens[front.length]? = some first := by
    rw [h1, List.getElem?_append_right (le_refl _)]
    simp
  refine ⟨front, first, rest, diags, h1, h2, h3, ?_, fun d hd => ?_, fun current hc => ?_,
    fun current t hc ht hty => ?_⟩
  · rw [parse, h6]
    simp
  · obtain ⟨h7, h8⟩ := h5 d hd
    rw [hlen] at h7
    refine ⟨by omega, ?_⟩
    rw [e]
    exact optExtends_getElem _ rest _ _ h8
  · obtain ⟨ds, c, h7, h8, h9⟩ := @declaration_within _ hE (depthFuel tokens) current
      (by rw [hlen]; omega) (by rw [depthFuel, hlen, htl]; omega)
    rw [hlen] at h9
    have h10 := declaration_extends (front ++ [first]) rest h7
    rw [← e] at h10
    exact ⟨ds, c, h10, h8, by omega⟩
  · have hlt : current < front.length := by
      rcases Nat.lt_or_ge current front.length with h | h
      · exact h
      · have hc' : current = front.length := by omega
        rw [hc', hfirst] at ht
        rw [← Option.some.inj ht, h2] at hty
        cases hty
    refine ⟨hlt, ?_⟩
    have : current + 1 < tokens.length := by rw [htl]; omega
    exact ⟨tokens[current + 1], List.getElem?_eq_getElem this⟩

/-- Witness for C25: a sequence with a stray end-of-input token in the middle. -/
theorem parse_in_bounds_witness :
    ∃ front first rest diags,
      [(⟨TOK_IDENTIFIER, "x", 1, 0⟩ : Token), ⟨TOK_EOF, "", 1, 1⟩, ⟨TOK_SEMICOLON, ";", 1, 2⟩,
        ⟨TOK_EOF, "", 1, 3⟩] = front ++ first :: rest ∧ first.type = TOK_EOF ∧
      Parser.parse [⟨TOK_IDENTIFIER, "x", 1, 0⟩, ⟨TOK_EOF, "", 1, 1⟩,
        ⟨TOK_SEMICOLON, ";", 1, 2⟩, ⟨TOK_EOF, "", 1, 3⟩] =
        .finished ⟨diags, "Parsing complete. Syntax is valid.", front.length⟩ :=
  let ⟨front, first, rest, diags, h1, h2, _, h4, _⟩ :=
    parse_in_bounds [⟨TOK_IDENTIFIER, "x", 1, 0⟩, ⟨TOK_EOF, "", 1, 1⟩,
      ⟨TOK_SEMICOLON, ";", 1, 2⟩, ⟨TOK_EOF, "", 1, 3⟩] ⟨TOK_EOF, "", 1, 3⟩ rfl rfl
  ⟨front, first, rest, diags, h1, h2, h4⟩

/-! ## Parser: the depth of the recursion -/

namespace Parser

end Parser

namespace Parser

end Parser

namespace Parser

end Parser

end TacticLang
